import Mathlib

/-!
# LibOhm: a shallow embedding of `libohm.h`

The circuit simulator of `libohm.h` is embedded as pure functions on an explicit
circuit record.

* `OmFlt` (C `double`) is read in exact arithmetic as `ℚ`.  Lean's `x / 0 = 0` stands in for
  a division by zero (inf or NaN in the source); a theorem that depends on a quotient shows
  that its divisor is not zero, or exhibits the zero divisor.  `OmInt` (C `int`) is `Int`
  (no circuit of this development comes near the range of a machine integer).
* A heap block (`OmInt*`, `OmFlt*`) is the list of its cells; blocks are pairwise disjoint,
  as `malloc` guarantees, and a fresh block reads as zeros.  A `NULL` or freed pointer is
  the empty block.  A load outside a block reads 0 and a store outside a block is dropped.
  Matrices keep the flat row-major layout of the source (`a[i*m+j]`).
* `for` loops whose bounds are not changed by their body are run by `forLoop`/`forDownLoop`.
-/

namespace LibOhm

/-! ## Macros -/

/-- Absolute value, `#define OMABS(x) ((x)<0?-(x):(x))`. -/
def OMABS {α : Type} [LinearOrderedRing α] (x : α) : α := if x < 0 then -x else x

def OMTYP_UN : Int := 0
def OMTYP_X0 : Int := 1
def OMTYP_X1 : Int := 2
def OMTYP_X2 : Int := 3
def OMTYP_X3 : Int := 4
def OMTYP_Y0 : Int := 5
def OMTYP_Y1 : Int := 6
def OMTYP_Y2 : Int := 7
def OMTYP_Y3 : Int := 8
def OMTYP_SW : Int := 9

/-! ## Loops and heap blocks -/

/-- Run `body lo`, `body (lo+1)`, …, `body (lo+n-1)` in this order on the state `s`. -/
def forUp {σ : Type} : Nat → Int → (Int → σ → σ) → σ → σ
  | 0, _, _, s => s
  | n + 1, lo, body, s => body (lo + n) (forUp n lo body s)

/-- The loop `for (i = lo; i < hi; ++i) body`. -/
def forLoop {σ : Type} (lo hi : Int) (body : Int → σ → σ) (s : σ) : σ :=
  forUp (hi - lo).toNat lo body s

/-- Run `body hi`, `body (hi-1)`, …, `body (hi-n+1)` in this order on the state `s`. -/
def forDown {σ : Type} : Nat → Int → (Int → σ → σ) → σ → σ
  | 0, _, _, s => s
  | n + 1, hi, body, s => body (hi - n) (forDown n hi body s)

/-- The loop `for (k = hi; k >= lo; --k) body`. -/
def forDownLoop {σ : Type} (hi lo : Int) (body : Int → σ → σ) (s : σ) : σ :=
  forDown (hi - lo + 1).toNat hi body s

/-- The load `a[i]`. -/
def rd {α : Type} [Zero α] (a : List α) (i : Int) : α :=
  if i < 0 then 0 else a.getD i.toNat 0

/-- The store `a[i] = v`. -/
def wr {α : Type} (a : List α) (i : Int) (v : α) : List α :=
  if i < 0 then a else a.set i.toNat v

/-- A fresh block of `n` cells, `OMMALLOC(n * sizeof(...))`. -/
def OMMALLOC {α : Type} [Zero α] (n : Int) : List α := List.replicate n.toNat 0

/-- The update `a[i] += k`. -/
def incr (a : List ℚ) (i : Int) (k : ℚ) : List ℚ := wr a i (rd a i + k)

/-- The update `a[i] -= k`. -/
def decr (a : List ℚ) (i : Int) (k : ℚ) : List ℚ := wr a i (rd a i - k)

/-! ## Dense linear algebra (functions [31]–[35]) -/

/-- Function `OmVecMul(m, n, y, a, x)`: `y = A @ x`; returns the new `y`. -/
def OmVecMul (m n : Int) (y a x : List ℚ) : List ℚ :=
  forLoop 0 m (fun i y =>
    let sum := forLoop 0 n (fun j sum => sum + rd a (i * n + j) * rd x j) 0
    wr y i sum) y

/-- Function `OmVecAdd(m, z, x, y)`: `z = x + y`; returns the new `z`. -/
def OmVecAdd (m : Int) (z x y : List ℚ) : List ℚ :=
  forLoop 0 m (fun i z => wr z i (rd x i + rd y i)) z

/-- Function `OmVecFma(m, y, w1, x, w2)`: `y = w1 * x + w2 * y`; returns the new `y`. -/
def OmVecFma (m : Int) (y w1 x w2 : List ℚ) : List ℚ :=
  forLoop 0 m (fun i y => wr y i (rd w1 i * rd x i + rd w2 i * rd y i)) y

/-- Function `OmMatMul(m, c, a, b)`: `C = A @ B`; returns the new `c`. -/
def OmMatMul (m : Int) (c a b : List ℚ) : List ℚ :=
  let c0 := forLoop 0 m (fun i c => forLoop 0 m (fun j c => wr c (i * m + j) 0) c) c
  forLoop 0 m (fun i c =>
    forLoop 0 m (fun k c =>
      let s := rd a (i * m + k)
      forLoop 0 m (fun j c =>
        wr c (i * m + j) (rd c (i * m + j) + s * rd b (k * m + j))) c) c) c0

/-- Step 0 of `OmMatInv`: the permute vector `pm` after the pivot-ordering loop.
The swap goes through the `OmFlt` temporary `tmp`, which holds a row index exactly. -/
def matInvPm (m : Int) (a : List ℚ) : List Int :=
  let pm0 : List Int := forLoop 0 m (fun i pm => wr pm i i) (OMMALLOC m)
  forLoop 0 m (fun j pm =>
    (forLoop j m (fun i (st : ℚ × List Int) =>
      let mv := st.1
      let pm := st.2
      let cv := OMABS (rd a (rd pm i * m + j))
      if cv > mv then
        let tmp := rd pm j
        let pm1 := wr pm j (rd pm i)
        (cv, wr pm1 i tmp)
      else (mv, pm)) ((0 : ℚ), pm)).2) pm0

/-- Step 0 of `OmMatInv`, last loop: the copy `lu` of `a` in the new row order. -/
def matInvCopy (m : Int) (a : List ℚ) (pm : List Int) : List ℚ :=
  forLoop 0 m (fun i lu =>
    forLoop 0 m (fun j lu => wr lu (i * m + j) (rd a (rd pm i * m + j))) lu)
    (OMMALLOC (m * m))

/-- Step 2 of `OmMatInv`: LU decomposition in place, L (unit diagonal) below and U on and
above the diagonal. -/
def matInvLU (m : Int) (lu : List ℚ) : List ℚ :=
  forLoop 0 m (fun i lu =>
    let lu1 := forLoop i m (fun j lu =>
      forLoop 0 i (fun k lu =>
        wr lu (i * m + j) (rd lu (i * m + j) - rd lu (i * m + k) * rd lu (k * m + j))) lu) lu
    forLoop (i + 1) m (fun k lu =>
      let lu2 := forLoop 0 i (fun j lu =>
        wr lu (k * m + i) (rd lu (k * m + i) - rd lu (k * m + j) * rd lu (j * m + i))) lu
      wr lu2 (k * m + i) (rd lu2 (k * m + i) / rd lu2 (i * m + i))) lu1) lu

/-- Step 3 of `OmMatInv`: the inverses of L and of U, both stored in `a`. -/
def matInvTri (m : Int) (lu a : List ℚ) : List ℚ :=
  let a0 := forLoop 0 m (fun i a => forLoop 0 m (fun j a => wr a (i * m + j) 0) a) a
  forLoop 0 m (fun i a =>
    let a1 := wr a (i * m + i) 1
    let a2 := forLoop (i + 1) m (fun k a =>
      forLoop i k (fun j a =>
        wr a (k * m + i) (rd a (k * m + i) - rd lu (k * m + j) * rd a (j * m + i))) a) a1
    let a3 := wr a2 (i * m + i) (1 / rd lu (i * m + i))
    forDownLoop (i - 1) 0 (fun k a =>
      let a4 := forLoop (k + 1) (i + 1) (fun j a =>
        wr a (k * m + i) (rd a (k * m + i) - rd lu (k * m + j) * rd a (j * m + i))) a
      wr a4 (k * m + i) (rd a4 (k * m + i) / rd lu (k * m + k))) a3) a0

/-- Step 4 of `OmMatInv`: the product of the inverse of U with the inverse of L, built in
`lu`. -/
def matInvProd (m : Int) (a lu : List ℚ) : List ℚ :=
  let lu0 := forLoop 0 m (fun i lu =>
    let lu1 := forLoop 0 i (fun j lu => wr lu (i * m + j) 0) lu
    forLoop i m (fun j lu => wr lu (i * m + j) (rd a (i * m + j))) lu1) lu
  let lu2 := forLoop 1 m (fun i lu =>
    forLoop i m (fun k lu =>
      forLoop 0 i (fun j lu =>
        wr lu (i * m + j) (rd lu (i * m + j) + rd a (i * m + k) * rd a (k * m + j))) lu) lu) lu0
  forLoop 0 m (fun i lu =>
    forLoop i m (fun j lu =>
      forLoop (j + 1) m (fun k lu =>
        wr lu (i * m + j) (rd lu (i * m + j) + rd a (i * m + k) * rd a (k * m + j))) lu) lu) lu2

/-- Step 5 of `OmMatInv`: the columns permuted back into `a`. -/
def matInvPerm (m : Int) (pm : List Int) (lu a : List ℚ) : List ℚ :=
  forLoop 0 m (fun i a =>
    forLoop 0 m (fun j a => wr a (i * m + rd pm j) (rd lu (i * m + j))) a) a

/-- Function `OmMatInv(m, a)`: in-place inverse of a square matrix; returns the new `a`. -/
def OmMatInv (m : Int) (a : List ℚ) : List ℚ :=
  let pm := matInvPm m a
  let lu := matInvLU m (matInvCopy m a pm)
  let a1 := matInvTri m lu a
  let lu1 := matInvProd m a1 lu
  matInvPerm m pm lu1 a1

/-! ## The circuit record -/

/-- Circuit information structure `OmCir`. -/
structure OmCir where
  /-- Number of nodes (excluding GND). -/
  numN : Int
  /-- Number of branches. -/
  numB : Int
  /-- Number of meters. -/
  numM : Int
  /-- Number of X-type branches. -/
  numX : Int
  /-- Number of branches after cutting. -/
  numC : Int
  /-- Simulation time step. -/
  timStp : ℚ
  vecBn1 : List Int
  vecBn2 : List Int
  vecMn1 : List Int
  vecMn2 : List Int
  matPa : List ℚ
  matPb : List ℚ
  vecBtm : List Int
  vecLut : List Int
  vecW1c : List ℚ
  vecW2c : List ℚ
  vecW1o : List ℚ
  vecW2o : List ℚ
  vecQa0 : List ℚ
  vecQs0 : List ℚ
  matC : List ℚ
  matD : List ℚ
  vecW1m : List ℚ
  vecW2m : List ℚ
  vecW1s : List ℚ
  vecW2s : List ℚ
  vecQa : List ℚ
  vecQs : List ℚ
  vecQtp : List ℚ
  vecXm : List ℚ
  vecXc : List ℚ
  deriving DecidableEq, Repr

/-! ## Construction (functions [1], [11]–[30]) -/

/-- The two initialisation loops of `OmCreate`, run on the record `cir` that holds the blocks
as the allocator returned them. -/
def createInit (b m : Int) (cir : OmCir) : OmCir :=
  let cir := forLoop 0 b (fun i cir =>
    let cir := forLoop 0 b (fun j cir =>
      { cir with
        matPa := wr cir.matPa (i * b + j) 0
        matPb := wr cir.matPb (i * b + j) 0 }) cir
    { cir with
      vecBn1 := wr cir.vecBn1 i (-1)
      vecBn2 := wr cir.vecBn2 i (-1)
      vecBtm := wr cir.vecBtm i OMTYP_UN
      vecLut := wr cir.vecLut i 1
      vecW1c := wr cir.vecW1c i 0
      vecW2c := wr cir.vecW2c i 0
      vecW1o := wr cir.vecW1o i 0
      vecW2o := wr cir.vecW2o i 0
      vecQa0 := wr cir.vecQa0 i 0
      vecQs0 := wr cir.vecQs0 i 0 }) cir
  forLoop 0 m (fun i cir =>
    { cir with
      vecMn1 := wr cir.vecMn1 i (-1)
      vecMn2 := wr cir.vecMn2 i (-1) }) cir

/-- Function `OmCreate(n, b, m, stp)`: a new unstamped circuit, `none` for the `NULL` result.
Allocation is taken to succeed.  The runtime pointers are left unset by the source and are
empty blocks here. -/
def OmCreate (n b m : Int) (stp : ℚ) : Option OmCir :=
  if n < 0 ∨ b < 0 ∨ m < 0 ∨ stp ≤ 0 then none
  else
    let cir : OmCir :=
      { numN := n, numB := b, numM := m, numX := 0, numC := 0, timStp := stp
        vecBn1 := OMMALLOC b, vecBn2 := OMMALLOC b
        vecMn1 := OMMALLOC m, vecMn2 := OMMALLOC m
        matPa := OMMALLOC (b * b), matPb := OMMALLOC (b * b)
        vecBtm := OMMALLOC b, vecLut := OMMALLOC b
        vecW1c := OMMALLOC b, vecW2c := OMMALLOC b
        vecW1o := OMMALLOC b, vecW2o := OMMALLOC b
        vecQa0 := OMMALLOC b, vecQs0 := OMMALLOC b
        matC := [], matD := []
        vecW1m := [], vecW2m := [], vecW1s := [], vecW2s := []
        vecQa := [], vecQs := [], vecQtp := [], vecXm := [], vecXc := [] }
    some (createInit b m cir)

/-- Function `OmBran(cr, br, n1, n2, tm)`: set branch configuration.
The source declares the local `OmInt b` and reads it in the index of `matPa` without ever
assigning it (every other stamper starts with `b = cr->numB`); the indeterminate value of
that local is the parameter `b` here.  When the index `(br-1)*b+(br-1)` lies outside the
block `matPa`, the source writes into whatever lies behind the block; `wr` drops such a
store, so this function describes the source only for the values of `b` that
`branStoreInBlock` admits. -/
def OmBran (cr : OmCir) (b : Int) (br n1 n2 tm : Int) : OmCir :=
  let cr := { cr with
    vecBn1 := wr cr.vecBn1 (br - 1) (n1 - 1)
    vecBn2 := wr cr.vecBn2 (br - 1) (n2 - 1)
    vecBtm := wr cr.vecBtm (br - 1) tm }
  let btyp := OMABS tm
  let cr :=
    if btyp ≥ OMTYP_Y0 then { cr with vecLut := wr cr.vecLut (br - 1) 1 }
    else { cr with vecLut := wr cr.vecLut (br - 1) (-cr.numX), numX := cr.numX + 1 }
  if btyp ≠ OMTYP_X3 ∧ btyp ≠ OMTYP_Y3 then
    { cr with matPa := wr cr.matPa ((br - 1) * b + (br - 1)) 1 }
  else cr

/-- The store `matPa[(br-1)*b+(br-1)] = 1.0` of the call `OmBran(cr, br, n1, n2, tm)` with
the value `b` in its unassigned local lies inside the `nb`×`nb` block `matPa`; a call with
level X3 or Y3 makes no such store and admits every `b`. -/
def branStoreInBlock (nb b br tm : Int) : Prop :=
  OMABS tm ≠ OMTYP_X3 ∧ OMABS tm ≠ OMTYP_Y3 →
    0 ≤ (br - 1) * b + (br - 1) ∧ (br - 1) * b + (br - 1) < nb * nb

instance (nb b br tm : Int) : Decidable (branStoreInBlock nb b br tm) := by
  unfold branStoreInBlock
  infer_instance

/-- Function `OmMetV(cr, mt, n1, n2)`: set voltmeter configuration. -/
def OmMetV (cr : OmCir) (mt n1 n2 : Int) : OmCir :=
  { cr with
    vecMn1 := wr cr.vecMn1 (mt - 1) (n1 - 1)
    vecMn2 := wr cr.vecMn2 (mt - 1) (n2 - 1) }

/-- Function `OmMetA(cr, mt, br)`: set ammeter configuration. -/
def OmMetA (cr : OmCir) (mt br : Int) : OmCir :=
  { cr with
    vecMn1 := wr cr.vecMn1 (mt - 1) (br - 1)
    vecMn2 := wr cr.vecMn2 (mt - 1) (-2) }

/-- Function `OmAddX(cr, bx, res)`: series resistor on an X-type branch. -/
def OmAddX (cr : OmCir) (bx : Int) (res : ℚ) : OmCir :=
  let b := cr.numB
  { cr with matPb := incr cr.matPb ((bx - 1) * b + (bx - 1)) res }

/-- Function `OmAddY(cr, by, con)`: parallel conductor on a Y/SW-type branch. -/
def OmAddY (cr : OmCir) (by_ : Int) (con : ℚ) : OmCir :=
  let b := cr.numB
  { cr with matPb := incr cr.matPb ((by_ - 1) * b + (by_ - 1)) con }

/-- Function `OmAddV(cr, bx, vol)`: series voltage source on an X-type branch. -/
def OmAddV (cr : OmCir) (bx : Int) (vol : ℚ) : OmCir :=
  { cr with vecQs0 := incr cr.vecQs0 (bx - 1) vol }

/-- Function `OmAddI(cr, by, cur)`: parallel current source on a Y/SW-type branch. -/
def OmAddI (cr : OmCir) (by_ : Int) (cur : ℚ) : OmCir :=
  { cr with vecQs0 := incr cr.vecQs0 (by_ - 1) cur }

/-- Function `OmAddL(cr, bx, ind, i0)`: series linear inductor on an X2/X3-type branch. -/
def OmAddL (cr : OmCir) (bx : Int) (ind i0 : ℚ) : OmCir :=
  let btm := rd cr.vecBtm (bx - 1)
  let b := cr.numB
  let stp := cr.timStp
  if btm < 0 then
    let cr := { cr with
      matPb := incr cr.matPb ((bx - 1) * b + (bx - 1)) (ind / stp)
      vecQa0 := decr cr.vecQa0 (bx - 1) ((ind * i0) / stp)
      vecW2o := wr cr.vecW2o (bx - 1) 0 }
    if btm = -OMTYP_X3 then
      { cr with
        matPa := incr cr.matPa ((bx - 1) * b + (bx - 1)) ind
        vecW1o := wr cr.vecW1o (bx - 1) (-1 / stp) }
    else { cr with vecW1o := incr cr.vecW1o (bx - 1) ((-1 * ind) / stp) }
  else
    let cr := { cr with
      matPb := incr cr.matPb ((bx - 1) * b + (bx - 1)) ((2 * ind) / stp)
      vecQa0 := decr cr.vecQa0 (bx - 1) ((2 * ind * i0) / stp)
      vecW2o := wr cr.vecW2o (bx - 1) (-1) }
    if btm = OMTYP_X3 then
      { cr with
        matPa := incr cr.matPa ((bx - 1) * b + (bx - 1)) ind
        vecW1o := wr cr.vecW1o (bx - 1) (-4 / stp) }
    else { cr with vecW1o := incr cr.vecW1o (bx - 1) ((-4 * ind) / stp) }

/-- Function `OmAddC(cr, by, cap, v0)`: parallel linear capacitor on a Y2/Y3-type branch. -/
def OmAddC (cr : OmCir) (by_ : Int) (cap v0 : ℚ) : OmCir :=
  let btm := rd cr.vecBtm (by_ - 1)
  let b := cr.numB
  let stp := cr.timStp
  if btm < 0 then
    let cr := { cr with
      matPb := incr cr.matPb ((by_ - 1) * b + (by_ - 1)) (cap / stp)
      vecQa0 := decr cr.vecQa0 (by_ - 1) ((cap * v0) / stp)
      vecW2o := wr cr.vecW2o (by_ - 1) 0 }
    if btm = -OMTYP_Y3 then
      { cr with
        matPa := incr cr.matPa ((by_ - 1) * b + (by_ - 1)) cap
        vecW1o := wr cr.vecW1o (by_ - 1) (-1 / stp) }
    else { cr with vecW1o := incr cr.vecW1o (by_ - 1) ((-1 * cap) / stp) }
  else
    let cr := { cr with
      matPb := incr cr.matPb ((by_ - 1) * b + (by_ - 1)) ((2 * cap) / stp)
      vecQa0 := decr cr.vecQa0 (by_ - 1) ((2 * cap * v0) / stp)
      vecW2o := wr cr.vecW2o (by_ - 1) (-1) }
    if btm = OMTYP_Y3 then
      { cr with
        matPa := incr cr.matPa ((by_ - 1) * b + (by_ - 1)) cap
        vecW1o := wr cr.vecW1o (by_ - 1) (-4 / stp) }
    else { cr with vecW1o := incr cr.vecW1o (by_ - 1) ((-4 * cap) / stp) }

/-- Function `OmAddQ(cr, bx, rpc, v0)`: series linear capacitor on an X2/X3-type branch. -/
def OmAddQ (cr : OmCir) (bx : Int) (rpc v0 : ℚ) : OmCir :=
  let btm := rd cr.vecBtm (bx - 1)
  let b := cr.numB
  let stp := cr.timStp
  if btm < 0 then
    let cr := { cr with
      matPb := incr cr.matPb ((bx - 1) * b + (bx - 1)) (rpc * stp)
      vecQa0 := incr cr.vecQa0 (bx - 1) v0
      vecW2o := wr cr.vecW2o (bx - 1) 1 }
    if btm = -OMTYP_X3 then
      { cr with
        matPa := incr cr.matPa ((bx - 1) * b + (bx - 1)) rpc
        vecW1o := wr cr.vecW1o (bx - 1) stp }
    else { cr with vecW1o := incr cr.vecW1o (bx - 1) (rpc * stp) }
  else
    let cr := { cr with
      matPb := incr cr.matPb ((bx - 1) * b + (bx - 1)) ((rpc * stp) / 2)
      vecQa0 := incr cr.vecQa0 (bx - 1) v0
      vecW2o := wr cr.vecW2o (bx - 1) 1 }
    if btm = OMTYP_X3 then
      { cr with
        matPa := incr cr.matPa ((bx - 1) * b + (bx - 1)) rpc
        vecW1o := wr cr.vecW1o (bx - 1) stp }
    else { cr with vecW1o := incr cr.vecW1o (bx - 1) (rpc * stp) }

/-- Function `OmAddP(cr, by, rpi, i0)`: parallel linear inductor on a Y2/Y3-type branch. -/
def OmAddP (cr : OmCir) (by_ : Int) (rpi i0 : ℚ) : OmCir :=
  let btm := rd cr.vecBtm (by_ - 1)
  let b := cr.numB
  let stp := cr.timStp
  if btm < 0 then
    let cr := { cr with
      matPb := incr cr.matPb ((by_ - 1) * b + (by_ - 1)) (rpi * stp)
      vecQa0 := incr cr.vecQa0 (by_ - 1) i0
      vecW2o := wr cr.vecW2o (by_ - 1) 1 }
    if btm = -OMTYP_Y3 then
      { cr with
        matPa := incr cr.matPa ((by_ - 1) * b + (by_ - 1)) rpi
        vecW1o := wr cr.vecW1o (by_ - 1) stp }
    else { cr with vecW1o := incr cr.vecW1o (by_ - 1) (rpi * stp) }
  else
    let cr := { cr with
      matPb := incr cr.matPb ((by_ - 1) * b + (by_ - 1)) ((rpi * stp) / 2)
      vecQa0 := incr cr.vecQa0 (by_ - 1) i0
      vecW2o := wr cr.vecW2o (by_ - 1) 1 }
    if btm = OMTYP_Y3 then
      { cr with
        matPa := incr cr.matPa ((by_ - 1) * b + (by_ - 1)) rpi
        vecW1o := wr cr.vecW1o (by_ - 1) stp }
    else { cr with vecW1o := incr cr.vecW1o (by_ - 1) (rpi * stp) }

/-- Function `OmAddE(cr, bx, cy, k)`: series linear VCVS on an X-type branch. -/
def OmAddE (cr : OmCir) (bx cy : Int) (k : ℚ) : OmCir :=
  let b := cr.numB
  { cr with matPb := incr cr.matPb ((bx - 1) * b + (cy - 1)) k }

/-- Function `OmAddH(cr, bx, cx, k)`: series linear CCVS on an X-type branch. -/
def OmAddH (cr : OmCir) (bx cx : Int) (k : ℚ) : OmCir :=
  let b := cr.numB
  { cr with matPb := incr cr.matPb ((bx - 1) * b + (cx - 1)) k }

/-- Function `OmAddF(cr, by, cx, k)`: parallel linear CCCS on a Y/SW-type branch. -/
def OmAddF (cr : OmCir) (by_ cx : Int) (k : ℚ) : OmCir :=
  let b := cr.numB
  { cr with matPb := incr cr.matPb ((by_ - 1) * b + (cx - 1)) k }

/-- Function `OmAddG(cr, by, cy, k)`: parallel linear VCCS on a Y/SW-type branch. -/
def OmAddG (cr : OmCir) (by_ cy : Int) (k : ℚ) : OmCir :=
  let b := cr.numB
  { cr with matPb := incr cr.matPb ((by_ - 1) * b + (cy - 1)) k }

/-- Function `OmAddM(cr, bx, cx, k, ic0)`: series differential CCVS on an X3-type branch. -/
def OmAddM (cr : OmCir) (bx cx : Int) (k ic0 : ℚ) : OmCir :=
  let btm := rd cr.vecBtm (bx - 1)
  let b := cr.numB
  let stp := cr.timStp
  if btm < 0 then
    { cr with
      matPa := incr cr.matPa ((bx - 1) * b + (cx - 1)) k
      matPb := incr cr.matPb ((bx - 1) * b + (cx - 1)) (k / stp)
      vecQa0 := decr cr.vecQa0 (bx - 1) ((k * ic0) / stp)
      vecW1o := wr cr.vecW1o (bx - 1) (-1 / stp)
      vecW2o := wr cr.vecW2o (bx - 1) 0 }
  else
    { cr with
      matPa := incr cr.matPa ((bx - 1) * b + (cx - 1)) k
      matPb := incr cr.matPb ((bx - 1) * b + (cx - 1)) ((2 * k) / stp)
      vecQa0 := decr cr.vecQa0 (bx - 1) ((2 * k * ic0) / stp)
      vecW1o := wr cr.vecW1o (bx - 1) (-4 / stp)
      vecW2o := wr cr.vecW2o (bx - 1) (-1) }

/-- Function `OmAddN(cr, by, cy, k, vc0)`: parallel differential VCCS on a Y3-type branch. -/
def OmAddN (cr : OmCir) (by_ cy : Int) (k vc0 : ℚ) : OmCir :=
  let btm := rd cr.vecBtm (by_ - 1)
  let b := cr.numB
  let stp := cr.timStp
  if btm < 0 then
    { cr with
      matPa := incr cr.matPa ((by_ - 1) * b + (cy - 1)) k
      matPb := incr cr.matPb ((by_ - 1) * b + (cy - 1)) (k / stp)
      vecQa0 := decr cr.vecQa0 (by_ - 1) ((k * vc0) / stp)
      vecW1o := wr cr.vecW1o (by_ - 1) (-1 / stp)
      vecW2o := wr cr.vecW2o (by_ - 1) 0 }
  else
    { cr with
      matPa := incr cr.matPa ((by_ - 1) * b + (cy - 1)) k
      matPb := incr cr.matPb ((by_ - 1) * b + (cy - 1)) ((2 * k) / stp)
      vecQa0 := decr cr.vecQa0 (by_ - 1) ((2 * k * vc0) / stp)
      vecW1o := wr cr.vecW1o (by_ - 1) (-4 / stp)
      vecW2o := wr cr.vecW2o (by_ - 1) (-1) }

/-- Function `OmAddA(cr, bx, cx, k, v0)`: series integral CCVS on an X3-type branch. -/
def OmAddA (cr : OmCir) (bx cx : Int) (k v0 : ℚ) : OmCir :=
  let btm := rd cr.vecBtm (bx - 1)
  let b := cr.numB
  let stp := cr.timStp
  if btm < 0 then
    { cr with
      matPa := incr cr.matPa ((bx - 1) * b + (cx - 1)) k
      matPb := incr cr.matPb ((bx - 1) * b + (cx - 1)) (k * stp)
      vecQa0 := incr cr.vecQa0 (bx - 1) v0
      vecW1o := wr cr.vecW1o (bx - 1) stp
      vecW2o := wr cr.vecW2o (bx - 1) 1 }
  else
    { cr with
      matPa := incr cr.matPa ((bx - 1) * b + (cx - 1)) k
      matPb := incr cr.matPb ((bx - 1) * b + (cx - 1)) ((k * stp) / 2)
      vecQa0 := incr cr.vecQa0 (bx - 1) v0
      vecW1o := wr cr.vecW1o (bx - 1) stp
      vecW2o := wr cr.vecW2o (bx - 1) 1 }

/-- Function `OmAddB(cr, by, cy, k, i0)`: parallel integral VCCS on a Y3-type branch. -/
def OmAddB (cr : OmCir) (by_ cy : Int) (k i0 : ℚ) : OmCir :=
  let btm := rd cr.vecBtm (by_ - 1)
  let b := cr.numB
  let stp := cr.timStp
  if btm < 0 then
    { cr with
      matPa := incr cr.matPa ((by_ - 1) * b + (cy - 1)) k
      matPb := incr cr.matPb ((by_ - 1) * b + (cy - 1)) (k * stp)
      vecQa0 := incr cr.vecQa0 (by_ - 1) i0
      vecW1o := wr cr.vecW1o (by_ - 1) stp
      vecW2o := wr cr.vecW2o (by_ - 1) 1 }
  else
    { cr with
      matPa := incr cr.matPa ((by_ - 1) * b + (cy - 1)) k
      matPb := incr cr.matPb ((by_ - 1) * b + (cy - 1)) ((k * stp) / 2)
      vecQa0 := incr cr.vecQa0 (by_ - 1) i0
      vecW1o := wr cr.vecW1o (by_ - 1) stp
      vecW2o := wr cr.vecW2o (by_ - 1) 1 }

/-- Function `OmAddS(cr, bs, k1, k2, ysw, ron)`: parallel switch on an SW-type branch. -/
def OmAddS (cr : OmCir) (bs : Int) (k1 k2 ysw ron : ℚ) : OmCir :=
  let b := cr.numB
  let tmp := 1 + ysw * ron
  { cr with
    matPb := incr cr.matPb ((bs - 1) * b + (bs - 1)) (ysw / tmp)
    vecW1c := wr cr.vecW1c (bs - 1) ((k1 + 1) * ysw / (tmp * tmp))
    vecW2c := wr cr.vecW2c (bs - 1) ((1 - k1 * ysw * ron) / tmp)
    vecW1o := wr cr.vecW1o (bs - 1) ((k2 - 1) * ysw / (tmp * tmp))
    vecW2o := wr cr.vecW2o (bs - 1) ((k2 + ysw * ron) / tmp) }

/-! ## Runtime (functions [3]–[10]) -/

/-- The loop of `OmReset` over the branches. -/
def resetLoop (cr : OmCir) : OmCir :=
  forLoop 0 cr.numB (fun i cr =>
    let ilut := rd cr.vecLut i
    let btyp := OMABS (rd cr.vecBtm i)
    if ilut < 0 then cr
    else
      let cr := { cr with
        vecW1m := wr cr.vecW1m ilut (rd cr.vecW1o i)
        vecW2m := wr cr.vecW2m ilut (rd cr.vecW2o i)
        vecQa := wr cr.vecQa ilut (rd cr.vecQa0 i)
        vecQs := wr cr.vecQs ilut (rd cr.vecQs0 i) }
      if btyp = OMTYP_SW then
        { cr with
          vecW1s := wr cr.vecW1s ilut (rd cr.vecW1o i)
          vecW2s := wr cr.vecW2s ilut (rd cr.vecW2o i) }
      else
        { cr with
          vecW1s := wr cr.vecW1s ilut 0
          vecW2s := wr cr.vecW2s ilut 1 }) cr

/-- Function `OmReset(cr)`: reset a stamped circuit to its initial state. -/
def OmReset (cr : OmCir) : OmCir :=
  let c := cr.numC
  let cr := resetLoop cr
  { cr with vecQtp := OmVecAdd c cr.vecQtp cr.vecQa cr.vecQs }

/-- Function `OmUpdSw(cr)`: update switch associated source only. -/
def OmUpdSw (cr : OmCir) : OmCir :=
  let c := cr.numC
  let cr := { cr with vecQtp := OmVecAdd c cr.vecQtp cr.vecQa cr.vecQs }
  let cr := { cr with vecXc := OmVecMul c c cr.vecXc cr.matC cr.vecQtp }
  { cr with vecQa := OmVecFma c cr.vecQa cr.vecW1s cr.vecXc cr.vecW2s }

/-- Function `OmUpdCr(cr)`: update circuit (both switch and associated source). -/
def OmUpdCr (cr : OmCir) : OmCir :=
  let c := cr.numC
  let cr := { cr with vecQtp := OmVecAdd c cr.vecQtp cr.vecQa cr.vecQs }
  let cr := { cr with vecXc := OmVecMul c c cr.vecXc cr.matC cr.vecQtp }
  { cr with vecQa := OmVecFma c cr.vecQa cr.vecW1m cr.vecXc cr.vecW2m }

/-- Function `OmUpdMt(cr)`: update meter readings. -/
def OmUpdMt (cr : OmCir) : OmCir :=
  let m := cr.numM
  let c := cr.numC
  { cr with vecXm := OmVecMul m c cr.vecXm cr.matD cr.vecQtp }

/-- Function `OmGetMt(cr, mt)`: get meter reading. -/
def OmGetMt (cr : OmCir) (mt : Int) : ℚ := rd cr.vecXm (mt - 1)

/-- Function `OmGetXc(cr, br)`: get vector Xc. -/
def OmGetXc (cr : OmCir) (br : Int) : ℚ :=
  let ilut := rd cr.vecLut (br - 1)
  if ilut < 0 then 0 else rd cr.vecXc ilut

/-- Function `OmSetQs(cr, br, x)`: set independent source vector Qs. -/
def OmSetQs (cr : OmCir) (br : Int) (x : ℚ) : OmCir :=
  let ilut := rd cr.vecLut (br - 1)
  if ilut < 0 then cr else { cr with vecQs := wr cr.vecQs ilut x }

/-- Function `OmSetSw(cr, br, s)`: set switch state. -/
def OmSetSw (cr : OmCir) (br s : Int) : OmCir :=
  let ilut := rd cr.vecLut (br - 1)
  if ilut < 0 then cr
  else
    let cr := { cr with
      vecW1m := wr cr.vecW1m ilut (if s = 0 then rd cr.vecW1o (br - 1) else rd cr.vecW1c (br - 1)) }
    let cr := { cr with
      vecW2m := wr cr.vecW2m ilut (if s = 0 then rd cr.vecW2o (br - 1) else rd cr.vecW2c (br - 1)) }
    let cr := { cr with vecW1s := wr cr.vecW1s ilut (rd cr.vecW1m ilut) }
    { cr with vecW2s := wr cr.vecW2s ilut (rd cr.vecW2m ilut) }

/-! ## Stamping (function [2]) -/

/-- Step 1 of `OmStamp`, first part: the node conductance matrix `matPn` of size
`(n+x)*(n+x)` stamped from `matPb`, before inversion. -/
def stampPn (cr : OmCir) : List ℚ :=
  let n := cr.numN
  let b := cr.numB
  let x := cr.numX
  let matPn := forLoop 0 ((n + x) * (n + x)) (fun i matPn => wr matPn i 0)
    (OMMALLOC ((n + x) * (n + x)))
  forLoop 0 b (fun i matPn =>
    let ilut := rd cr.vecLut i
    let n1 := rd cr.vecBn1 i
    let n2 := rd cr.vecBn2 i
    if ilut > 0 then
      forLoop 0 b (fun j matPn =>
        let k := rd cr.matPb (i * b + j)
        let jlut := rd cr.vecLut j
        let nc1 := rd cr.vecBn1 j
        let nc2 := rd cr.vecBn2 j
        if jlut > 0 then
          let matPn := if n1 ≥ 0 ∧ nc1 ≥ 0 then incr matPn (n1 * (n + x) + nc1) k else matPn
          let matPn := if n1 ≥ 0 ∧ nc2 ≥ 0 then decr matPn (n1 * (n + x) + nc2) k else matPn
          let matPn := if n2 ≥ 0 ∧ nc1 ≥ 0 then decr matPn (n2 * (n + x) + nc1) k else matPn
          if n2 ≥ 0 ∧ nc2 ≥ 0 then incr matPn (n2 * (n + x) + nc2) k else matPn
        else
          let matPn := if n1 ≥ 0 then incr matPn (n1 * (n + x) + (n - jlut)) k else matPn
          if n2 ≥ 0 then decr matPn (n2 * (n + x) + (n - jlut)) k else matPn) matPn
    else
      let matPn := if n1 ≥ 0 then incr matPn (n1 * (n + x) + (n - ilut)) 1 else matPn
      let matPn := if n1 ≥ 0 then incr matPn ((n - ilut) * (n + x) + n1) 1 else matPn
      let matPn := if n2 ≥ 0 then decr matPn (n2 * (n + x) + (n - ilut)) 1 else matPn
      let matPn := if n2 ≥ 0 then decr matPn ((n - ilut) * (n + x) + n2) 1 else matPn
      forLoop 0 b (fun j matPn =>
        let k := rd cr.matPb (i * b + j)
        let jlut := rd cr.vecLut j
        let nc1 := rd cr.vecBn1 j
        let nc2 := rd cr.vecBn2 j
        if jlut > 0 then
          let matPn := if nc1 ≥ 0 then decr matPn ((n - ilut) * (n + x) + nc1) k else matPn
          if nc2 ≥ 0 then incr matPn ((n - ilut) * (n + x) + nc2) k else matPn
        else decr matPn ((n - ilut) * (n + x) + (n - jlut)) k) matPn) matPn

/-- Step 1 of `OmStamp`, second part: `matPtp = (Pn^-1)(Tn)` of size `(n+x)*b`, from the
inverted `matPn`. -/
def stampPtp (cr : OmCir) (matPn : List ℚ) : List ℚ :=
  let n := cr.numN
  let b := cr.numB
  let x := cr.numX
  let matPtp := forLoop 0 ((n + x) * b) (fun i matPtp => wr matPtp i 0)
    (OMMALLOC ((n + x) * b))
  forLoop 0 (n + x) (fun i matPtp =>
    forLoop 0 b (fun j matPtp =>
      let jlut := rd cr.vecLut j
      let n1 := rd cr.vecBn1 j
      let n2 := rd cr.vecBn2 j
      if jlut > 0 then
        let matPtp :=
          if n1 ≥ 0 then decr matPtp (i * b + j) (rd matPn (i * (n + x) + n1)) else matPtp
        if n2 ≥ 0 then incr matPtp (i * b + j) (rd matPn (i * (n + x) + n2)) else matPtp
      else incr matPtp (i * b + j) (rd matPn (i * (n + x) + (n - jlut)))) matPtp) matPtp

/-- Step 2 of `OmStamp`: `matTtp = (Tb)(Ptp)` of size `b*b`. -/
def stampTtp (cr : OmCir) (matPtp : List ℚ) : List ℚ :=
  let n := cr.numN
  let b := cr.numB
  let matTtp := forLoop 0 (b * b) (fun i matTtp => wr matTtp i 0) (OMMALLOC (b * b))
  forLoop 0 b (fun i matTtp =>
    let ilut := rd cr.vecLut i
    if ilut > 0 then
      let n1 := rd cr.vecBn1 i
      let n2 := rd cr.vecBn2 i
      let matTtp :=
        if n1 ≥ 0 then
          forLoop 0 b (fun j matTtp => incr matTtp (i * b + j) (rd matPtp (n1 * b + j))) matTtp
        else matTtp
      if n2 ≥ 0 then
        forLoop 0 b (fun j matTtp => decr matTtp (i * b + j) (rd matPtp (n2 * b + j))) matTtp
      else matTtp
    else
      forLoop 0 b (fun j matTtp =>
        incr matTtp (i * b + j) (rd matPtp ((n - ilut) * b + j))) matTtp) matTtp

/-- Step 2 of `OmStamp`: `matCtp = (Pa)(Ttp)`. -/
def stampCtp (cr : OmCir) (matTtp : List ℚ) : List ℚ :=
  OmMatMul cr.numB (OMMALLOC (cr.numB * cr.numB)) cr.matPa matTtp

/-- Step 2 of `OmStamp`: `matRtp = (Pb)(Ttp) + I`. -/
def stampRtp (cr : OmCir) (matTtp : List ℚ) : List ℚ :=
  let b := cr.numB
  let matRtp := OmMatMul b (OMMALLOC (b * b)) cr.matPb matTtp
  forLoop 0 b (fun i matRtp => incr matRtp (i * b + i) 1) matRtp

/-- Step 2 of `OmStamp`: `matDtp = (K)(Ptp,Rtp)` of size `m*b`. -/
def stampDtp (cr : OmCir) (matPtp matRtp : List ℚ) : List ℚ :=
  let n := cr.numN
  let b := cr.numB
  let m := cr.numM
  let matDtp := forLoop 0 (m * b) (fun i matDtp => wr matDtp i 0) (OMMALLOC (m * b))
  forLoop 0 m (fun i matDtp =>
    let n1 := rd cr.vecMn1 i
    let n2 := rd cr.vecMn2 i
    if n2 < -1 then
      let ilut := rd cr.vecLut n1
      if ilut > 0 then
        forLoop 0 b (fun j matDtp => incr matDtp (i * b + j) (rd matRtp (n1 * b + j))) matDtp
      else
        forLoop 0 b (fun j matDtp =>
          incr matDtp (i * b + j) (rd matPtp ((n - ilut) * b + j))) matDtp
    else
      let matDtp :=
        if n1 ≥ 0 then
          forLoop 0 b (fun j matDtp => incr matDtp (i * b + j) (rd matPtp (n1 * b + j))) matDtp
        else matDtp
      if n2 ≥ 0 then
        forLoop 0 b (fun j matDtp => decr matDtp (i * b + j) (rd matPtp (n2 * b + j))) matDtp
      else matDtp) matDtp

/-- Step 3 of `OmStamp`: the lookup table after cutting, and the count `c` of kept
branches. -/
def stampCut (cr : OmCir) : List Int × Int :=
  forLoop 0 cr.numB (fun i (st : List Int × Int) =>
    let vecLut := st.1
    let c := st.2
    let btyp := OMABS (rd cr.vecBtm i)
    if btyp = OMTYP_X0 ∨ btyp = OMTYP_Y0 then (wr vecLut i (-1), c)
    else (wr vecLut i c, c + 1)) (cr.vecLut, 0)

/-- Step 4 of `OmStamp`: the matrix `matD` of size `m*c`, `matDtp` without the columns of
cut branches. -/
def stampD (m b c : Int) (vecLut : List Int) (matDtp : List ℚ) : List ℚ :=
  forLoop 0 m (fun i matD =>
    (forLoop 0 b (fun j (st : List ℚ × Int) =>
      let matD := st.1
      let jdx := st.2
      let jlut := rd vecLut j
      if jlut < 0 then (matD, jdx)
      else (wr matD (i * c + jdx) (rd matDtp (i * b + j)), jdx + 1)) (matD, 0)).1)
    (OMMALLOC (m * c))

/-- Step 4 of `OmStamp`: the matrix `matC` of size `c*c`, `matCtp` without the rows and
columns of cut branches. -/
def stampC (b c : Int) (vecLut : List Int) (matCtp : List ℚ) : List ℚ :=
  (forLoop 0 b (fun i (st : List ℚ × Int) =>
    let matC := st.1
    let idx := st.2
    let ilut := rd vecLut i
    if ilut < 0 then (matC, idx)
    else
      let matC := (forLoop 0 b (fun j (st : List ℚ × Int) =>
        let matC := st.1
        let jdx := st.2
        let jlut := rd vecLut j
        if jlut < 0 then (matC, jdx)
        else (wr matC (idx * c + jdx) (rd matCtp (i * b + j)), jdx + 1)) (matC, 0)).1
      (matC, idx + 1)) (OMMALLOC (c * c), 0)).1

/-- Steps 1 (after the inversion) to 4 of `OmStamp`, `matPn` being the inverted node
conductance matrix.  The setup blocks released by the source become empty blocks. -/
def stampFinish (cr : OmCir) (matPn : List ℚ) : OmCir :=
  let b := cr.numB
  let m := cr.numM
  let matPtp := stampPtp cr matPn
  let matTtp := stampTtp cr matPtp
  let matCtp := stampCtp cr matTtp
  let matRtp := stampRtp cr matTtp
  let matDtp := stampDtp cr matPtp matRtp
  let cut := stampCut cr
  let c := cut.2
  let cr := { cr with
    vecBn1 := [], vecBn2 := [], vecMn1 := [], vecMn2 := [], matPa := [], matPb := []
    vecLut := cut.1
    numC := c
    matC := stampC b c cut.1 matCtp
    matD := stampD m b c cut.1 matDtp
    vecW1m := OMMALLOC c, vecW2m := OMMALLOC c
    vecW1s := OMMALLOC c, vecW2s := OMMALLOC c
    vecQa := OMMALLOC c, vecQs := OMMALLOC c, vecQtp := OMMALLOC c
    vecXm := OMMALLOC m, vecXc := OMMALLOC c }
  OmReset cr

/-- Function `OmStamp(cr)`: stamp the circuit, get ready to run. -/
def OmStamp (cr : OmCir) : OmCir :=
  stampFinish cr (OmMatInv (cr.numN + cr.numX) (stampPn cr))

/-! ## Block sizes and reachable states -/

/-- The setup blocks of an unstamped circuit have the sizes `OmCreate` allocates. -/
def Setup (cr : OmCir) : Prop :=
  0 ≤ cr.numB ∧ 0 ≤ cr.numM ∧
  cr.vecBn1.length = cr.numB.toNat ∧ cr.vecBn2.length = cr.numB.toNat ∧
  cr.vecMn1.length = cr.numM.toNat ∧ cr.vecMn2.length = cr.numM.toNat ∧
  cr.matPa.length = (cr.numB * cr.numB).toNat ∧ cr.matPb.length = (cr.numB * cr.numB).toNat ∧
  cr.vecBtm.length = cr.numB.toNat ∧ cr.vecLut.length = cr.numB.toNat ∧
  cr.vecW1c.length = cr.numB.toNat ∧ cr.vecW2c.length = cr.numB.toNat ∧
  cr.vecW1o.length = cr.numB.toNat ∧ cr.vecW2o.length = cr.numB.toNat ∧
  cr.vecQa0.length = cr.numB.toNat ∧ cr.vecQs0.length = cr.numB.toNat

instance (cr : OmCir) : Decidable (Setup cr) := by
  unfold Setup
  infer_instance

/-- The runtime blocks of a stamped circuit have the sizes `OmStamp` allocates, and the
reset blocks keep theirs. -/
def Stamped (cr : OmCir) : Prop :=
  0 ≤ cr.numB ∧ 0 ≤ cr.numM ∧ 0 ≤ cr.numC ∧
  cr.vecBtm.length = cr.numB.toNat ∧ cr.vecLut.length = cr.numB.toNat ∧
  cr.vecW1c.length = cr.numB.toNat ∧ cr.vecW2c.length = cr.numB.toNat ∧
  cr.vecW1o.length = cr.numB.toNat ∧ cr.vecW2o.length = cr.numB.toNat ∧
  cr.vecQa0.length = cr.numB.toNat ∧ cr.vecQs0.length = cr.numB.toNat ∧
  cr.matC.length = (cr.numC * cr.numC).toNat ∧ cr.matD.length = (cr.numM * cr.numC).toNat ∧
  cr.vecW1m.length = cr.numC.toNat ∧ cr.vecW2m.length = cr.numC.toNat ∧
  cr.vecW1s.length = cr.numC.toNat ∧ cr.vecW2s.length = cr.numC.toNat ∧
  cr.vecQa.length = cr.numC.toNat ∧ cr.vecQs.length = cr.numC.toNat ∧
  cr.vecQtp.length = cr.numC.toNat ∧ cr.vecXm.length = cr.numM.toNat ∧
  cr.vecXc.length = cr.numC.toNat

instance (cr : OmCir) : Decidable (Stamped cr) := by
  unfold Stamped
  infer_instance

/-- Branch `i` (0-based) has level X0 or Y0: it is cut by `OmStamp`. -/
def isCut (vecBtm : List Int) (i : Int) : Prop :=
  OMABS (rd vecBtm i) = OMTYP_X0 ∨ OMABS (rd vecBtm i) = OMTYP_Y0

instance (vecBtm : List Int) (i : Int) : Decidable (isCut vecBtm i) := by
  unfold isCut
  infer_instance

/-- Branch `i` (0-based) has level SW. -/
def isSw (vecBtm : List Int) (i : Int) : Prop := OMABS (rd vecBtm i) = OMTYP_SW

instance (vecBtm : List Int) (i : Int) : Decidable (isSw vecBtm i) := by
  unfold isSw
  infer_instance

/-- The states a host program reaches from `OmStamp cr0` by the runtime operations, where
`OmSetSw` is called only with arguments that `ok` admits. -/
inductive Reach (ok : OmCir → Int → Prop) (cr0 : OmCir) : OmCir → Prop
  | stamp : Reach ok cr0 (OmStamp cr0)
  | reset {cr : OmCir} : Reach ok cr0 cr → Reach ok cr0 (OmReset cr)
  | updSw {cr : OmCir} : Reach ok cr0 cr → Reach ok cr0 (OmUpdSw cr)
  | updCr {cr : OmCir} : Reach ok cr0 cr → Reach ok cr0 (OmUpdCr cr)
  | updMt {cr : OmCir} : Reach ok cr0 cr → Reach ok cr0 (OmUpdMt cr)
  | setQs {cr : OmCir} (br : Int) (x : ℚ) : Reach ok cr0 cr → Reach ok cr0 (OmSetQs cr br x)
  | setSw {cr : OmCir} (br s : Int) : Reach ok cr0 cr → ok cr br →
      Reach ok cr0 (OmSetSw cr br s)

/-- Any branch argument of `OmSetSw` is admitted. -/
def anyBranch : OmCir → Int → Prop := fun _ _ => True

/-- The argument `br` of `OmSetSw` is the 1-based index of an SW-type branch. -/
def swBranch : OmCir → Int → Prop := fun cr br =>
  1 ≤ br ∧ br ≤ cr.numB ∧ isSw cr.vecBtm (br - 1)

/-- The square matrix of size `m` stored row-major in the block `a`. -/
def toMatrix (m : Nat) (a : List ℚ) : Matrix (Fin m) (Fin m) ℚ :=
  fun i j => rd a ((i : Int) * m + j)

/-! ## Call sequences of `OmBran` and single stores -/

/-- The arguments of one call `OmBran(cr, br, n1, n2, tm)`, with the value `b` that the
unassigned local of `OmBran` holds in that call. -/
structure BranCall where
  b : Int
  br : Int
  n1 : Int
  n2 : Int
  tm : Int
  deriving DecidableEq, Repr

/-- The calls of the list `cs`, made in order on the circuit `cr`. -/
def branCalls (cr : OmCir) (cs : List BranCall) : OmCir :=
  cs.foldl (fun cr c => OmBran cr c.b c.br c.n1 c.n2 c.tm) cr

/-- The type argument `tm` has one of the levels X0, X1, X2, X3. -/
def isXLevel (tm : Int) : Prop :=
  OMABS tm = OMTYP_X0 ∨ OMABS tm = OMTYP_X1 ∨ OMABS tm = OMTYP_X2 ∨ OMABS tm = OMTYP_X3

instance (tm : Int) : Decidable (isXLevel tm) := by
  unfold isXLevel
  infer_instance

/-- The type argument `tm` has one of the levels X0..X3, Y0..Y3, SW. -/
def isLevel (tm : Int) : Prop :=
  isXLevel tm ∨ OMABS tm = OMTYP_Y0 ∨ OMABS tm = OMTYP_Y1 ∨ OMABS tm = OMTYP_Y2 ∨
  OMABS tm = OMTYP_Y3 ∨ OMABS tm = OMTYP_SW

instance (tm : Int) : Decidable (isLevel tm) := by
  unfold isLevel
  infer_instance

/-- Block `a'` is block `a` with the value `v` stored in cell `i`: same size, `a'[i] = v`,
every other cell unchanged. -/
def SetAt (a a' : List ℚ) (i : Int) (v : ℚ) : Prop :=
  a'.length = a.length ∧ rd a' i = v ∧ ∀ k : Int, k ≠ i → rd a' k = rd a k

/-- The X-level tag that stands for a Y2 or Y3 tag, sign (integration rule) kept: `±Y3`
becomes `±X3` and `±Y2` becomes `±X2`; every other tag is unchanged. -/
def dualTag (tm : Int) : Int :=
  if tm = OMTYP_Y3 then OMTYP_X3
  else if tm = -OMTYP_Y3 then -OMTYP_X3
  else if tm = OMTYP_Y2 then OMTYP_X2
  else if tm = -OMTYP_Y2 then -OMTYP_X2
  else tm

/-- The state that differs from `cr` only in having the level tag X3 where `cr` has Y3, and
X2 where `cr` has Y2. -/
def dualState (cr : OmCir) : OmCir := { cr with vecBtm := cr.vecBtm.map dualTag }

/-- The matrices `Pa` and `Pb` of `t` agree with those of `cr` in every entry other than the
diagonal entry `[bt-1, bt-1]`. -/
def KeepsOffTarget (cr t : OmCir) (bt : Int) : Prop :=
  ∀ i j : Int, 0 ≤ i → i < cr.numB → 0 ≤ j → j < cr.numB → ¬ (i = bt - 1 ∧ j = bt - 1) →
    rd t.matPa (i * cr.numB + j) = rd cr.matPa (i * cr.numB + j) ∧
    rd t.matPb (i * cr.numB + j) = rd cr.matPb (i * cr.numB + j)

/-! ## Descriptions of the matrices of `OmStamp` -/

/-- Entry `[i, j]` of `Dtp` as a function of the meter endpoints: for an ammeter
(`vecMn2[i] < -1`) on the 0-based branch `k = vecMn1[i]`, entry `[k, j]` of `Rtp` when `k` is
Y/SW-type and entry `[n - Lut[k], j]` of `Ptp` when `k` is X-type; for a voltmeter, entry
`[vecMn1[i], j]` minus entry `[vecMn2[i], j]` of `Ptp`, a ground endpoint counting as 0. -/
def dtpRow (cr : OmCir) (matPtp matRtp : List ℚ) (i j : Int) : ℚ :=
  if rd cr.vecMn2 i < -1 then
    if rd cr.vecLut (rd cr.vecMn1 i) > 0 then rd matRtp (rd cr.vecMn1 i * cr.numB + j)
    else rd matPtp ((cr.numN - rd cr.vecLut (rd cr.vecMn1 i)) * cr.numB + j)
  else
    (if rd cr.vecMn1 i ≥ 0 then rd matPtp (rd cr.vecMn1 i * cr.numB + j) else 0)
      - (if rd cr.vecMn2 i ≥ 0 then rd matPtp (rd cr.vecMn2 i * cr.numB + j) else 0)

/-- The signed incidence of branch `i` at the unknown `r ≥ 0`: `+1` at node 1, `-1` at
node 2; a ground endpoint (`-1`) is no unknown and contributes nothing. -/
def incidence (cr : OmCir) (i r : Int) : ℚ :=
  (if r = rd cr.vecBn1 i then 1 else 0) - (if r = rd cr.vecBn2 i then 1 else 0)

/-- The auxiliary unknown `aux(i) = n - Lut[i]` of an X-type branch `i`. -/
def auxIndex (cr : OmCir) (i : Int) : Int := cr.numN - rd cr.vecLut i

/-- The unit row `e_k`. -/
def unitRow (k c : Int) : ℚ := if c = k then 1 else 0

/-- The row `s_j` of branch `j`: its incidence row for a Y/SW-type branch (`Lut > 0`), the
unit row of its auxiliary unknown for an X-type branch. -/
def solRow (cr : OmCir) (j c : Int) : ℚ :=
  if rd cr.vecLut j > 0 then incidence cr j c else unitRow (auxIndex cr j) c

/-- Every branch endpoint is ground (negative) or one of the `numN` nodes, and the auxiliary
unknown of every X-type branch (`Lut ≤ 0`) is one of the `numX` auxiliary unknowns. -/
def Wired (cr : OmCir) : Prop :=
  0 ≤ cr.numN ∧ 0 ≤ cr.numX ∧
  ∀ i ∈ List.range cr.numB.toNat,
    rd cr.vecBn1 (i : Int) < cr.numN ∧ rd cr.vecBn2 (i : Int) < cr.numN ∧
    (rd cr.vecLut (i : Int) ≤ 0 → -rd cr.vecLut (i : Int) < cr.numX)

instance (cr : OmCir) : Decidable (Wired cr) := by
  unfold Wired
  infer_instance

/-- The row `Σ_j Pb[i,j]·s_j`. -/
def pbRow (cr : OmCir) (i c : Int) : ℚ :=
  ∑ j in Finset.range cr.numB.toNat, rd cr.matPb (i * cr.numB + j) * solRow cr j c

/-- The modified-nodal matrix of the specification, entry `[r, c]`:
`Pn = Σ_{i Y/SW} inc_iᵀ·(Σ_j Pb[i,j]·s_j)
    + Σ_{i X} (inc_iᵀ·e_aux(i) + e_aux(i)ᵀ·inc_i - e_aux(i)ᵀ·(Σ_j Pb[i,j]·s_j))`. -/
def specPn (cr : OmCir) (r c : Int) : ℚ :=
  ∑ i in Finset.range cr.numB.toNat,
    if rd cr.vecLut i > 0 then incidence cr i r * pbRow cr i c
    else
      incidence cr i r * unitRow (auxIndex cr i) c
        + unitRow (auxIndex cr i) r * incidence cr i c
        - unitRow (auxIndex cr i) r * pbRow cr i c

/-- The stores `dst[s.1] = src[s.2]` of the list `ss`, performed in order on the block
`dst`. -/
def runStores (src dst : List ℚ) (ss : List (Int × Int)) : List ℚ :=
  ss.foldl (fun d s => wr d s.1 (rd src s.2)) dst

/-- Step 4 of `OmStamp` for `matD`, as the sequence of the stores it performs: the loops of
`stampD`, each store `matD[i*c+jdx] = matDtp[i*b+j]` recorded as the pair
`(i*c+jdx, i*b+j)` of its destination and source index, in program order. -/
def stampDStores (m b c : Int) (vecLut : List Int) : List (Int × Int) :=
  forLoop 0 m (fun i ss =>
    (forLoop 0 b (fun j (st : List (Int × Int) × Int) =>
      let ss := st.1
      let jdx := st.2
      let jlut := rd vecLut j
      if jlut < 0 then (ss, jdx)
      else (ss ++ [(i * c + jdx, i * b + j)], jdx + 1)) (ss, 0)).1)
    []

/-- Step 4 of `OmStamp` for `matC`, as the sequence of the stores it performs: the loops of
`stampC`, each store `matC[idx*c+jdx] = matCtp[i*b+j]` recorded as the pair
`(idx*c+jdx, i*b+j)` of its destination and source index, in program order. -/
def stampCStores (b c : Int) (vecLut : List Int) : List (Int × Int) :=
  (forLoop 0 b (fun i (st : List (Int × Int) × Int) =>
    let ss := st.1
    let idx := st.2
    let ilut := rd vecLut i
    if ilut < 0 then (ss, idx)
    else
      let ss := (forLoop 0 b (fun j (st : List (Int × Int) × Int) =>
        let ss := st.1
        let jdx := st.2
        let jlut := rd vecLut j
        if jlut < 0 then (ss, jdx)
        else (ss ++ [(idx * c + jdx, i * b + j)], jdx + 1)) (ss, 0)).1
      (ss, idx + 1)) ([], 0)).1

/-! ## The pivot ordering of `OmMatInv` -/

/-- The inner loop of the pivot ordering of `OmMatInv` for column `j`, run on the permute
vector `pm`: the rows `pm[j..m-1]` are scanned and the row with the largest magnitude in
column `j` of `a` is swapped to position `j`. -/
def matInvPmCol (m : Int) (a : List ℚ) (j : Int) (pm : List Int) : List Int :=
  (forLoop j m (fun i (st : ℚ × List Int) =>
    let mv := st.1
    let pm := st.2
    let cv := OMABS (rd a (rd pm i * m + j))
    if cv > mv then
      let tmp := rd pm j
      let pm1 := wr pm j (rd pm i)
      (cv, wr pm1 i tmp)
    else (mv, pm)) ((0 : ℚ), pm)).2

/-- The vector `pm` lists the rows `0..m-1`, each once. -/
def IsPermVec (m : Int) (pm : List Int) : Prop :=
  pm.length = m.toNat ∧
  (∀ k : Int, 0 ≤ k → k < m → 0 ≤ rd pm k ∧ rd pm k < m) ∧
  ∀ k l : Int, 0 ≤ k → k < m → 0 ≤ l → l < m → rd pm k = rd pm l → k = l

/-- In each of the columns before `j`, the pivot row has the largest magnitude among the
rows at its position or later in `pm`. -/
def PivotsBefore (m : Int) (a : List ℚ) (j : Int) (pm : List Int) : Prop :=
  ∀ c i : Int, 0 ≤ c → c < j → c ≤ i → i < m →
    |rd a (rd pm i * m + c)| ≤ |rd a (rd pm c * m + c)|

/-! ## The stages of `OmMatInv` -/

/-- The relations that the block `t` of the LU stage of `OmMatInv` satisfies after `i` steps,
`G` being the block the stage started from: the rows of `U` before `i`, the columns of `L`
before `i`, and the entries not yet reached. -/
def LURel (m : Int) (G t : List ℚ) (i : Int) : Prop :=
  (∀ r c : Int, 0 ≤ r → r < i → r ≤ c → c < m →
    rd t (r * m + c) = rd G (r * m + c) + ∑ k in Finset.range m.toNat,
      if 0 ≤ (k : Int) ∧ (k : Int) < r then -(rd t (r * m + k) * rd t (k * m + c)) else 0) ∧
  (∀ r c : Int, 0 ≤ c → c < i → c < r → r < m →
    rd t (r * m + c) = (rd G (r * m + c) + ∑ k in Finset.range m.toNat,
      if 0 ≤ (k : Int) ∧ (k : Int) < c then -(rd t (r * m + k) * rd t (k * m + c)) else 0)
        / rd t (c * m + c)) ∧
  ∀ r c : Int, i ≤ r → r < m → i ≤ c → c < m → rd t (r * m + c) = rd G (r * m + c)

/-- The relations that column `c` of the block `t` satisfies after the inversion stage of
`OmMatInv` has processed it: below the diagonal the column `c` of the inverse of `L` (unit
diagonal not stored), on and above the diagonal the column `c` of the inverse of `U`. -/
def TriCol (m : Int) (lu : List ℚ) (c : Int) (t : List ℚ) : Prop :=
  (∀ k : Int, c < k → k < m →
    rd t (k * m + c) = ∑ j in Finset.range m.toNat,
      if c ≤ (j : Int) ∧ (j : Int) < k then
        -(rd lu (k * m + j) * (if (j : Int) = c then 1 else rd t (j * m + c)))
      else 0) ∧
  rd t (c * m + c) = 1 / rd lu (c * m + c) ∧
  ∀ k : Int, 0 ≤ k → k < c →
    rd t (k * m + c) = (∑ j in Finset.range m.toNat,
      if k + 1 ≤ (j : Int) ∧ (j : Int) < c + 1 then -(rd lu (k * m + j) * rd t (j * m + c))
      else 0) / rd lu (k * m + k)

/-- Entry `[r, c]` of the unit lower triangular matrix stored below the diagonal of the
`m`×`m` block `t`. -/
def lowerEntry (m : Int) (t : List ℚ) (r c : Int) : ℚ :=
  if c < r then rd t (r * m + c) else if r = c then 1 else 0

/-- Entry `[r, c]` of the upper triangular matrix stored on and above the diagonal of the
`m`×`m` block `t`. -/
def upperEntry (m : Int) (t : List ℚ) (r c : Int) : ℚ :=
  if r ≤ c then rd t (r * m + c) else 0

/-- The unit lower triangular matrix stored below the diagonal of the `m`×`m` block `t`. -/
def lowerUnit (m : Int) (t : List ℚ) : Matrix (Fin m.toNat) (Fin m.toNat) ℚ :=
  fun i j => lowerEntry m t i j

/-- The upper triangular matrix stored on and above the diagonal of the `m`×`m` block `t`. -/
def upperPart (m : Int) (t : List ℚ) : Matrix (Fin m.toNat) (Fin m.toNat) ℚ :=
  fun i j => upperEntry m t i j

/-! ## The run of `OmStamp` with checked loads and stores -/

/-- The index `i` lies inside a block of `n` cells. -/
def InB (n : Nat) (i : Int) : Prop := 0 ≤ i ∧ i < (n : Int)

instance (n : Nat) (i : Int) : Decidable (InB n i) := by
  unfold InB
  infer_instance

/-- The checked load `a[i]`: `none` when `i` is outside the block. -/
def rdC {α : Type} [Zero α] (a : List α) (i : Int) : Option α :=
  if InB a.length i then some (rd a i) else none

/-- The checked store `a[i] = v`: `none` when `i` is outside the block. -/
def wrC {α : Type} (a : List α) (i : Int) (v : α) : Option (List α) :=
  if InB a.length i then some (wr a i v) else none

/-- The checked update `a[i] += k`. -/
def incrC (a : List ℚ) (i : Int) (k : ℚ) : Option (List ℚ) := do
  let v ← rdC a i
  wrC a i (v + k)

/-- The checked update `a[i] -= k`. -/
def decrC (a : List ℚ) (i : Int) (k : ℚ) : Option (List ℚ) := do
  let v ← rdC a i
  wrC a i (v - k)

/-- Run the checked `body lo`, …, `body (lo+n-1)` in this order, stopping at the first
failure. -/
def forUpC {σ : Type} : Nat → Int → (Int → σ → Option σ) → σ → Option σ
  | 0, _, _, s => some s
  | n + 1, lo, body, s => (forUpC n lo body s).bind (body (lo + n))

/-- The loop `for (i = lo; i < hi; ++i) body` with a checked body. -/
def forLoopC {σ : Type} (lo hi : Int) (body : Int → σ → Option σ) (s : σ) : Option σ :=
  forUpC (hi - lo).toNat lo body s

/-- Run the checked `body hi`, …, `body (hi-n+1)` in this order, stopping at the first
failure. -/
def forDownC {σ : Type} : Nat → Int → (Int → σ → Option σ) → σ → Option σ
  | 0, _, _, s => some s
  | n + 1, hi, body, s => (forDownC n hi body s).bind (body (hi - n))

/-- The loop `for (k = hi; k >= lo; --k) body` with a checked body. -/
def forDownLoopC {σ : Type} (hi lo : Int) (body : Int → σ → Option σ) (s : σ) : Option σ :=
  forDownC (hi - lo + 1).toNat hi body s

/-- Function `OmVecAdd` with every access checked. -/
def OmVecAddC (m : Int) (z x y : List ℚ) : Option (List ℚ) :=
  forLoopC 0 m (fun i z => do
    let xi ← rdC x i
    let yi ← rdC y i
    wrC z i (xi + yi)) z

/-- Function `OmMatMul` with every access checked. -/
def OmMatMulC (m : Int) (c a b : List ℚ) : Option (List ℚ) := do
  let c0 ← forLoopC 0 m (fun i c => forLoopC 0 m (fun j c => wrC c (i * m + j) 0) c) c
  forLoopC 0 m (fun i c =>
    forLoopC 0 m (fun k c => do
      let s ← rdC a (i * m + k)
      forLoopC 0 m (fun j c => do
        let cij ← rdC c (i * m + j)
        let bkj ← rdC b (k * m + j)
        wrC c (i * m + j) (cij + s * bkj)) c) c) c0

/-- The vector `pm` has `m` cells and every cell holds a row index of `0..m-1`. -/
def PmRange (m : Int) (pm : List Int) : Prop :=
  pm.length = m.toNat ∧ ∀ k : Int, 0 ≤ k → k < m → 0 ≤ rd pm k ∧ rd pm k < m

/-- Step 0 of `OmMatInv` with every access checked. -/
def matInvPmC (m : Int) (a : List ℚ) : Option (List Int) := do
  let pm0 ← forLoopC 0 m (fun i pm => wrC pm i i) (OMMALLOC m)
  forLoopC 0 m (fun j pm => do
    let st ← forLoopC j m (fun i (st : ℚ × List Int) => do
      let mv := st.1
      let pm := st.2
      let pmi ← rdC pm i
      let aij ← rdC a (pmi * m + j)
      let cv := OMABS aij
      if cv > mv then do
        let tmp ← rdC pm j
        let pmi ← rdC pm i
        let pm1 ← wrC pm j pmi
        let pm2 ← wrC pm1 i tmp
        some (cv, pm2)
      else some (mv, pm)) ((0 : ℚ), pm)
    some st.2) pm0

/-- Step 0 of `OmMatInv`, last loop, with every access checked. -/
def matInvCopyC (m : Int) (a : List ℚ) (pm : List Int) : Option (List ℚ) :=
  forLoopC 0 m (fun i lu =>
    forLoopC 0 m (fun j lu => do
      let pmi ← rdC pm i
      let v ← rdC a (pmi * m + j)
      wrC lu (i * m + j) v) lu)
    (OMMALLOC (m * m))

/-- Step 2 of `OmMatInv` with every access checked. -/
def matInvLUC (m : Int) (lu : List ℚ) : Option (List ℚ) :=
  forLoopC 0 m (fun i lu => do
    let lu1 ← forLoopC i m (fun j lu =>
      forLoopC 0 i (fun k lu => do
        let x ← rdC lu (i * m + j)
        let y ← rdC lu (i * m + k)
        let z ← rdC lu (k * m + j)
        wrC lu (i * m + j) (x - y * z)) lu) lu
    forLoopC (i + 1) m (fun k lu => do
      let lu2 ← forLoopC 0 i (fun j lu => do
        let x ← rdC lu (k * m + i)
        let y ← rdC lu (k * m + j)
        let z ← rdC lu (j * m + i)
        wrC lu (k * m + i) (x - y * z)) lu
      let x ← rdC lu2 (k * m + i)
      let d ← rdC lu2 (i * m + i)
      wrC lu2 (k * m + i) (x / d)) lu1) lu

/-- Step 3 of `OmMatInv` with every access checked. -/
def matInvTriC (m : Int) (lu a : List ℚ) : Option (List ℚ) := do
  let a0 ← forLoopC 0 m (fun i a => forLoopC 0 m (fun j a => wrC a (i * m + j) 0) a) a
  forLoopC 0 m (fun i a => do
    let a1 ← wrC a (i * m + i) 1
    let a2 ← forLoopC (i + 1) m (fun k a =>
      forLoopC i k (fun j a => do
        let x ← rdC a (k * m + i)
        let y ← rdC lu (k * m + j)
        let z ← rdC a (j * m + i)
        wrC a (k * m + i) (x - y * z)) a) a1
    let d ← rdC lu (i * m + i)
    let a3 ← wrC a2 (i * m + i) (1 / d)
    forDownLoopC (i - 1) 0 (fun k a => do
      let a4 ← forLoopC (k + 1) (i + 1) (fun j a => do
        let x ← rdC a (k * m + i)
        let y ← rdC lu (k * m + j)
        let z ← rdC a (j * m + i)
        wrC a (k * m + i) (x - y * z)) a
      let x ← rdC a4 (k * m + i)
      let d ← rdC lu (k * m + k)
      wrC a4 (k * m + i) (x / d)) a3) a0

/-- Step 4 of `OmMatInv` with every access checked. -/
def matInvProdC (m : Int) (a lu : List ℚ) : Option (List ℚ) := do
  let lu0 ← forLoopC 0 m (fun i lu => do
    let lu1 ← forLoopC 0 i (fun j lu => wrC lu (i * m + j) 0) lu
    forLoopC i m (fun j lu => do
      let v ← rdC a (i * m + j)
      wrC lu (i * m + j) v) lu1) lu
  let lu2 ← forLoopC 1 m (fun i lu =>
    forLoopC i m (fun k lu =>
      forLoopC 0 i (fun j lu => do
        let x ← rdC lu (i * m + j)
        let y ← rdC a (i * m + k)
        let z ← rdC a (k * m + j)
        wrC lu (i * m + j) (x + y * z)) lu) lu) lu0
  forLoopC 0 m (fun i lu =>
    forLoopC i m (fun j lu =>
      forLoopC (j + 1) m (fun k lu => do
        let x ← rdC lu (i * m + j)
        let y ← rdC a (i * m + k)
        let z ← rdC a (k * m + j)
        wrC lu (i * m + j) (x + y * z)) lu) lu) lu2

/-- Step 5 of `OmMatInv` with every access checked. -/
def matInvPermC (m : Int) (pm : List Int) (lu a : List ℚ) : Option (List ℚ) :=
  forLoopC 0 m (fun i a =>
    forLoopC 0 m (fun j a => do
      let pj ← rdC pm j
      let v ← rdC lu (i * m + j)
      wrC a (i * m + pj) v) a) a

/-- Function `OmMatInv` with every access checked. -/
def OmMatInvC (m : Int) (a : List ℚ) : Option (List ℚ) := do
  let pm ← matInvPmC m a
  let lu0 ← matInvCopyC m a pm
  let lu ← matInvLUC m lu0
  let a1 ← matInvTriC m lu a
  let lu1 ← matInvProdC m a1 lu
  matInvPermC m pm lu1 a1

/-- Step 1 of `OmStamp`, first part, with every access checked. -/
def stampPnC (cr : OmCir) : Option (List ℚ) := do
  let n := cr.numN
  let b := cr.numB
  let x := cr.numX
  let matPn ← forLoopC 0 ((n + x) * (n + x)) (fun i matPn => wrC matPn i 0)
    (OMMALLOC ((n + x) * (n + x)))
  forLoopC 0 b (fun i matPn => do
    let ilut ← rdC cr.vecLut i
    let n1 ← rdC cr.vecBn1 i
    let n2 ← rdC cr.vecBn2 i
    if ilut > 0 then
      forLoopC 0 b (fun j matPn => do
        let k ← rdC cr.matPb (i * b + j)
        let jlut ← rdC cr.vecLut j
        let nc1 ← rdC cr.vecBn1 j
        let nc2 ← rdC cr.vecBn2 j
        if jlut > 0 then do
          let matPn ←
            (if n1 ≥ 0 ∧ nc1 ≥ 0 then incrC matPn (n1 * (n + x) + nc1) k else some matPn)
          let matPn ←
            (if n1 ≥ 0 ∧ nc2 ≥ 0 then decrC matPn (n1 * (n + x) + nc2) k else some matPn)
          let matPn ←
            (if n2 ≥ 0 ∧ nc1 ≥ 0 then decrC matPn (n2 * (n + x) + nc1) k else some matPn)
          if n2 ≥ 0 ∧ nc2 ≥ 0 then incrC matPn (n2 * (n + x) + nc2) k else some matPn
        else do
          let matPn ←
            (if n1 ≥ 0 then incrC matPn (n1 * (n + x) + (n - jlut)) k else some matPn)
          if n2 ≥ 0 then decrC matPn (n2 * (n + x) + (n - jlut)) k else some matPn) matPn
    else do
      let matPn ← (if n1 ≥ 0 then incrC matPn (n1 * (n + x) + (n - ilut)) 1 else some matPn)
      let matPn ← (if n1 ≥ 0 then incrC matPn ((n - ilut) * (n + x) + n1) 1 else some matPn)
      let matPn ← (if n2 ≥ 0 then decrC matPn (n2 * (n + x) + (n - ilut)) 1 else some matPn)
      let matPn ← (if n2 ≥ 0 then decrC matPn ((n - ilut) * (n + x) + n2) 1 else some matPn)
      forLoopC 0 b (fun j matPn => do
        let k ← rdC cr.matPb (i * b + j)
        let jlut ← rdC cr.vecLut j
        let nc1 ← rdC cr.vecBn1 j
        let nc2 ← rdC cr.vecBn2 j
        if jlut > 0 then do
          let matPn ←
            (if nc1 ≥ 0 then decrC matPn ((n - ilut) * (n + x) + nc1) k else some matPn)
          if nc2 ≥ 0 then incrC matPn ((n - ilut) * (n + x) + nc2) k else some matPn
        else decrC matPn ((n - ilut) * (n + x) + (n - jlut)) k) matPn) matPn

/-- The loop `for (j=0; j < b; ++j) dst[i*b+j] += src[r*b+j]` with every access checked. -/
def rowAddC (b : Int) (src : List ℚ) (r i : Int) (dst : List ℚ) : Option (List ℚ) :=
  forLoopC 0 b (fun j dst => do
    let v ← rdC src (r * b + j)
    incrC dst (i * b + j) v) dst

/-- The loop `for (j=0; j < b; ++j) dst[i*b+j] -= src[r*b+j]` with every access checked. -/
def rowSubC (b : Int) (src : List ℚ) (r i : Int) (dst : List ℚ) : Option (List ℚ) :=
  forLoopC 0 b (fun j dst => do
    let v ← rdC src (r * b + j)
    decrC dst (i * b + j) v) dst

/-- Step 1 of `OmStamp`, second part, with every access checked. -/
def stampPtpC (cr : OmCir) (matPn : List ℚ) : Option (List ℚ) := do
  let n := cr.numN
  let b := cr.numB
  let x := cr.numX
  let matPtp ← forLoopC 0 ((n + x) * b) (fun i matPtp => wrC matPtp i 0)
    (OMMALLOC ((n + x) * b))
  forLoopC 0 (n + x) (fun i matPtp =>
    forLoopC 0 b (fun j matPtp => do
      let jlut ← rdC cr.vecLut j
      let n1 ← rdC cr.vecBn1 j
      let n2 ← rdC cr.vecBn2 j
      if jlut > 0 then do
        let matPtp ←
          (if n1 ≥ 0 then
            (rdC matPn (i * (n + x) + n1)).bind (decrC matPtp (i * b + j))
          else some matPtp)
        if n2 ≥ 0 then (rdC matPn (i * (n + x) + n2)).bind (incrC matPtp (i * b + j))
        else some matPtp
      else (rdC matPn (i * (n + x) + (n - jlut))).bind (incrC matPtp (i * b + j))) matPtp)
    matPtp

/-- Step 2 of `OmStamp`, `matTtp`, with every access checked. -/
def stampTtpC (cr : OmCir) (matPtp : List ℚ) : Option (List ℚ) := do
  let n := cr.numN
  let b := cr.numB
  let matTtp ← forLoopC 0 (b * b) (fun i matTtp => wrC matTtp i 0) (OMMALLOC (b * b))
  forLoopC 0 b (fun i matTtp => do
    let ilut ← rdC cr.vecLut i
    if ilut > 0 then do
      let n1 ← rdC cr.vecBn1 i
      let n2 ← rdC cr.vecBn2 i
      let matTtp ← (if n1 ≥ 0 then rowAddC b matPtp n1 i matTtp else some matTtp)
      if n2 ≥ 0 then rowSubC b matPtp n2 i matTtp else some matTtp
    else rowAddC b matPtp (n - ilut) i matTtp) matTtp

/-- Step 2 of `OmStamp`, `matCtp`, with every access checked. -/
def stampCtpC (cr : OmCir) (matTtp : List ℚ) : Option (List ℚ) :=
  OmMatMulC cr.numB (OMMALLOC (cr.numB * cr.numB)) cr.matPa matTtp

/-- Step 2 of `OmStamp`, `matRtp`, with every access checked. -/
def stampRtpC (cr : OmCir) (matTtp : List ℚ) : Option (List ℚ) := do
  let b := cr.numB
  let matRtp ← OmMatMulC b (OMMALLOC (b * b)) cr.matPb matTtp
  forLoopC 0 b (fun i matRtp => incrC matRtp (i * b + i) 1) matRtp

/-- Step 2 of `OmStamp`, `matDtp`, with every access checked. -/
def stampDtpC (cr : OmCir) (matPtp matRtp : List ℚ) : Option (List ℚ) := do
  let n := cr.numN
  let b := cr.numB
  let m := cr.numM
  let matDtp ← forLoopC 0 (m * b) (fun i matDtp => wrC matDtp i 0) (OMMALLOC (m * b))
  forLoopC 0 m (fun i matDtp => do
    let n1 ← rdC cr.vecMn1 i
    let n2 ← rdC cr.vecMn2 i
    if n2 < -1 then do
      let ilut ← rdC cr.vecLut n1
      if ilut > 0 then rowAddC b matRtp n1 i matDtp
      else rowAddC b matPtp (n - ilut) i matDtp
    else do
      let matDtp ← (if n1 ≥ 0 then rowAddC b matPtp n1 i matDtp else some matDtp)
      if n2 ≥ 0 then rowSubC b matPtp n2 i matDtp else some matDtp) matDtp

/-- Step 3 of `OmStamp` with every access checked. -/
def stampCutC (cr : OmCir) : Option (List Int × Int) :=
  forLoopC 0 cr.numB (fun i (st : List Int × Int) => do
    let vecLut := st.1
    let c := st.2
    let tm ← rdC cr.vecBtm i
    let btyp := OMABS tm
    if btyp = OMTYP_X0 ∨ btyp = OMTYP_Y0 then (wrC vecLut i (-1)).map (fun l => (l, c))
    else (wrC vecLut i c).map (fun l => (l, c + 1))) (cr.vecLut, 0)

/-- Step 4 of `OmStamp`, `matD`, with every access checked. -/
def stampDC (m b c : Int) (vecLut : List Int) (matDtp : List ℚ) : Option (List ℚ) :=
  forLoopC 0 m (fun i matD =>
    (forLoopC 0 b (fun j (st : List ℚ × Int) => do
      let matD := st.1
      let jdx := st.2
      let jlut ← rdC vecLut j
      if jlut < 0 then some (matD, jdx)
      else do
        let v ← rdC matDtp (i * b + j)
        let matD ← wrC matD (i * c + jdx) v
        some (matD, jdx + 1)) (matD, 0)).map Prod.fst)
    (OMMALLOC (m * c))

/-- Step 4 of `OmStamp`, `matC`, with every access checked. -/
def stampCC (b c : Int) (vecLut : List Int) (matCtp : List ℚ) : Option (List ℚ) :=
  (forLoopC 0 b (fun i (st : List ℚ × Int) => do
    let matC := st.1
    let idx := st.2
    let ilut ← rdC vecLut i
    if ilut < 0 then some (matC, idx)
    else do
      let st2 ← forLoopC 0 b (fun j (st : List ℚ × Int) => do
        let matC := st.1
        let jdx := st.2
        let jlut ← rdC vecLut j
        if jlut < 0 then some (matC, jdx)
        else do
          let v ← rdC matCtp (i * b + j)
          let matC ← wrC matC (idx * c + jdx) v
          some (matC, jdx + 1)) (matC, 0)
      some (st2.1, idx + 1)) (OMMALLOC (c * c), 0)).map Prod.fst

/-- The loop of `OmReset` with every access checked. -/
def resetLoopC (cr : OmCir) : Option OmCir :=
  forLoopC 0 cr.numB (fun i cr => do
    let ilut ← rdC cr.vecLut i
    let tm ← rdC cr.vecBtm i
    let btyp := OMABS tm
    if ilut < 0 then some cr
    else do
      let w1o ← rdC cr.vecW1o i
      let w1m ← wrC cr.vecW1m ilut w1o
      let w2o ← rdC cr.vecW2o i
      let w2m ← wrC cr.vecW2m ilut w2o
      let qa0 ← rdC cr.vecQa0 i
      let qa ← wrC cr.vecQa ilut qa0
      let qs0 ← rdC cr.vecQs0 i
      let qs ← wrC cr.vecQs ilut qs0
      let cr := { cr with vecW1m := w1m, vecW2m := w2m, vecQa := qa, vecQs := qs }
      if btyp = OMTYP_SW then do
        let w1o ← rdC cr.vecW1o i
        let w1s ← wrC cr.vecW1s ilut w1o
        let w2o ← rdC cr.vecW2o i
        let w2s ← wrC cr.vecW2s ilut w2o
        some { cr with vecW1s := w1s, vecW2s := w2s }
      else do
        let w1s ← wrC cr.vecW1s ilut 0
        let w2s ← wrC cr.vecW2s ilut 1
        some { cr with vecW1s := w1s, vecW2s := w2s }) cr

/-- Function `OmReset` with every access checked. -/
def OmResetC (cr : OmCir) : Option OmCir := do
  let c := cr.numC
  let cr ← resetLoopC cr
  let qtp ← OmVecAddC c cr.vecQtp cr.vecQa cr.vecQs
  some { cr with vecQtp := qtp }

/-- Steps 1 (after the inversion) to 4 of `OmStamp` with every access checked. -/
def stampFinishC (cr : OmCir) (matPn : List ℚ) : Option OmCir := do
  let b := cr.numB
  let m := cr.numM
  let matPtp ← stampPtpC cr matPn
  let matTtp ← stampTtpC cr matPtp
  let matCtp ← stampCtpC cr matTtp
  let matRtp ← stampRtpC cr matTtp
  let matDtp ← stampDtpC cr matPtp matRtp
  let cut ← stampCutC cr
  let c := cut.2
  let matC ← stampCC b c cut.1 matCtp
  let matD ← stampDC m b c cut.1 matDtp
  let cr := { cr with
    vecBn1 := [], vecBn2 := [], vecMn1 := [], vecMn2 := [], matPa := [], matPb := []
    vecLut := cut.1
    numC := c
    matC := matC
    matD := matD
    vecW1m := OMMALLOC c, vecW2m := OMMALLOC c
    vecW1s := OMMALLOC c, vecW2s := OMMALLOC c
    vecQa := OMMALLOC c, vecQs := OMMALLOC c, vecQtp := OMMALLOC c
    vecXm := OMMALLOC m, vecXc := OMMALLOC c }
  OmResetC cr

/-- Function `OmStamp` with every access checked: `none` as soon as one load or store of
`OmStamp`, of `OmMatInv`, of `OmMatMul`, of `OmReset` or of `OmVecAdd` falls outside its
block. -/
def OmStampC (cr : OmCir) : Option OmCir := do
  let matPn ← stampPnC cr
  let matInv ← OmMatInvC (cr.numN + cr.numX) matPn
  stampFinishC cr matInv

/-! ## Circuits under construction -/

/-- Every meter is an ammeter (`vecMn2 < -1`) on one of the `numB` branches, or a voltmeter
whose endpoints are ground (negative) or one of the `numN` nodes. -/
def Metered (cr : OmCir) : Prop :=
  ∀ i : Int, 0 ≤ i → i < cr.numM →
    (rd cr.vecMn2 i < -1 → 0 ≤ rd cr.vecMn1 i ∧ rd cr.vecMn1 i < cr.numB) ∧
    (¬ rd cr.vecMn2 i < -1 → rd cr.vecMn1 i < cr.numN ∧ rd cr.vecMn2 i < cr.numN)

/-- The state `t` has the sizes, the endpoints, the meters, the lookup table and the branch
types of `cr`, and its setup blocks have the lengths of those of `cr`. -/
def SameWiring (cr t : OmCir) : Prop :=
  t.numN = cr.numN ∧ t.numB = cr.numB ∧ t.numM = cr.numM ∧ t.numX = cr.numX ∧
  t.vecBn1 = cr.vecBn1 ∧ t.vecBn2 = cr.vecBn2 ∧ t.vecMn1 = cr.vecMn1 ∧ t.vecMn2 = cr.vecMn2 ∧
  t.vecBtm = cr.vecBtm ∧ t.vecLut = cr.vecLut ∧
  t.matPa.length = cr.matPa.length ∧ t.matPb.length = cr.matPb.length ∧
  t.vecW1c.length = cr.vecW1c.length ∧ t.vecW2c.length = cr.vecW2c.length ∧
  t.vecW1o.length = cr.vecW1o.length ∧ t.vecW2o.length = cr.vecW2o.length ∧
  t.vecQa0.length = cr.vecQa0.length ∧ t.vecQs0.length = cr.vecQs0.length

/-- The circuit `cr` has the sizes `n`, `b`, `m`, blocks of the allocated sizes, wired
branches and configured meters. -/
def BuiltInv (n b m : Int) (cr : OmCir) : Prop :=
  cr.numN = n ∧ cr.numB = b ∧ cr.numM = m ∧ Setup cr ∧ Wired cr ∧ Metered cr

/-- The circuits a host program builds from the result of `OmCreate(n, b, m, stp)` by the
setup calls with arguments in range: every `OmBran` call uses `br` in `1..b` and `n1`, `n2`
in `0..n`, and the value `b1` of its unassigned local keeps its store inside `matPa`
(`branStoreInBlock`); every `OmMetV` call uses `mt` in `1..m` and nodes in `0..n`; every
`OmMetA` call uses `mt` in `1..m` and a branch in `1..b`; every stamper call names branches
in `1..b`.  A branch may be configured several times or not at all. -/
inductive Built (n b m : Int) : OmCir → Prop
  | create (stp : ℚ) (cr : OmCir) : OmCreate n b m stp = some cr → Built n b m cr
  | bran {cr : OmCir} (b1 br n1 n2 tm : Int) : Built n b m cr → 1 ≤ br → br ≤ b →
      0 ≤ n1 → n1 ≤ n → 0 ≤ n2 → n2 ≤ n → branStoreInBlock b b1 br tm →
      Built n b m (OmBran cr b1 br n1 n2 tm)
  | metV {cr : OmCir} (mt n1 n2 : Int) : Built n b m cr → 1 ≤ mt → mt ≤ m →
      0 ≤ n1 → n1 ≤ n → 0 ≤ n2 → n2 ≤ n → Built n b m (OmMetV cr mt n1 n2)
  | metA {cr : OmCir} (mt br : Int) : Built n b m cr → 1 ≤ mt → mt ≤ m →
      1 ≤ br → br ≤ b → Built n b m (OmMetA cr mt br)
  | addX {cr : OmCir} (bx : Int) (res : ℚ) : Built n b m cr → 1 ≤ bx → bx ≤ b →
      Built n b m (OmAddX cr bx res)
  | addY {cr : OmCir} (by_ : Int) (con : ℚ) : Built n b m cr → 1 ≤ by_ → by_ ≤ b →
      Built n b m (OmAddY cr by_ con)
  | addV {cr : OmCir} (bx : Int) (vol : ℚ) : Built n b m cr → 1 ≤ bx → bx ≤ b →
      Built n b m (OmAddV cr bx vol)
  | addI {cr : OmCir} (by_ : Int) (cur : ℚ) : Built n b m cr → 1 ≤ by_ → by_ ≤ b →
      Built n b m (OmAddI cr by_ cur)
  | addL {cr : OmCir} (bx : Int) (ind i0 : ℚ) : Built n b m cr → 1 ≤ bx → bx ≤ b →
      Built n b m (OmAddL cr bx ind i0)
  | addC {cr : OmCir} (by_ : Int) (cap v0 : ℚ) : Built n b m cr → 1 ≤ by_ → by_ ≤ b →
      Built n b m (OmAddC cr by_ cap v0)
  | addQ {cr : OmCir} (bx : Int) (rpc v0 : ℚ) : Built n b m cr → 1 ≤ bx → bx ≤ b →
      Built n b m (OmAddQ cr bx rpc v0)
  | addP {cr : OmCir} (by_ : Int) (rpi i0 : ℚ) : Built n b m cr → 1 ≤ by_ → by_ ≤ b →
      Built n b m (OmAddP cr by_ rpi i0)
  | addE {cr : OmCir} (bx cy : Int) (k : ℚ) : Built n b m cr → 1 ≤ bx → bx ≤ b →
      1 ≤ cy → cy ≤ b → Built n b m (OmAddE cr bx cy k)
  | addH {cr : OmCir} (bx cx : Int) (k : ℚ) : Built n b m cr → 1 ≤ bx → bx ≤ b →
      1 ≤ cx → cx ≤ b → Built n b m (OmAddH cr bx cx k)
  | addF {cr : OmCir} (by_ cx : Int) (k : ℚ) : Built n b m cr → 1 ≤ by_ → by_ ≤ b →
      1 ≤ cx → cx ≤ b → Built n b m (OmAddF cr by_ cx k)
  | addG {cr : OmCir} (by_ cy : Int) (k : ℚ) : Built n b m cr → 1 ≤ by_ → by_ ≤ b →
      1 ≤ cy → cy ≤ b → Built n b m (OmAddG cr by_ cy k)
  | addM {cr : OmCir} (bx cx : Int) (k ic0 : ℚ) : Built n b m cr → 1 ≤ bx → bx ≤ b →
      1 ≤ cx → cx ≤ b → Built n b m (OmAddM cr bx cx k ic0)
  | addN {cr : OmCir} (by_ cy : Int) (k vc0 : ℚ) : Built n b m cr → 1 ≤ by_ → by_ ≤ b →
      1 ≤ cy → cy ≤ b → Built n b m (OmAddN cr by_ cy k vc0)
  | addA {cr : OmCir} (bx cx : Int) (k v0 : ℚ) : Built n b m cr → 1 ≤ bx → bx ≤ b →
      1 ≤ cx → cx ≤ b → Built n b m (OmAddA cr bx cx k v0)
  | addB {cr : OmCir} (by_ cy : Int) (k i0 : ℚ) : Built n b m cr → 1 ≤ by_ → by_ ≤ b →
      1 ≤ cy → cy ≤ b → Built n b m (OmAddB cr by_ cy k i0)
  | addS {cr : OmCir} (bs : Int) (k1 k2 ysw ron : ℚ) : Built n b m cr → 1 ≤ bs → bs ≤ b →
      Built n b m (OmAddS cr bs k1 k2 ysw ron)

/-! ## Test circuits -/

/-- The single-branch circuit of the Ohm's-law property before `OmStamp`:
`OmCreate(1,1,1,dt)`, one X1 branch from node 1 to ground with `V = VG` and series resistance
`R`.  `b0` is the value of the unassigned local of `OmBran`. -/
def ohmSetup (b0 : Int) (dt VG R : ℚ) : Option OmCir :=
  (OmCreate 1 1 1 dt).map fun cr =>
    let cr := OmBran cr b0 1 1 0 OMTYP_X1
    let cr := OmAddV cr 1 VG
    OmAddX cr 1 R

/-- The single-branch circuit of the Ohm's-law property, stamped. -/
def ohmCircuit (b0 : Int) (dt VG R : ℚ) : Option OmCir :=
  (ohmSetup b0 dt VG R).map OmStamp

/-- The single-branch circuit with the voltmeter `OmMetV(1, 1, 0)` across the branch,
stamped. -/
def ohmMeterCircuit (b0 : Int) (dt VG R : ℚ) : Option OmCir :=
  (ohmSetup b0 dt VG R).map fun cr => OmStamp (OmMetV cr 1 1 0)

/-- The circuit of `tests/test4.c` (boost converter equivalent model) for duty cycle `D`,
before `OmStamp`.  `b0` and `b1` are the values of the unassigned local in the two `OmBran`
calls. -/
def boostSetup (b0 b1 : Int) (D : ℚ) : Option OmCir :=
  let RL : ℚ := 1
  let R : ℚ := 100
  let VG : ℚ := 100
  (OmCreate 1 2 1 (5 / 1000000)).map fun cr =>
    let cr := OmBran cr b0 1 0 0 OMTYP_X1
    let cr := OmAddV cr 1 (-VG)
    let cr := OmAddX cr 1 RL
    let cr := OmAddE cr 1 2 (1 - D)
    let cr := OmBran cr b1 2 1 0 OMTYP_Y0
    let cr := OmAddF cr 2 1 (D - 1)
    let cr := OmAddY cr 2 (1 / R)
    OmMetV cr 1 1 0

/-- The circuit of `tests/test4.c`, stamped. -/
def boostCircuit (b0 b1 : Int) (D : ℚ) : Option OmCir :=
  (boostSetup b0 b1 D).map OmStamp

/-- The circuit of `tests/test6.c` (switch pulse) before `OmStamp`.  `b0` and `b1` are the
values of the unassigned local in the two `OmBran` calls. -/
def switchSetup (b0 b1 : Int) : Option OmCir :=
  let VG : ℚ := 100
  let R : ℚ := 1000
  let K1 : ℚ := 1
  let K2 : ℚ := 6569 / 10000
  let YS : ℚ := (2929 / 10000) / 1000
  (OmCreate 1 2 0 (1 / 1000000)).map fun cr =>
    let cr := OmBran cr b0 1 1 0 OMTYP_X1
    let cr := OmAddV cr 1 VG
    let cr := OmAddX cr 1 R
    let cr := OmBran cr b1 2 1 0 OMTYP_SW
    OmAddS cr 2 K1 K2 YS 0

/-- The circuit of `tests/test6.c`, stamped. -/
def switchCircuit (b0 b1 : Int) : Option OmCir :=
  (switchSetup b0 b1).map OmStamp

/-- The state `ohmSetup` builds, with `mn1` the first endpoint stored for the meter (-1 when
the meter is not configured, 0 after `OmMetV(1, 1, 0)`). -/
def ohmPre (dt VG R : ℚ) (mn1 : Int) : OmCir :=
  { numN := 1, numB := 1, numM := 1, numX := 1, numC := 0, timStp := dt
    vecBn1 := [0], vecBn2 := [-1], vecMn1 := [mn1], vecMn2 := [-1]
    matPa := [1], matPb := [R]
    vecBtm := [2], vecLut := [0]
    vecW1c := [0], vecW2c := [0], vecW1o := [0], vecW2o := [0]
    vecQa0 := [0], vecQs0 := [VG]
    matC := [], matD := []
    vecW1m := [], vecW2m := [], vecW1s := [], vecW2s := []
    vecQa := [], vecQs := [], vecQtp := [], vecXm := [], vecXc := [] }

/-- The state `boostSetup` builds, with `pa` the block `matPa` left by the two `OmBran`
calls. -/
def boostPre (D : ℚ) (pa : List ℚ) : OmCir :=
  { numN := 1, numB := 2, numM := 1, numX := 1, numC := 0, timStp := 5 / 1000000
    vecBn1 := [-1, 0], vecBn2 := [-1, -1], vecMn1 := [0], vecMn2 := [-1]
    matPa := pa, matPb := [1, 1 - D, D - 1, 1 / 100]
    vecBtm := [2, 5], vecLut := [0, 1]
    vecW1c := [0, 0], vecW2c := [0, 0], vecW1o := [0, 0], vecW2o := [0, 0]
    vecQa0 := [0, 0], vecQs0 := [-100, 0]
    matC := [], matD := []
    vecW1m := [], vecW2m := [], vecW1s := [], vecW2s := []
    vecQa := [], vecQs := [], vecQtp := [], vecXm := [], vecXc := [] }

/-- The state `switchSetup` builds, with `pa` the block `matPa` left by the two `OmBran`
calls. -/
def switchPre (pa : List ℚ) : OmCir :=
  { numN := 1, numB := 2, numM := 0, numX := 1, numC := 0, timStp := 1 / 1000000
    vecBn1 := [0, 0], vecBn2 := [-1, -1], vecMn1 := [], vecMn2 := []
    matPa := pa, matPb := [1000, 0, 0, 2929 / 10000000]
    vecBtm := [2, 9], vecLut := [0, 1]
    vecW1c := [0, 2929 / 5000000], vecW2c := [0, 1]
    vecW1o := [0, -10049399 / 100000000000], vecW2o := [0, 6569 / 10000]
    vecQa0 := [0, 0], vecQs0 := [100, 0]
    matC := [], matD := []
    vecW1m := [], vecW2m := [], vecW1s := [], vecW2s := []
    vecQa := [], vecQs := [], vecQtp := [], vecXm := [], vecXc := [] }

/-- The circuit of `tests/test6.c` after `OmStamp`, the two `OmBran` calls having found
`numB` in their unassigned local. -/
def switchStamped : OmCir := OmStamp (switchPre [1, 0, 0, 1])

/-- The circuit `OmCreate(1, 3, 0, 1)` returns: three unconfigured branches, no meter. -/
def createdThree : OmCir :=
  { numN := 1, numB := 3, numM := 0, numX := 0, numC := 0, timStp := 1
    vecBn1 := [-1, -1, -1], vecBn2 := [-1, -1, -1], vecMn1 := [], vecMn2 := []
    matPa := [0, 0, 0, 0, 0, 0, 0, 0, 0], matPb := [0, 0, 0, 0, 0, 0, 0, 0, 0]
    vecBtm := [0, 0, 0], vecLut := [1, 1, 1]
    vecW1c := [0, 0, 0], vecW2c := [0, 0, 0], vecW1o := [0, 0, 0], vecW2o := [0, 0, 0]
    vecQa0 := [0, 0, 0], vecQs0 := [0, 0, 0]
    matC := [], matD := []
    vecW1m := [], vecW2m := [], vecW1s := [], vecW2s := []
    vecQa := [], vecQs := [], vecQtp := [], vecXm := [], vecXc := [] }

/-- Three `OmBran` calls on the branches 2, 3, 1 with the levels X2, Y1, X0 (the last one
with the backward-Euler sign), each with another value in the unassigned local. -/
def mixedCalls : List BranCall :=
  [{ b := 7, br := 2, n1 := 1, n2 := 0, tm := OMTYP_X2 },
   { b := 0, br := 3, n1 := 1, n2 := 0, tm := OMTYP_Y1 },
   { b := 9, br := 1, n1 := 1, n2 := 0, tm := -OMTYP_X0 }]

/-- A single energy-storage branch: `OmCreate(1, 1, 0, 1/1000)` and
`OmBran(cr, 1, 1, 0, tm)`, where `b` is the value the unassigned local of `OmBran` holds. -/
def storageSetup (b tm : Int) : Option OmCir :=
  (OmCreate 1 1 0 (1 / 1000)).map fun cr => OmBran cr b 1 1 0 tm

/-- The state `storageSetup` builds for the type argument `tm`, with `pa` the block `matPa`
left by the `OmBran` call. -/
def storagePre (tm : Int) (pa : List ℚ) : OmCir :=
  { numN := 1, numB := 1, numM := 0, numX := 1, numC := 0, timStp := 1 / 1000
    vecBn1 := [0], vecBn2 := [-1], vecMn1 := [], vecMn2 := []
    matPa := pa, matPb := [0]
    vecBtm := [tm], vecLut := [0]
    vecW1c := [0], vecW2c := [0], vecW1o := [0], vecW2o := [0]
    vecQa0 := [0], vecQs0 := [0]
    matC := [], matD := []
    vecW1m := [], vecW2m := [], vecW1s := [], vecW2s := []
    vecQa := [], vecQs := [], vecQtp := [], vecXm := [], vecXc := [] }

/-- The circuit of the closed-loop Ohm's-law property before `OmStamp`: `OmCreate(0,1,1,dt)`,
one X1 branch from ground to ground with `V` and series resistance `R`, and the ammeter
`OmMetA(1, 1)` on it.  `b0` is the value of the unassigned local of `OmBran`. -/
def loopSetup (b0 : Int) (dt V R : ℚ) : Option OmCir :=
  (OmCreate 0 1 1 dt).map fun cr =>
    let cr := OmBran cr b0 1 0 0 OMTYP_X1
    let cr := OmAddV cr 1 V
    let cr := OmAddX cr 1 R
    OmMetA cr 1 1

/-- The closed-loop circuit, stamped. -/
def loopCircuit (b0 : Int) (dt V R : ℚ) : Option OmCir :=
  (loopSetup b0 dt V R).map OmStamp

/-- The closed-loop circuit before `OmStamp`, written out. -/
def loopPre (dt V R : ℚ) : OmCir :=
  { numN := 0, numB := 1, numM := 1, numX := 1, numC := 0, timStp := dt
    vecBn1 := [-1], vecBn2 := [-1], vecMn1 := [0], vecMn2 := [-2]
    matPa := [1], matPb := [R]
    vecBtm := [2], vecLut := [0]
    vecW1c := [0], vecW2c := [0], vecW1o := [0], vecW2o := [0]
    vecQa0 := [0], vecQs0 := [V]
    matC := [], matD := []
    vecW1m := [], vecW2m := [], vecW1s := [], vecW2s := []
    vecQa := [], vecQs := [], vecQtp := [], vecXm := [], vecXc := [] }

/-- Two X1 branches from node 1 to ground with series resistance 1 each:
`OmCreate(1,2,0,1)`, `OmBran(1,1,0,X1)`, `OmAddX(1,1)`, `OmBran(2,1,0,X1)`, `OmAddX(2,1)`.
`b1` and `b2` are the values of the unassigned local in the two `OmBran` calls. -/
def twoLoopSetup (b1 b2 : Int) : Option OmCir :=
  (OmCreate 1 2 0 1).map fun cr =>
    let cr := OmBran cr b1 1 1 0 OMTYP_X1
    let cr := OmAddX cr 1 1
    let cr := OmBran cr b2 2 1 0 OMTYP_X1
    OmAddX cr 2 1

/-- The matrix `Ttp` that `OmStamp` computes for the circuit `cr`. -/
def stampedTtp (cr : OmCir) : List ℚ :=
  stampTtp cr (stampPtp cr (OmMatInv (cr.numN + cr.numX) (stampPn cr)))

/-- The circuit `OmCreate(1, 3, 2, 1)` returns: three unconfigured branches, two unconfigured
meters. -/
def createdMetered : OmCir :=
  { numN := 1, numB := 3, numM := 2, numX := 0, numC := 0, timStp := 1
    vecBn1 := [-1, -1, -1], vecBn2 := [-1, -1, -1], vecMn1 := [-1, -1], vecMn2 := [-1, -1]
    matPa := [0, 0, 0, 0, 0, 0, 0, 0, 0], matPb := [0, 0, 0, 0, 0, 0, 0, 0, 0]
    vecBtm := [0, 0, 0], vecLut := [1, 1, 1]
    vecW1c := [0, 0, 0], vecW2c := [0, 0, 0], vecW1o := [0, 0, 0], vecW2o := [0, 0, 0]
    vecQa0 := [0, 0, 0], vecQs0 := [0, 0, 0]
    matC := [], matD := []
    vecW1m := [], vecW2m := [], vecW1s := [], vecW2s := []
    vecQa := [], vecQs := [], vecQtp := [], vecXm := [], vecXc := [] }

/-- A circuit on `createdMetered` with branch 1 configured twice (X1, then X2, each call
with another value in the unassigned local of `OmBran`), branch 2 configured as Y1 (with
`numB = 3` in the unassigned local), branch 3 left unconfigured, an ammeter on branch 1 and
a voltmeter from node 1 to ground. -/
def twiceConfigured : OmCir :=
  OmMetV (OmMetA (OmAddY (OmAddX
    (OmBran (OmBran (OmBran createdMetered 3 1 1 0 OMTYP_X1) 7 1 1 0 OMTYP_X2)
      3 2 1 0 OMTYP_Y1) 1 1) 2 1) 1 1) 2 1 0

/-! ## Invariants of the stamped states -/

/-- The number of branches below `i` that `OmStamp` keeps (levels other than X0 and Y0). -/
def keptBefore (vecBtm : List Int) (i : Int) : Int :=
  forLoop 0 i (fun j c => if isCut vecBtm j then c else c + 1) 0

/-- What the runtime operations keep of the state `OmStamp cr0`: the block sizes, the branch
types and the lookup table. -/
def RunInv (cr0 cr : OmCir) : Prop :=
  Stamped cr ∧ cr.numB = cr0.numB ∧ cr.vecBtm = cr0.vecBtm ∧
  cr.vecLut = (stampCut cr0).1 ∧ cr.numC = (stampCut cr0).2

/-- The slots of the kept branches that are not switches hold the weights `(0, 1)` in
`(vecW1s, vecW2s)`. -/
def SwInv (cr : OmCir) : Prop :=
  ∀ i : Int, 0 ≤ i → i < cr.numB → ¬ isCut cr.vecBtm i → ¬ isSw cr.vecBtm i →
    rd cr.vecW1s (rd cr.vecLut i) = 0 ∧ rd cr.vecW2s (rd cr.vecLut i) = 1

/-- The state `t` has the sizes, the reset blocks and the runtime matrices of `cr`, and its
runtime vectors have the lengths of those of `cr`. -/
def SameShape (cr t : OmCir) : Prop :=
  t.numB = cr.numB ∧ t.numM = cr.numM ∧ t.numC = cr.numC ∧
  t.vecBtm = cr.vecBtm ∧ t.vecLut = cr.vecLut ∧
  t.vecW1c = cr.vecW1c ∧ t.vecW2c = cr.vecW2c ∧
  t.vecW1o = cr.vecW1o ∧ t.vecW2o = cr.vecW2o ∧
  t.vecQa0 = cr.vecQa0 ∧ t.vecQs0 = cr.vecQs0 ∧
  t.matC = cr.matC ∧ t.matD = cr.matD ∧
  t.vecW1m.length = cr.vecW1m.length ∧ t.vecW2m.length = cr.vecW2m.length ∧
  t.vecW1s.length = cr.vecW1s.length ∧ t.vecW2s.length = cr.vecW2s.length ∧
  t.vecQa.length = cr.vecQa.length ∧ t.vecQs.length = cr.vecQs.length ∧
  t.vecQtp.length = cr.vecQtp.length ∧ t.vecXm.length = cr.vecXm.length ∧
  t.vecXc.length = cr.vecXc.length

/-- The values `OmReset` stores in the slot of the kept branch `k` (0-based). -/
def ResetSlot (cr t : OmCir) (k : Int) : Prop :=
  rd t.vecW1m (rd cr.vecLut k) = rd cr.vecW1o k ∧
  rd t.vecW2m (rd cr.vecLut k) = rd cr.vecW2o k ∧
  rd t.vecQa (rd cr.vecLut k) = rd cr.vecQa0 k ∧
  rd t.vecQs (rd cr.vecLut k) = rd cr.vecQs0 k ∧
  rd t.vecW1s (rd cr.vecLut k) = (if isSw cr.vecBtm k then rd cr.vecW1o k else 0) ∧
  rd t.vecW2s (rd cr.vecLut k) = (if isSw cr.vecBtm k then rd cr.vecW2o k else 1)

/-- The slot of every SW-type branch holds the same weights in `(vecW1m, vecW2m)` and in
`(vecW1s, vecW2s)`. -/
def SwEq (cr : OmCir) : Prop :=
  ∀ i : Int, 0 ≤ i → i < cr.numB → isSw cr.vecBtm i →
    rd cr.vecW1m (rd cr.vecLut i) = rd cr.vecW1s (rd cr.vecLut i) ∧
    rd cr.vecW2m (rd cr.vecLut i) = rd cr.vecW2s (rd cr.vecLut i)

/-! ## Evaluation of loads, stores and loops at literal indices -/

theorem rd_cons_zero {α : Type} [Zero α] (x : α) (l : List α) : rd (x :: l) 0 = x := by
  simp [rd]

theorem rd_nil {α : Type} [Zero α] (i : Int) : rd ([] : List α) i = 0 := by
  simp [rd]

theorem rd_cons_pos {α : Type} [Zero α] (x : α) (l : List α) (k : Int) (h : 0 < k) :
    rd (x :: l) k = rd l (k - 1) := by
  obtain ⟨n, rfl⟩ := Int.eq_ofNat_of_zero_le h.le
  cases n with
  | zero => simp at h
  | succ n =>
    have h1 : ¬ ((n : Int) + 1 < 0) := by omega
    have h2 : ¬ ((n : Int) < 0) := by omega
    have h3 : ((n : Int) + 1).toNat = n + 1 := by omega
    simp [rd, h1, h2, h3]

theorem wr_cons_zero {α : Type} (x v : α) (l : List α) : wr (x :: l) 0 v = v :: l := by
  simp [wr]

theorem wr_nil {α : Type} (v : α) (i : Int) : wr ([] : List α) i v = [] := by
  simp [wr]

theorem wr_cons_pos {α : Type} (x v : α) (l : List α) (k : Int) (h : 0 < k) :
    wr (x :: l) k v = x :: wr l (k - 1) v := by
  obtain ⟨n, rfl⟩ := Int.eq_ofNat_of_zero_le h.le
  cases n with
  | zero => simp at h
  | succ n =>
    have h1 : ¬ ((n : Int) + 1 < 0) := by omega
    have h2 : ¬ ((n : Int) < 0) := by omega
    have h3 : ((n : Int) + 1).toNat = n + 1 := by omega
    simp [wr, h1, h2, h3]

theorem forLoop_done {σ : Type} (lo hi : Int) (f : Int → σ → σ) (s : σ) (h : hi ≤ lo) :
    forLoop lo hi f s = s := by
  have h0 : (hi - lo).toNat = 0 := by omega
  simp [forLoop, h0, forUp]

theorem forLoop_step {σ : Type} (lo hi : Int) (f : Int → σ → σ) (s : σ) (h : lo < hi) :
    forLoop lo hi f s = f (hi - 1) (forLoop lo (hi - 1) f s) := by
  obtain ⟨n, hn⟩ : ∃ n : Nat, (hi - lo).toNat = n + 1 := ⟨(hi - lo).toNat - 1, by omega⟩
  have h2 : (hi - 1 - lo).toNat = n := by omega
  have h3 : lo + (n : Int) = hi - 1 := by omega
  simp [forLoop, hn, h2, forUp, h3]

theorem forDownLoop_done {σ : Type} (hi lo : Int) (f : Int → σ → σ) (s : σ) (h : hi < lo) :
    forDownLoop hi lo f s = s := by
  have h0 : (hi - lo + 1).toNat = 0 := by omega
  simp [forDownLoop, h0, forDown]

theorem forDownLoop_step {σ : Type} (hi lo : Int) (f : Int → σ → σ) (s : σ) (h : lo ≤ hi) :
    forDownLoop hi lo f s = f lo (forDownLoop hi (lo + 1) f s) := by
  obtain ⟨n, hn⟩ : ∃ n : Nat, (hi - lo + 1).toNat = n + 1 := ⟨(hi - lo + 1).toNat - 1, by omega⟩
  have h2 : (hi - (lo + 1) + 1).toNat = n := by omega
  have h3 : hi - (n : Int) = lo := by omega
  simp [forDownLoop, hn, h2, forDown, h3]

theorem OMMALLOC_nonpos {α : Type} [Zero α] (n : Int) (h : n ≤ 0) :
    (OMMALLOC n : List α) = [] := by
  have h0 : n.toNat = 0 := by omega
  simp [OMMALLOC, h0]

theorem OMMALLOC_pos {α : Type} [Zero α] (n : Int) (h : 0 < n) :
    (OMMALLOC n : List α) = 0 :: OMMALLOC (n - 1) := by
  obtain ⟨k, hk⟩ : ∃ k : Nat, n.toNat = k + 1 := ⟨n.toNat - 1, by omega⟩
  have h2 : (n - 1).toNat = k := by omega
  simp [OMMALLOC, hk, h2, List.replicate]

theorem OMABS_eq_abs {α : Type} [LinearOrderedRing α] (x : α) : OMABS x = |x| := by
  unfold OMABS
  split_ifs with h
  · exact (abs_of_neg h).symm
  · exact (abs_of_nonneg (not_lt.mp h)).symm

/-! ## The matrix inverse on a non-singular matrix -/

/-- C1 (code defect): the matrix with rows (2,2,0), (1,1,1), (0,1,1) is non-singular, yet
the LU elimination of `OmMatInv` meets the pivot `lu[1,1] = 0` (the row order is chosen on
the columns of the original matrix, not on the eliminated one), and the product of the
matrix with what `OmMatInv` leaves in place is not the identity. -/
theorem OmMatInv_misses_nonsingular :
    (toMatrix 3 [2, 2, 0, 1, 1, 1, 0, 1, 1]).det ≠ 0 ∧
    matInvPm 3 [2, 2, 0, 1, 1, 1, 0, 1, 1] = [0, 1, 2] ∧
    rd (matInvLU 3 (matInvCopy 3 [2, 2, 0, 1, 1, 1, 0, 1, 1] [0, 1, 2])) (1 * 3 + 1) = 0 ∧
    OmMatMul 3 (OMMALLOC 9) [2, 2, 0, 1, 1, 1, 0, 1, 1] (OmMatInv 3 [2, 2, 0, 1, 1, 1, 0, 1, 1])
      ≠ [1, 0, 0, 0, 1, 0, 0, 0, 1] := by
  refine ⟨?_, by decide!, by decide!, by decide!⟩
  rw [Matrix.det_fin_three]
  norm_num [toMatrix, rd_cons_zero, rd_cons_pos]

/-! ## `OmMatInv` on 2×2 matrices -/

theorem matInvPm_two (a b c d : ℚ) :
    matInvPm 2 [a, b, c, d] = if |a| < |c| then [1, 0] else [0, 1] := by
  have e0 : ∀ p q : List Int,
      (if 0 < |a| then (|a|, p) else ((0 : ℚ), q)) = (|a|, if 0 < |a| then p else q) := by
    intro p q
    split_ifs with h
    · rfl
    · have h0 : |a| = 0 := le_antisymm (not_lt.mp h) (abs_nonneg a)
      rw [h0]
  simp only [matInvPm, forLoop_done, forLoop_step, rd_cons_zero, rd_cons_pos,
      wr_cons_zero, wr_cons_pos, wr_nil, rd_nil, OMMALLOC_pos, OMMALLOC_nonpos, OMABS_eq_abs,
      Int.reduceSub, Int.reduceLT, Int.reduceLE, le_refl, Int.reduceMul, Int.reduceAdd, gt_iff_lt,
      zero_lt_one, Int.sub_self, zero_mul, zero_add, e0, ite_self]
  split_ifs with h <;>
  simp only [forLoop_done, forLoop_step, rd_cons_zero, rd_cons_pos,
      wr_cons_zero, wr_cons_pos, wr_nil, rd_nil,
      Int.reduceSub, Int.reduceLT, Int.reduceLE, le_refl, Int.reduceMul, Int.reduceAdd, gt_iff_lt,
      zero_lt_one, Int.sub_self, zero_mul, zero_add, e0, ite_self, one_mul]

theorem matInvCopy_two_id (a b c d : ℚ) : matInvCopy 2 [a, b, c, d] [0, 1] = [a, b, c, d] := by
  norm_num [matInvCopy, forLoop_done, forLoop_step, rd_cons_zero, rd_cons_pos,
      wr_cons_zero, wr_cons_pos, wr_nil, rd_nil, OMMALLOC_pos, OMMALLOC_nonpos]

theorem matInvCopy_two_swap (a b c d : ℚ) : matInvCopy 2 [a, b, c, d] [1, 0] = [c, d, a, b] := by
  norm_num [matInvCopy, forLoop_done, forLoop_step, rd_cons_zero, rd_cons_pos,
      wr_cons_zero, wr_cons_pos, wr_nil, rd_nil, OMMALLOC_pos, OMMALLOC_nonpos]

theorem matInvLU_two (p q r s : ℚ) :
    matInvLU 2 [p, q, r, s] = [p, q, r / p, s - r / p * q] := by
  norm_num [matInvLU, forLoop_done, forLoop_step, rd_cons_zero, rd_cons_pos,
      wr_cons_zero, wr_cons_pos, wr_nil, rd_nil]

theorem matInvTri_two (l0 l1 l2 l3 x0 x1 x2 x3 : ℚ) :
    matInvTri 2 [l0, l1, l2, l3] [x0, x1, x2, x3]
      = [1 / l0, -(l1 * (1 / l3)) / l0, -l2, 1 / l3] := by
  norm_num [matInvTri, forLoop_done, forLoop_step, forDownLoop_done, forDownLoop_step,
      rd_cons_zero, rd_cons_pos, wr_cons_zero, wr_cons_pos, wr_nil, rd_nil]

theorem matInvProd_two (t0 t1 t2 t3 y0 y1 y2 y3 : ℚ) :
    matInvProd 2 [t0, t1, t2, t3] [y0, y1, y2, y3] = [t0 + t1 * t2, t1, t3 * t2, t3] := by
  norm_num [matInvProd, forLoop_done, forLoop_step, rd_cons_zero, rd_cons_pos,
      wr_cons_zero, wr_cons_pos, wr_nil, rd_nil]

theorem matInvPerm_two_id (g0 g1 g2 g3 x0 x1 x2 x3 : ℚ) :
    matInvPerm 2 [0, 1] [g0, g1, g2, g3] [x0, x1, x2, x3] = [g0, g1, g2, g3] := by
  norm_num [matInvPerm, forLoop_done, forLoop_step, rd_cons_zero, rd_cons_pos,
      wr_cons_zero, wr_cons_pos, wr_nil, rd_nil]

theorem matInvPerm_two_swap (g0 g1 g2 g3 x0 x1 x2 x3 : ℚ) :
    matInvPerm 2 [1, 0] [g0, g1, g2, g3] [x0, x1, x2, x3] = [g1, g0, g3, g2] := by
  norm_num [matInvPerm, forLoop_done, forLoop_step, rd_cons_zero, rd_cons_pos,
      wr_cons_zero, wr_cons_pos, wr_nil, rd_nil]

/-- On a 2×2 matrix with non-zero determinant `OmMatInv` divides by non-zero pivots only and
leaves the inverse in place, whichever row the pivot ordering selects. -/
theorem OmMatInv_two (a b c d : ℚ) (hdet : a * d - b * c ≠ 0) :
    OmMatInv 2 [a, b, c, d]
      = [d / (a * d - b * c), -b / (a * d - b * c), -c / (a * d - b * c), a / (a * d - b * c)] := by
  unfold OmMatInv
  simp only [matInvPm_two]
  split_ifs with h
  · have hc : c ≠ 0 := by
      intro h0
      rw [h0, abs_zero] at h
      exact absurd h (not_lt.mpr (abs_nonneg a))
    have hdet2 : b * c - a * d ≠ 0 := by
      intro h0
      apply hdet
      linarith
    have hp : b - a / c * d = (b * c - a * d) / c := by
      field_simp
    simp only [matInvCopy_two_swap, matInvLU_two, matInvTri_two, matInvProd_two,
      matInvPerm_two_swap, hp]
    simp only [List.cons.injEq, and_true]
    refine ⟨?_, ?_, ?_, ?_⟩ <;> field_simp <;> ring
  · have ha : a ≠ 0 := by
      intro h0
      apply hdet
      have hc : c = 0 := by
        rw [h0, abs_zero] at h
        exact abs_eq_zero.mp (le_antisymm (not_lt.mp h) (abs_nonneg c))
      rw [h0, hc]
      ring
    have hp : d - c / a * b = (a * d - b * c) / a := by
      field_simp
      ring
    simp only [matInvCopy_two_id, matInvLU_two, matInvTri_two, matInvProd_two,
      matInvPerm_two_id, hp]
    simp only [List.cons.injEq, and_true]
    refine ⟨?_, ?_, ?_, ?_⟩ <;> field_simp <;> ring

/-! ## Ohm's law on a single branch -/

theorem ohmSetup_eq (b0 : Int) (dt VG R : ℚ) (hdt : 0 < dt) :
    ohmSetup b0 dt VG R = some (ohmPre dt VG R (-1)) := by
  have h : ¬ dt ≤ 0 := not_le.mpr hdt
  norm_num [ohmSetup, ohmPre, OmCreate, createInit, OmBran, OmAddV, OmAddX, h,
    incr, decr, OMTYP_X0, OMTYP_X1, OMTYP_X3, OMTYP_Y3, OMTYP_Y0, OMTYP_UN, OMTYP_SW,
    forLoop_done, forLoop_step, rd_cons_zero, rd_cons_pos,
    wr_cons_zero, wr_cons_pos, wr_nil, rd_nil, OMMALLOC_pos, OMMALLOC_nonpos, OMABS]

theorem ohmPre_metV (dt VG R : ℚ) : OmMetV (ohmPre dt VG R (-1)) 1 1 0 = ohmPre dt VG R 0 := by
  norm_num [ohmPre, OmMetV, wr_cons_zero]

theorem ohm_stampPn (dt VG R : ℚ) (mn1 : Int) :
    stampPn (ohmPre dt VG R mn1) = [0, 1, 1, -R] := by
  norm_num [ohmPre, stampPn, incr, decr,
    forLoop_done, forLoop_step, rd_cons_zero, rd_cons_pos,
    wr_cons_zero, wr_cons_pos, wr_nil, rd_nil, OMMALLOC_pos, OMMALLOC_nonpos]

theorem ohm_matInv (R : ℚ) : OmMatInv 2 [0, 1, 1, -R] = [R, 1, 1, 0] := by
  rw [OmMatInv_two 0 1 1 (-R) (by norm_num)]
  norm_num

theorem ohm_stamp (dt VG R : ℚ) (mn1 : Int) :
    OmStamp (ohmPre dt VG R mn1) = stampFinish (ohmPre dt VG R mn1) [R, 1, 1, 0] := by
  have h2 : (ohmPre dt VG R mn1).numN + (ohmPre dt VG R mn1).numX = 2 := by
    norm_num [ohmPre]
  rw [OmStamp, ohm_stampPn, h2, ohm_matInv]

/-- C2 (counterexample): with `dt = VG = R = 1` the single branch from node 1 to ground
carries `Xc = 0` after one `OmUpdCr`, not `-VG/R = -1`. -/
theorem ohm_xc_counterexample :
    (ohmCircuit 1 1 1 1).map (fun cr => OmGetXc (OmUpdCr cr) 1) ≠ some (-1 / 1) := by
  decide!

/-- C2 (amended): for every `VG` and every `R > 0` the single X1 branch with `V = VG` and
series resistance `R` between node 1 and ground yields `OmGetXc(1) = 0` after one `OmUpdCr`
from the initial state: node 1 has no other connection, so no current flows. -/
theorem ohm_xc_zero (b0 : Int) (dt VG R : ℚ) (hdt : 0 < dt) (_hR : 0 < R) :
    (ohmCircuit b0 dt VG R).map (fun cr => OmGetXc (OmUpdCr cr) 1) = some 0 := by
  rw [ohmCircuit, ohmSetup_eq b0 dt VG R hdt]
  simp only [Option.map_some', ohm_stamp]
  norm_num [ohmPre, stampFinish, OmGetXc, OmUpdCr, OmVecMul, OmVecFma,
    stampPtp, stampTtp, stampCtp, stampRtp, stampDtp, stampCut, stampC, stampD,
    OmReset, resetLoop, OmVecAdd, OmMatMul,
    incr, decr, OMTYP_X0, OMTYP_X1, OMTYP_X3, OMTYP_Y3, OMTYP_Y0, OMTYP_UN, OMTYP_SW,
    forLoop_done, forLoop_step, rd_cons_zero, rd_cons_pos,
    wr_cons_zero, wr_cons_pos, wr_nil, rd_nil, OMMALLOC_pos, OMMALLOC_nonpos, OMABS]

/-- Witness of `ohm_xc_zero` at `b0 = 1`, `dt = 1`, `VG = 10`, `R = 5`. -/
theorem ohm_xc_zero_witness :
    (0 : ℚ) < 1 ∧ (0 : ℚ) < 5 ∧
    (ohmCircuit 1 1 10 5).map (fun cr => OmGetXc (OmUpdCr cr) 1) = some 0 :=
  ⟨by norm_num, by norm_num, ohm_xc_zero 1 1 10 5 (by norm_num) (by norm_num)⟩

/-- C3: for every `VG` and every `R > 0`, in the single-branch circuit with the voltmeter
`OmMetV(1, 1, 0)` across the branch, the reading `OmGetMt(1)` after `OmStamp`, `OmUpdCr` and
`OmUpdMt` equals `VG`. -/
theorem ohm_voltmeter (b0 : Int) (dt VG R : ℚ) (hdt : 0 < dt) (_hR : 0 < R) :
    (ohmMeterCircuit b0 dt VG R).map (fun cr => OmGetMt (OmUpdMt (OmUpdCr cr)) 1) = some VG := by
  rw [ohmMeterCircuit, ohmSetup_eq b0 dt VG R hdt]
  simp only [Option.map_some', ohmPre_metV, ohm_stamp]
  norm_num [ohmPre, stampFinish, OmGetMt, OmUpdMt, OmUpdCr, OmVecMul, OmVecFma,
    stampPtp, stampTtp, stampCtp, stampRtp, stampDtp, stampCut, stampC, stampD,
    OmReset, resetLoop, OmVecAdd, OmMatMul,
    incr, decr, OMTYP_X0, OMTYP_X1, OMTYP_X3, OMTYP_Y3, OMTYP_Y0, OMTYP_UN, OMTYP_SW,
    forLoop_done, forLoop_step, rd_cons_zero, rd_cons_pos,
    wr_cons_zero, wr_cons_pos, wr_nil, rd_nil, OMMALLOC_pos, OMMALLOC_nonpos, OMABS]

/-- Witness of `ohm_voltmeter` at `b0 = 1`, `dt = 1`, `VG = 10`, `R = 5`. -/
theorem ohm_voltmeter_witness :
    (0 : ℚ) < 1 ∧ (0 : ℚ) < 5 ∧
    (ohmMeterCircuit 1 1 10 5).map (fun cr => OmGetMt (OmUpdMt (OmUpdCr cr)) 1) = some 10 :=
  ⟨by norm_num, by norm_num, ohm_voltmeter 1 1 10 5 (by norm_num) (by norm_num)⟩

/-! ## The boost-converter model of test 4 -/

theorem boostSetup_eq (b0 b1 : Int) (D : ℚ) :
    boostSetup b0 b1 D = some (boostPre D (wr [1, 0, 0, 0] (b1 + 1) 1)) := by
  norm_num [boostSetup, boostPre, OmCreate, createInit, OmBran, OmAddV, OmAddX, OmAddE, OmAddF,
    OmAddY, OmMetV,
    incr, decr, OMTYP_X0, OMTYP_X1, OMTYP_X3, OMTYP_Y3, OMTYP_Y0, OMTYP_UN, OMTYP_SW,
    forLoop_done, forLoop_step, rd_cons_zero, rd_cons_pos,
    wr_cons_zero, wr_cons_pos, wr_nil, rd_nil, OMMALLOC_pos, OMMALLOC_nonpos, OMABS]

theorem boost_stampPn (D : ℚ) (pa : List ℚ) :
    stampPn (boostPre D pa) = [1 / 100, D - 1, D - 1, -1] := by
  norm_num [boostPre, stampPn, incr, decr,
    forLoop_done, forLoop_step, rd_cons_zero, rd_cons_pos,
    wr_cons_zero, wr_cons_pos, wr_nil, rd_nil, OMMALLOC_pos, OMMALLOC_nonpos]

theorem boost_reading (D : ℚ) (pa : List ℚ) (p0 p1 p2 p3 : ℚ) :
    OmGetMt (OmUpdMt (stampFinish (boostPre D pa) [p0, p1, p2, p3])) 1 = -(p1 * 100) := by
  norm_num [boostPre, stampFinish, OmGetMt, OmUpdMt, OmVecMul,
    stampPtp, stampTtp, stampCtp, stampRtp, stampDtp, stampCut, stampC, stampD,
    OmReset, resetLoop, OmVecAdd, OmMatMul,
    incr, decr, OMTYP_X0, OMTYP_X1, OMTYP_X3, OMTYP_Y3, OMTYP_Y0, OMTYP_UN, OMTYP_SW,
    forLoop_done, forLoop_step, rd_cons_zero, rd_cons_pos,
    wr_cons_zero, wr_cons_pos, wr_nil, rd_nil, OMMALLOC_pos, OMMALLOC_nonpos, OMABS]

theorem length_wr {α : Type} (a : List α) (i : Int) (v : α) : (wr a i v).length = a.length := by
  unfold wr
  split_ifs <;> simp

theorem rd_wr {α : Type} [Zero α] (a : List α) (i j : Int) (v : α) :
    rd (wr a i v) j = if j = i ∧ 0 ≤ i ∧ i < a.length then v else rd a j := by
  unfold rd wr
  by_cases hi : i < 0
  · have h1 : ¬ (j = i ∧ 0 ≤ i ∧ i < a.length) := by omega
    simp [hi, h1]
  · by_cases hj : j < 0
    · have h1 : ¬ (j = i ∧ 0 ≤ i ∧ i < a.length) := by omega
      simp [hi, hj, h1]
    · simp only [hi, hj, if_false, List.getD_eq_getElem?_getD, List.getElem?_set]
      by_cases hij : j = i
      · subst hij
        by_cases hl : j < a.length
        · have h2 : j.toNat < a.length := by omega
          have h3 : 0 ≤ j := by omega
          simp [hl, h2, h3]
        · have h2 : ¬ j.toNat < a.length := by omega
          have h3 : a.length ≤ j.toNat := by omega
          simp [hl, h2, List.getElem?_eq_none h3]
      · have h2 : i.toNat ≠ j.toNat := by omega
        simp [hij, h2]

theorem rd_wr_same {α : Type} [Zero α] (a : List α) (i : Int) (v : α) (h0 : 0 ≤ i)
    (h1 : i < a.length) : rd (wr a i v) i = v := by
  rw [rd_wr]
  simp [h0, h1]

theorem rd_wr_ne {α : Type} [Zero α] (a : List α) (i j : Int) (v : α) (h : j ≠ i) :
    rd (wr a i v) j = rd a j := by
  rw [rd_wr]
  simp [h]

theorem length_OMMALLOC {α : Type} [Zero α] (n : Int) :
    (OMMALLOC n : List α).length = n.toNat := by
  simp [OMMALLOC]

theorem forUp_induct {σ : Type} (P : Nat → σ → Prop) (lo : Int) (f : Int → σ → σ) (s : σ)
    (n : Nat) (h0 : P 0 s)
    (hs : ∀ (k : Nat) (t : σ), k < n → P k t → P (k + 1) (f (lo + k) t)) :
    P n (forUp n lo f s) := by
  induction n with
  | zero => exact h0
  | succ n ih =>
    exact hs n _ (Nat.lt_succ_self n)
      (ih (fun k t hk hP => hs k t (Nat.lt_succ_of_lt hk) hP))

/-- Loop invariant rule for `for (i = lo; i < hi; ++i)`. -/
theorem forLoop_induct {σ : Type} (P : Int → σ → Prop) (lo hi : Int) (hle : lo ≤ hi)
    (f : Int → σ → σ) (s : σ) (h0 : P lo s)
    (hs : ∀ (i : Int) (t : σ), lo ≤ i → i < hi → P i t → P (i + 1) (f i t)) :
    P hi (forLoop lo hi f s) := by
  have key := forUp_induct (fun k t => P (lo + k) t) lo f s (hi - lo).toNat
    (by simpa using h0)
    (fun k t hk hP => by
      have h1 : lo + ((k + 1 : Nat) : Int) = lo + k + 1 := by push_cast; ring
      show P (lo + ((k + 1 : Nat) : Int)) (f (lo + k) t)
      rw [h1]
      exact hs (lo + k) t (by omega) (by omega) hP)
  have h2 : lo + ((hi - lo).toNat : Int) = hi := by omega
  have key2 : P (lo + ((hi - lo).toNat : Int)) (forUp (hi - lo).toNat lo f s) := key
  rw [h2] at key2
  exact key2

/-- A property that every iteration keeps holds after the loop. -/
theorem forLoop_keep {σ : Type} (P : σ → Prop) (lo hi : Int) (f : Int → σ → σ) (s : σ)
    (h0 : P s) (hs : ∀ (i : Int) (t : σ), lo ≤ i → i < hi → P t → P (f i t)) :
    P (forLoop lo hi f s) := by
  by_cases hle : lo ≤ hi
  · exact forLoop_induct (fun _ t => P t) lo hi hle f s h0 hs
  · rw [forLoop_done lo hi f s (by omega)]
    exact h0

/-- The accumulation loop `sum = 0; for (j = 0; j < n; ++j) sum += g j`. -/
theorem forLoop_sum (n : Int) (g : Int → ℚ) :
    forLoop 0 n (fun j sum => sum + g j) 0 = ∑ j in Finset.range n.toNat, g j := by
  unfold forLoop
  simp only [sub_zero]
  induction n.toNat with
  | zero => simp [forUp]
  | succ k ih => simp [forUp, ih, Finset.sum_range_succ]

/-- A loop that stores to cell `i` a value computed from the old cell `i` only. -/
theorem forLoop_pointwise (m : Int) (h : Int → ℚ → ℚ) (y : List ℚ) :
    (forLoop 0 m (fun i y => wr y i (h i (rd y i))) y).length = y.length ∧
    ∀ k : Int, rd (forLoop 0 m (fun i y => wr y i (h i (rd y i))) y) k
      = if 0 ≤ k ∧ k < m ∧ k < y.length then h k (rd y k) else rd y k := by
  by_cases hm : 0 ≤ m
  · have key := forLoop_induct
      (fun (i : Int) (t : List ℚ) => t.length = y.length ∧
        ∀ k : Int, rd t k = if 0 ≤ k ∧ k < i ∧ k < y.length then h k (rd y k) else rd y k)
      0 m hm (fun i y => wr y i (h i (rd y i))) y
      ⟨rfl, fun k => by
        have h1 : ¬ (0 ≤ k ∧ k < 0 ∧ k < (y.length : Int)) := by omega
        simp [h1]⟩
      (fun i t hi0 _ hP => by
        obtain ⟨hl, hv⟩ := hP
        refine ⟨by rw [length_wr, hl], fun k => ?_⟩
        rw [rd_wr, hl]
        by_cases hki : k = i
        · subst hki
          by_cases hlen : k < (y.length : Int)
          · have h1 : (0 ≤ k ∧ k < k + 1 ∧ k < (y.length : Int)) := by omega
            have h2 : ¬ (0 ≤ k ∧ k < k ∧ k < (y.length : Int)) := by omega
            have h3 := hv k
            rw [if_neg h2] at h3
            simp [hi0, hlen, h1, h3]
          · have h1 : ¬ (0 ≤ k ∧ k < k + 1 ∧ k < (y.length : Int)) := by omega
            have h2 : ¬ (0 ≤ k ∧ k < k ∧ k < (y.length : Int)) := by omega
            have h3 := hv k
            rw [if_neg h2] at h3
            simp [hlen, h1, h3]
        · rw [if_neg (by tauto), hv k]
          by_cases hc : 0 ≤ k ∧ k < i ∧ k < (y.length : Int)
          · have h1 : 0 ≤ k ∧ k < i + 1 ∧ k < (y.length : Int) := by omega
            rw [if_pos hc, if_pos h1]
          · have h1 : ¬ (0 ≤ k ∧ k < i + 1 ∧ k < (y.length : Int)) := by omega
            rw [if_neg hc, if_neg h1])
    exact key
  · rw [forLoop_done 0 m _ y (by omega)]
    refine ⟨rfl, fun k => ?_⟩
    have h1 : ¬ (0 ≤ k ∧ k < m ∧ k < (y.length : Int)) := by omega
    simp [h1]

theorem OmVecAdd_length (m : Int) (z x y : List ℚ) : (OmVecAdd m z x y).length = z.length :=
  (forLoop_pointwise m (fun i _ => rd x i + rd y i) z).1

theorem OmVecAdd_rd (m : Int) (z x y : List ℚ) (k : Int) (h0 : 0 ≤ k) (h1 : k < m)
    (h2 : k < z.length) : rd (OmVecAdd m z x y) k = rd x k + rd y k := by
  have h := (forLoop_pointwise m (fun i _ => rd x i + rd y i) z).2 k
  rw [if_pos ⟨h0, h1, h2⟩] at h
  exact h

theorem OmVecFma_length (m : Int) (y w1 x w2 : List ℚ) :
    (OmVecFma m y w1 x w2).length = y.length :=
  (forLoop_pointwise m (fun i v => rd w1 i * rd x i + rd w2 i * v) y).1

theorem OmVecFma_rd (m : Int) (y w1 x w2 : List ℚ) (k : Int) (h0 : 0 ≤ k) (h1 : k < m)
    (h2 : k < y.length) :
    rd (OmVecFma m y w1 x w2) k = rd w1 k * rd x k + rd w2 k * rd y k := by
  have h := (forLoop_pointwise m (fun i v => rd w1 i * rd x i + rd w2 i * v) y).2 k
  rw [if_pos ⟨h0, h1, h2⟩] at h
  exact h

theorem OmVecMul_length (m n : Int) (y a x : List ℚ) : (OmVecMul m n y a x).length = y.length :=
  (forLoop_pointwise m
    (fun i _ => forLoop 0 n (fun j sum => sum + rd a (i * n + j) * rd x j) 0) y).1

theorem OmVecMul_rd (m n : Int) (y a x : List ℚ) (k : Int) (h0 : 0 ≤ k) (h1 : k < m)
    (h2 : k < y.length) :
    rd (OmVecMul m n y a x) k = ∑ j in Finset.range n.toNat, rd a (k * n + j) * rd x j := by
  have h := (forLoop_pointwise m
    (fun i _ => forLoop 0 n (fun j sum => sum + rd a (i * n + j) * rd x j) 0) y).2 k
  rw [if_pos ⟨h0, h1, h2⟩] at h
  rw [← forLoop_sum n (fun j => rd a (k * n + j) * rd x j)]
  exact h

/-! ## The update step `OmUpdCr` -/

/-- C6: `OmUpdCr` on a stamped circuit produces `Qtp' = Qa + Qs`, `Xc' = C·Qtp'` and, for
every slot `k < numC`, `Qa'[k] = W1m[k]·Xc'[k] + W2m[k]·Qa[k]`; `Qs`, the weights, `C`, `D`
and `Xm` are unchanged. -/
theorem OmUpdCr_spec (cr : OmCir) (h : Stamped cr) :
    (∀ k : Int, 0 ≤ k → k < cr.numC →
      rd (OmUpdCr cr).vecQtp k = rd cr.vecQa k + rd cr.vecQs k ∧
      rd (OmUpdCr cr).vecXc k
        = ∑ j in Finset.range cr.numC.toNat,
            rd cr.matC (k * cr.numC + j) * rd (OmUpdCr cr).vecQtp j ∧
      rd (OmUpdCr cr).vecQa k
        = rd cr.vecW1m k * rd (OmUpdCr cr).vecXc k + rd cr.vecW2m k * rd cr.vecQa k) ∧
    (OmUpdCr cr).vecQs = cr.vecQs ∧
    (OmUpdCr cr).vecW1m = cr.vecW1m ∧ (OmUpdCr cr).vecW2m = cr.vecW2m ∧
    (OmUpdCr cr).vecW1s = cr.vecW1s ∧ (OmUpdCr cr).vecW2s = cr.vecW2s ∧
    (OmUpdCr cr).matC = cr.matC ∧ (OmUpdCr cr).matD = cr.matD ∧
    (OmUpdCr cr).vecXm = cr.vecXm := by
  obtain ⟨_, _, _, _, _, _, _, _, _, _, _, _, _, _, _, _, _, hQa, _, hQtp, _, hXc⟩ := h
  refine ⟨fun k h0 h1 => ⟨?_, ?_, ?_⟩, rfl, rfl, rfl, rfl, rfl, rfl, rfl, rfl⟩
  · exact OmVecAdd_rd cr.numC cr.vecQtp cr.vecQa cr.vecQs k h0 h1 (by omega)
  · exact OmVecMul_rd cr.numC cr.numC cr.vecXc cr.matC _ k h0 h1 (by omega)
  · exact OmVecFma_rd cr.numC cr.vecQa cr.vecW1m _ cr.vecW2m k h0 h1 (by omega)

/-- Witness of `OmUpdCr_spec` on the stamped circuit of test 6, at slot 1. -/
theorem OmUpdCr_spec_witness :
    Stamped switchStamped ∧
    rd (OmUpdCr switchStamped).vecQa 1
      = rd switchStamped.vecW1m 1 * rd (OmUpdCr switchStamped).vecXc 1
        + rd switchStamped.vecW2m 1 * rd switchStamped.vecQa 1 :=
  ⟨by decide!, ((OmUpdCr_spec switchStamped (by decide!)).1 1 (by decide) (by decide!)).2.2⟩

/-! ## Block sizes of a circuit under construction -/

/-- Function `OmCreate` allocates the setup blocks with the sizes of `Setup`. -/
theorem Setup_OmCreate (n b m : Int) (stp : ℚ) (cr : OmCir)
    (h : OmCreate n b m stp = some cr) : Setup cr := by
  unfold OmCreate at h
  split_ifs at h with hneg
  have hb : 0 ≤ b := by
    by_contra hc
    exact hneg (Or.inr (Or.inl (by omega)))
  have hm : 0 ≤ m := by
    by_contra hc
    exact hneg (Or.inr (Or.inr (Or.inl (by omega))))
  simp only [Option.some.injEq] at h
  rw [← h]
  unfold createInit
  refine (forLoop_keep (fun (t : OmCir) => t.numB = b ∧ t.numM = m ∧ Setup t) 0 m _ _ ?_ ?_).2.2
  · refine forLoop_keep (fun (t : OmCir) => t.numB = b ∧ t.numM = m ∧ Setup t) 0 b _ _ ?_ ?_
    · simp [Setup, length_OMMALLOC, hb, hm]
    · intro i t _ _ ht
      have h2 : (fun (t : OmCir) => t.numB = b ∧ t.numM = m ∧ Setup t)
          (forLoop 0 b (fun j (cir : OmCir) =>
            { cir with
              matPa := wr cir.matPa (i * b + j) 0
              matPb := wr cir.matPb (i * b + j) 0 }) t) := by
        refine forLoop_keep (fun (t : OmCir) => t.numB = b ∧ t.numM = m ∧ Setup t) 0 b _ _ ht ?_
        intro j u _ _ hu
        obtain ⟨u1, u2, u3⟩ := hu
        unfold Setup at u3 ⊢
        simp only [length_wr]
        exact ⟨u1, u2, u3⟩
      obtain ⟨u1, u2, u3⟩ := h2
      unfold Setup at u3 ⊢
      simp only [length_wr]
      exact ⟨u1, u2, u3⟩
  · intro i t _ _ ht
    obtain ⟨u1, u2, u3⟩ := ht
    unfold Setup at u3 ⊢
    simp only [length_wr]
    exact ⟨u1, u2, u3⟩

theorem Setup_OmBran (cr : OmCir) (b br n1 n2 tm : Int) (h : Setup cr) :
    Setup (OmBran cr b br n1 n2 tm) := by
  unfold Setup at h
  unfold OmBran
  dsimp only
  split_ifs <;> (unfold Setup; simp only [length_wr]; exact h)

theorem Setup_OmMetV (cr : OmCir) (mt n1 n2 : Int) (h : Setup cr) :
    Setup (OmMetV cr mt n1 n2) := by
  unfold Setup at h ⊢
  simp only [OmMetV, length_wr]
  exact h

theorem Setup_OmAddX (cr : OmCir) (bx : Int) (res : ℚ) (h : Setup cr) :
    Setup (OmAddX cr bx res) := by
  unfold Setup at h ⊢
  simp only [OmAddX, incr, length_wr]
  exact h

theorem Setup_OmAddV (cr : OmCir) (bx : Int) (vol : ℚ) (h : Setup cr) :
    Setup (OmAddV cr bx vol) := by
  unfold Setup at h ⊢
  simp only [OmAddV, incr, length_wr]
  exact h

theorem Setup_OmAddS (cr : OmCir) (bs : Int) (k1 k2 ysw ron : ℚ) (h : Setup cr) :
    Setup (OmAddS cr bs k1 k2 ysw ron) := by
  unfold Setup at h ⊢
  simp only [OmAddS, incr, length_wr]
  exact h

/-! ## The lookup table after cutting -/

theorem keptBefore_zero (vecBtm : List Int) : keptBefore vecBtm 0 = 0 := by
  unfold keptBefore
  exact forLoop_done 0 0 _ 0 (le_refl 0)

theorem keptBefore_succ (vecBtm : List Int) (i : Int) (h : 0 ≤ i) :
    keptBefore vecBtm (i + 1)
      = if isCut vecBtm i then keptBefore vecBtm i else keptBefore vecBtm i + 1 := by
  unfold keptBefore
  rw [forLoop_step 0 (i + 1) _ 0 (by omega)]
  simp only [add_sub_cancel_right]

theorem keptBefore_le_add (vecBtm : List Int) (i : Int) (h : 0 ≤ i) (n : Nat) :
    keptBefore vecBtm i ≤ keptBefore vecBtm (i + n) := by
  induction n with
  | zero => simp
  | succ n ih =>
    have h1 : i + ((n + 1 : Nat) : Int) = i + n + 1 := by push_cast; ring
    rw [h1, keptBefore_succ vecBtm (i + n) (by omega)]
    split_ifs <;> omega

theorem keptBefore_mono (vecBtm : List Int) (i j : Int) (h : 0 ≤ i) (hij : i ≤ j) :
    keptBefore vecBtm i ≤ keptBefore vecBtm j := by
  have h1 := keptBefore_le_add vecBtm i h (j - i).toNat
  have h2 : i + ((j - i).toNat : Int) = j := by omega
  rw [h2] at h1
  exact h1

theorem keptBefore_nonneg (vecBtm : List Int) (i : Int) (h : 0 ≤ i) :
    0 ≤ keptBefore vecBtm i := by
  have h1 := keptBefore_mono vecBtm 0 i (le_refl 0) h
  rw [keptBefore_zero] at h1
  exact h1

theorem keptBefore_lt (vecBtm : List Int) (i j : Int) (h : 0 ≤ i) (hij : i < j)
    (hk : ¬ isCut vecBtm i) : keptBefore vecBtm i < keptBefore vecBtm j := by
  have h1 := keptBefore_mono vecBtm (i + 1) j (by omega) (by omega)
  rw [keptBefore_succ vecBtm i h, if_neg hk] at h1
  omega

/-- Step 3 of `OmStamp`: a cut branch gets `-1`, a kept branch the number of kept branches
before it, and the count is the number of kept branches. -/
theorem stampCut_spec (cr : OmCir) (hb : 0 ≤ cr.numB) (hl : cr.vecLut.length = cr.numB.toNat) :
    (stampCut cr).1.length = cr.numB.toNat ∧
    (stampCut cr).2 = keptBefore cr.vecBtm cr.numB ∧
    ∀ k : Int, 0 ≤ k → k < cr.numB →
      rd (stampCut cr).1 k = if isCut cr.vecBtm k then -1 else keptBefore cr.vecBtm k := by
  unfold stampCut
  refine forLoop_induct
    (fun (i : Int) (st : List Int × Int) =>
      st.1.length = cr.numB.toNat ∧ st.2 = keptBefore cr.vecBtm i ∧
      ∀ k : Int, 0 ≤ k → k < i →
        rd st.1 k = if isCut cr.vecBtm k then -1 else keptBefore cr.vecBtm k)
    0 cr.numB hb _ _ ⟨hl, (keptBefore_zero _).symm, fun k h0 h1 => by omega⟩ ?_
  intro i st hi0 hib ⟨hlen, hc, hv⟩
  have hcut : (OMABS (rd cr.vecBtm i) = OMTYP_X0 ∨ OMABS (rd cr.vecBtm i) = OMTYP_Y0)
      ↔ isCut cr.vecBtm i := Iff.rfl
  by_cases hci : isCut cr.vecBtm i
  · simp only [hcut, hci, if_true]
    refine ⟨by rw [length_wr, hlen], ?_, fun k h0 h1 => ?_⟩
    · rw [keptBefore_succ _ i hi0, if_pos hci, hc]
    · rw [rd_wr]
      by_cases hki : k = i
      · subst hki
        have h2 : k < (st.1.length : Int) := by omega
        simp [h0, h2, hci]
      · rw [if_neg (by tauto)]
        exact hv k h0 (by omega)
  · simp only [hcut, hci, if_false]
    refine ⟨by rw [length_wr, hlen], ?_, fun k h0 h1 => ?_⟩
    · rw [keptBefore_succ _ i hi0, if_neg hci, hc]
    · rw [rd_wr]
      by_cases hki : k = i
      · subst hki
        have h2 : k < (st.1.length : Int) := by omega
        simp [h0, h2, hci, hc]
      · rw [if_neg (by tauto)]
        exact hv k h0 (by omega)

theorem setup_lut (cr : OmCir) (hs : Setup cr) : cr.vecLut.length = cr.numB.toNat := by
  unfold Setup at hs
  tauto

theorem lut_cut (cr0 : OmCir) (hs : Setup cr0) (k : Int) (h0 : 0 ≤ k) (h1 : k < cr0.numB)
    (hc : isCut cr0.vecBtm k) : rd (stampCut cr0).1 k = -1 := by
  have h := (stampCut_spec cr0 hs.1 (setup_lut cr0 hs)).2.2 k h0 h1
  rw [if_pos hc] at h
  exact h

theorem lut_kept (cr0 : OmCir) (hs : Setup cr0) (k : Int) (h0 : 0 ≤ k) (h1 : k < cr0.numB)
    (hc : ¬ isCut cr0.vecBtm k) :
    rd (stampCut cr0).1 k = keptBefore cr0.vecBtm k ∧
    0 ≤ rd (stampCut cr0).1 k ∧ rd (stampCut cr0).1 k < (stampCut cr0).2 := by
  obtain ⟨_, h2, h3⟩ := stampCut_spec cr0 hs.1 (setup_lut cr0 hs)
  have h := h3 k h0 h1
  rw [if_neg hc] at h
  rw [h, h2]
  exact ⟨rfl, keptBefore_nonneg _ k h0, keptBefore_lt _ k _ h0 h1 hc⟩

theorem lut_inj (cr0 : OmCir) (hs : Setup cr0) (i j : Int) (hi0 : 0 ≤ i) (hi1 : i < cr0.numB)
    (hj0 : 0 ≤ j) (hj1 : j < cr0.numB) (hci : ¬ isCut cr0.vecBtm i)
    (hcj : ¬ isCut cr0.vecBtm j) (he : rd (stampCut cr0).1 i = rd (stampCut cr0).1 j) :
    i = j := by
  rw [(lut_kept cr0 hs i hi0 hi1 hci).1, (lut_kept cr0 hs j hj0 hj1 hcj).1] at he
  rcases lt_trichotomy i j with h | h | h
  · have := keptBefore_lt cr0.vecBtm i j hi0 h hci
    omega
  · exact h
  · have := keptBefore_lt cr0.vecBtm j i hj0 h hcj
    omega

/-! ## What the runtime operations keep -/

theorem SameShape_refl (cr : OmCir) : SameShape cr cr := by
  unfold SameShape
  simp

theorem SameShape_trans (a b c : OmCir) (h1 : SameShape a b) (h2 : SameShape b c) :
    SameShape a c := by
  unfold SameShape at *
  obtain ⟨a1, a2, a3, a4, a5, a6, a7, a8, a9, a10, a11, a12, a13, a14, a15, a16, a17, a18,
    a19, a20, a21, a22⟩ := h1
  obtain ⟨b1, b2, b3, b4, b5, b6, b7, b8, b9, b10, b11, b12, b13, b14, b15, b16, b17, b18,
    b19, b20, b21, b22⟩ := h2
  exact ⟨b1.trans a1, b2.trans a2, b3.trans a3, b4.trans a4, b5.trans a5, b6.trans a6,
    b7.trans a7, b8.trans a8, b9.trans a9, b10.trans a10, b11.trans a11, b12.trans a12,
    b13.trans a13, b14.trans a14, b15.trans a15, b16.trans a16, b17.trans a17, b18.trans a18,
    b19.trans a19, b20.trans a20, b21.trans a21, b22.trans a22⟩

theorem Stamped_of_SameShape (cr t : OmCir) (h : Stamped cr) (hs : SameShape cr t) :
    Stamped t := by
  unfold SameShape at hs
  obtain ⟨a1, a2, a3, a4, a5, a6, a7, a8, a9, a10, a11, a12, a13, a14, a15, a16, a17, a18,
    a19, a20, a21, a22⟩ := hs
  unfold Stamped at *
  rw [a1, a2, a3, a4, a5, a6, a7, a8, a9, a10, a11, a12, a13, a14, a15, a16, a17, a18,
    a19, a20, a21, a22]
  exact h

theorem RunInv_of_SameShape (cr0 cr t : OmCir) (h : RunInv cr0 cr) (hs : SameShape cr t) :
    RunInv cr0 t := by
  obtain ⟨h1, h2, h3, h4, h5⟩ := h
  refine ⟨Stamped_of_SameShape cr t h1 hs, ?_, ?_, ?_, ?_⟩
  · exact hs.1.trans h2
  · exact hs.2.2.2.1.trans h3
  · exact hs.2.2.2.2.1.trans h4
  · exact hs.2.2.1.trans h5

theorem SameShape_OmUpdSw (cr : OmCir) : SameShape cr (OmUpdSw cr) := by
  simp [SameShape, OmUpdSw, OmVecAdd_length, OmVecMul_length, OmVecFma_length]

theorem SameShape_OmUpdCr (cr : OmCir) : SameShape cr (OmUpdCr cr) := by
  simp [SameShape, OmUpdCr, OmVecAdd_length, OmVecMul_length, OmVecFma_length]

theorem SameShape_OmUpdMt (cr : OmCir) : SameShape cr (OmUpdMt cr) := by
  simp [SameShape, OmUpdMt, OmVecMul_length]

theorem SameShape_OmSetQs (cr : OmCir) (br : Int) (x : ℚ) : SameShape cr (OmSetQs cr br x) := by
  by_cases h : rd cr.vecLut (br - 1) < 0 <;> simp [OmSetQs, h, SameShape, length_wr]

theorem SameShape_OmSetSw (cr : OmCir) (br s : Int) : SameShape cr (OmSetSw cr br s) := by
  by_cases h : rd cr.vecLut (br - 1) < 0 <;> simp [OmSetSw, h, SameShape, length_wr]

theorem SameShape_resetLoop (cr : OmCir) : SameShape cr (resetLoop cr) := by
  unfold resetLoop
  refine forLoop_keep (fun t => SameShape cr t) 0 cr.numB _ cr (SameShape_refl cr) ?_
  intro i t _ _ ht
  refine SameShape_trans cr t _ ht ?_
  by_cases h : rd t.vecLut i < 0 <;> by_cases h2 : OMABS (rd t.vecBtm i) = OMTYP_SW <;>
    simp [h, h2, SameShape, length_wr]

theorem SameShape_OmReset (cr : OmCir) : SameShape cr (OmReset cr) := by
  refine SameShape_trans cr (resetLoop cr) _ (SameShape_resetLoop cr) ?_
  simp [OmReset, SameShape, OmVecAdd_length]

/-! ## The lookup table and the reset values in a stamped circuit -/

theorem runInv_lut_cut (cr0 cr : OmCir) (hs : Setup cr0) (hr : RunInv cr0 cr) (k : Int)
    (h0 : 0 ≤ k) (h1 : k < cr.numB) (hc : isCut cr.vecBtm k) : rd cr.vecLut k = -1 := by
  obtain ⟨_, hB, hBt, hL, _⟩ := hr
  rw [hL]
  rw [hBt] at hc
  rw [hB] at h1
  exact lut_cut cr0 hs k h0 h1 hc

theorem runInv_lut_kept (cr0 cr : OmCir) (hs : Setup cr0) (hr : RunInv cr0 cr) (k : Int)
    (h0 : 0 ≤ k) (h1 : k < cr.numB) (hc : ¬ isCut cr.vecBtm k) :
    0 ≤ rd cr.vecLut k ∧ rd cr.vecLut k < cr.numC := by
  obtain ⟨_, hB, hBt, hL, hC⟩ := hr
  rw [hL, hC]
  rw [hBt] at hc
  rw [hB] at h1
  exact (lut_kept cr0 hs k h0 h1 hc).2

theorem runInv_lut_inj (cr0 cr : OmCir) (hs : Setup cr0) (hr : RunInv cr0 cr) (i j : Int)
    (hi0 : 0 ≤ i) (hi1 : i < cr.numB) (hj0 : 0 ≤ j) (hj1 : j < cr.numB)
    (hci : ¬ isCut cr.vecBtm i) (hcj : ¬ isCut cr.vecBtm j)
    (he : rd cr.vecLut i = rd cr.vecLut j) : i = j := by
  obtain ⟨_, hB, hBt, hL, _⟩ := hr
  rw [hL] at he
  rw [hBt] at hci hcj
  rw [hB] at hi1 hj1
  exact lut_inj cr0 hs i j hi0 hi1 hj0 hj1 hci hcj he

/-- After the loop of `OmReset`, the slot of every kept branch holds its reset values. -/
theorem resetLoop_slots (cr0 cr : OmCir) (hs : Setup cr0) (hr : RunInv cr0 cr) :
    ∀ k : Int, 0 ≤ k → k < cr.numB → ¬ isCut cr.vecBtm k → ResetSlot cr (resetLoop cr) k := by
  have hst : Stamped cr := hr.1
  have hnb : 0 ≤ cr.numB := hst.1
  unfold resetLoop
  refine (forLoop_induct
    (fun (i : Int) (t : OmCir) => SameShape cr t ∧
      ∀ k : Int, 0 ≤ k → k < i → ¬ isCut cr.vecBtm k → ResetSlot cr t k)
    0 cr.numB hnb _ cr ⟨SameShape_refl cr, fun k h0 h1 => by omega⟩ ?_).2
  intro i t hi0 hib hP
  obtain ⟨hsh, hv⟩ := hP
  have esh := hsh
  unfold SameShape at esh
  obtain ⟨_, _, _, e4, e5, _, _, e8, e9, e10, e11, _, _, e14, e15, e16, e17, e18, e19, _, _,
    _⟩ := esh
  unfold Stamped at hst
  obtain ⟨_, _, _, _, _, _, _, _, _, _, _, _, _, l14, l15, l16, l17, l18, l19, _, _, _⟩ := hst
  by_cases hci : isCut cr.vecBtm i
  · have hl : rd t.vecLut i < 0 := by
      rw [e5, runInv_lut_cut cr0 cr hs hr i hi0 hib hci]
      decide
    simp only [hl, if_true]
    refine ⟨hsh, fun k h0 h1 hk => hv k h0 ?_ hk⟩
    have hne : k ≠ i := fun h => hk (h ▸ hci)
    omega
  · obtain ⟨hl0, hl1⟩ := runInv_lut_kept cr0 cr hs hr i hi0 hib hci
    have hl : ¬ rd t.vecLut i < 0 := by
      rw [e5]
      omega
    have hne : ∀ k : Int, 0 ≤ k → k < i → ¬ isCut cr.vecBtm k →
        rd cr.vecLut k ≠ rd cr.vecLut i := by
      intro k h0 h1 hk he
      have := runInv_lut_inj cr0 cr hs hr k i h0 (by omega) hi0 hib hk hci he
      omega
    by_cases hsw : isSw cr.vecBtm i
    · have hsw2 : OMABS (rd t.vecBtm i) = OMTYP_SW := by
        rw [e4]
        exact hsw
      simp only [hl, hsw2, if_true, if_false]
      refine ⟨SameShape_trans cr t _ hsh (by simp [SameShape, length_wr]), ?_⟩
      intro k h0 h1 hk
      unfold ResetSlot
      simp only [e5, e8, e9, e10, e11]
      by_cases hki : k = i
      · subst hki
        simp only [hsw, if_true]
        exact ⟨rd_wr_same _ _ _ hl0 (by omega), rd_wr_same _ _ _ hl0 (by omega),
          rd_wr_same _ _ _ hl0 (by omega), rd_wr_same _ _ _ hl0 (by omega),
          rd_wr_same _ _ _ hl0 (by omega), rd_wr_same _ _ _ hl0 (by omega)⟩
      · have hn := hne k h0 (by omega) hk
        obtain ⟨s1, s2, s3, s4, s5, s6⟩ := hv k h0 (by omega) hk
        simp only [rd_wr_ne _ _ _ _ hn]
        exact ⟨s1, s2, s3, s4, s5, s6⟩
    · have hsw2 : ¬ OMABS (rd t.vecBtm i) = OMTYP_SW := by
        rw [e4]
        exact hsw
      simp only [hl, hsw2, if_true, if_false]
      refine ⟨SameShape_trans cr t _ hsh (by simp [SameShape, length_wr]), ?_⟩
      intro k h0 h1 hk
      unfold ResetSlot
      simp only [e5, e8, e9, e10, e11]
      by_cases hki : k = i
      · subst hki
        simp only [hsw, if_false]
        exact ⟨rd_wr_same _ _ _ hl0 (by omega), rd_wr_same _ _ _ hl0 (by omega),
          rd_wr_same _ _ _ hl0 (by omega), rd_wr_same _ _ _ hl0 (by omega),
          rd_wr_same _ _ _ hl0 (by omega), rd_wr_same _ _ _ hl0 (by omega)⟩
      · have hn := hne k h0 (by omega) hk
        obtain ⟨s1, s2, s3, s4, s5, s6⟩ := hv k h0 (by omega) hk
        simp only [rd_wr_ne _ _ _ _ hn]
        exact ⟨s1, s2, s3, s4, s5, s6⟩

theorem OmReset_slots (cr0 cr : OmCir) (hs : Setup cr0) (hr : RunInv cr0 cr) :
    ∀ k : Int, 0 ≤ k → k < cr.numB → ¬ isCut cr.vecBtm k → ResetSlot cr (OmReset cr) k :=
  resetLoop_slots cr0 cr hs hr

/-! ## Invariants of the reachable states -/

theorem stampD_length (m b c : Int) (vecLut : List Int) (matDtp : List ℚ) :
    (stampD m b c vecLut matDtp).length = (m * c).toNat := by
  unfold stampD
  refine forLoop_keep (fun (t : List ℚ) => t.length = (m * c).toNat) 0 m _ _
    (length_OMMALLOC _) ?_
  intro i t _ _ ht
  refine forLoop_keep (fun (st : List ℚ × Int) => st.1.length = (m * c).toNat) 0 b _ (t, 0)
    ht ?_
  intro j st _ _ hst
  by_cases h : rd vecLut j < 0 <;> simp [h, length_wr, hst]

theorem stampC_length (b c : Int) (vecLut : List Int) (matCtp : List ℚ) :
    (stampC b c vecLut matCtp).length = (c * c).toNat := by
  unfold stampC
  refine forLoop_keep (fun (st : List ℚ × Int) => st.1.length = (c * c).toNat) 0 b _
    (OMMALLOC (c * c), 0) (length_OMMALLOC _) ?_
  intro i st _ _ hst
  by_cases h : rd vecLut i < 0
  · simp [h, hst]
  · simp only [h, if_false]
    refine forLoop_keep (fun (s2 : List ℚ × Int) => s2.1.length = (c * c).toNat) 0 b _
      (st.1, 0) hst ?_
    intro j s2 _ _ hs2
    by_cases h2 : rd vecLut j < 0 <;> simp [h2, length_wr, hs2]

/-- The state built by `OmStamp` has the allocated sizes and the lookup table of the cut
step. -/
theorem RunInv_stampFinish (cr0 : OmCir) (hs : Setup cr0) (matPn : List ℚ) :
    RunInv cr0 (stampFinish cr0 matPn) ∧
    ∀ k : Int, 0 ≤ k → k < cr0.numB → ¬ isCut cr0.vecBtm k →
      ResetSlot (stampFinish cr0 matPn) (stampFinish cr0 matPn) k := by
  have hs2 := hs
  unfold Setup at hs2
  obtain ⟨hb, hm, _, _, _, _, _, _, hbtm, hlut, h1c, h2c, h1o, h2o, hqa, hqs⟩ := hs2
  obtain ⟨c1, c2, _⟩ := stampCut_spec cr0 hb hlut
  have hc0 : 0 ≤ (stampCut cr0).2 := by
    rw [c2]
    exact keptBefore_nonneg _ _ hb
  unfold stampFinish
  simp only []
  generalize hrec : ({ cr0 with
    vecBn1 := [], vecBn2 := [], vecMn1 := [], vecMn2 := [], matPa := [], matPb := []
    vecLut := (stampCut cr0).1
    numC := (stampCut cr0).2
    matC := stampC cr0.numB (stampCut cr0).2 (stampCut cr0).1
      (stampCtp cr0 (stampTtp cr0 (stampPtp cr0 matPn)))
    matD := stampD cr0.numM cr0.numB (stampCut cr0).2 (stampCut cr0).1
      (stampDtp cr0 (stampPtp cr0 matPn) (stampRtp cr0 (stampTtp cr0 (stampPtp cr0 matPn))))
    vecW1m := OMMALLOC (stampCut cr0).2, vecW2m := OMMALLOC (stampCut cr0).2
    vecW1s := OMMALLOC (stampCut cr0).2, vecW2s := OMMALLOC (stampCut cr0).2
    vecQa := OMMALLOC (stampCut cr0).2, vecQs := OMMALLOC (stampCut cr0).2
    vecQtp := OMMALLOC (stampCut cr0).2
    vecXm := OMMALLOC cr0.numM, vecXc := OMMALLOC (stampCut cr0).2 } : OmCir) = rec
  have hr : RunInv cr0 rec := by
    subst hrec
    refine ⟨?_, rfl, rfl, rfl, rfl⟩
    unfold Stamped
    exact ⟨hb, hm, hc0, hbtm, c1, h1c, h2c, h1o, h2o, hqa, hqs, stampC_length _ _ _ _,
      stampD_length _ _ _ _ _, length_OMMALLOC _, length_OMMALLOC _, length_OMMALLOC _,
      length_OMMALLOC _, length_OMMALLOC _, length_OMMALLOC _, length_OMMALLOC _,
      length_OMMALLOC _, length_OMMALLOC _⟩
  have hsh := SameShape_OmReset rec
  refine ⟨RunInv_of_SameShape cr0 rec _ hr hsh, ?_⟩
  intro k h0 h1 hk
  have hB : rec.numB = cr0.numB := hr.2.1
  have hBt : rec.vecBtm = cr0.vecBtm := hr.2.2.1
  have hsl := OmReset_slots cr0 rec hs hr k h0 (by rw [hB]; exact h1) (by rw [hBt]; exact hk)
  unfold SameShape at hsh
  obtain ⟨_, _, _, e4, e5, _, _, e8, e9, e10, e11, _⟩ := hsh
  unfold ResetSlot at *
  rw [e4, e5, e8, e9, e10, e11]
  exact hsl

/-- Every reachable state keeps the sizes, the branch types and the lookup table. -/
theorem reach_runInv (ok : OmCir → Int → Prop) (cr0 cr : OmCir) (hs : Setup cr0)
    (h : Reach ok cr0 cr) : RunInv cr0 cr := by
  induction h with
  | stamp => exact (RunInv_stampFinish cr0 hs _).1
  | reset _ ih => exact RunInv_of_SameShape cr0 _ _ ih (SameShape_OmReset _)
  | updSw _ ih => exact RunInv_of_SameShape cr0 _ _ ih (SameShape_OmUpdSw _)
  | updCr _ ih => exact RunInv_of_SameShape cr0 _ _ ih (SameShape_OmUpdCr _)
  | updMt _ ih => exact RunInv_of_SameShape cr0 _ _ ih (SameShape_OmUpdMt _)
  | setQs br x _ ih => exact RunInv_of_SameShape cr0 _ _ ih (SameShape_OmSetQs _ br x)
  | setSw br s _ _ ih => exact RunInv_of_SameShape cr0 _ _ ih (SameShape_OmSetSw _ br s)

theorem SwInv_of_slots (cr t : OmCir) (hsh : SameShape cr t)
    (h : ∀ k : Int, 0 ≤ k → k < cr.numB → ¬ isCut cr.vecBtm k → ResetSlot cr t k) :
    SwInv t := by
  unfold SameShape at hsh
  obtain ⟨e1, _, _, e4, e5, _⟩ := hsh
  intro i h0 h1 hk hsw
  rw [e1] at h1
  rw [e4] at hk hsw
  obtain ⟨_, _, _, _, s5, s6⟩ := h i h0 h1 hk
  rw [if_neg hsw] at s5 s6
  rw [e5]
  exact ⟨s5, s6⟩

/-- In every state reached with `OmSetSw` applied to SW-type branches only, the slot of a
kept branch that is not a switch holds `W1s = 0` and `W2s = 1`. -/
theorem reach_swInv (cr0 cr : OmCir) (hs : Setup cr0) (h : Reach swBranch cr0 cr) :
    SwInv cr := by
  induction h with
  | stamp =>
    obtain ⟨_, h2⟩ := RunInv_stampFinish cr0 hs (OmMatInv (cr0.numN + cr0.numX) (stampPn cr0))
    have hr := reach_runInv swBranch cr0 _ hs Reach.stamp
    refine SwInv_of_slots (OmStamp cr0) (OmStamp cr0) (SameShape_refl _) ?_
    intro k h0 h1 hk
    rw [hr.2.1] at h1
    rw [hr.2.2.1] at hk
    exact h2 k h0 h1 hk
  | @reset cr hre _ =>
    have hr := reach_runInv swBranch cr0 cr hs hre
    exact SwInv_of_slots cr (OmReset cr) (SameShape_OmReset cr) (OmReset_slots cr0 cr hs hr)
  | updSw _ ih => exact ih
  | updCr _ ih => exact ih
  | updMt _ ih => exact ih
  | @setQs cr br x _ ih =>
    by_cases hl : rd cr.vecLut (br - 1) < 0
    · simpa [OmSetQs, hl] using ih
    · intro i h0 h1 hk hsw
      have h1' : i < cr.numB := by simpa [OmSetQs, hl] using h1
      have hk' : ¬ isCut cr.vecBtm i := by simpa [OmSetQs, hl] using hk
      have hsw' : ¬ isSw cr.vecBtm i := by simpa [OmSetQs, hl] using hsw
      have h3 := ih i h0 h1' hk' hsw'
      simpa [OmSetQs, hl] using h3
  | @setSw cr br s hre hok ih =>
    have hr := reach_runInv swBranch cr0 cr hs hre
    by_cases hl : rd cr.vecLut (br - 1) < 0
    · simpa [OmSetSw, hl] using ih
    · obtain ⟨hb1, hb2, hbsw⟩ := hok
      have hkept : ¬ isCut cr.vecBtm (br - 1) := by
        intro hc
        have := runInv_lut_cut cr0 cr hs hr (br - 1) (by omega) (by omega) hc
        omega
      intro i h0 h1 hk hsw
      have h1' : i < cr.numB := by simpa [OmSetSw, hl] using h1
      have hk' : ¬ isCut cr.vecBtm i := by simpa [OmSetSw, hl] using hk
      have hsw' : ¬ isSw cr.vecBtm i := by simpa [OmSetSw, hl] using hsw
      have hne : rd cr.vecLut i ≠ rd cr.vecLut (br - 1) := by
        intro he
        have hij := runInv_lut_inj cr0 cr hs hr i (br - 1) h0 h1' (by omega) (by omega)
          hk' hkept he
        rw [hij] at hsw'
        exact hsw' hbsw
      obtain ⟨s1, s2⟩ := ih i h0 h1' hk' hsw'
      simp only [OmSetSw, hl, if_false]
      rw [rd_wr_ne _ _ _ _ hne, rd_wr_ne _ _ _ _ hne]
      exact ⟨s1, s2⟩

/-! ## Switch idempotence, `OmSetSw`, and cut branches -/

/-- C7: in every stamped state reached from `OmStamp` by `OmReset`, `OmUpdCr`, `OmUpdSw`,
`OmUpdMt`, `OmSetQs` and `OmSetSw` applied to SW-type branches only, one call of `OmUpdSw`
leaves `Qa[Lut[i]]` unchanged for every kept branch `i` whose level is not SW. -/
theorem OmUpdSw_fixes_nonswitch (cr0 cr : OmCir) (hs : Setup cr0) (h : Reach swBranch cr0 cr)
    (i : Int) (h0 : 0 ≤ i) (h1 : i < cr0.numB) (hk : ¬ isCut cr0.vecBtm i)
    (hsw : ¬ isSw cr0.vecBtm i) :
    (OmUpdSw cr).vecLut = cr.vecLut ∧
    rd (OmUpdSw cr).vecQa (rd cr.vecLut i) = rd cr.vecQa (rd cr.vecLut i) := by
  have hr := reach_runInv swBranch cr0 cr hs h
  have hinv := reach_swInv cr0 cr hs h
  have hst := hr.1
  have hB := hr.2.1
  have hBt := hr.2.2.1
  rw [← hB] at h1
  rw [← hBt] at hk hsw
  obtain ⟨hl0, hl1⟩ := runInv_lut_kept cr0 cr hs hr (i) h0 h1 hk
  obtain ⟨s1, s2⟩ := hinv i h0 h1 hk hsw
  have hlen : cr.vecQa.length = cr.numC.toNat := by
    unfold Stamped at hst
    tauto
  refine ⟨rfl, ?_⟩
  have hf := OmVecFma_rd cr.numC cr.vecQa cr.vecW1s (OmUpdSw cr).vecXc cr.vecW2s
    (rd cr.vecLut i) hl0 hl1 (by omega)
  have he : (OmUpdSw cr).vecQa
      = OmVecFma cr.numC cr.vecQa cr.vecW1s (OmUpdSw cr).vecXc cr.vecW2s := rfl
  rw [he, hf, s1, s2]
  ring

/-- Witness of `OmUpdSw_fixes_nonswitch`: the circuit of test 6 after `OmSetSw(2, 1)`, at its
X1 branch (index 0). -/
theorem OmUpdSw_fixes_nonswitch_witness :
    Setup (switchPre [1, 0, 0, 1]) ∧
    Reach swBranch (switchPre [1, 0, 0, 1]) (OmSetSw (OmStamp (switchPre [1, 0, 0, 1])) 2 1) ∧
    (0 : Int) < (switchPre [1, 0, 0, 1]).numB ∧
    ¬ isCut (switchPre [1, 0, 0, 1]).vecBtm 0 ∧ ¬ isSw (switchPre [1, 0, 0, 1]).vecBtm 0 ∧
    rd (OmUpdSw (OmSetSw (OmStamp (switchPre [1, 0, 0, 1])) 2 1)).vecQa
        (rd (OmSetSw (OmStamp (switchPre [1, 0, 0, 1])) 2 1).vecLut 0)
      = rd (OmSetSw (OmStamp (switchPre [1, 0, 0, 1])) 2 1).vecQa
        (rd (OmSetSw (OmStamp (switchPre [1, 0, 0, 1])) 2 1).vecLut 0) :=
  have hr : Reach swBranch (switchPre [1, 0, 0, 1])
      (OmSetSw (OmStamp (switchPre [1, 0, 0, 1])) 2 1) :=
    Reach.setSw 2 1 Reach.stamp ⟨by decide, by decide!, by decide!⟩
  ⟨by decide!, hr, by decide!, by decide!, by decide!,
    (OmUpdSw_fixes_nonswitch (switchPre [1, 0, 0, 1]) _ (by decide!) hr 0 (le_refl 0)
      (by decide!) (by decide!) (by decide!)).2⟩

/-- C8 (counterexample): on the stamped circuit of test 6, `OmSetSw(cr, 2, 2)` (kept branch,
`s = 2 ≠ 1`) writes the closed pair `(W1c, W2c)`, which differs from the open pair. -/
theorem OmSetSw_two_counterexample :
    0 ≤ rd switchStamped.vecLut (2 - 1) ∧ (2 : Int) ≠ 1 ∧
    rd (OmSetSw switchStamped 2 2).vecW1m (rd switchStamped.vecLut (2 - 1))
      = rd switchStamped.vecW1c (2 - 1) ∧
    rd (OmSetSw switchStamped 2 2).vecW1m (rd switchStamped.vecLut (2 - 1))
      ≠ rd switchStamped.vecW1o (2 - 1) := by
  decide!

/-- C8 (amended): for every kept branch `br` and every integer `s`, `OmSetSw(cr, br, s)`
writes the open pair `(W1o[br-1], W2o[br-1])` into both `(W1m, W2m)` and `(W1s, W2s)` at slot
`Lut[br-1]` if `s = 0`, and otherwise (for every `s ≠ 0`) writes the closed pair
`(W1c[br-1], W2c[br-1])`. -/
theorem OmSetSw_spec (cr0 cr : OmCir) (hs : Setup cr0) (h : Reach anyBranch cr0 cr)
    (br s : Int) (h1 : 1 ≤ br) (h2 : br ≤ cr0.numB) (hk : ¬ isCut cr0.vecBtm (br - 1)) :
    rd (OmSetSw cr br s).vecW1m (rd cr.vecLut (br - 1))
      = (if s = 0 then rd cr.vecW1o (br - 1) else rd cr.vecW1c (br - 1)) ∧
    rd (OmSetSw cr br s).vecW2m (rd cr.vecLut (br - 1))
      = (if s = 0 then rd cr.vecW2o (br - 1) else rd cr.vecW2c (br - 1)) ∧
    rd (OmSetSw cr br s).vecW1s (rd cr.vecLut (br - 1))
      = (if s = 0 then rd cr.vecW1o (br - 1) else rd cr.vecW1c (br - 1)) ∧
    rd (OmSetSw cr br s).vecW2s (rd cr.vecLut (br - 1))
      = (if s = 0 then rd cr.vecW2o (br - 1) else rd cr.vecW2c (br - 1)) := by
  have hr := reach_runInv anyBranch cr0 cr hs h
  have hst := hr.1
  have hB := hr.2.1
  have hBt := hr.2.2.1
  rw [← hB] at h2
  rw [← hBt] at hk
  obtain ⟨hl0, hl1⟩ := runInv_lut_kept cr0 cr hs hr (br - 1) (by omega) (by omega) hk
  have hl : ¬ rd cr.vecLut (br - 1) < 0 := by omega
  unfold Stamped at hst
  obtain ⟨_, _, _, _, _, _, _, _, _, _, _, _, _, l14, l15, l16, l17, _⟩ := hst
  simp only [OmSetSw, hl, if_false]
  have e1 := rd_wr_same cr.vecW1m (rd cr.vecLut (br - 1))
    (if s = 0 then rd cr.vecW1o (br - 1) else rd cr.vecW1c (br - 1)) hl0 (by omega)
  have e2 := rd_wr_same cr.vecW2m (rd cr.vecLut (br - 1))
    (if s = 0 then rd cr.vecW2o (br - 1) else rd cr.vecW2c (br - 1)) hl0 (by omega)
  refine ⟨e1, e2, ?_, ?_⟩
  · rw [e1]
    exact rd_wr_same _ _ _ hl0 (by omega)
  · rw [e2]
    exact rd_wr_same _ _ _ hl0 (by omega)

/-- Witness of `OmSetSw_spec`: the switch branch 2 of the circuit of test 6, `s = 2`. -/
theorem OmSetSw_spec_witness :
    Setup (switchPre [1, 0, 0, 1]) ∧
    Reach anyBranch (switchPre [1, 0, 0, 1]) (OmStamp (switchPre [1, 0, 0, 1])) ∧
    (1 : Int) ≤ 2 ∧ (2 : Int) ≤ (switchPre [1, 0, 0, 1]).numB ∧
    ¬ isCut (switchPre [1, 0, 0, 1]).vecBtm (2 - 1) ∧
    rd (OmSetSw (OmStamp (switchPre [1, 0, 0, 1])) 2 2).vecW1s
        (rd (OmStamp (switchPre [1, 0, 0, 1])).vecLut (2 - 1))
      = (if (2 : Int) = 0 then rd (OmStamp (switchPre [1, 0, 0, 1])).vecW1o (2 - 1)
          else rd (OmStamp (switchPre [1, 0, 0, 1])).vecW1c (2 - 1)) :=
  ⟨by decide!, Reach.stamp, by decide, by decide!, by decide!,
    (OmSetSw_spec (switchPre [1, 0, 0, 1]) _ (by decide!) Reach.stamp 2 2 (by decide)
      (by decide!) (by decide!)).2.2.1⟩

/-- C9: after `OmStamp`, and after any further runtime operations, `OmGetXc(cr, br)` returns
0 for every branch `br` configured with level X0 or Y0, whatever the sign of `tm`. -/
theorem OmGetXc_cut (cr0 cr : OmCir) (hs : Setup cr0) (h : Reach anyBranch cr0 cr)
    (br : Int) (h1 : 1 ≤ br) (h2 : br ≤ cr0.numB) (hc : isCut cr0.vecBtm (br - 1)) :
    OmGetXc cr br = 0 := by
  have hr := reach_runInv anyBranch cr0 cr hs h
  have hB := hr.2.1
  have hBt := hr.2.2.1
  rw [← hB] at h2
  rw [← hBt] at hc
  have hl := runInv_lut_cut cr0 cr hs hr (br - 1) (by omega) (by omega) hc
  simp [OmGetXc, hl]

/-- Witness of `OmGetXc_cut`: the Y0 branch 2 of the circuit of test 4 (`D = 1/2`) after
`OmStamp`, `OmSetQs(1, 3)` and `OmUpdCr`. -/
theorem OmGetXc_cut_witness :
    Setup (boostPre (1 / 2) [1, 0, 0, 1]) ∧
    Reach anyBranch (boostPre (1 / 2) [1, 0, 0, 1])
      (OmUpdCr (OmSetQs (OmStamp (boostPre (1 / 2) [1, 0, 0, 1])) 1 3)) ∧
    (1 : Int) ≤ 2 ∧ (2 : Int) ≤ (boostPre (1 / 2) [1, 0, 0, 1]).numB ∧
    isCut (boostPre (1 / 2) [1, 0, 0, 1]).vecBtm (2 - 1) ∧
    OmGetXc (OmUpdCr (OmSetQs (OmStamp (boostPre (1 / 2) [1, 0, 0, 1])) 1 3)) 2 = 0 :=
  have hr : Reach anyBranch (boostPre (1 / 2) [1, 0, 0, 1])
      (OmUpdCr (OmSetQs (OmStamp (boostPre (1 / 2) [1, 0, 0, 1])) 1 3)) :=
    Reach.updCr (Reach.setQs 1 3 Reach.stamp)
  ⟨by decide!, hr, by decide, by decide!, by decide!,
    OmGetXc_cut (boostPre (1 / 2) [1, 0, 0, 1]) _ (by decide!) hr 2 (by decide) (by decide!)
      (by decide!)⟩

/-- C10: for every stamped circuit, every cut (X0/Y0) branch `br` and every value `x`,
`OmSetQs(cr, br, x)` leaves the entire circuit state unchanged, so every later `OmGetXc` and
`OmGetMt` result is the same as if the call had not been made. -/
theorem OmSetQs_cut (cr0 cr : OmCir) (hs : Setup cr0) (h : Reach anyBranch cr0 cr)
    (br : Int) (x : ℚ) (h1 : 1 ≤ br) (h2 : br ≤ cr0.numB) (hc : isCut cr0.vecBtm (br - 1)) :
    OmSetQs cr br x = cr := by
  have hr := reach_runInv anyBranch cr0 cr hs h
  have hB := hr.2.1
  have hBt := hr.2.2.1
  rw [← hB] at h2
  rw [← hBt] at hc
  have hl := runInv_lut_cut cr0 cr hs hr (br - 1) (by omega) (by omega) hc
  simp [OmSetQs, hl]

/-- Witness of `OmSetQs_cut`: the Y0 branch 2 of the circuit of test 4 (`D = 1/2`) after
`OmStamp`, with `x = 7`. -/
theorem OmSetQs_cut_witness :
    Setup (boostPre (1 / 2) [1, 0, 0, 1]) ∧
    Reach anyBranch (boostPre (1 / 2) [1, 0, 0, 1]) (OmStamp (boostPre (1 / 2) [1, 0, 0, 1])) ∧
    (1 : Int) ≤ 2 ∧ (2 : Int) ≤ (boostPre (1 / 2) [1, 0, 0, 1]).numB ∧
    isCut (boostPre (1 / 2) [1, 0, 0, 1]).vecBtm (2 - 1) ∧
    OmSetQs (OmStamp (boostPre (1 / 2) [1, 0, 0, 1])) 2 7
      = OmStamp (boostPre (1 / 2) [1, 0, 0, 1]) :=
  ⟨by decide!, Reach.stamp, by decide, by decide!, by decide!,
    OmSetQs_cut (boostPre (1 / 2) [1, 0, 0, 1]) _ (by decide!) Reach.stamp 2 7 (by decide)
      (by decide!) (by decide!)⟩

/-! ## The switch pulse of test 6 -/

theorem switchSetup_eq (b0 b1 : Int) :
    switchSetup b0 b1 = some (switchPre (wr [1, 0, 0, 0] (b1 + 1) 1)) := by
  norm_num [switchSetup, switchPre, OmCreate, createInit, OmBran, OmAddV, OmAddX, OmAddS,
    incr, decr, OMTYP_X0, OMTYP_X1, OMTYP_X3, OMTYP_Y3, OMTYP_Y0, OMTYP_UN, OMTYP_SW,
    forLoop_done, forLoop_step, rd_cons_zero, rd_cons_pos,
    wr_cons_zero, wr_cons_pos, wr_nil, rd_nil, OMMALLOC_pos, OMMALLOC_nonpos, OMABS]

/-- When both `OmBran` calls find `numB = 2` in their unassigned local, test 6 stamps to
`switchStamped`. -/
theorem switchCircuit_numB : switchCircuit 2 2 = some switchStamped := by
  decide!

/-- With `matPa` as `OmBran` is documented to leave it (unit diagonal), the steady states of
test 6 are those the specification states: a vector `Qa = [q0, q1]` that `OmUpdCr` leaves unchanged
gives `-OmGetXc(1) = VG/R = 1/10` and `OmGetXc(2) = 0` with the switch closed, and
`OmGetXc(1) = 0` with the switch open. -/
theorem switch_pulse_steady_numB (q0 q1 : ℚ) :
    ((OmUpdCr { OmSetSw switchStamped 2 1 with vecQa := [q0, q1] }).vecQa = [q0, q1] →
      -OmGetXc (OmUpdCr { OmSetSw switchStamped 2 1 with vecQa := [q0, q1] }) 1 = 1 / 10 ∧
      OmGetXc (OmUpdCr { OmSetSw switchStamped 2 1 with vecQa := [q0, q1] }) 2 = 0) ∧
    ((OmUpdCr { OmSetSw switchStamped 2 0 with vecQa := [q0, q1] }).vecQa = [q0, q1] →
      OmGetXc (OmUpdCr { OmSetSw switchStamped 2 0 with vecQa := [q0, q1] }) 1 = 0) := by
  have hS : switchStamped =
      { numN := 1, numB := 2, numM := 0, numX := 1, numC := 2, timStp := 1 / 1000000
        vecBn1 := [], vecBn2 := [], vecMn1 := [], vecMn2 := [], matPa := [], matPb := []
        vecBtm := [2, 9], vecLut := [0, 1]
        vecW1c := [0, 2929 / 5000000], vecW2c := [0, 1]
        vecW1o := [0, -10049399 / 100000000000], vecW2o := [0, 6569 / 10000]
        vecQa0 := [0, 0], vecQs0 := [100, 0]
        matC := [-2929 / 12929000, -10000 / 12929, 10000 / 12929, -10000000 / 12929]
        matD := []
        vecW1m := [0, -10049399 / 100000000000], vecW2m := [0, 6569 / 10000]
        vecW1s := [0, -10049399 / 100000000000], vecW2s := [1, 6569 / 10000]
        vecQa := [0, 0], vecQs := [100, 0], vecQtp := [100, 0], vecXm := [], vecXc := [0, 0] } := by
    decide!
  rw [hS]
  constructor
  · intro h
    norm_num [OmSetSw, OmUpdCr, OmGetXc, OmVecAdd, OmVecMul, OmVecFma,
      forLoop_done, forLoop_step, rd_cons_zero, rd_cons_pos,
      wr_cons_zero, wr_cons_pos, wr_nil, rd_nil] at h ⊢
    obtain ⟨h1, h2⟩ := h
    constructor <;> linarith
  · intro h
    norm_num [OmSetSw, OmUpdCr, OmGetXc, OmVecAdd, OmVecMul, OmVecFma,
      forLoop_done, forLoop_step, rd_cons_zero, rd_cons_pos,
      wr_cons_zero, wr_cons_pos, wr_nil, rd_nil] at h ⊢
    obtain ⟨h1, h2⟩ := h
    linarith

/-- C5 (code defect): in the call sequence of test 6, `OmBran(cr, 2, 1, 0, OMTYP_SW)` indexes
`matPa` with its unassigned local `b`.  When that local holds 0 instead of `numB = 2` the
store stays inside the block `matPa` and sets `Pa[0,1]` instead of `Pa[1,1]`, so that
`matPa = [1, 1, 0, 0]` before `OmStamp`; after `OmStamp` the vector `Qa = [0, 0]` is left
unchanged by `OmUpdCr` in both switch states: with the switch closed
`-OmGetXc(1) = -1428153/18470`, not `VG/R = 1/10`, and with the switch open
`OmGetXc(1) = 1428153/18470`, not 0. -/
theorem switch_pulse_unassigned_b :
    branStoreInBlock 2 2 1 OMTYP_X1 ∧ branStoreInBlock 2 0 2 OMTYP_SW ∧
    (switchSetup 2 0).map (fun cr => cr.matPa) = some [1, 1, 0, 0] ∧
    (switchCircuit 2 0).map (fun cr =>
      ((OmSetSw cr 2 1).vecQa, (OmUpdCr (OmSetSw cr 2 1)).vecQa,
        -OmGetXc (OmUpdCr (OmSetSw cr 2 1)) 1))
      = some ([0, 0], [0, 0], -1428153 / 18470) ∧
    (switchCircuit 2 0).map (fun cr =>
      ((OmSetSw cr 2 0).vecQa, (OmUpdCr (OmSetSw cr 2 0)).vecQa,
        OmGetXc (OmUpdCr (OmSetSw cr 2 0)) 1))
      = some ([0, 0], [0, 0], 1428153 / 18470) := by
  refine ⟨by decide, by decide, by decide!, by decide!, by decide!⟩

/-! ## `OmSetQs` on a kept branch, `OmReset` and `OmUpdMt` -/

/-- C11: for every stamped circuit, every kept branch `br` and every `x`, `OmSetQs(cr, br, x)`
sets `Qs[Lut[br-1]] = x` and changes nothing else: every other slot of `Qs` keeps its value,
and the state is the old one with only the block `vecQs` replaced, so `Qa`, `Qtp`, `Xc`, `Xm`,
the weights, `C` and `D` are unchanged. -/
theorem OmSetQs_kept (cr0 cr : OmCir) (hs : Setup cr0) (h : Reach anyBranch cr0 cr)
    (br : Int) (x : ℚ) (h1 : 1 ≤ br) (h2 : br ≤ cr0.numB) (hk : ¬ isCut cr0.vecBtm (br - 1)) :
    rd (OmSetQs cr br x).vecQs (rd cr.vecLut (br - 1)) = x ∧
    (∀ k : Int, k ≠ rd cr.vecLut (br - 1) → rd (OmSetQs cr br x).vecQs k = rd cr.vecQs k) ∧
    (OmSetQs cr br x).vecQs.length = cr.vecQs.length ∧
    OmSetQs cr br x = { cr with vecQs := (OmSetQs cr br x).vecQs } := by
  have hr := reach_runInv anyBranch cr0 cr hs h
  have hst := hr.1
  have hB := hr.2.1
  have hBt := hr.2.2.1
  rw [← hB] at h2
  rw [← hBt] at hk
  obtain ⟨hl0, hl1⟩ := runInv_lut_kept cr0 cr hs hr (br - 1) (by omega) (by omega) hk
  have hl : ¬ rd cr.vecLut (br - 1) < 0 := by omega
  unfold Stamped at hst
  have l19 : cr.vecQs.length = cr.numC.toNat := by tauto
  simp only [OmSetQs, hl, if_false]
  exact ⟨rd_wr_same _ _ _ hl0 (by omega), fun k hne => rd_wr_ne _ _ _ _ hne, length_wr _ _ _,
    trivial⟩

/-- Witness of `OmSetQs_kept`: the X1 branch 1 of the circuit of test 4 (`D = 1/2`) after
`OmStamp`, with `x = 7`. -/
theorem OmSetQs_kept_witness :
    Setup (boostPre (1 / 2) [1, 0, 0, 1]) ∧
    Reach anyBranch (boostPre (1 / 2) [1, 0, 0, 1]) (OmStamp (boostPre (1 / 2) [1, 0, 0, 1])) ∧
    (1 : Int) ≤ 1 ∧ (1 : Int) ≤ (boostPre (1 / 2) [1, 0, 0, 1]).numB ∧
    ¬ isCut (boostPre (1 / 2) [1, 0, 0, 1]).vecBtm (1 - 1) ∧
    rd (OmSetQs (OmStamp (boostPre (1 / 2) [1, 0, 0, 1])) 1 7).vecQs
      (rd (OmStamp (boostPre (1 / 2) [1, 0, 0, 1])).vecLut (1 - 1)) = 7 :=
  ⟨by decide!, Reach.stamp, by decide, by decide!, by decide!,
    (OmSetQs_kept (boostPre (1 / 2) [1, 0, 0, 1]) _ (by decide!) Reach.stamp 1 7 (by decide)
      (by decide!) (by decide!)).1⟩

/-- C12: after `OmReset` on a stamped circuit, for every kept branch `i` (0-based) with slot
`k = Lut[i]`: `W1m[k] = W1o[i]`, `W2m[k] = W2o[i]`, `Qa[k] = Qa0[i]`, `Qs[k] = Qs0[i]`,
`Qtp[k] = Qa0[i] + Qs0[i]`, and `(W1s[k], W2s[k])` is `(W1o[i], W2o[i])` if branch `i` has
level SW and `(0, 1)` otherwise. -/
theorem OmReset_spec (cr0 cr : OmCir) (hs : Setup cr0) (h : Reach anyBranch cr0 cr)
    (i : Int) (h0 : 0 ≤ i) (h1 : i < cr0.numB) (hk : ¬ isCut cr0.vecBtm i) :
    rd (OmReset cr).vecW1m (rd cr.vecLut i) = rd cr.vecW1o i ∧
    rd (OmReset cr).vecW2m (rd cr.vecLut i) = rd cr.vecW2o i ∧
    rd (OmReset cr).vecQa (rd cr.vecLut i) = rd cr.vecQa0 i ∧
    rd (OmReset cr).vecQs (rd cr.vecLut i) = rd cr.vecQs0 i ∧
    rd (OmReset cr).vecQtp (rd cr.vecLut i) = rd cr.vecQa0 i + rd cr.vecQs0 i ∧
    (isSw cr0.vecBtm i →
      rd (OmReset cr).vecW1s (rd cr.vecLut i) = rd cr.vecW1o i ∧
      rd (OmReset cr).vecW2s (rd cr.vecLut i) = rd cr.vecW2o i) ∧
    (¬ isSw cr0.vecBtm i →
      rd (OmReset cr).vecW1s (rd cr.vecLut i) = 0 ∧
      rd (OmReset cr).vecW2s (rd cr.vecLut i) = 1) := by
  have hr := reach_runInv anyBranch cr0 cr hs h
  have hst := hr.1
  have hB := hr.2.1
  have hBt := hr.2.2.1
  rw [← hB] at h1
  rw [← hBt] at hk ⊢
  obtain ⟨hl0, hl1⟩ := runInv_lut_kept cr0 cr hs hr i h0 h1 hk
  obtain ⟨s1, s2, s3, s4, s5, s6⟩ := resetLoop_slots cr0 cr hs hr i h0 h1 hk
  have hsh := SameShape_resetLoop cr
  unfold Stamped at hst
  have l20 : cr.vecQtp.length = cr.numC.toNat := by tauto
  have e20 : (resetLoop cr).vecQtp.length = cr.vecQtp.length := by
    unfold SameShape at hsh
    tauto
  have hq : rd (OmReset cr).vecQtp (rd cr.vecLut i) = rd cr.vecQa0 i + rd cr.vecQs0 i := by
    unfold OmReset
    dsimp only
    rw [OmVecAdd_rd cr.numC (resetLoop cr).vecQtp (resetLoop cr).vecQa (resetLoop cr).vecQs
      (rd cr.vecLut i) hl0 hl1 (by omega), s3, s4]
  refine ⟨s1, s2, s3, s4, hq, ?_, ?_⟩
  · intro hsw
    simp only [hsw, if_true] at s5 s6
    exact ⟨s5, s6⟩
  · intro hsw
    simp only [hsw, if_false] at s5 s6
    exact ⟨s5, s6⟩

/-- Witness of `OmReset_spec`: the switch branch (0-based index 1) of the circuit of test 6,
reset after `OmStamp`, `OmSetSw(2, 1)` and `OmUpdCr`. -/
theorem OmReset_spec_witness :
    Setup (switchPre [1, 0, 0, 1]) ∧
    Reach anyBranch (switchPre [1, 0, 0, 1])
      (OmUpdCr (OmSetSw (OmStamp (switchPre [1, 0, 0, 1])) 2 1)) ∧
    (0 : Int) ≤ 1 ∧ (1 : Int) < (switchPre [1, 0, 0, 1]).numB ∧
    ¬ isCut (switchPre [1, 0, 0, 1]).vecBtm 1 ∧
    rd (OmReset (OmUpdCr (OmSetSw (OmStamp (switchPre [1, 0, 0, 1])) 2 1))).vecQtp
        (rd (OmUpdCr (OmSetSw (OmStamp (switchPre [1, 0, 0, 1])) 2 1)).vecLut 1)
      = rd (OmUpdCr (OmSetSw (OmStamp (switchPre [1, 0, 0, 1])) 2 1)).vecQa0 1
        + rd (OmUpdCr (OmSetSw (OmStamp (switchPre [1, 0, 0, 1])) 2 1)).vecQs0 1 :=
  have hr : Reach anyBranch (switchPre [1, 0, 0, 1])
      (OmUpdCr (OmSetSw (OmStamp (switchPre [1, 0, 0, 1])) 2 1)) :=
    Reach.updCr (Reach.setSw 2 1 Reach.stamp trivial)
  ⟨by decide!, hr, by decide, by decide!, by decide!,
    (OmReset_spec (switchPre [1, 0, 0, 1]) _ (by decide!) hr 1 (by decide) (by decide!)
      (by decide!)).2.2.2.2.1⟩

/-- C13: after `OmUpdMt` on a stamped circuit, for every meter index `mt` in `1..numM`,
`OmGetMt(cr, mt)` is the sum over `j < numC` of `D[mt-1, j] * Qtp[j]`, with `Qtp` the vector
the state holds; `OmUpdMt` changes nothing but `Xm`. -/
theorem OmUpdMt_spec (cr : OmCir) (hs : Stamped cr) :
    (∀ mt : Int, 1 ≤ mt → mt ≤ cr.numM →
      OmGetMt (OmUpdMt cr) mt
        = ∑ j in Finset.range cr.numC.toNat,
            rd cr.matD ((mt - 1) * cr.numC + j) * rd cr.vecQtp j) ∧
    OmUpdMt cr = { cr with vecXm := (OmUpdMt cr).vecXm } := by
  refine ⟨?_, rfl⟩
  intro mt h1 h2
  unfold Stamped at hs
  have hl : cr.vecXm.length = cr.numM.toNat := by tauto
  unfold OmGetMt OmUpdMt
  exact OmVecMul_rd cr.numM cr.numC cr.vecXm cr.matD cr.vecQtp (mt - 1) (by omega) (by omega)
    (by omega)

/-- Witness of `OmUpdMt_spec`: the voltmeter of the circuit of test 4 (`D = 1/2`) after
`OmStamp`. -/
theorem OmUpdMt_spec_witness :
    Stamped (OmStamp (boostPre (1 / 2) [1, 0, 0, 1])) ∧
    (1 : Int) ≤ 1 ∧ (1 : Int) ≤ (OmStamp (boostPre (1 / 2) [1, 0, 0, 1])).numM ∧
    OmGetMt (OmUpdMt (OmStamp (boostPre (1 / 2) [1, 0, 0, 1]))) 1
      = ∑ j in Finset.range (OmStamp (boostPre (1 / 2) [1, 0, 0, 1])).numC.toNat,
          rd (OmStamp (boostPre (1 / 2) [1, 0, 0, 1])).matD
              ((1 - 1) * (OmStamp (boostPre (1 / 2) [1, 0, 0, 1])).numC + j)
            * rd (OmStamp (boostPre (1 / 2) [1, 0, 0, 1])).vecQtp j :=
  ⟨by decide!, by decide, by decide!,
    (OmUpdMt_spec (OmStamp (boostPre (1 / 2) [1, 0, 0, 1])) (by decide!)).1 1 (by decide)
      (by decide!)⟩

/-! ## The lookup table as a count of kept branches -/

/-- The number of kept branches below `n`, as a cardinality. -/
theorem keptBefore_card (vecBtm : List Int) (n : Nat) :
    keptBefore vecBtm n
      = ((Finset.range n).filter (fun j : Nat => ¬ isCut vecBtm j)).card := by
  induction n with
  | zero => simpa using keptBefore_zero vecBtm
  | succ n ih =>
    have h1 : ((n + 1 : Nat) : Int) = (n : Int) + 1 := by push_cast; ring
    rw [h1, keptBefore_succ vecBtm n (by omega), Finset.range_succ, Finset.filter_insert]
    by_cases hc : isCut vecBtm n
    · simp [hc, ih]
    · simp [hc, ih]

/-- Every count below the number of kept branches is the count of a kept branch. -/
theorem keptBefore_surj (vecBtm : List Int) (n : Nat) (k : Int) (h0 : 0 ≤ k)
    (h1 : k < keptBefore vecBtm n) :
    ∃ i : Int, 0 ≤ i ∧ i < n ∧ ¬ isCut vecBtm i ∧ keptBefore vecBtm i = k := by
  induction n with
  | zero =>
    rw [Nat.cast_zero, keptBefore_zero] at h1
    omega
  | succ n ih =>
    have e1 : ((n + 1 : Nat) : Int) = (n : Int) + 1 := by push_cast; ring
    rw [e1, keptBefore_succ vecBtm n (by omega)] at h1
    by_cases hlt : k < keptBefore vecBtm n
    · obtain ⟨i, a, b, c, d⟩ := ih hlt
      exact ⟨i, a, by omega, c, d⟩
    · by_cases hc : isCut vecBtm n
      · rw [if_pos hc] at h1
        omega
      · rw [if_neg hc] at h1
        exact ⟨n, by omega, by omega, hc, by omega⟩

/-- C14: after `OmStamp` (and after any further runtime operations, which keep `Btm`, `Lut`
and `numC`), `numC` is the number of branches whose level `|Btm|` is neither X0 nor Y0,
`Lut[i] = -1` for every X0/Y0 branch, and on the kept branches `Lut[i]` is the number of kept
branches before `i`: the `j`-th kept branch gets `Lut = j`, so `Lut` is strictly increasing
on the kept branches and takes every value of `0, …, numC-1`. -/
theorem OmStamp_lut (cr0 cr : OmCir) (hs : Setup cr0) (h : Reach anyBranch cr0 cr) :
    cr.vecBtm = cr0.vecBtm ∧ cr.numB = cr0.numB ∧
    cr.numC = ((Finset.range cr.numB.toNat).filter (fun j : Nat => ¬ isCut cr.vecBtm j)).card ∧
    (∀ i : Int, 0 ≤ i → i < cr.numB → isCut cr.vecBtm i → rd cr.vecLut i = -1) ∧
    (∀ i : Int, 0 ≤ i → i < cr.numB → ¬ isCut cr.vecBtm i →
      rd cr.vecLut i
        = ((Finset.range i.toNat).filter (fun j : Nat => ¬ isCut cr.vecBtm j)).card) ∧
    (∀ i j : Int, 0 ≤ i → i < j → j < cr.numB → ¬ isCut cr.vecBtm i → ¬ isCut cr.vecBtm j →
      rd cr.vecLut i < rd cr.vecLut j) ∧
    (∀ k : Int, 0 ≤ k → k < cr.numC →
      ∃ i : Int, 0 ≤ i ∧ i < cr.numB ∧ ¬ isCut cr.vecBtm i ∧ rd cr.vecLut i = k) := by
  have hr := reach_runInv anyBranch cr0 cr hs h
  obtain ⟨hst, hB, hBt, hL, hC⟩ := hr
  have hb : 0 ≤ cr0.numB := hs.1
  obtain ⟨_, c2, _⟩ := stampCut_spec cr0 hb (setup_lut cr0 hs)
  have hn : ((cr0.numB.toNat : Nat) : Int) = cr0.numB := by omega
  rw [hL, hC, hB, hBt]
  refine ⟨rfl, rfl, ?_, ?_, ?_, ?_, ?_⟩
  · rw [c2, ← keptBefore_card, hn]
  · exact fun i h0 h1 hc => lut_cut cr0 hs i h0 h1 hc
  · intro i h0 h1 hc
    have hi : ((i.toNat : Nat) : Int) = i := by omega
    rw [(lut_kept cr0 hs i h0 h1 hc).1, ← keptBefore_card, hi]
  · intro i j h0 hij h1 hci hcj
    rw [(lut_kept cr0 hs i h0 (by omega) hci).1, (lut_kept cr0 hs j (by omega) h1 hcj).1]
    exact keptBefore_lt cr0.vecBtm i j h0 hij hci
  · intro k h0 h1
    rw [c2, ← hn] at h1
    obtain ⟨i, a, b, c, d⟩ := keptBefore_surj cr0.vecBtm cr0.numB.toNat k h0 h1
    exact ⟨i, a, by omega, c, by rw [(lut_kept cr0 hs i a (by omega) c).1, d]⟩

/-- Witness of `OmStamp_lut`: the circuit of test 4 (`D = 1/2`), whose second branch is cut,
after `OmStamp`. -/
theorem OmStamp_lut_witness :
    Setup (boostPre (1 / 2) [1, 0, 0, 1]) ∧
    Reach anyBranch (boostPre (1 / 2) [1, 0, 0, 1]) (OmStamp (boostPre (1 / 2) [1, 0, 0, 1])) ∧
    (OmStamp (boostPre (1 / 2) [1, 0, 0, 1])).numC
      = ((Finset.range (OmStamp (boostPre (1 / 2) [1, 0, 0, 1])).numB.toNat).filter
          (fun j : Nat => ¬ isCut (OmStamp (boostPre (1 / 2) [1, 0, 0, 1])).vecBtm j)).card :=
  ⟨by decide!, Reach.stamp,
    (OmStamp_lut (boostPre (1 / 2) [1, 0, 0, 1]) _ (by decide!) Reach.stamp).2.2.1⟩

/-! ## The arguments `OmCreate` rejects -/

/-- C17: `OmCreate(n, b, m, stp)` returns null whenever `n < 0` or `b < 0` or `m < 0` or
`stp <= 0`, and (allocation taken to succeed) a non-null handle for every other argument
tuple, including `n = 0`, `b = 0` or `m = 0`. -/
theorem OmCreate_null_iff (n b m : Int) (stp : ℚ) :
    (OmCreate n b m stp = none ↔ (n < 0 ∨ b < 0 ∨ m < 0 ∨ stp ≤ 0)) ∧
    ((OmCreate n b m stp).isSome ↔ (0 ≤ n ∧ 0 ≤ b ∧ 0 ≤ m ∧ 0 < stp)) := by
  unfold OmCreate
  by_cases h : n < 0 ∨ b < 0 ∨ m < 0 ∨ stp ≤ 0
  · simp only [h, if_true, Option.isSome_none, true_iff]
    refine ⟨trivial, ⟨fun hc => absurd hc (by decide), fun hc => ?_⟩⟩
    exfalso
    obtain ⟨c1, c2, c3, c4⟩ := hc
    rcases h with h | h | h | h
    · omega
    · omega
    · omega
    · exact absurd c4 (not_lt.mpr h)
  · simp only [h, if_false, Option.isSome_some]
    simp only [not_or, not_lt, not_le] at h
    simp [h]

/-! ## Loops that fill a block -/

/-- A projection that commutes with the body commutes with the loop. -/
theorem forLoop_proj {σ τ : Type} (g : σ → τ) (lo hi : Int) (f : Int → σ → σ)
    (f' : Int → τ → τ) (s : σ)
    (h : ∀ (i : Int) (t : σ), lo ≤ i → i < hi → g (f i t) = f' i (g t)) :
    g (forLoop lo hi f s) = forLoop lo hi f' (g s) := by
  by_cases hle : lo ≤ hi
  · refine forLoop_induct (fun i t => g t = forLoop lo i f' (g s)) lo hi hle f s ?_ ?_
    · exact (forLoop_done lo lo f' (g s) (le_refl lo)).symm
    · intro i t h0 h1 hP
      show g (f i t) = forLoop lo (i + 1) f' (g s)
      rw [forLoop_step lo (i + 1) f' (g s) (by omega), add_sub_cancel_right, ← hP]
      exact h i t h0 h1
  · rw [forLoop_done lo hi f s (by omega), forLoop_done lo hi f' (g s) (by omega)]

/-- A loop whose body keeps the projection keeps it. -/
theorem forLoop_proj_keep {σ τ : Type} (g : σ → τ) (lo hi : Int) (f : Int → σ → σ)
    (s : σ)
    (h : ∀ (i : Int) (t : σ), lo ≤ i → i < hi → g (f i t) = g t) :
    g (forLoop lo hi f s) = g s :=
  forLoop_keep (fun t => g t = g s) lo hi f s rfl (fun i t h0 h1 hP => (h i t h0 h1).trans hP)

/-- The loop `for (i = 0; i < m; i++) a[i] = v`. -/
theorem forLoop_fill {α : Type} [Zero α] (m : Int) (v : α) (a : List α) :
    (forLoop 0 m (fun i a => wr a i v) a).length = a.length ∧
    ∀ k : Int, 0 ≤ k → k < m → k < a.length →
      rd (forLoop 0 m (fun i a => wr a i v) a) k = v := by
  by_cases hm : 0 ≤ m
  · refine forLoop_induct
      (fun (i : Int) (t : List α) => t.length = a.length ∧
        ∀ k : Int, 0 ≤ k → k < i → k < a.length → rd t k = v) 0 m hm _ a
      ⟨rfl, fun k h0 h1 => by omega⟩ ?_
    intro i t h0 h1 hP
    obtain ⟨hl, hv⟩ := hP
    refine ⟨by rw [length_wr, hl], ?_⟩
    intro k k0 k1 k2
    by_cases hki : k = i
    · subst hki
      exact rd_wr_same t k v k0 (by omega)
    · rw [rd_wr_ne t i k v hki]
      exact hv k k0 (by omega) k2
  · rw [forLoop_done 0 m _ a (by omega)]
    exact ⟨rfl, fun k h0 h1 => by omega⟩

/-- The nested loop `for (i < b) for (j < b) a[i*b+j] = v` fills the first `b*b` cells. -/
theorem forLoop_fill2 {α : Type} [Zero α] (b : Int) (hb : 0 ≤ b) (v : α) (a : List α) :
    (forLoop 0 b (fun i a => forLoop 0 b (fun j a => wr a (i * b + j) v) a) a).length
      = a.length ∧
    ∀ k : Int, 0 ≤ k → k < b * b → k < a.length →
      rd (forLoop 0 b (fun i a => forLoop 0 b (fun j a => wr a (i * b + j) v) a) a) k = v := by
  refine forLoop_induct
    (fun (i : Int) (t : List α) => t.length = a.length ∧
      ∀ k : Int, 0 ≤ k → k < i * b → k < a.length → rd t k = v) 0 b hb
    (fun i a => forLoop 0 b (fun j a => wr a (i * b + j) v) a) a
    ⟨rfl, fun k h0 h1 => by omega⟩ ?_
  intro i t h0 h1 hP
  have inner := forLoop_induct
    (fun (j : Int) (u : List α) => u.length = a.length ∧
      ∀ k : Int, 0 ≤ k → k < i * b + j → k < a.length → rd u k = v) 0 b hb
    (fun j a => wr a (i * b + j) v) t
    ⟨hP.1, fun k k0 k1 k2 => hP.2 k k0 (by omega) k2⟩ ?_
  · refine ⟨inner.1, fun k k0 k1 k2 => inner.2 k k0 ?_ k2⟩
    have : (i + 1) * b = i * b + b := by ring
    omega
  · intro j u j0 j1 hQ
    obtain ⟨hl, hv⟩ := hQ
    refine ⟨by rw [length_wr, hl], ?_⟩
    intro k k0 k1 k2
    by_cases hki : k = i * b + j
    · rw [hki]
      exact rd_wr_same u _ v (by omega) (by omega)
    · rw [rd_wr_ne u _ k v hki]
      exact hv k k0 (by omega) k2

/-- An index below the size of a block is below its length. -/
theorem lt_length_of_size {α : Type} (a : List α) (n i : Int) (hl : a.length = n.toNat)
    (h : i < n) : i < (a.length : Int) := by
  omega

/-- The flat index of the diagonal entry `[br-1, br-1]` lies inside a `b`×`b` block. -/
theorem diag_index (b br : Int) (h1 : 1 ≤ br) (h2 : br ≤ b) :
    0 ≤ (br - 1) * b + (br - 1) ∧ (br - 1) * b + (br - 1) < b * b := by
  constructor
  · have : 0 ≤ (br - 1) * b := mul_nonneg (by omega) (by omega)
    omega
  · nlinarith

/-! ## The circuit `OmCreate` returns -/

/-- Each block after the initialisation loops of `OmCreate` is the block the allocator
returned, run through the loop that fills it. -/
theorem createInit_blocks (b m : Int) (cir : OmCir) :
    (createInit b m cir).vecBn1 = forLoop 0 b (fun i a => wr a i (-1)) cir.vecBn1 ∧
    (createInit b m cir).vecBn2 = forLoop 0 b (fun i a => wr a i (-1)) cir.vecBn2 ∧
    (createInit b m cir).vecBtm = forLoop 0 b (fun i a => wr a i (OMTYP_UN)) cir.vecBtm ∧
    (createInit b m cir).vecLut = forLoop 0 b (fun i a => wr a i (1)) cir.vecLut ∧
    (createInit b m cir).vecW1c = forLoop 0 b (fun i a => wr a i (0)) cir.vecW1c ∧
    (createInit b m cir).vecW2c = forLoop 0 b (fun i a => wr a i (0)) cir.vecW2c ∧
    (createInit b m cir).vecW1o = forLoop 0 b (fun i a => wr a i (0)) cir.vecW1o ∧
    (createInit b m cir).vecW2o = forLoop 0 b (fun i a => wr a i (0)) cir.vecW2o ∧
    (createInit b m cir).vecQa0 = forLoop 0 b (fun i a => wr a i (0)) cir.vecQa0 ∧
    (createInit b m cir).vecQs0 = forLoop 0 b (fun i a => wr a i (0)) cir.vecQs0 ∧
    (createInit b m cir).vecMn1 = forLoop 0 m (fun i a => wr a i (-1)) cir.vecMn1 ∧
    (createInit b m cir).vecMn2 = forLoop 0 m (fun i a => wr a i (-1)) cir.vecMn2 ∧
    (createInit b m cir).matPa
      = forLoop 0 b (fun i a => forLoop 0 b (fun j a => wr a (i * b + j) 0) a) cir.matPa ∧
    (createInit b m cir).matPb
      = forLoop 0 b (fun i a => forLoop 0 b (fun j a => wr a (i * b + j) 0) a) cir.matPb := by
  unfold createInit
  refine ⟨?_, ?_, ?_, ?_, ?_, ?_, ?_, ?_, ?_, ?_, ?_, ?_, ?_, ?_⟩
  · refine Eq.trans
      (forLoop_proj_keep (fun (t : OmCir) => t.vecBn1) 0 m _ _ (fun _ _ _ _ => rfl)) ?_
    refine forLoop_proj (fun (t : OmCir) => t.vecBn1) 0 b _ _ cir (fun i t _ _ => ?_)
    exact congrArg (fun a => wr a i (-1))
      (forLoop_proj_keep (fun (t : OmCir) => t.vecBn1) 0 b _ t (fun _ _ _ _ => rfl))
  · refine Eq.trans
      (forLoop_proj_keep (fun (t : OmCir) => t.vecBn2) 0 m _ _ (fun _ _ _ _ => rfl)) ?_
    refine forLoop_proj (fun (t : OmCir) => t.vecBn2) 0 b _ _ cir (fun i t _ _ => ?_)
    exact congrArg (fun a => wr a i (-1))
      (forLoop_proj_keep (fun (t : OmCir) => t.vecBn2) 0 b _ t (fun _ _ _ _ => rfl))
  · refine Eq.trans
      (forLoop_proj_keep (fun (t : OmCir) => t.vecBtm) 0 m _ _ (fun _ _ _ _ => rfl)) ?_
    refine forLoop_proj (fun (t : OmCir) => t.vecBtm) 0 b _ _ cir (fun i t _ _ => ?_)
    exact congrArg (fun a => wr a i (OMTYP_UN))
      (forLoop_proj_keep (fun (t : OmCir) => t.vecBtm) 0 b _ t (fun _ _ _ _ => rfl))
  · refine Eq.trans
      (forLoop_proj_keep (fun (t : OmCir) => t.vecLut) 0 m _ _ (fun _ _ _ _ => rfl)) ?_
    refine forLoop_proj (fun (t : OmCir) => t.vecLut) 0 b _ _ cir (fun i t _ _ => ?_)
    exact congrArg (fun a => wr a i (1))
      (forLoop_proj_keep (fun (t : OmCir) => t.vecLut) 0 b _ t (fun _ _ _ _ => rfl))
  · refine Eq.trans
      (forLoop_proj_keep (fun (t : OmCir) => t.vecW1c) 0 m _ _ (fun _ _ _ _ => rfl)) ?_
    refine forLoop_proj (fun (t : OmCir) => t.vecW1c) 0 b _ _ cir (fun i t _ _ => ?_)
    exact congrArg (fun a => wr a i (0))
      (forLoop_proj_keep (fun (t : OmCir) => t.vecW1c) 0 b _ t (fun _ _ _ _ => rfl))
  · refine Eq.trans
      (forLoop_proj_keep (fun (t : OmCir) => t.vecW2c) 0 m _ _ (fun _ _ _ _ => rfl)) ?_
    refine forLoop_proj (fun (t : OmCir) => t.vecW2c) 0 b _ _ cir (fun i t _ _ => ?_)
    exact congrArg (fun a => wr a i (0))
      (forLoop_proj_keep (fun (t : OmCir) => t.vecW2c) 0 b _ t (fun _ _ _ _ => rfl))
  · refine Eq.trans
      (forLoop_proj_keep (fun (t : OmCir) => t.vecW1o) 0 m _ _ (fun _ _ _ _ => rfl)) ?_
    refine forLoop_proj (fun (t : OmCir) => t.vecW1o) 0 b _ _ cir (fun i t _ _ => ?_)
    exact congrArg (fun a => wr a i (0))
      (forLoop_proj_keep (fun (t : OmCir) => t.vecW1o) 0 b _ t (fun _ _ _ _ => rfl))
  · refine Eq.trans
      (forLoop_proj_keep (fun (t : OmCir) => t.vecW2o) 0 m _ _ (fun _ _ _ _ => rfl)) ?_
    refine forLoop_proj (fun (t : OmCir) => t.vecW2o) 0 b _ _ cir (fun i t _ _ => ?_)
    exact congrArg (fun a => wr a i (0))
      (forLoop_proj_keep (fun (t : OmCir) => t.vecW2o) 0 b _ t (fun _ _ _ _ => rfl))
  · refine Eq.trans
      (forLoop_proj_keep (fun (t : OmCir) => t.vecQa0) 0 m _ _ (fun _ _ _ _ => rfl)) ?_
    refine forLoop_proj (fun (t : OmCir) => t.vecQa0) 0 b _ _ cir (fun i t _ _ => ?_)
    exact congrArg (fun a => wr a i (0))
      (forLoop_proj_keep (fun (t : OmCir) => t.vecQa0) 0 b _ t (fun _ _ _ _ => rfl))
  · refine Eq.trans
      (forLoop_proj_keep (fun (t : OmCir) => t.vecQs0) 0 m _ _ (fun _ _ _ _ => rfl)) ?_
    refine forLoop_proj (fun (t : OmCir) => t.vecQs0) 0 b _ _ cir (fun i t _ _ => ?_)
    exact congrArg (fun a => wr a i (0))
      (forLoop_proj_keep (fun (t : OmCir) => t.vecQs0) 0 b _ t (fun _ _ _ _ => rfl))
  · refine Eq.trans (forLoop_proj (fun (t : OmCir) => t.vecMn1) 0 m _ (fun i a => wr a i (-1)) _
      (fun _ _ _ _ => rfl)) ?_
    refine congrArg (forLoop 0 m (fun i a => wr a i (-1))) ?_
    refine forLoop_proj_keep (fun (t : OmCir) => t.vecMn1) 0 b _ cir (fun i t _ _ => ?_)
    exact forLoop_proj_keep (fun (t : OmCir) => t.vecMn1) 0 b _ t (fun _ _ _ _ => rfl)
  · refine Eq.trans (forLoop_proj (fun (t : OmCir) => t.vecMn2) 0 m _ (fun i a => wr a i (-1)) _
      (fun _ _ _ _ => rfl)) ?_
    refine congrArg (forLoop 0 m (fun i a => wr a i (-1))) ?_
    refine forLoop_proj_keep (fun (t : OmCir) => t.vecMn2) 0 b _ cir (fun i t _ _ => ?_)
    exact forLoop_proj_keep (fun (t : OmCir) => t.vecMn2) 0 b _ t (fun _ _ _ _ => rfl)
  · refine Eq.trans
      (forLoop_proj_keep (fun (t : OmCir) => t.matPa) 0 m _ _ (fun _ _ _ _ => rfl)) ?_
    refine forLoop_proj (fun (t : OmCir) => t.matPa) 0 b _ _ cir (fun i t _ _ => ?_)
    exact forLoop_proj (fun (t : OmCir) => t.matPa) 0 b _ (fun j a => wr a (i * b + j) 0) t
      (fun _ _ _ _ => rfl)
  · refine Eq.trans
      (forLoop_proj_keep (fun (t : OmCir) => t.matPb) 0 m _ _ (fun _ _ _ _ => rfl)) ?_
    refine forLoop_proj (fun (t : OmCir) => t.matPb) 0 b _ _ cir (fun i t _ _ => ?_)
    exact forLoop_proj (fun (t : OmCir) => t.matPb) 0 b _ (fun j a => wr a (i * b + j) 0) t
      (fun _ _ _ _ => rfl)

/-- The initialisation loops of `OmCreate` keep the scalar fields. -/
theorem createInit_scalars (b m : Int) (cir : OmCir) :
    (createInit b m cir).numN = cir.numN ∧ (createInit b m cir).numB = cir.numB ∧
    (createInit b m cir).numM = cir.numM ∧ (createInit b m cir).numX = cir.numX ∧
    (createInit b m cir).numC = cir.numC ∧ (createInit b m cir).timStp = cir.timStp := by
  unfold createInit
  refine ⟨?_, ?_, ?_, ?_, ?_, ?_⟩
  · refine Eq.trans
      (forLoop_proj_keep (fun (t : OmCir) => t.numN) 0 m _ _ (fun _ _ _ _ => rfl)) ?_
    refine forLoop_proj_keep (fun (t : OmCir) => t.numN) 0 b _ cir (fun i t _ _ => ?_)
    exact forLoop_proj_keep (fun (t : OmCir) => t.numN) 0 b _ t (fun _ _ _ _ => rfl)
  · refine Eq.trans
      (forLoop_proj_keep (fun (t : OmCir) => t.numB) 0 m _ _ (fun _ _ _ _ => rfl)) ?_
    refine forLoop_proj_keep (fun (t : OmCir) => t.numB) 0 b _ cir (fun i t _ _ => ?_)
    exact forLoop_proj_keep (fun (t : OmCir) => t.numB) 0 b _ t (fun _ _ _ _ => rfl)
  · refine Eq.trans
      (forLoop_proj_keep (fun (t : OmCir) => t.numM) 0 m _ _ (fun _ _ _ _ => rfl)) ?_
    refine forLoop_proj_keep (fun (t : OmCir) => t.numM) 0 b _ cir (fun i t _ _ => ?_)
    exact forLoop_proj_keep (fun (t : OmCir) => t.numM) 0 b _ t (fun _ _ _ _ => rfl)
  · refine Eq.trans
      (forLoop_proj_keep (fun (t : OmCir) => t.numX) 0 m _ _ (fun _ _ _ _ => rfl)) ?_
    refine forLoop_proj_keep (fun (t : OmCir) => t.numX) 0 b _ cir (fun i t _ _ => ?_)
    exact forLoop_proj_keep (fun (t : OmCir) => t.numX) 0 b _ t (fun _ _ _ _ => rfl)
  · refine Eq.trans
      (forLoop_proj_keep (fun (t : OmCir) => t.numC) 0 m _ _ (fun _ _ _ _ => rfl)) ?_
    refine forLoop_proj_keep (fun (t : OmCir) => t.numC) 0 b _ cir (fun i t _ _ => ?_)
    exact forLoop_proj_keep (fun (t : OmCir) => t.numC) 0 b _ t (fun _ _ _ _ => rfl)
  · refine Eq.trans
      (forLoop_proj_keep (fun (t : OmCir) => t.timStp) 0 m _ _ (fun _ _ _ _ => rfl)) ?_
    refine forLoop_proj_keep (fun (t : OmCir) => t.timStp) 0 b _ cir (fun i t _ _ => ?_)
    exact forLoop_proj_keep (fun (t : OmCir) => t.timStp) 0 b _ t (fun _ _ _ _ => rfl)

/-- The initialisation loops of `OmCreate` store the initial value in every cell of every
setup block, whatever the allocator left in it. -/
theorem createInit_spec (cir : OmCir) (hs : Setup cir) :
    Setup (createInit cir.numB cir.numM cir) ∧
    (∀ k : Int, 0 ≤ k → k < cir.numB * cir.numB →
      rd (createInit cir.numB cir.numM cir).matPa k = 0 ∧
      rd (createInit cir.numB cir.numM cir).matPb k = 0) ∧
    (∀ i : Int, 0 ≤ i → i < cir.numB →
      rd (createInit cir.numB cir.numM cir).vecW1c i = 0 ∧
      rd (createInit cir.numB cir.numM cir).vecW2c i = 0 ∧
      rd (createInit cir.numB cir.numM cir).vecW1o i = 0 ∧
      rd (createInit cir.numB cir.numM cir).vecW2o i = 0 ∧
      rd (createInit cir.numB cir.numM cir).vecQa0 i = 0 ∧
      rd (createInit cir.numB cir.numM cir).vecQs0 i = 0 ∧
      rd (createInit cir.numB cir.numM cir).vecBtm i = OMTYP_UN ∧
      rd (createInit cir.numB cir.numM cir).vecLut i = 1 ∧
      rd (createInit cir.numB cir.numM cir).vecBn1 i = -1 ∧
      rd (createInit cir.numB cir.numM cir).vecBn2 i = -1) ∧
    (∀ i : Int, 0 ≤ i → i < cir.numM →
      rd (createInit cir.numB cir.numM cir).vecMn1 i = -1 ∧
      rd (createInit cir.numB cir.numM cir).vecMn2 i = -1) := by
  obtain ⟨e1, e2, e3, e4, e5, e6, e7, e8, e9, e10, e11, e12, e13, e14⟩ :=
    createInit_blocks cir.numB cir.numM cir
  obtain ⟨_, s2, s3, _, _, _⟩ := createInit_scalars cir.numB cir.numM cir
  have hs2 := hs
  unfold Setup at hs2
  obtain ⟨hb, hm, l1, l2, l3, l4, l5, l6, l7, l8, l9, l10, l11, l12, l13, l14⟩ := hs2
  refine ⟨?_, ?_, ?_, ?_⟩
  · unfold Setup
    rw [s2, s3, e1, e2, e3, e4, e5, e6, e7, e8, e9, e10, e11, e12, e13, e14]
    simp only [(forLoop_fill _ _ _).1, (forLoop_fill2 _ hb _ _).1]
    exact hs
  · intro k k0 k1
    refine ⟨?_, ?_⟩
    · rw [e13]
      exact (forLoop_fill2 cir.numB hb 0 cir.matPa).2 k k0 k1
        (lt_length_of_size _ _ k l5 k1)
    · rw [e14]
      exact (forLoop_fill2 cir.numB hb 0 cir.matPb).2 k k0 k1
        (lt_length_of_size _ _ k l6 k1)
  · intro i i0 i1
    refine ⟨?_, ?_, ?_, ?_, ?_, ?_, ?_, ?_, ?_, ?_⟩
    · rw [e5]
      exact (forLoop_fill cir.numB 0 cir.vecW1c).2 i i0 i1
        (lt_length_of_size _ _ i l9 i1)
    · rw [e6]
      exact (forLoop_fill cir.numB 0 cir.vecW2c).2 i i0 i1
        (lt_length_of_size _ _ i l10 i1)
    · rw [e7]
      exact (forLoop_fill cir.numB 0 cir.vecW1o).2 i i0 i1
        (lt_length_of_size _ _ i l11 i1)
    · rw [e8]
      exact (forLoop_fill cir.numB 0 cir.vecW2o).2 i i0 i1
        (lt_length_of_size _ _ i l12 i1)
    · rw [e9]
      exact (forLoop_fill cir.numB 0 cir.vecQa0).2 i i0 i1
        (lt_length_of_size _ _ i l13 i1)
    · rw [e10]
      exact (forLoop_fill cir.numB 0 cir.vecQs0).2 i i0 i1
        (lt_length_of_size _ _ i l14 i1)
    · rw [e3]
      exact (forLoop_fill cir.numB OMTYP_UN cir.vecBtm).2 i i0 i1
        (lt_length_of_size _ _ i l7 i1)
    · rw [e4]
      exact (forLoop_fill cir.numB 1 cir.vecLut).2 i i0 i1
        (lt_length_of_size _ _ i l8 i1)
    · rw [e1]
      exact (forLoop_fill cir.numB (-1) cir.vecBn1).2 i i0 i1
        (lt_length_of_size _ _ i l1 i1)
    · rw [e2]
      exact (forLoop_fill cir.numB (-1) cir.vecBn2).2 i i0 i1
        (lt_length_of_size _ _ i l2 i1)
  · intro i i0 i1
    refine ⟨?_, ?_⟩
    · rw [e11]
      exact (forLoop_fill cir.numM (-1) cir.vecMn1).2 i i0 i1
        (lt_length_of_size _ _ i l3 i1)
    · rw [e12]
      exact (forLoop_fill cir.numM (-1) cir.vecMn2).2 i i0 i1
        (lt_length_of_size _ _ i l4 i1)

/-- The fields of a circuit that `OmCreate` returned. -/
theorem OmCreate_fields (n b m : Int) (stp : ℚ) (cr : OmCir)
    (h : OmCreate n b m stp = some cr) :
    Setup cr ∧
    cr.numN = n ∧ cr.numB = b ∧ cr.numM = m ∧ cr.numX = 0 ∧ cr.numC = 0 ∧
    cr.timStp = stp ∧
    (∀ k : Int, 0 ≤ k → k < b * b → rd cr.matPa k = 0 ∧ rd cr.matPb k = 0) ∧
    (∀ i : Int, 0 ≤ i → i < b →
      rd cr.vecW1c i = 0 ∧ rd cr.vecW2c i = 0 ∧ rd cr.vecW1o i = 0 ∧ rd cr.vecW2o i = 0 ∧
      rd cr.vecQa0 i = 0 ∧ rd cr.vecQs0 i = 0 ∧
      rd cr.vecBtm i = OMTYP_UN ∧ rd cr.vecLut i = 1 ∧
      rd cr.vecBn1 i = -1 ∧ rd cr.vecBn2 i = -1) ∧
    (∀ i : Int, 0 ≤ i → i < m → rd cr.vecMn1 i = -1 ∧ rd cr.vecMn2 i = -1) := by
  unfold OmCreate at h
  split_ifs at h with hneg
  simp only [Option.some.injEq] at h
  have hb : 0 ≤ b := by
    by_contra hc
    exact hneg (Or.inr (Or.inl (by omega)))
  have hm : 0 ≤ m := by
    by_contra hc
    exact hneg (Or.inr (Or.inr (Or.inl (by omega))))
  have hs : Setup
      { numN := n, numB := b, numM := m, numX := 0, numC := 0, timStp := stp
        vecBn1 := OMMALLOC b, vecBn2 := OMMALLOC b
        vecMn1 := OMMALLOC m, vecMn2 := OMMALLOC m
        matPa := OMMALLOC (b * b), matPb := OMMALLOC (b * b)
        vecBtm := OMMALLOC b, vecLut := OMMALLOC b
        vecW1c := OMMALLOC b, vecW2c := OMMALLOC b
        vecW1o := OMMALLOC b, vecW2o := OMMALLOC b
        vecQa0 := OMMALLOC b, vecQs0 := OMMALLOC b
        matC := [], matD := []
        vecW1m := [], vecW2m := [], vecW1s := [], vecW2s := []
        vecQa := [], vecQs := [], vecQtp := [], vecXm := [], vecXc := [] } := by
    simp [Setup, length_OMMALLOC, hb, hm]
  obtain ⟨c1, c2, c3, c4⟩ := createInit_spec _ hs
  obtain ⟨s1, s2, s3, s4, s5, s6⟩ := createInit_scalars b m
      { numN := n, numB := b, numM := m, numX := 0, numC := 0, timStp := stp
        vecBn1 := OMMALLOC b, vecBn2 := OMMALLOC b
        vecMn1 := OMMALLOC m, vecMn2 := OMMALLOC m
        matPa := OMMALLOC (b * b), matPb := OMMALLOC (b * b)
        vecBtm := OMMALLOC b, vecLut := OMMALLOC b
        vecW1c := OMMALLOC b, vecW2c := OMMALLOC b
        vecW1o := OMMALLOC b, vecW2o := OMMALLOC b
        vecQa0 := OMMALLOC b, vecQs0 := OMMALLOC b
        matC := [], matD := []
        vecW1m := [], vecW2m := [], vecW1s := [], vecW2s := []
        vecQa := [], vecQs := [], vecQtp := [], vecXm := [], vecXc := [] }
  rw [← h]
  exact ⟨c1, s1, s2, s3, s4, s5, s6, c2, c3, c4⟩

/-- C18: for valid arguments `OmCreate(n, b, m, stp)` returns a circuit with `numN = n`,
`numB = b`, `numM = m`, `numX = 0`, `numC = 0`, `timStp = stp`, blocks of the allocated sizes,
every entry of `Pa` and `Pb` equal to 0, every entry of `W1c`, `W2c`, `W1o`, `W2o`, `Qa0`,
`Qs0` equal to 0, every entry of `Btm` equal to `OMTYP_UN`, every entry of `Lut` equal to 1,
and every branch and meter endpoint equal to -1. -/
theorem OmCreate_spec (n b m : Int) (stp : ℚ) (hn : 0 ≤ n) (hb : 0 ≤ b) (hm : 0 ≤ m)
    (hstp : 0 < stp) :
    ∃ cr : OmCir, OmCreate n b m stp = some cr ∧ Setup cr ∧
      cr.numN = n ∧ cr.numB = b ∧ cr.numM = m ∧ cr.numX = 0 ∧ cr.numC = 0 ∧
      cr.timStp = stp ∧
      (∀ k : Int, 0 ≤ k → k < b * b → rd cr.matPa k = 0 ∧ rd cr.matPb k = 0) ∧
      (∀ i : Int, 0 ≤ i → i < b →
        rd cr.vecW1c i = 0 ∧ rd cr.vecW2c i = 0 ∧ rd cr.vecW1o i = 0 ∧ rd cr.vecW2o i = 0 ∧
        rd cr.vecQa0 i = 0 ∧ rd cr.vecQs0 i = 0 ∧
        rd cr.vecBtm i = OMTYP_UN ∧ rd cr.vecLut i = 1 ∧
        rd cr.vecBn1 i = -1 ∧ rd cr.vecBn2 i = -1) ∧
      (∀ i : Int, 0 ≤ i → i < m → rd cr.vecMn1 i = -1 ∧ rd cr.vecMn2 i = -1) := by
  have hv : ¬ (n < 0 ∨ b < 0 ∨ m < 0 ∨ stp ≤ 0) := by
    simp only [not_or, not_lt, not_le]
    exact ⟨hn, hb, hm, hstp⟩
  obtain ⟨cr, hcr⟩ : ∃ cr : OmCir, OmCreate n b m stp = some cr := by
    unfold OmCreate
    simp only [hv, if_false]
    exact ⟨_, rfl⟩
  exact ⟨cr, hcr, OmCreate_fields n b m stp cr hcr⟩

/-- Witness of `OmCreate_spec`: the arguments of test 4, `OmCreate(1, 2, 1, 5e-6)`. -/
theorem OmCreate_spec_witness :
    (0 : Int) ≤ 1 ∧ (0 : Int) ≤ 2 ∧ (0 : Int) ≤ 1 ∧ (0 : ℚ) < 5 / 1000000 ∧
    ∃ cr : OmCir, OmCreate 1 2 1 (5 / 1000000) = some cr ∧ Setup cr :=
  have h := OmCreate_spec 1 2 1 (5 / 1000000) (by decide) (by decide) (by decide) (by norm_num)
  ⟨by decide, by decide, by decide, by norm_num,
    h.elim fun cr hc => ⟨cr, hc.1, hc.2.1⟩⟩

/-! ## The diagonal entry of `Pa` that `OmBran` sets -/

/-- With the value `numB` in its local `b`, `OmBran` stores 1 in `Pa[br-1, br-1]` and nothing
else in `Pa` for a level other than X3 and Y3; for the levels X3 and Y3 it leaves `Pa`
unchanged, whatever the local holds. -/
theorem OmBran_Pa_numB (cr : OmCir) (hs : Setup cr) (br n1 n2 tm : Int) (h1 : 1 ≤ br)
    (h2 : br ≤ cr.numB) :
    (OMABS tm ≠ OMTYP_X3 ∧ OMABS tm ≠ OMTYP_Y3 →
      rd (OmBran cr cr.numB br n1 n2 tm).matPa ((br - 1) * cr.numB + (br - 1)) = 1 ∧
      ∀ k : Int, k ≠ (br - 1) * cr.numB + (br - 1) →
        rd (OmBran cr cr.numB br n1 n2 tm).matPa k = rd cr.matPa k) ∧
    (¬ (OMABS tm ≠ OMTYP_X3 ∧ OMABS tm ≠ OMTYP_Y3) →
      ∀ b : Int, (OmBran cr b br n1 n2 tm).matPa = cr.matPa) := by
  have hl : cr.matPa.length = (cr.numB * cr.numB).toNat := by
    unfold Setup at hs
    tauto
  obtain ⟨d0, d1⟩ := diag_index cr.numB br h1 h2
  constructor
  · intro h3
    by_cases hy : OMABS tm ≥ OMTYP_Y0
    · simp only [OmBran, hy, h3, if_true, not_false_eq_true, and_self, ne_eq]
      exact ⟨rd_wr_same _ _ _ d0 (lt_length_of_size _ _ _ hl d1),
        fun k hk => rd_wr_ne _ _ _ _ hk⟩
    · simp only [OmBran, hy, h3, if_true, if_false, not_false_eq_true, and_self, ne_eq]
      exact ⟨rd_wr_same _ _ _ d0 (lt_length_of_size _ _ _ hl d1),
        fun k hk => rd_wr_ne _ _ _ _ hk⟩
  · intro h3 b
    by_cases hy : OMABS tm ≥ OMTYP_Y0
    · simp only [OmBran, hy, h3, if_true, if_false]
    · simp only [OmBran, hy, h3, if_true, if_false]

/-- C16 (code defect): `OmBran` indexes `Pa` with its unassigned local `b`, not with `numB`.
On the circuit `OmCreate(1, 2, 0, 1)`, the call `OmBran(cr, 2, 1, 0, OMTYP_X1)` with 0 in that
local stores the 1 in `Pa[0,1]` and leaves `Pa[1,1] = 0`; with 5 in it the store falls outside
the block and `Pa` stays zero; only with `numB = 2` in it does `Pa[1,1]` become 1. -/
theorem OmBran_Pa_unassigned_b :
    (OmCreate 1 2 0 1).map (fun cr => (OmBran cr 0 2 1 0 OMTYP_X1).matPa)
      = some [0, 1, 0, 0] ∧
    (OmCreate 1 2 0 1).map (fun cr => (OmBran cr 5 2 1 0 OMTYP_X1).matPa)
      = some [0, 0, 0, 0] ∧
    (OmCreate 1 2 0 1).map (fun cr => (OmBran cr 2 2 1 0 OMTYP_X1).matPa)
      = some [0, 0, 0, 1] := by
  decide!

/-! ## The bookkeeping of `OmBran`: `numX` and `Lut` before stamping -/

/-- What `OmBran` does to `numB`, `numX` and `Lut`, whatever its local `b` holds. -/
theorem OmBran_lut (cr : OmCir) (b br n1 n2 tm : Int) (hl : isLevel tm) :
    (OmBran cr b br n1 n2 tm).numB = cr.numB ∧
    (OmBran cr b br n1 n2 tm).numX = cr.numX + (if isXLevel tm then 1 else 0) ∧
    (OmBran cr b br n1 n2 tm).vecLut
      = wr cr.vecLut (br - 1) (if isXLevel tm then -cr.numX else 1) := by
  by_cases hx : isXLevel tm
  · have hy : ¬ OMABS tm ≥ OMTYP_Y0 := by
      unfold isXLevel OMTYP_X0 OMTYP_X1 OMTYP_X2 OMTYP_X3 at hx
      unfold OMTYP_Y0
      omega
    simp only [hx, if_true]
    unfold OmBran
    simp only [hy, if_false]
    split_ifs <;> exact ⟨rfl, rfl, rfl⟩
  · have hy : OMABS tm ≥ OMTYP_Y0 := by
      unfold isLevel at hl
      have hl2 := hl.resolve_left hx
      unfold OMTYP_Y0 OMTYP_Y1 OMTYP_Y2 OMTYP_Y3 OMTYP_SW at hl2
      unfold OMTYP_Y0
      omega
    simp only [hx, if_false]
    unfold OmBran
    simp only [hy, if_true]
    split_ifs <;> exact ⟨rfl, (add_zero _).symm, rfl⟩

/-- The first call of a sequence. -/
theorem branCalls_cons (cr : OmCir) (c : BranCall) (cs : List BranCall) :
    branCalls cr (c :: cs) = branCalls (OmBran cr c.b c.br c.n1 c.n2 c.tm) cs := rfl

/-- The state after a sequence of `OmBran` calls on pairwise distinct branches, from any
setup state. -/
theorem branCalls_lut (cs : List BranCall) :
    ∀ cr : OmCir, Setup cr → (∀ c ∈ cs, 1 ≤ c.br ∧ c.br ≤ cr.numB) →
      (∀ c ∈ cs, isLevel c.tm) → (cs.map (fun c => c.br)).Nodup →
      Setup (branCalls cr cs) ∧ (branCalls cr cs).numB = cr.numB ∧
      (branCalls cr cs).numX = cr.numX + (cs.countP (fun c => isXLevel c.tm) : Nat) ∧
      (∀ (pre : List BranCall) (c : BranCall) (post : List BranCall),
        cs = pre ++ c :: post →
        rd (branCalls cr cs).vecLut (c.br - 1)
          = if isXLevel c.tm
            then -(cr.numX + (pre.countP (fun c => isXLevel c.tm) : Nat)) else 1) ∧
      (∀ i : Int, (∀ c ∈ cs, c.br - 1 ≠ i) →
        rd (branCalls cr cs).vecLut i = rd cr.vecLut i) := by
  induction cs with
  | nil =>
    intro cr hs _ _ _
    refine ⟨hs, rfl, by simp [branCalls], ?_, fun i _ => rfl⟩
    intro pre c post h
    exact absurd h (by simp)
  | cons c0 cs ih =>
    intro cr hs hbr hlv hnd
    obtain ⟨o1, o2, o3⟩ := OmBran_lut cr c0.b c0.br c0.n1 c0.n2 c0.tm
      (hlv c0 (List.mem_cons_self _ _))
    have hs1 : Setup (OmBran cr c0.b c0.br c0.n1 c0.n2 c0.tm) := Setup_OmBran cr _ _ _ _ _ hs
    rw [List.map_cons, List.nodup_cons] at hnd
    obtain ⟨hnot, hnd'⟩ := hnd
    have hne : ∀ c ∈ cs, c.br - 1 ≠ c0.br - 1 := by
      intro c hc he
      apply hnot
      rw [List.mem_map]
      exact ⟨c, hc, by omega⟩
    obtain ⟨i1, i2, i3, i4, i5⟩ := ih (OmBran cr c0.b c0.br c0.n1 c0.n2 c0.tm) hs1
      (fun c hc => by
        rw [o1]
        exact hbr c (List.mem_cons_of_mem _ hc))
      (fun c hc => hlv c (List.mem_cons_of_mem _ hc)) hnd'
    have hb0 := hbr c0 (List.mem_cons_self _ _)
    have hlen : c0.br - 1 < (cr.vecLut.length : Int) :=
      lt_length_of_size _ _ _ (setup_lut cr hs) (by omega)
    rw [branCalls_cons]
    refine ⟨i1, i2.trans o1, ?_, ?_, ?_⟩
    · rw [i3, o2, List.countP_cons]
      by_cases hx : isXLevel c0.tm
      · simp only [hx, if_true, decide_True]
        push_cast
        ring
      · simp only [hx, if_false, decide_False]
        push_cast
        ring
    · intro pre c post hsplit
      cases pre with
      | nil =>
        rw [List.nil_append, List.cons.injEq] at hsplit
        obtain ⟨e1, e2⟩ := hsplit
        subst e1
        rw [i5 (c0.br - 1) hne, o3, rd_wr_same _ _ _ (by omega) hlen]
        simp
      | cons p pre' =>
        rw [List.cons_append, List.cons.injEq] at hsplit
        obtain ⟨e1, e2⟩ := hsplit
        subst e1
        rw [i4 pre' c post e2, o2, List.countP_cons]
        by_cases hx : isXLevel c0.tm <;> by_cases hc : isXLevel c.tm <;>
          simp only [hx, hc, if_true, if_false, decide_True, decide_False] <;>
          push_cast <;> ring
    · intro i hi
      rw [i5 i (fun c hc => hi c (List.mem_cons_of_mem _ hc)), o3]
      exact rd_wr_ne _ _ _ _ (hi c0 (List.mem_cons_self _ _)).symm

/-- Below the number of elements that satisfy `p`, every count is the count of a prefix that
ends just before such an element. -/
theorem countP_split {α : Type} (p : α → Bool) (l : List α) :
    ∀ j : Nat, j < l.countP p →
      ∃ (pre : List α) (c : α) (post : List α),
        l = pre ++ c :: post ∧ p c = true ∧ pre.countP p = j := by
  induction l with
  | nil =>
    intro j h
    simp at h
  | cons x l ih =>
    intro j h
    rw [List.countP_cons] at h
    by_cases hx : p x = true
    · simp only [hx, if_true] at h
      cases j with
      | zero => exact ⟨[], x, l, rfl, hx, rfl⟩
      | succ j =>
        obtain ⟨pre, c, post, e, hc, hn⟩ := ih j (by omega)
        refine ⟨x :: pre, c, post, by rw [e, List.cons_append], hc, ?_⟩
        rw [List.countP_cons, hn]
        simp [hx]
    · simp only [hx, if_false, add_zero] at h
      obtain ⟨pre, c, post, e, hc, hn⟩ := ih j h
      refine ⟨x :: pre, c, post, by rw [e, List.cons_append], hc, ?_⟩
      rw [List.countP_cons, hn]
      simp [hx]

/-- Two elements that satisfy `p` and have equally many such elements before them are at the
same place of the list. -/
theorem countP_split_unique {α : Type} (p : α → Bool) (pre1 : List α) :
    ∀ (pre2 : List α) (c1 c2 : α) (post1 post2 : List α),
      pre1 ++ c1 :: post1 = pre2 ++ c2 :: post2 → p c1 = true → p c2 = true →
      pre1.countP p = pre2.countP p → c1 = c2 := by
  induction pre1 with
  | nil =>
    intro pre2 c1 c2 post1 post2 h h1 h2 hn
    cases pre2 with
    | nil =>
      rw [List.nil_append, List.nil_append, List.cons.injEq] at h
      exact h.1
    | cons y pre2 =>
      rw [List.nil_append, List.cons_append, List.cons.injEq] at h
      rw [List.countP_cons, ← h.1] at hn
      simp [h1] at hn
  | cons x pre1 ih =>
    intro pre2 c1 c2 post1 post2 h h1 h2 hn
    cases pre2 with
    | nil =>
      rw [List.nil_append, List.cons_append, List.cons.injEq] at h
      rw [List.countP_cons, h.1] at hn
      simp [h2] at hn
    | cons y pre2 =>
      rw [List.cons_append, List.cons_append, List.cons.injEq] at h
      rw [List.countP_cons, List.countP_cons, h.1] at hn
      exact ih pre2 c1 c2 post1 post2 h.2 h1 h2 (by omega)

/-- The circuit `createdThree` is what `OmCreate(1, 3, 0, 1)` returns. -/
theorem createdThree_eq : OmCreate 1 3 0 1 = some createdThree := by
  decide!

/-- A store inside the block. -/
theorem SetAt_wr (a : List ℚ) (i : Int) (v : ℚ) (h0 : 0 ≤ i) (h1 : i < a.length) :
    SetAt a (wr a i v) i v :=
  ⟨length_wr a i v, rd_wr_same a i v h0 h1, fun k hk => rd_wr_ne a i k v hk⟩

/-- The statement `a[i] += k` inside the block. -/
theorem SetAt_incr (a : List ℚ) (i : Int) (k : ℚ) (h0 : 0 ≤ i) (h1 : i < a.length) :
    SetAt a (incr a i k) i (rd a i + k) :=
  SetAt_wr a i _ h0 h1

/-- The statement `a[i] -= k` inside the block. -/
theorem SetAt_decr (a : List ℚ) (i : Int) (k : ℚ) (h0 : 0 ≤ i) (h1 : i < a.length) :
    SetAt a (decr a i k) i (rd a i - k) :=
  SetAt_wr a i _ h0 h1

/-- An X2 or X3 type argument is one of `±3`, `±4`. -/
theorem level_X2_X3 (btm : Int) (hx : OMABS btm = OMTYP_X2 ∨ OMABS btm = OMTYP_X3) :
    (btm = 3 ∨ btm = 4) ∧ 0 < btm ∨ (btm = -3 ∨ btm = -4) ∧ btm < 0 := by
  unfold OMABS OMTYP_X2 OMTYP_X3 at hx
  split_ifs at hx <;> omega

/-- C19: `OmAddL(cr, bx, L, i0)` on an X2/X3 branch `bx` (`d` the flat index of `[bx-1, bx-1]`,
`Δt = timStp`).  Trapezoidal (`Btm > 0`): `Pb[d] += 2L/Δt`, `Qa0[bx-1] -= 2·L·i0/Δt`,
`W2o[bx-1] := -1`, on level X3 `Pa[d] += L` and `W1o[bx-1] := -4/Δt`, otherwise
`W1o[bx-1] += -4L/Δt` and `Pa` unchanged.  Backward Euler (`Btm < 0`): `Pb[d] += L/Δt`,
`Qa0[bx-1] -= L·i0/Δt`, `W2o[bx-1] := 0`, on level X3 `Pa[d] += L` and `W1o[bx-1] := -1/Δt`,
otherwise `W1o[bx-1] += -L/Δt` and `Pa` unchanged.  Nothing else changes: every other cell of
these blocks and every other field of the state keeps its value. -/
theorem OmAddL_spec (cr t : OmCir) (hs : Setup cr) (bx : Int) (ind i0 : ℚ)
    (h1 : 1 ≤ bx) (h2 : bx ≤ cr.numB)
    (hx : OMABS (rd cr.vecBtm (bx - 1)) = OMTYP_X2 ∨ OMABS (rd cr.vecBtm (bx - 1)) = OMTYP_X3)
    (ht : t = OmAddL cr bx ind i0) :
    t = { cr with matPa := t.matPa, matPb := t.matPb, vecQa0 := t.vecQa0,
                  vecW1o := t.vecW1o, vecW2o := t.vecW2o } ∧
    (0 < rd cr.vecBtm (bx - 1) →
      SetAt cr.matPb t.matPb ((bx - 1) * cr.numB + (bx - 1))
        (rd cr.matPb ((bx - 1) * cr.numB + (bx - 1)) + 2 * ind / cr.timStp) ∧
      SetAt cr.vecQa0 t.vecQa0 (bx - 1) (rd cr.vecQa0 (bx - 1) - 2 * ind * i0 / cr.timStp) ∧
      SetAt cr.vecW2o t.vecW2o (bx - 1) (-1) ∧
      (OMABS (rd cr.vecBtm (bx - 1)) = OMTYP_X3 →
        SetAt cr.matPa t.matPa ((bx - 1) * cr.numB + (bx - 1))
          (rd cr.matPa ((bx - 1) * cr.numB + (bx - 1)) + ind) ∧
        SetAt cr.vecW1o t.vecW1o (bx - 1) (-4 / cr.timStp)) ∧
      (OMABS (rd cr.vecBtm (bx - 1)) ≠ OMTYP_X3 →
        t.matPa = cr.matPa ∧
        SetAt cr.vecW1o t.vecW1o (bx - 1) (rd cr.vecW1o (bx - 1) + -4 * ind / cr.timStp))) ∧
    (rd cr.vecBtm (bx - 1) < 0 →
      SetAt cr.matPb t.matPb ((bx - 1) * cr.numB + (bx - 1))
        (rd cr.matPb ((bx - 1) * cr.numB + (bx - 1)) + ind / cr.timStp) ∧
      SetAt cr.vecQa0 t.vecQa0 (bx - 1) (rd cr.vecQa0 (bx - 1) - ind * i0 / cr.timStp) ∧
      SetAt cr.vecW2o t.vecW2o (bx - 1) 0 ∧
      (OMABS (rd cr.vecBtm (bx - 1)) = OMTYP_X3 →
        SetAt cr.matPa t.matPa ((bx - 1) * cr.numB + (bx - 1))
          (rd cr.matPa ((bx - 1) * cr.numB + (bx - 1)) + ind) ∧
        SetAt cr.vecW1o t.vecW1o (bx - 1) (-1 / cr.timStp)) ∧
      (OMABS (rd cr.vecBtm (bx - 1)) ≠ OMTYP_X3 →
        t.matPa = cr.matPa ∧
        SetAt cr.vecW1o t.vecW1o (bx - 1) (rd cr.vecW1o (bx - 1) + -ind / cr.timStp))) := by
  obtain ⟨d0, d1⟩ := diag_index cr.numB bx h1 h2
  have hs2 := hs
  unfold Setup at hs2
  obtain ⟨_, _, _, _, _, _, lpa, lpb, _, _, _, _, lw1, lw2, lqa, _⟩ := hs2
  have dpa := lt_length_of_size _ _ _ lpa d1
  have dpb := lt_length_of_size _ _ _ lpb d1
  have b0 : 0 ≤ bx - 1 := by omega
  have b1 : bx - 1 < cr.numB := by omega
  have bw1 := lt_length_of_size _ _ _ lw1 b1
  have bw2 := lt_length_of_size _ _ _ lw2 b1
  have bqa := lt_length_of_size _ _ _ lqa b1
  have hv := level_X2_X3 _ hx
  generalize hbtm : rd cr.vecBtm (bx - 1) = btm at hv ⊢
  rcases hv with ⟨hv | hv, _⟩ | ⟨hv | hv, _⟩ <;> subst hv <;> subst ht <;>
    simp only [OmAddL, hbtm, OMABS, OMTYP_X3] <;> norm_num <;>
    first
      | exact ⟨SetAt_incr _ _ _ d0 dpb, SetAt_decr _ _ _ b0 bqa, SetAt_wr _ _ _ b0 bw2,
          SetAt_incr _ _ _ b0 bw1⟩
      | exact ⟨SetAt_incr _ _ _ d0 dpb, SetAt_decr _ _ _ b0 bqa, SetAt_wr _ _ _ b0 bw2,
          SetAt_incr _ _ _ d0 dpa, SetAt_wr _ _ _ b0 bw1⟩

/-- The states `storagePre` are what `storageSetup` builds, whatever the unassigned local of
`OmBran` holds. -/
theorem storageSetup_eq (b : Int) :
    storageSetup b OMTYP_X3 = some (storagePre 4 [0]) ∧
    storageSetup b (-OMTYP_X2) = some (storagePre (-3) [1]) := by
  constructor <;>
  norm_num [storageSetup, storagePre, OmCreate, createInit, OmBran,
    OMTYP_X0, OMTYP_X1, OMTYP_X2, OMTYP_X3, OMTYP_Y3, OMTYP_Y0, OMTYP_UN,
    forLoop_done, forLoop_step, rd_cons_zero, rd_cons_pos,
    wr_cons_zero, wr_cons_pos, wr_nil, rd_nil, OMMALLOC_pos, OMMALLOC_nonpos, OMABS]

/-- Witness of `OmAddL_spec`: an inductor `L = 1/100`, `i0 = 2` on the trapezoidal X3 branch
of `storagePre 4 [0]`. -/
theorem OmAddL_spec_witness :
    Setup (storagePre 4 [0]) ∧ (1 : Int) ≤ 1 ∧ (1 : Int) ≤ (storagePre 4 [0]).numB ∧
    (OMABS (rd (storagePre 4 [0]).vecBtm (1 - 1)) = OMTYP_X2 ∨
      OMABS (rd (storagePre 4 [0]).vecBtm (1 - 1)) = OMTYP_X3) ∧
    0 < rd (storagePre 4 [0]).vecBtm (1 - 1) ∧
    SetAt (storagePre 4 [0]).matPb (OmAddL (storagePre 4 [0]) 1 (1 / 100) 2).matPb
      ((1 - 1) * (storagePre 4 [0]).numB + (1 - 1))
      (rd (storagePre 4 [0]).matPb ((1 - 1) * (storagePre 4 [0]).numB + (1 - 1))
        + 2 * (1 / 100) / (storagePre 4 [0]).timStp) :=
  ⟨by decide!, by decide, by decide!, by decide!, by decide!,
    ((OmAddL_spec (storagePre 4 [0]) _ (by decide!) 1 (1 / 100) 2 (by decide) (by decide!)
      (by decide!) rfl).2.1 (by decide!)).1⟩

/-- C20: `OmAddQ(cr, bx, rpc, v0)` on an X2/X3 branch `bx` (`d` the flat index of
`[bx-1, bx-1]`, `Δt = timStp`): `Qa0[bx-1] += v0` and `W2o[bx-1] := 1` under both rules;
`Pb[d] += rpc·Δt/2` trapezoidal (`Btm > 0`), `Pb[d] += rpc·Δt` backward Euler (`Btm < 0`);
on level X3 `Pa[d] += rpc` and `W1o[bx-1] := Δt`, otherwise `W1o[bx-1] += rpc·Δt` and `Pa`
unchanged.  Nothing else changes: every other cell of these blocks and every other field of
the state keeps its value. -/
theorem OmAddQ_spec (cr t : OmCir) (hs : Setup cr) (bx : Int) (rpc v0 : ℚ)
    (h1 : 1 ≤ bx) (h2 : bx ≤ cr.numB)
    (hx : OMABS (rd cr.vecBtm (bx - 1)) = OMTYP_X2 ∨ OMABS (rd cr.vecBtm (bx - 1)) = OMTYP_X3)
    (ht : t = OmAddQ cr bx rpc v0) :
    t = { cr with matPa := t.matPa, matPb := t.matPb, vecQa0 := t.vecQa0,
                  vecW1o := t.vecW1o, vecW2o := t.vecW2o } ∧
    SetAt cr.vecQa0 t.vecQa0 (bx - 1) (rd cr.vecQa0 (bx - 1) + v0) ∧
    SetAt cr.vecW2o t.vecW2o (bx - 1) 1 ∧
    (0 < rd cr.vecBtm (bx - 1) →
      SetAt cr.matPb t.matPb ((bx - 1) * cr.numB + (bx - 1))
        (rd cr.matPb ((bx - 1) * cr.numB + (bx - 1)) + rpc * cr.timStp / 2)) ∧
    (rd cr.vecBtm (bx - 1) < 0 →
      SetAt cr.matPb t.matPb ((bx - 1) * cr.numB + (bx - 1))
        (rd cr.matPb ((bx - 1) * cr.numB + (bx - 1)) + rpc * cr.timStp)) ∧
    (OMABS (rd cr.vecBtm (bx - 1)) = OMTYP_X3 →
      SetAt cr.matPa t.matPa ((bx - 1) * cr.numB + (bx - 1))
        (rd cr.matPa ((bx - 1) * cr.numB + (bx - 1)) + rpc) ∧
      SetAt cr.vecW1o t.vecW1o (bx - 1) cr.timStp) ∧
    (OMABS (rd cr.vecBtm (bx - 1)) ≠ OMTYP_X3 →
      t.matPa = cr.matPa ∧
      SetAt cr.vecW1o t.vecW1o (bx - 1) (rd cr.vecW1o (bx - 1) + rpc * cr.timStp)) := by
  obtain ⟨d0, d1⟩ := diag_index cr.numB bx h1 h2
  have hs2 := hs
  unfold Setup at hs2
  obtain ⟨_, _, _, _, _, _, lpa, lpb, _, _, _, _, lw1, lw2, lqa, _⟩ := hs2
  have dpa := lt_length_of_size _ _ _ lpa d1
  have dpb := lt_length_of_size _ _ _ lpb d1
  have b0 : 0 ≤ bx - 1 := by omega
  have b1 : bx - 1 < cr.numB := by omega
  have bw1 := lt_length_of_size _ _ _ lw1 b1
  have bw2 := lt_length_of_size _ _ _ lw2 b1
  have bqa := lt_length_of_size _ _ _ lqa b1
  have hv := level_X2_X3 _ hx
  generalize hbtm : rd cr.vecBtm (bx - 1) = btm at hv ⊢
  rcases hv with ⟨hv | hv, _⟩ | ⟨hv | hv, _⟩ <;> subst hv <;> subst ht <;>
    simp only [OmAddQ, hbtm, OMABS, OMTYP_X3] <;> norm_num <;>
    first
      | exact ⟨SetAt_incr _ _ _ b0 bqa, SetAt_wr _ _ _ b0 bw2, SetAt_incr _ _ _ d0 dpb,
          SetAt_incr _ _ _ b0 bw1⟩
      | exact ⟨SetAt_incr _ _ _ b0 bqa, SetAt_wr _ _ _ b0 bw2, SetAt_incr _ _ _ d0 dpb,
          SetAt_incr _ _ _ d0 dpa, SetAt_wr _ _ _ b0 bw1⟩

/-- Witness of `OmAddQ_spec`: a capacitor `rpc = 1/100`, `v0 = 2` on the backward-Euler X2
branch of `storagePre (-3) [1]`. -/
theorem OmAddQ_spec_witness :
    Setup (storagePre (-3) [1]) ∧ (1 : Int) ≤ 1 ∧ (1 : Int) ≤ (storagePre (-3) [1]).numB ∧
    (OMABS (rd (storagePre (-3) [1]).vecBtm (1 - 1)) = OMTYP_X2 ∨
      OMABS (rd (storagePre (-3) [1]).vecBtm (1 - 1)) = OMTYP_X3) ∧
    SetAt (storagePre (-3) [1]).vecQa0 (OmAddQ (storagePre (-3) [1]) 1 (1 / 100) 2).vecQa0
      (1 - 1) (rd (storagePre (-3) [1]).vecQa0 (1 - 1) + 2) :=
  ⟨by decide!, by decide, by decide!, by decide!,
    (OmAddQ_spec (storagePre (-3) [1]) _ (by decide!) 1 (1 / 100) 2 (by decide) (by decide!)
      (by decide!) rfl).2.1⟩

/-! ## The controlled reactive stampers, the switch stamper and the linear stampers -/

/-- The flat index of the entry `[i, j]` lies inside a `b`×`b` block. -/
theorem flat_index (b i j : Int) (i0 : 0 ≤ i) (i1 : i < b) (j0 : 0 ≤ j) (j1 : j < b) :
    0 ≤ i * b + j ∧ i * b + j < b * b := by
  constructor
  · have : 0 ≤ i * b := mul_nonneg i0 (by omega)
    omega
  · nlinarith

/-- C21: `OmAddM(cr, bx, cx, k, ic0)` (`d` the flat index of `[bx-1, cx-1]`, `Δt = timStp`):
`Pa[d] += k` under both rules; trapezoidal (`Btm[bx-1] ≥ 0`): `Pb[d] += 2k/Δt`,
`Qa0[bx-1] -= 2·k·ic0/Δt`, `W1o[bx-1] := -4/Δt`, `W2o[bx-1] := -1`; backward Euler
(`Btm[bx-1] < 0`): `Pb[d] += k/Δt`, `Qa0[bx-1] -= k·ic0/Δt`, `W1o[bx-1] := -1/Δt`,
`W2o[bx-1] := 0`.  Nothing else changes: every other cell of these blocks and every other
field of the state keeps its value. -/
theorem OmAddM_spec (cr t : OmCir) (hs : Setup cr) (bx cx : Int) (k ic0 : ℚ)
    (h1 : 1 ≤ bx) (h2 : bx ≤ cr.numB) (h3 : 1 ≤ cx) (h4 : cx ≤ cr.numB)
    (ht : t = OmAddM cr bx cx k ic0) :
    t = { cr with matPa := t.matPa, matPb := t.matPb, vecQa0 := t.vecQa0,
                  vecW1o := t.vecW1o, vecW2o := t.vecW2o } ∧
    SetAt cr.matPa t.matPa ((bx - 1) * cr.numB + (cx - 1))
      (rd cr.matPa ((bx - 1) * cr.numB + (cx - 1)) + k) ∧
    (0 ≤ rd cr.vecBtm (bx - 1) →
      SetAt cr.matPb t.matPb ((bx - 1) * cr.numB + (cx - 1))
        (rd cr.matPb ((bx - 1) * cr.numB + (cx - 1)) + 2 * k / cr.timStp) ∧
      SetAt cr.vecQa0 t.vecQa0 (bx - 1) (rd cr.vecQa0 (bx - 1) - 2 * k * ic0 / cr.timStp) ∧
      SetAt cr.vecW1o t.vecW1o (bx - 1) (-4 / cr.timStp) ∧
      SetAt cr.vecW2o t.vecW2o (bx - 1) (-1)) ∧
    (rd cr.vecBtm (bx - 1) < 0 →
      SetAt cr.matPb t.matPb ((bx - 1) * cr.numB + (cx - 1))
        (rd cr.matPb ((bx - 1) * cr.numB + (cx - 1)) + k / cr.timStp) ∧
      SetAt cr.vecQa0 t.vecQa0 (bx - 1) (rd cr.vecQa0 (bx - 1) - k * ic0 / cr.timStp) ∧
      SetAt cr.vecW1o t.vecW1o (bx - 1) (-1 / cr.timStp) ∧
      SetAt cr.vecW2o t.vecW2o (bx - 1) 0) := by
  obtain ⟨d0, d1⟩ := flat_index cr.numB (bx - 1) (cx - 1) (by omega) (by omega) (by omega)
    (by omega)
  have hs2 := hs
  unfold Setup at hs2
  obtain ⟨_, _, _, _, _, _, lpa, lpb, _, _, _, _, lw1, lw2, lqa, _⟩ := hs2
  have dpa := lt_length_of_size _ _ _ lpa d1
  have dpb := lt_length_of_size _ _ _ lpb d1
  have b0 : 0 ≤ bx - 1 := by omega
  have b1 : bx - 1 < cr.numB := by omega
  have bw1 := lt_length_of_size _ _ _ lw1 b1
  have bw2 := lt_length_of_size _ _ _ lw2 b1
  have bqa := lt_length_of_size _ _ _ lqa b1
  subst ht
  by_cases hbe : rd cr.vecBtm (bx - 1) < 0
  · have hn : ¬ 0 ≤ rd cr.vecBtm (bx - 1) := by omega
    simp only [OmAddM, hbe, if_true]
    exact ⟨trivial, SetAt_incr _ _ _ d0 dpa, fun h => absurd h hn,
      fun _ => ⟨SetAt_incr _ _ _ d0 dpb, SetAt_decr _ _ _ b0 bqa, SetAt_wr _ _ _ b0 bw1,
        SetAt_wr _ _ _ b0 bw2⟩⟩
  · simp only [OmAddM, hbe, if_false]
    exact ⟨trivial, SetAt_incr _ _ _ d0 dpa,
      fun _ => ⟨SetAt_incr _ _ _ d0 dpb, SetAt_decr _ _ _ b0 bqa, SetAt_wr _ _ _ b0 bw1,
        SetAt_wr _ _ _ b0 bw2⟩, fun h => h.elim⟩

/-- C22: `OmAddA(cr, bx, cx, k, v0)` (`d` the flat index of `[bx-1, cx-1]`, `Δt = timStp`):
under both integration rules `Pa[d] += k`, `Qa0[bx-1] += v0`, `W1o[bx-1] := Δt`,
`W2o[bx-1] := 1`, with `Pb[d] += k·Δt` for backward Euler (`Btm[bx-1] < 0`) and
`Pb[d] += k·Δt/2` for trapezoidal (`Btm[bx-1] ≥ 0`).  Nothing else changes: every other cell
of these blocks and every other field of the state keeps its value. -/
theorem OmAddA_spec (cr t : OmCir) (hs : Setup cr) (bx cx : Int) (k v0 : ℚ)
    (h1 : 1 ≤ bx) (h2 : bx ≤ cr.numB) (h3 : 1 ≤ cx) (h4 : cx ≤ cr.numB)
    (ht : t = OmAddA cr bx cx k v0) :
    t = { cr with matPa := t.matPa, matPb := t.matPb, vecQa0 := t.vecQa0,
                  vecW1o := t.vecW1o, vecW2o := t.vecW2o } ∧
    SetAt cr.matPa t.matPa ((bx - 1) * cr.numB + (cx - 1))
      (rd cr.matPa ((bx - 1) * cr.numB + (cx - 1)) + k) ∧
    SetAt cr.vecQa0 t.vecQa0 (bx - 1) (rd cr.vecQa0 (bx - 1) + v0) ∧
    SetAt cr.vecW1o t.vecW1o (bx - 1) cr.timStp ∧
    SetAt cr.vecW2o t.vecW2o (bx - 1) 1 ∧
    (rd cr.vecBtm (bx - 1) < 0 →
      SetAt cr.matPb t.matPb ((bx - 1) * cr.numB + (cx - 1))
        (rd cr.matPb ((bx - 1) * cr.numB + (cx - 1)) + k * cr.timStp)) ∧
    (0 ≤ rd cr.vecBtm (bx - 1) →
      SetAt cr.matPb t.matPb ((bx - 1) * cr.numB + (cx - 1))
        (rd cr.matPb ((bx - 1) * cr.numB + (cx - 1)) + k * cr.timStp / 2)) := by
  obtain ⟨d0, d1⟩ := flat_index cr.numB (bx - 1) (cx - 1) (by omega) (by omega) (by omega)
    (by omega)
  have hs2 := hs
  unfold Setup at hs2
  obtain ⟨_, _, _, _, _, _, lpa, lpb, _, _, _, _, lw1, lw2, lqa, _⟩ := hs2
  have dpa := lt_length_of_size _ _ _ lpa d1
  have dpb := lt_length_of_size _ _ _ lpb d1
  have b0 : 0 ≤ bx - 1 := by omega
  have b1 : bx - 1 < cr.numB := by omega
  have bw1 := lt_length_of_size _ _ _ lw1 b1
  have bw2 := lt_length_of_size _ _ _ lw2 b1
  have bqa := lt_length_of_size _ _ _ lqa b1
  subst ht
  by_cases hbe : rd cr.vecBtm (bx - 1) < 0
  · have hn : ¬ 0 ≤ rd cr.vecBtm (bx - 1) := by omega
    simp only [OmAddA, hbe, if_true]
    exact ⟨trivial, SetAt_incr _ _ _ d0 dpa, SetAt_incr _ _ _ b0 bqa,
      SetAt_wr _ _ _ b0 bw1, SetAt_wr _ _ _ b0 bw2, fun _ => SetAt_incr _ _ _ d0 dpb,
      fun h => absurd h hn⟩
  · simp only [OmAddA, hbe, if_false]
    exact ⟨trivial, SetAt_incr _ _ _ d0 dpa, SetAt_incr _ _ _ b0 bqa,
      SetAt_wr _ _ _ b0 bw1, SetAt_wr _ _ _ b0 bw2, fun h => h.elim,
      fun _ => SetAt_incr _ _ _ d0 dpb⟩

/-- C23: `OmAddS(cr, bs, k1, k2, ysw, ron)` with `τ = 1 + ysw·ron` performs
`Pb[bs-1, bs-1] += ysw/τ`, `W1c[bs-1] := (k1+1)·ysw/τ²`, `W2c[bs-1] := (1 - k1·ysw·ron)/τ`,
`W1o[bs-1] := (k2-1)·ysw/τ²`, `W2o[bs-1] := (k2 + ysw·ron)/τ`, and changes nothing else:
every other cell of these blocks and every other field of the state keeps its value. -/
theorem OmAddS_spec (cr t : OmCir) (hs : Setup cr) (bs : Int) (k1 k2 ysw ron : ℚ)
    (h1 : 1 ≤ bs) (h2 : bs ≤ cr.numB) (ht : t = OmAddS cr bs k1 k2 ysw ron) :
    t = { cr with matPb := t.matPb, vecW1c := t.vecW1c, vecW2c := t.vecW2c,
                  vecW1o := t.vecW1o, vecW2o := t.vecW2o } ∧
    SetAt cr.matPb t.matPb ((bs - 1) * cr.numB + (bs - 1))
      (rd cr.matPb ((bs - 1) * cr.numB + (bs - 1)) + ysw / (1 + ysw * ron)) ∧
    SetAt cr.vecW1c t.vecW1c (bs - 1) ((k1 + 1) * ysw / (1 + ysw * ron) ^ 2) ∧
    SetAt cr.vecW2c t.vecW2c (bs - 1) ((1 - k1 * ysw * ron) / (1 + ysw * ron)) ∧
    SetAt cr.vecW1o t.vecW1o (bs - 1) ((k2 - 1) * ysw / (1 + ysw * ron) ^ 2) ∧
    SetAt cr.vecW2o t.vecW2o (bs - 1) ((k2 + ysw * ron) / (1 + ysw * ron)) := by
  obtain ⟨d0, d1⟩ := diag_index cr.numB bs h1 h2
  have hs2 := hs
  unfold Setup at hs2
  obtain ⟨_, _, _, _, _, _, _, lpb, _, _, l1c, l2c, l1o, l2o, _, _⟩ := hs2
  have dpb := lt_length_of_size _ _ _ lpb d1
  have b0 : 0 ≤ bs - 1 := by omega
  have b1 : bs - 1 < cr.numB := by omega
  subst ht
  have hsq : (1 + ysw * ron) ^ 2 = (1 + ysw * ron) * (1 + ysw * ron) := by ring
  rw [hsq]
  exact ⟨rfl, SetAt_incr _ _ _ d0 dpb,
    SetAt_wr _ _ _ b0 (lt_length_of_size _ _ _ l1c b1),
    SetAt_wr _ _ _ b0 (lt_length_of_size _ _ _ l2c b1),
    SetAt_wr _ _ _ b0 (lt_length_of_size _ _ _ l1o b1),
    SetAt_wr _ _ _ b0 (lt_length_of_size _ _ _ l2o b1)⟩
/-- C25: each linear stamper adds its argument `x` to exactly one setup entry and changes
nothing else: `OmAddX` and `OmAddY` add to `Pb[bt-1, bt-1]`, `OmAddV` and `OmAddI` add to
`Qs0[bt-1]`, and `OmAddE`, `OmAddH`, `OmAddF`, `OmAddG` add to `Pb[bt-1, bc-1]`, with `bt` the
controlled (target) branch and `bc` the controlling branch. -/
theorem linear_stampers_spec (cr : OmCir) (hs : Setup cr) (bt bc : Int) (x : ℚ)
    (h1 : 1 ≤ bt) (h2 : bt ≤ cr.numB) (h3 : 1 ≤ bc) (h4 : bc ≤ cr.numB) :
    (OmAddX cr bt x = { cr with matPb := (OmAddX cr bt x).matPb } ∧
      SetAt cr.matPb (OmAddX cr bt x).matPb ((bt - 1) * cr.numB + (bt - 1))
        (rd cr.matPb ((bt - 1) * cr.numB + (bt - 1)) + x)) ∧
    (OmAddY cr bt x = { cr with matPb := (OmAddY cr bt x).matPb } ∧
      SetAt cr.matPb (OmAddY cr bt x).matPb ((bt - 1) * cr.numB + (bt - 1))
        (rd cr.matPb ((bt - 1) * cr.numB + (bt - 1)) + x)) ∧
    (OmAddV cr bt x = { cr with vecQs0 := (OmAddV cr bt x).vecQs0 } ∧
      SetAt cr.vecQs0 (OmAddV cr bt x).vecQs0 (bt - 1) (rd cr.vecQs0 (bt - 1) + x)) ∧
    (OmAddI cr bt x = { cr with vecQs0 := (OmAddI cr bt x).vecQs0 } ∧
      SetAt cr.vecQs0 (OmAddI cr bt x).vecQs0 (bt - 1) (rd cr.vecQs0 (bt - 1) + x)) ∧
    (OmAddE cr bt bc x = { cr with matPb := (OmAddE cr bt bc x).matPb } ∧
      SetAt cr.matPb (OmAddE cr bt bc x).matPb ((bt - 1) * cr.numB + (bc - 1))
        (rd cr.matPb ((bt - 1) * cr.numB + (bc - 1)) + x)) ∧
    (OmAddH cr bt bc x = { cr with matPb := (OmAddH cr bt bc x).matPb } ∧
      SetAt cr.matPb (OmAddH cr bt bc x).matPb ((bt - 1) * cr.numB + (bc - 1))
        (rd cr.matPb ((bt - 1) * cr.numB + (bc - 1)) + x)) ∧
    (OmAddF cr bt bc x = { cr with matPb := (OmAddF cr bt bc x).matPb } ∧
      SetAt cr.matPb (OmAddF cr bt bc x).matPb ((bt - 1) * cr.numB + (bc - 1))
        (rd cr.matPb ((bt - 1) * cr.numB + (bc - 1)) + x)) ∧
    (OmAddG cr bt bc x = { cr with matPb := (OmAddG cr bt bc x).matPb } ∧
      SetAt cr.matPb (OmAddG cr bt bc x).matPb ((bt - 1) * cr.numB + (bc - 1))
        (rd cr.matPb ((bt - 1) * cr.numB + (bc - 1)) + x)) := by
  obtain ⟨d0, d1⟩ := diag_index cr.numB bt h1 h2
  obtain ⟨e0, e1⟩ := flat_index cr.numB (bt - 1) (bc - 1) (by omega) (by omega) (by omega)
    (by omega)
  have hs2 := hs
  unfold Setup at hs2
  obtain ⟨_, _, _, _, _, _, _, lpb, _, _, _, _, _, _, _, lqs⟩ := hs2
  have dpb := lt_length_of_size _ _ _ lpb d1
  have epb := lt_length_of_size _ _ _ lpb e1
  have b0 : 0 ≤ bt - 1 := by omega
  have b1 : bt - 1 < cr.numB := by omega
  have bqs := lt_length_of_size _ _ _ lqs b1
  exact ⟨⟨rfl, SetAt_incr _ _ _ d0 dpb⟩, ⟨rfl, SetAt_incr _ _ _ d0 dpb⟩,
    ⟨rfl, SetAt_incr _ _ _ b0 bqs⟩, ⟨rfl, SetAt_incr _ _ _ b0 bqs⟩,
    ⟨rfl, SetAt_incr _ _ _ e0 epb⟩, ⟨rfl, SetAt_incr _ _ _ e0 epb⟩,
    ⟨rfl, SetAt_incr _ _ _ e0 epb⟩, ⟨rfl, SetAt_incr _ _ _ e0 epb⟩⟩

/-- Witness of `OmAddM_spec`: branch 2 of `createdThree` configured as a backward-Euler X3
branch, coupled to branch 3 with `k = 1/2`. -/
theorem OmAddM_spec_witness :
    Setup (OmBran createdThree 3 2 1 0 (-OMTYP_X3)) ∧
    (1 : Int) ≤ 2 ∧ (2 : Int) ≤ (OmBran createdThree 3 2 1 0 (-OMTYP_X3)).numB ∧
    (1 : Int) ≤ 3 ∧ (3 : Int) ≤ (OmBran createdThree 3 2 1 0 (-OMTYP_X3)).numB ∧
    SetAt (OmBran createdThree 3 2 1 0 (-OMTYP_X3)).matPa
      (OmAddM (OmBran createdThree 3 2 1 0 (-OMTYP_X3)) 2 3 (1 / 2) 0).matPa
      ((2 - 1) * (OmBran createdThree 3 2 1 0 (-OMTYP_X3)).numB + (3 - 1))
      (rd (OmBran createdThree 3 2 1 0 (-OMTYP_X3)).matPa
        ((2 - 1) * (OmBran createdThree 3 2 1 0 (-OMTYP_X3)).numB + (3 - 1)) + 1 / 2) :=
  ⟨by decide!, by decide, by decide!, by decide, by decide!,
    (OmAddM_spec (OmBran createdThree 3 2 1 0 (-OMTYP_X3)) _ (by decide!) 2 3 (1 / 2) 0
      (by decide) (by decide!) (by decide) (by decide!) rfl).2.1⟩

/-- Witness of `OmAddA_spec`: branch 2 of `createdThree` configured as a trapezoidal X3
branch, controlled by branch 3 with `k = 1/2`, `v0 = 5`. -/
theorem OmAddA_spec_witness :
    Setup (OmBran createdThree 3 2 1 0 OMTYP_X3) ∧
    (1 : Int) ≤ 2 ∧ (2 : Int) ≤ (OmBran createdThree 3 2 1 0 OMTYP_X3).numB ∧
    (1 : Int) ≤ 3 ∧ (3 : Int) ≤ (OmBran createdThree 3 2 1 0 OMTYP_X3).numB ∧
    SetAt (OmBran createdThree 3 2 1 0 OMTYP_X3).vecW1o
      (OmAddA (OmBran createdThree 3 2 1 0 OMTYP_X3) 2 3 (1 / 2) 5).vecW1o (2 - 1)
      (OmBran createdThree 3 2 1 0 OMTYP_X3).timStp :=
  ⟨by decide!, by decide, by decide!, by decide, by decide!,
    (OmAddA_spec (OmBran createdThree 3 2 1 0 OMTYP_X3) _ (by decide!) 2 3 (1 / 2) 5
      (by decide) (by decide!) (by decide) (by decide!) rfl).2.2.2.1⟩

/-- Witness of `OmAddS_spec`: the switch of test 6 stamped on branch 2 of `switchPre`. -/
theorem OmAddS_spec_witness :
    Setup (switchPre [1, 0, 0, 1]) ∧
    (1 : Int) ≤ 2 ∧ (2 : Int) ≤ (switchPre [1, 0, 0, 1]).numB ∧
    SetAt (switchPre [1, 0, 0, 1]).vecW2c
      (OmAddS (switchPre [1, 0, 0, 1]) 2 1 (6569 / 10000) (2929 / 10000000) 0).vecW2c (2 - 1)
      ((1 - 1 * (2929 / 10000000) * 0) / (1 + 2929 / 10000000 * 0)) :=
  ⟨by decide!, by decide, by decide!,
    (OmAddS_spec (switchPre [1, 0, 0, 1]) _ (by decide!) 2 1 (6569 / 10000)
      (2929 / 10000000) 0 (by decide) (by decide!) rfl).2.2.2.1⟩

/-- Witness of `linear_stampers_spec`: `OmAddF(cr, 2, 1, 3)` on the setup state of test 4. -/
theorem linear_stampers_spec_witness :
    Setup (boostPre (1 / 2) [1, 0, 0, 1]) ∧
    (1 : Int) ≤ 2 ∧ (2 : Int) ≤ (boostPre (1 / 2) [1, 0, 0, 1]).numB ∧
    (1 : Int) ≤ 1 ∧ (1 : Int) ≤ (boostPre (1 / 2) [1, 0, 0, 1]).numB ∧
    SetAt (boostPre (1 / 2) [1, 0, 0, 1]).matPb
      (OmAddF (boostPre (1 / 2) [1, 0, 0, 1]) 2 1 3).matPb
      ((2 - 1) * (boostPre (1 / 2) [1, 0, 0, 1]).numB + (1 - 1))
      (rd (boostPre (1 / 2) [1, 0, 0, 1]).matPb
        ((2 - 1) * (boostPre (1 / 2) [1, 0, 0, 1]).numB + (1 - 1)) + 3) :=
  ⟨by decide!, by decide, by decide!, by decide, by decide!,
    (linear_stampers_spec (boostPre (1 / 2) [1, 0, 0, 1]) (by decide!) 2 1 3
      (by decide) (by decide!) (by decide) (by decide!)).2.2.2.2.2.2.1.2⟩

/-! ## Duality of the reactive stampers -/

/-- A load from a block mapped by a function that fixes 0. -/
theorem rd_map {α β : Type} [Zero α] [Zero β] (f : α → β) (hf : f 0 = 0) (a : List α)
    (i : Int) : rd (a.map f) i = f (rd a i) := by
  unfold rd
  split_ifs
  · exact hf.symm
  · rw [← hf, List.getD_map]

/-- The tag `dualTag tm` has the sign of `tm`, and it is `±X3` exactly when `tm` is `±Y3`,
unless `tm` is `±X3` itself. -/
theorem dualTag_spec (tm : Int) :
    (dualTag tm < 0 ↔ tm < 0) ∧
    (tm ≠ -OMTYP_X3 → (dualTag tm = -OMTYP_X3 ↔ tm = -OMTYP_Y3)) ∧
    (tm ≠ OMTYP_X3 → (dualTag tm = OMTYP_X3 ↔ tm = OMTYP_Y3)) := by
  unfold dualTag OMTYP_X3 OMTYP_Y3 OMTYP_X2 OMTYP_Y2
  split_ifs <;>
    refine ⟨⟨fun h => ?_, fun h => ?_⟩, fun hne => ⟨fun h => ?_, fun h => ?_⟩,
      fun hne => ⟨fun h => ?_, fun h => ?_⟩⟩ <;> first | omega | contradiction

/-- The tags of the state `dualState cr`. -/
theorem dualState_btm (cr : OmCir) (i : Int) :
    rd (dualState cr).vecBtm i = dualTag (rd cr.vecBtm i) :=
  rd_map dualTag (by decide) cr.vecBtm i

/-- C24 (amended): duality of the reactive stampers.  For all arguments and every setup state
`cr`, `OmAddN` and `OmAddB` perform exactly the updates that `OmAddM` and `OmAddA` perform on
the state `dualState cr`, which differs from `cr` only in having the tag X3 where `cr` has Y3
and X2 where `cr` has Y2; `OmAddC` and `OmAddP` perform exactly the updates of `OmAddL` and
`OmAddQ` on `dualState cr` whenever the target branch does not itself carry the tag `±X3`
(in particular on every Y2/Y3 branch).  The resulting states agree in every field but the
tags, so `Pa`, `Pb`, `Qa0`, `W1o`, `W2o` receive the same updates. -/
theorem stamper_duality (cr : OmCir) (by_ cy : Int) (x y : ℚ) :
    ((rd cr.vecBtm (by_ - 1) ≠ OMTYP_X3 ∧ rd cr.vecBtm (by_ - 1) ≠ -OMTYP_X3) →
      OmAddL (dualState cr) by_ x y = dualState (OmAddC cr by_ x y) ∧
      OmAddQ (dualState cr) by_ x y = dualState (OmAddP cr by_ x y)) ∧
    OmAddM (dualState cr) by_ cy x y = dualState (OmAddN cr by_ cy x y) ∧
    OmAddA (dualState cr) by_ cy x y = dualState (OmAddB cr by_ cy x y) := by
  obtain ⟨hsign, h3n, h3p⟩ := dualTag_spec (rd cr.vecBtm (by_ - 1))
  have hb := dualState_btm cr (by_ - 1)
  refine ⟨?_, ?_, ?_⟩
  · intro hne
    have e3n := h3n hne.2
    have e3p := h3p hne.1
    constructor
    · unfold OmAddL OmAddC
      simp only [hb]
      by_cases hs : rd cr.vecBtm (by_ - 1) < 0
      · by_cases hl : rd cr.vecBtm (by_ - 1) = -OMTYP_Y3
        · simp only [hsign.mpr hs, hs, e3n.mpr hl, hl, if_true]
          rfl
        · simp only [hsign.mpr hs, hs, mt e3n.mp hl, hl, if_true, if_false]
          rfl
      · by_cases hl : rd cr.vecBtm (by_ - 1) = OMTYP_Y3
        · simp only [mt hsign.mp hs, hs, e3p.mpr hl, hl, if_true, if_false]
          rfl
        · simp only [mt hsign.mp hs, hs, mt e3p.mp hl, hl, if_true, if_false]
          rfl
    · unfold OmAddQ OmAddP
      simp only [hb]
      by_cases hs : rd cr.vecBtm (by_ - 1) < 0
      · by_cases hl : rd cr.vecBtm (by_ - 1) = -OMTYP_Y3
        · simp only [hsign.mpr hs, hs, e3n.mpr hl, hl, if_true]
          rfl
        · simp only [hsign.mpr hs, hs, mt e3n.mp hl, hl, if_true, if_false]
          rfl
      · by_cases hl : rd cr.vecBtm (by_ - 1) = OMTYP_Y3
        · simp only [mt hsign.mp hs, hs, e3p.mpr hl, hl, if_true, if_false]
          rfl
        · simp only [mt hsign.mp hs, hs, mt e3p.mp hl, hl, if_true, if_false]
          rfl
  · unfold OmAddM OmAddN
    simp only [hb]
    by_cases hs : rd cr.vecBtm (by_ - 1) < 0
    · simp only [hsign.mpr hs, hs, if_true]
      rfl
    · simp only [mt hsign.mp hs, hs, if_false]
      rfl
  · unfold OmAddA OmAddB
    simp only [hb]
    by_cases hs : rd cr.vecBtm (by_ - 1) < 0
    · simp only [hsign.mpr hs, hs, if_true]
      rfl
    · simp only [mt hsign.mp hs, hs, if_false]
      rfl

/-- C24 as stated fails on a branch tagged X3: on `storagePre 4 [0]`, which is its own dual
state, `OmAddC` takes its level-2 path (`W1o += -4·cap/Δt`, `Pa` unchanged) while `OmAddL`
takes its level-3 path (`W1o := -4/Δt`, `Pa += L`); likewise `OmAddP` and `OmAddQ`. -/
theorem stamper_duality_counterexample :
    dualState (storagePre 4 [0]) = storagePre 4 [0] ∧
    (OmAddC (storagePre 4 [0]) 1 (1 / 100) 2).vecW1o = [-40] ∧
    (OmAddL (dualState (storagePre 4 [0])) 1 (1 / 100) 2).vecW1o = [-4000] ∧
    (OmAddC (storagePre 4 [0]) 1 (1 / 100) 2).matPa = [0] ∧
    (OmAddL (dualState (storagePre 4 [0])) 1 (1 / 100) 2).matPa = [1 / 100] ∧
    (OmAddP (storagePre 4 [0]) 1 (1 / 100) 2).vecW1o = [1 / 100000] ∧
    (OmAddQ (dualState (storagePre 4 [0])) 1 (1 / 100) 2).vecW1o = [1 / 1000] := by
  decide!

/-- Witness of `stamper_duality`: a capacitor on branch 2 of `createdThree` configured as a
trapezoidal Y3 branch. -/
theorem stamper_duality_witness :
    (rd (OmBran createdThree 3 2 1 0 OMTYP_Y3).vecBtm (2 - 1) ≠ OMTYP_X3 ∧
      rd (OmBran createdThree 3 2 1 0 OMTYP_Y3).vecBtm (2 - 1) ≠ -OMTYP_X3) ∧
    OmAddL (dualState (OmBran createdThree 3 2 1 0 OMTYP_Y3)) 2 (1 / 100) 2
      = dualState (OmAddC (OmBran createdThree 3 2 1 0 OMTYP_Y3) 2 (1 / 100) 2) :=
  ⟨by decide!,
    ((stamper_duality (OmBran createdThree 3 2 1 0 OMTYP_Y3) 2 3 (1 / 100) 2).1
      (by decide!)).1⟩

/-! ## The matrix entries a stamper may modify -/

/-- Row-major indexing is injective on columns inside the row length. -/
theorem flat_index_inj (b i j i' j' : Int) (j0 : 0 ≤ j) (j1 : j < b) (j0' : 0 ≤ j')
    (j1' : j' < b) (h : i * b + j = i' * b + j') : i = i' ∧ j = j' := by
  have hi : i = i' := by
    rcases lt_trichotomy i i' with hlt | heq | hgt
    · exfalso
      have h1 : (i' - i) * b ≥ 1 * b := by
        apply mul_le_mul_of_nonneg_right <;> omega
      nlinarith
    · exact heq
    · exfalso
      have h1 : (i - i') * b ≥ 1 * b := by
        apply mul_le_mul_of_nonneg_right <;> omega
      nlinarith
  subst hi
  exact ⟨rfl, by omega⟩

/-- A store at the diagonal entry `[bt-1, bt-1]` keeps every other entry. -/
theorem rd_wr_offTarget (a : List ℚ) (b bt i j : Int) (v : ℚ) (j0 : 0 ≤ j) (j1 : j < b)
    (h1 : 1 ≤ bt) (h2 : bt ≤ b) (hne : ¬ (i = bt - 1 ∧ j = bt - 1)) :
    rd (wr a ((bt - 1) * b + (bt - 1)) v) (i * b + j) = rd a (i * b + j) := by
  apply rd_wr_ne
  intro he
  exact hne (flat_index_inj b i j (bt - 1) (bt - 1) j0 j1 (by omega) (by omega) he)

/-- A state whose `Pa` and `Pb` are those of `cr`, up to one store in the diagonal entry of
branch `bt`, keeps every other entry. -/
theorem KeepsOffTarget_of (cr t : OmCir) (bt : Int) (h1 : 1 ≤ bt) (h2 : bt ≤ cr.numB)
    (ha : t.matPa = cr.matPa ∨ ∃ v, t.matPa = wr cr.matPa ((bt - 1) * cr.numB + (bt - 1)) v)
    (hb : t.matPb = cr.matPb ∨ ∃ v, t.matPb = wr cr.matPb ((bt - 1) * cr.numB + (bt - 1)) v) :
    KeepsOffTarget cr t bt := by
  intro i j _ _ j0 j1 hne
  constructor
  · rcases ha with ha | ⟨v, ha⟩
    · rw [ha]
    · rw [ha]
      exact rd_wr_offTarget _ _ _ _ _ _ j0 j1 h1 h2 hne
  · rcases hb with hb | ⟨v, hb⟩
    · rw [hb]
    · rw [hb]
      exact rd_wr_offTarget _ _ _ _ _ _ j0 j1 h1 h2 hne

/-- The stampers that are not controlled sources write `Pa` and `Pb` only in the diagonal
entry of their target branch, and so does `OmBran` when its local `b` holds `numB`. -/
theorem stampers_keep_offTarget (cr : OmCir) (bt : Int) (h1 : 1 ≤ bt) (h2 : bt ≤ cr.numB)
    (x y : ℚ) (k1 k2 : ℚ) (n1 n2 tm : Int) :
    KeepsOffTarget cr (OmAddX cr bt x) bt ∧ KeepsOffTarget cr (OmAddY cr bt x) bt ∧
    KeepsOffTarget cr (OmAddV cr bt x) bt ∧ KeepsOffTarget cr (OmAddI cr bt x) bt ∧
    KeepsOffTarget cr (OmAddL cr bt x y) bt ∧ KeepsOffTarget cr (OmAddC cr bt x y) bt ∧
    KeepsOffTarget cr (OmAddQ cr bt x y) bt ∧ KeepsOffTarget cr (OmAddP cr bt x y) bt ∧
    KeepsOffTarget cr (OmAddS cr bt k1 k2 x y) bt ∧
    KeepsOffTarget cr (OmBran cr cr.numB bt n1 n2 tm) bt := by
  refine ⟨?_, ?_, ?_, ?_, ?_, ?_, ?_, ?_, ?_, ?_⟩
  · exact KeepsOffTarget_of cr _ bt h1 h2 (Or.inl rfl) (Or.inr ⟨_, rfl⟩)
  · exact KeepsOffTarget_of cr _ bt h1 h2 (Or.inl rfl) (Or.inr ⟨_, rfl⟩)
  · exact KeepsOffTarget_of cr _ bt h1 h2 (Or.inl rfl) (Or.inl rfl)
  · exact KeepsOffTarget_of cr _ bt h1 h2 (Or.inl rfl) (Or.inl rfl)
  · apply KeepsOffTarget_of cr _ bt h1 h2 <;> unfold OmAddL <;> dsimp only <;>
      split_ifs <;> first | exact Or.inl rfl | exact Or.inr ⟨_, rfl⟩
  · apply KeepsOffTarget_of cr _ bt h1 h2 <;> unfold OmAddC <;> dsimp only <;>
      split_ifs <;> first | exact Or.inl rfl | exact Or.inr ⟨_, rfl⟩
  · apply KeepsOffTarget_of cr _ bt h1 h2 <;> unfold OmAddQ <;> dsimp only <;>
      split_ifs <;> first | exact Or.inl rfl | exact Or.inr ⟨_, rfl⟩
  · apply KeepsOffTarget_of cr _ bt h1 h2 <;> unfold OmAddP <;> dsimp only <;>
      split_ifs <;> first | exact Or.inl rfl | exact Or.inr ⟨_, rfl⟩
  · exact KeepsOffTarget_of cr _ bt h1 h2 (Or.inl rfl) (Or.inr ⟨_, rfl⟩)
  · apply KeepsOffTarget_of cr _ bt h1 h2 <;> unfold OmBran <;> dsimp only <;>
      split_ifs <;> first | exact Or.inl rfl | exact Or.inr ⟨_, rfl⟩

/-- C26 (code defect): `OmBran` indexes `Pa` with its unassigned local `b`.  On the circuit
`OmCreate(1, 3, 0, 1)` the call `OmBran(cr, 2, 1, 0, OMTYP_X1)` with 0 in that local stores
the 1 in the off-diagonal entry `Pa[0,1]`, which was 0. -/
theorem OmBran_offdiag_unassigned_b :
    rd createdThree.matPa (0 * createdThree.numB + 1) = 0 ∧
    rd (OmBran createdThree 0 2 1 0 OMTYP_X1).matPa (0 * createdThree.numB + 1) = 1 ∧
    ¬ KeepsOffTarget createdThree (OmBran createdThree 0 2 1 0 OMTYP_X1) 2 := by
  refine ⟨by decide!, by decide!, fun h => ?_⟩
  have h1 := (h 0 1 (by decide) (by decide!) (by decide) (by decide!) (by decide)).1
  revert h1
  decide!

/-! ## Rows of a block -/

/-- The loop `for (j = 0; j < m; j++) y[base+j] = h(j, y[base+j])` on a row that lies inside
the block: the row is updated cell by cell, every other cell is unchanged. -/
theorem forLoop_row (m base : Int) (h : Int → ℚ → ℚ) (y : List ℚ) (hm : 0 ≤ m)
    (hb : 0 ≤ base) (hlen : base + m ≤ y.length) :
    (forLoop 0 m (fun j y => wr y (base + j) (h j (rd y (base + j)))) y).length = y.length ∧
    (∀ j : Int, 0 ≤ j → j < m →
      rd (forLoop 0 m (fun j y => wr y (base + j) (h j (rd y (base + j)))) y) (base + j)
        = h j (rd y (base + j))) ∧
    (∀ q : Int, q < base ∨ base + m ≤ q →
      rd (forLoop 0 m (fun j y => wr y (base + j) (h j (rd y (base + j)))) y) q = rd y q) := by
  have key := forLoop_induct
    (fun (i : Int) (t : List ℚ) => t.length = y.length ∧
      (∀ j : Int, 0 ≤ j → j < i → rd t (base + j) = h j (rd y (base + j))) ∧
      (∀ q : Int, q < base ∨ base + i ≤ q → rd t q = rd y q))
    0 m hm (fun j y => wr y (base + j) (h j (rd y (base + j)))) y
    ⟨rfl, fun j j0 j1 => by omega, fun q _ => rfl⟩
    (fun i t i0 i1 hP => by
      obtain ⟨hl, hd, hk⟩ := hP
      refine ⟨by rw [length_wr, hl], fun j j0 j1 => ?_, fun q hq => ?_⟩
      · by_cases hji : j = i
        · subst hji
          rw [rd_wr_same _ _ _ (by omega) (by omega), hk (base + j) (Or.inr (by omega))]
        · rw [rd_wr_ne _ _ _ _ (by omega)]
          exact hd j j0 (by omega)
      · rw [rd_wr_ne _ _ _ _ (by omega)]
        exact hk q (by omega))
  exact key

/-- The flat index of the entry `[i, j]` lies inside an `m`×`b` block, in row `i`. -/
theorem flat_index_rect (m b i j : Int) (i0 : 0 ≤ i) (i1 : i < m) (j0 : 0 ≤ j) (j1 : j < b) :
    0 ≤ i * b ∧ 0 ≤ i * b + j ∧ i * b + b ≤ m * b := by
  have h1 : 0 ≤ i * b := mul_nonneg i0 (by omega)
  refine ⟨h1, by omega, ?_⟩
  nlinarith

/-- The loop `for (j < b) d[i*b+j] += src[s*b+j]` of `OmStamp`, on a row inside the block. -/
theorem addRow (b i s : Int) (src d : List ℚ) (hb : 0 ≤ b) (h0 : 0 ≤ i * b)
    (hlen : i * b + b ≤ d.length) :
    (forLoop 0 b (fun j d => incr d (i * b + j) (rd src (s * b + j))) d).length = d.length ∧
    (∀ j : Int, 0 ≤ j → j < b →
      rd (forLoop 0 b (fun j d => incr d (i * b + j) (rd src (s * b + j))) d) (i * b + j)
        = rd d (i * b + j) + rd src (s * b + j)) ∧
    (∀ q : Int, q < i * b ∨ i * b + b ≤ q →
      rd (forLoop 0 b (fun j d => incr d (i * b + j) (rd src (s * b + j))) d) q = rd d q) :=
  forLoop_row b (i * b) (fun j v => v + rd src (s * b + j)) d hb h0 hlen

/-- The loop `for (j < b) d[i*b+j] -= src[s*b+j]` of `OmStamp`, on a row inside the block. -/
theorem subRow (b i s : Int) (src d : List ℚ) (hb : 0 ≤ b) (h0 : 0 ≤ i * b)
    (hlen : i * b + b ≤ d.length) :
    (forLoop 0 b (fun j d => decr d (i * b + j) (rd src (s * b + j))) d).length = d.length ∧
    (∀ j : Int, 0 ≤ j → j < b →
      rd (forLoop 0 b (fun j d => decr d (i * b + j) (rd src (s * b + j))) d) (i * b + j)
        = rd d (i * b + j) - rd src (s * b + j)) ∧
    (∀ q : Int, q < i * b ∨ i * b + b ≤ q →
      rd (forLoop 0 b (fun j d => decr d (i * b + j) (rd src (s * b + j))) d) q = rd d q) :=
  forLoop_row b (i * b) (fun j v => v - rd src (s * b + j)) d hb h0 hlen

/-- Two blocks of the same size that hold the same values are equal. -/
theorem ext_rd {α : Type} [Zero α] (a b : List α) (hl : a.length = b.length)
    (h : ∀ q : Int, 0 ≤ q → q < a.length → rd a q = rd b q) : a = b := by
  apply List.ext_getElem hl
  intro n h1 h2
  have := h n (by omega) (by omega)
  unfold rd at this
  have hn : ¬ ((n : Int) < 0) := by omega
  simpa [hn, List.getD_eq_getElem, h1, h2] using this

/-- A flat index inside an `m`×`b` block is the index of an entry `[i, j]`. -/
theorem flat_index_split (m b q : Int) (q0 : 0 ≤ q) (q1 : q < m * b) (hb : 0 ≤ b) :
    ∃ i j : Int, 0 ≤ i ∧ i < m ∧ 0 ≤ j ∧ j < b ∧ q = i * b + j := by
  have hbpos : 0 < b := by
    by_contra hc
    have : b = 0 := by omega
    subst this
    omega
  refine ⟨q / b, q % b, Int.ediv_nonneg q0 hb, ?_, Int.emod_nonneg q (by omega),
    Int.emod_lt_of_pos q hbpos, ?_⟩
  · exact Int.ediv_lt_of_lt_mul hbpos q1
  · have := Int.ediv_add_emod q b
    rw [mul_comm] at this
    exact this.symm

/-! ## The matrix product `OmMatMul` -/

/-- Function `OmMatMul` computes the matrix product, whatever the output block held. -/
theorem OmMatMul_entry (m : Int) (hm : 0 ≤ m) (c a b : List ℚ)
    (hc : c.length = (m * m).toNat) :
    (OmMatMul m c a b).length = c.length ∧
    ∀ i j : Int, 0 ≤ i → i < m → 0 ≤ j → j < m →
      rd (OmMatMul m c a b) (i * m + j)
        = ∑ k in Finset.range m.toNat, rd a (i * m + k) * rd b (k * m + j) := by
  have hmm : ((m * m).toNat : Int) = m * m := by
    have : 0 ≤ m * m := mul_nonneg hm hm
    omega
  obtain ⟨z1, z2⟩ := forLoop_fill2 m hm (0 : ℚ) c
  unfold OmMatMul
  dsimp only
  generalize forLoop 0 m (fun i c => forLoop 0 m (fun j c => wr c (i * m + j) 0) c) c = c0
    at z1 z2 ⊢
  have key := forLoop_induct
    (fun (i : Int) (t : List ℚ) => t.length = c0.length ∧
      (∀ r j : Int, 0 ≤ r → r < i → 0 ≤ j → j < m →
        rd t (r * m + j) = ∑ k in Finset.range m.toNat, rd a (r * m + k) * rd b (k * m + j)) ∧
      (∀ q : Int, i * m ≤ q → rd t q = rd c0 q))
    0 m hm
    (fun i c => forLoop 0 m (fun k c =>
      forLoop 0 m (fun j c =>
        wr c (i * m + j) (rd c (i * m + j) + rd a (i * m + k) * rd b (k * m + j))) c) c) c0
    ⟨rfl, fun r j r0 r1 => by omega, fun q _ => rfl⟩ ?_
  · refine ⟨by rw [key.1, z1], fun i j i0 i1 j0 j1 => key.2.1 i j i0 i1 j0 j1⟩
  · intro i t i0 i1 hP
    obtain ⟨hl, hd, hk⟩ := hP
    have hrow : i * m + m ≤ m * m := by nlinarith
    have hbase : 0 ≤ i * m := mul_nonneg i0 hm
    have mid := forLoop_induct
      (fun (k : Int) (u : List ℚ) => u.length = c0.length ∧
        (∀ j : Int, 0 ≤ j → j < m →
          rd u (i * m + j)
            = ∑ k' in Finset.range k.toNat, rd a (i * m + k') * rd b (k' * m + j)) ∧
        (∀ q : Int, q < i * m ∨ i * m + m ≤ q → rd u q = rd t q))
      0 m hm
      (fun k c => forLoop 0 m (fun j c =>
        wr c (i * m + j) (rd c (i * m + j) + rd a (i * m + k) * rd b (k * m + j))) c) t
      ⟨hl, fun j j0 j1 => by
        rw [hk (i * m + j) (by omega)]
        simp only [Int.toNat_zero, Finset.range_zero, Finset.sum_empty]
        exact z2 (i * m + j) (by omega) (by omega) (by omega), fun q _ => rfl⟩ ?_
    · refine ⟨mid.1, fun r j r0 r1 j0 j1 => ?_, fun q hq => ?_⟩
      · by_cases hri : r = i
        · subst hri
          exact mid.2.1 j j0 j1
        · have hr : r < i := by omega
          have : r * m + m ≤ i * m := by nlinarith
          rw [mid.2.2 (r * m + j) (Or.inl (by omega))]
          exact hd r j r0 hr j0 j1
      · have : (i + 1) * m = i * m + m := by ring
        rw [mid.2.2 q (Or.inr (by omega))]
        exact hk q (by omega)
    · intro k u k0 k1 hQ
      obtain ⟨ul, ud, uk⟩ := hQ
      obtain ⟨w1, w2, w3⟩ := forLoop_row m (i * m)
        (fun j v => v + rd a (i * m + k) * rd b (k * m + j)) u hm hbase (by omega)
      refine ⟨w1.trans ul, fun j j0 j1 => ?_, fun q hq => ?_⟩
      · have hk1 : (k + 1).toNat = k.toNat + 1 := by omega
        have hkk : ((k.toNat : Nat) : Int) = k := by omega
        rw [w2 j j0 j1, ud j j0 j1, hk1, Finset.sum_range_succ, hkk]
      · rw [w3 q hq]
        exact uk q hq

/-- C27: in exact arithmetic, for every `m ≥ 0` and all `m`×`m` matrices `A` and `B`, after
`OmMatMul(m, C, A, B)` every entry satisfies `C[i,j] = Σ_{k<m} A[i,k]·B[k,j]`, so the result
is the textbook matrix product, and it does not depend on the previous contents of `C`.
(`A` and `B` are read-only arguments of the embedded function, as storage distinct from `C`
makes them in the source.) -/
theorem OmMatMul_spec (m : Int) (hm : 0 ≤ m) (c a b : List ℚ)
    (hc : c.length = (m * m).toNat) :
    (∀ i j : Int, 0 ≤ i → i < m → 0 ≤ j → j < m →
      rd (OmMatMul m c a b) (i * m + j)
        = ∑ k in Finset.range m.toNat, rd a (i * m + k) * rd b (k * m + j)) ∧
    toMatrix m.toNat (OmMatMul m c a b) = toMatrix m.toNat a * toMatrix m.toNat b ∧
    (∀ c' : List ℚ, c'.length = (m * m).toNat → OmMatMul m c' a b = OmMatMul m c a b) := by
  obtain ⟨hl, h⟩ := OmMatMul_entry m hm c a b hc
  refine ⟨h, ?_, ?_⟩
  · ext i j
    have hcast : ((m.toNat : Nat) : Int) = m := by omega
    unfold toMatrix
    rw [Matrix.mul_apply, hcast, h i j (by omega) (by omega) (by omega) (by omega),
      Finset.sum_range]
  · intro c' hc'
    obtain ⟨hl', h'⟩ := OmMatMul_entry m hm c' a b hc'
    have hmm : ((m * m).toNat : Int) = m * m := by
      have : 0 ≤ m * m := mul_nonneg hm hm
      omega
    apply ext_rd _ _ (by rw [hl', hl, hc, hc'])
    intro q q0 q1
    obtain ⟨i, j, i0, i1, j0, j1, e⟩ := flat_index_split m m q q0 (by omega) hm
    rw [e, h i j i0 i1 j0 j1, h' i j i0 i1 j0 j1]

/-- Witness of `OmMatMul_spec`: a 2×2 product, with an output block that held `9`s. -/
theorem OmMatMul_spec_witness :
    (0 : Int) ≤ 2 ∧ ([9, 9, 9, 9] : List ℚ).length = ((2 : Int) * 2).toNat ∧
    toMatrix (2 : Int).toNat (OmMatMul 2 [9, 9, 9, 9] [1, 2, 3, 4] [5, 6, 7, 8])
      = toMatrix (2 : Int).toNat [1, 2, 3, 4] * toMatrix (2 : Int).toNat [5, 6, 7, 8] :=
  ⟨by decide, by decide,
    (OmMatMul_spec 2 (by decide) [9, 9, 9, 9] [1, 2, 3, 4] [5, 6, 7, 8] (by decide)).2.1⟩

/-! ## The matrices `Rtp` and `Dtp` of `OmStamp` -/

/-- Step 2 of `OmStamp`: every entry of `matDtp`. -/
theorem stampDtp_entry (cr : OmCir) (hb : 0 ≤ cr.numB) (hm : 0 ≤ cr.numM)
    (matPtp matRtp : List ℚ) :
    (stampDtp cr matPtp matRtp).length = (cr.numM * cr.numB).toNat ∧
    ∀ i j : Int, 0 ≤ i → i < cr.numM → 0 ≤ j → j < cr.numB →
      rd (stampDtp cr matPtp matRtp) (i * cr.numB + j) = dtpRow cr matPtp matRtp i j := by
  have hmb : 0 ≤ cr.numM * cr.numB := mul_nonneg hm hb
  have hcast : ((cr.numM * cr.numB).toNat : Int) = cr.numM * cr.numB := by omega
  obtain ⟨z1, z2⟩ := forLoop_fill (cr.numM * cr.numB) (0 : ℚ)
    (OMMALLOC (cr.numM * cr.numB))
  rw [length_OMMALLOC] at z1
  have z3 : ∀ q : Int, 0 ≤ q → q < cr.numM * cr.numB →
      rd (forLoop 0 (cr.numM * cr.numB) (fun i a => wr a i (0 : ℚ))
        (OMMALLOC (cr.numM * cr.numB))) q = 0 := by
    intro q q0 q1
    apply z2 q q0 q1
    rw [length_OMMALLOC]
    omega
  unfold stampDtp
  dsimp only
  generalize forLoop 0 (cr.numM * cr.numB) (fun i a => wr a i (0 : ℚ))
    (OMMALLOC (cr.numM * cr.numB)) = d0 at z1 z3 ⊢
  refine And.imp_right
    (fun h i j i0 i1 j0 j1 => (h i j i0 i1 j0 j1).trans (if_pos i1))
    (forLoop_induct
      (fun (i : Int) (t : List ℚ) => t.length = (cr.numM * cr.numB).toNat ∧
        ∀ r j : Int, 0 ≤ r → r < cr.numM → 0 ≤ j → j < cr.numB →
          rd t (r * cr.numB + j) = if r < i then dtpRow cr matPtp matRtp r j else 0)
      0 cr.numM hm _ d0 ⟨z1, fun r j r0 r1 j0 j1 => ?_⟩ ?_)
  · have hn : ¬ r < 0 := by omega
    rw [if_neg hn]
    obtain ⟨_, f0, f1⟩ := flat_index_rect cr.numM cr.numB r j r0 r1 j0 j1
    exact z3 _ f0 (by omega)
  · intro i t i0 i1 hP
    obtain ⟨hl, hv⟩ := hP
    have g0 : 0 ≤ i * cr.numB := mul_nonneg i0 hb
    have g1 : i * cr.numB + cr.numB ≤ cr.numM * cr.numB := by nlinarith
    have g2 : i * cr.numB + cr.numB ≤ (t.length : Int) := by omega
    -- the value of an untouched cell of another row
    have other : ∀ (u : List ℚ), u.length = t.length →
        (∀ q : Int, q < i * cr.numB ∨ i * cr.numB + cr.numB ≤ q → rd u q = rd t q) →
        (∀ j : Int, 0 ≤ j → j < cr.numB →
          rd u (i * cr.numB + j) = dtpRow cr matPtp matRtp i j) →
        u.length = (cr.numM * cr.numB).toNat ∧
        ∀ r j : Int, 0 ≤ r → r < cr.numM → 0 ≤ j → j < cr.numB →
          rd u (r * cr.numB + j) = if r < i + 1 then dtpRow cr matPtp matRtp r j else 0 := by
      intro u ul uo ur
      refine ⟨ul.trans hl, fun r j r0 r1 j0 j1 => ?_⟩
      rcases lt_trichotomy r i with hlt | heq | hgt
      · have : r * cr.numB + cr.numB ≤ i * cr.numB := by nlinarith
        rw [uo _ (Or.inl (by omega)), hv r j r0 r1 j0 j1, if_pos hlt, if_pos (by omega)]
      · subst heq
        rw [ur j j0 j1, if_pos (by omega)]
      · have : i * cr.numB + cr.numB ≤ r * cr.numB := by nlinarith
        rw [uo _ (Or.inr (by omega)), hv r j r0 r1 j0 j1, if_neg (by omega),
          if_neg (by omega)]
    have zero : ∀ j : Int, 0 ≤ j → j < cr.numB → rd t (i * cr.numB + j) = 0 := by
      intro j j0 j1
      rw [hv i j i0 i1 j0 j1, if_neg (lt_irrefl i)]
    by_cases ha : rd cr.vecMn2 i < -1
    · by_cases hy : rd cr.vecLut (rd cr.vecMn1 i) > 0
      · simp only [ha, hy, if_true]
        obtain ⟨w1, w2, w3⟩ := addRow cr.numB i (rd cr.vecMn1 i) matRtp t hb g0 g2
        refine other _ w1 w3 (fun j j0 j1 => ?_)
        rw [w2 j j0 j1, zero j j0 j1, zero_add]
        simp only [dtpRow, ha, hy, if_true]
      · simp only [ha, hy, if_true, if_false]
        obtain ⟨w1, w2, w3⟩ := addRow cr.numB i (cr.numN - rd cr.vecLut (rd cr.vecMn1 i))
          matPtp t hb g0 g2
        refine other _ w1 w3 (fun j j0 j1 => ?_)
        rw [w2 j j0 j1, zero j j0 j1, zero_add]
        simp only [dtpRow, ha, hy, if_true, if_false]
    · simp only [ha, if_false]
      by_cases h1 : rd cr.vecMn1 i ≥ 0 <;> by_cases h2 : rd cr.vecMn2 i ≥ 0
      · simp only [h1, h2, if_true]
        obtain ⟨w1, w2, w3⟩ := addRow cr.numB i (rd cr.vecMn1 i) matPtp t hb g0 g2
        obtain ⟨v1, v2, v3⟩ := subRow cr.numB i (rd cr.vecMn2 i) matPtp _ hb g0
          (by rw [w1]; exact g2)
        refine other _ (v1.trans w1) (fun q hq => (v3 q hq).trans (w3 q hq))
          (fun j j0 j1 => ?_)
        rw [v2 j j0 j1, w2 j j0 j1, zero j j0 j1, zero_add]
        simp only [dtpRow, ha, h1, h2, if_true, if_false]
      · simp only [h1, h2, if_true, if_false]
        obtain ⟨w1, w2, w3⟩ := addRow cr.numB i (rd cr.vecMn1 i) matPtp t hb g0 g2
        refine other _ w1 w3 (fun j j0 j1 => ?_)
        rw [w2 j j0 j1, zero j j0 j1, zero_add]
        simp only [dtpRow, ha, h1, h2, if_true, if_false, sub_zero]
      · simp only [h1, h2, if_true, if_false]
        obtain ⟨v1, v2, v3⟩ := subRow cr.numB i (rd cr.vecMn2 i) matPtp t hb g0 g2
        refine other _ v1 v3 (fun j j0 j1 => ?_)
        rw [v2 j j0 j1, zero j j0 j1]
        simp only [dtpRow, ha, h1, h2, if_true, if_false]
      · simp only [h1, h2, if_false]
        refine other t rfl (fun q _ => rfl) (fun j j0 j1 => ?_)
        rw [zero j j0 j1]
        simp only [dtpRow, ha, h1, h2, if_false, sub_zero]

/-- Step 2 of `OmStamp`: `Rtp = Pb·Ttp + I`, entry by entry. -/
theorem stampRtp_entry (cr : OmCir) (hs : Setup cr) (matTtp : List ℚ) :
    ∀ i j : Int, 0 ≤ i → i < cr.numB → 0 ≤ j → j < cr.numB →
      rd (stampRtp cr matTtp) (i * cr.numB + j)
        = (∑ k in Finset.range cr.numB.toNat,
            rd cr.matPb (i * cr.numB + k) * rd matTtp (k * cr.numB + j))
          + (if i = j then 1 else 0) := by
  have hb : 0 ≤ cr.numB := hs.1
  obtain ⟨m1, m2⟩ := OmMatMul_entry cr.numB hb (OMMALLOC (cr.numB * cr.numB)) cr.matPb matTtp
    (length_OMMALLOC _)
  rw [length_OMMALLOC] at m1
  unfold stampRtp
  dsimp only
  generalize OmMatMul cr.numB (OMMALLOC (cr.numB * cr.numB)) cr.matPb matTtp = r0 at m1 m2 ⊢
  have hbb : ((cr.numB * cr.numB).toNat : Int) = cr.numB * cr.numB := by
    have : 0 ≤ cr.numB * cr.numB := mul_nonneg hb hb
    omega
  have key := forLoop_induct
    (fun (i : Int) (t : List ℚ) => t.length = (cr.numB * cr.numB).toNat ∧
      ∀ r j : Int, 0 ≤ r → r < cr.numB → 0 ≤ j → j < cr.numB →
        rd t (r * cr.numB + j)
          = rd r0 (r * cr.numB + j) + (if r = j ∧ r < i then 1 else 0))
    0 cr.numB hb (fun i matRtp => incr matRtp (i * cr.numB + i) 1) r0
    ⟨m1, fun r j r0 r1 j0 j1 => by
      have hn : ¬ (r = j ∧ r < 0) := by omega
      rw [if_neg hn, add_zero]⟩
    (fun i t i0 i1 hP => by
      obtain ⟨hl, hv⟩ := hP
      obtain ⟨d0, d1⟩ := flat_index cr.numB i i i0 i1 i0 i1
      unfold incr
      refine ⟨by rw [length_wr, hl], fun r j r0 r1 j0 j1 => ?_⟩
      by_cases hri : r = i ∧ j = i
      · obtain ⟨e1, e2⟩ := hri
        subst e1
        subst e2
        rw [rd_wr_same _ _ _ d0 (by omega), hv j j j0 j1 j0 j1,
          if_neg (by omega), if_pos (by omega), add_zero]
      · have hne : r * cr.numB + j ≠ i * cr.numB + i := fun he =>
          hri (flat_index_inj cr.numB r j i i j0 j1 i0 i1 he)
        rw [rd_wr_ne _ _ _ _ hne, hv r j r0 r1 j0 j1]
        by_cases hc : r = j ∧ r < i
        · rw [if_pos hc, if_pos (by omega)]
        · rw [if_neg hc, if_neg (by omega)])
  intro i j i0 i1 j0 j1
  rw [key.2 i j i0 i1 j0 j1, m2 i j i0 i1 j0 j1]
  by_cases hij : i = j
  · rw [if_pos ⟨hij, i1⟩, if_pos hij]
  · rw [if_neg (fun h => hij h.1), if_neg hij]

/-- C29: in `OmStamp`, for every meter `mt` (1-based; `Ptp` and `Ttp` any blocks, in
particular those `OmStamp` computes): `Rtp = Pb·Ttp + I`; if the meter is an ammeter on
branch `k`, which is how `OmMetA(cr, mt, k)` configures it, row `mt-1` of `Dtp` is row `k-1`
of `Rtp` when `k` is Y/SW-type (`Lut > 0`) and row `n - Lut[k-1]` of `Ptp` when `k` is X-type;
if it is a voltmeter with endpoints `n1, n2 ≥ 0`, which is how `OmMetV(cr, mt, n1, n2)`
configures it, row `mt-1` of `Dtp` is `Ptp[n1-1] - Ptp[n2-1]` with a ground row (endpoint 0)
taken as zero.  So a voltmeter is never treated as an ammeter, and a meter left as
`OmCreate` made it (both endpoints ground) has an all-zero row. -/
theorem stampDtp_spec (cr : OmCir) (hs : Setup cr) (matPtp matTtp : List ℚ) (mt : Int)
    (h1 : 1 ≤ mt) (h2 : mt ≤ cr.numM) :
    (∀ i j : Int, 0 ≤ i → i < cr.numB → 0 ≤ j → j < cr.numB →
      rd (stampRtp cr matTtp) (i * cr.numB + j)
        = (∑ k in Finset.range cr.numB.toNat,
            rd cr.matPb (i * cr.numB + k) * rd matTtp (k * cr.numB + j))
          + (if i = j then 1 else 0)) ∧
    (∀ k : Int, rd cr.vecMn1 (mt - 1) = k - 1 → rd cr.vecMn2 (mt - 1) = -2 →
      ∀ j : Int, 0 ≤ j → j < cr.numB →
        rd (stampDtp cr matPtp (stampRtp cr matTtp)) ((mt - 1) * cr.numB + j)
          = if rd cr.vecLut (k - 1) > 0
            then rd (stampRtp cr matTtp) ((k - 1) * cr.numB + j)
            else rd matPtp ((cr.numN - rd cr.vecLut (k - 1)) * cr.numB + j)) ∧
    (∀ n1 n2 : Int, 0 ≤ n1 → 0 ≤ n2 →
      rd cr.vecMn1 (mt - 1) = n1 - 1 → rd cr.vecMn2 (mt - 1) = n2 - 1 →
      ∀ j : Int, 0 ≤ j → j < cr.numB →
        rd (stampDtp cr matPtp (stampRtp cr matTtp)) ((mt - 1) * cr.numB + j)
          = (if n1 = 0 then 0 else rd matPtp ((n1 - 1) * cr.numB + j))
            - (if n2 = 0 then 0 else rd matPtp ((n2 - 1) * cr.numB + j))) ∧
    (∀ br : Int, rd (OmMetA cr mt br).vecMn1 (mt - 1) = br - 1 ∧
      rd (OmMetA cr mt br).vecMn2 (mt - 1) = -2) ∧
    (∀ n1 n2 : Int, rd (OmMetV cr mt n1 n2).vecMn1 (mt - 1) = n1 - 1 ∧
      rd (OmMetV cr mt n1 n2).vecMn2 (mt - 1) = n2 - 1) := by
  have hb : 0 ≤ cr.numB := hs.1
  have hm : 0 ≤ cr.numM := hs.2.1
  obtain ⟨_, hd⟩ := stampDtp_entry cr hb hm matPtp (stampRtp cr matTtp)
  have l1 : cr.vecMn1.length = cr.numM.toNat := by
    unfold Setup at hs
    tauto
  have l2 : cr.vecMn2.length = cr.numM.toNat := by
    unfold Setup at hs
    tauto
  have b1 : mt - 1 < cr.numM := by omega
  refine ⟨stampRtp_entry cr hs matTtp, ?_, ?_, ?_, ?_⟩
  · intro k e1 e2 j j0 j1
    rw [hd (mt - 1) j (by omega) b1 j0 j1]
    have ha : rd cr.vecMn2 (mt - 1) < -1 := by omega
    simp only [dtpRow, ha, if_true, e1]
  · intro n1 n2 p1 p2 e1 e2 j j0 j1
    rw [hd (mt - 1) j (by omega) b1 j0 j1]
    have ha : ¬ n2 - 1 < -1 := by omega
    simp only [dtpRow, e1, e2, ha, if_false]
    by_cases c1 : n1 = 0 <;> by_cases c2 : n2 = 0
    · subst c1
      subst c2
      simp
    · have g2 : n2 - 1 ≥ 0 := by omega
      subst c1
      simp [g2, c2]
    · have g1 : n1 - 1 ≥ 0 := by omega
      subst c2
      simp [g1, c1]
    · have g1 : n1 - 1 ≥ 0 := by omega
      have g2 : n2 - 1 ≥ 0 := by omega
      simp [g1, g2, c1, c2]
  · intro br
    exact ⟨rd_wr_same _ _ _ (by omega) (lt_length_of_size _ _ _ l1 b1),
      rd_wr_same _ _ _ (by omega) (lt_length_of_size _ _ _ l2 b1)⟩
  · intro n1 n2
    exact ⟨rd_wr_same _ _ _ (by omega) (lt_length_of_size _ _ _ l1 b1),
      rd_wr_same _ _ _ (by omega) (lt_length_of_size _ _ _ l2 b1)⟩

/-- Witness of `stampDtp_spec`: the voltmeter (node 1 to ground) of the circuit of test 4. -/
theorem stampDtp_spec_witness :
    Setup (boostPre (1 / 2) [1, 0, 0, 1]) ∧
    (1 : Int) ≤ 1 ∧ (1 : Int) ≤ (boostPre (1 / 2) [1, 0, 0, 1]).numM ∧
    (0 : Int) ≤ 1 ∧ (0 : Int) ≤ 0 ∧
    rd (boostPre (1 / 2) [1, 0, 0, 1]).vecMn1 (1 - 1) = 1 - 1 ∧
    rd (boostPre (1 / 2) [1, 0, 0, 1]).vecMn2 (1 - 1) = 0 - 1 ∧
    (0 : Int) ≤ 1 ∧ (1 : Int) < (boostPre (1 / 2) [1, 0, 0, 1]).numB ∧
    rd (stampDtp (boostPre (1 / 2) [1, 0, 0, 1]) [1, 2, 3, 4]
        (stampRtp (boostPre (1 / 2) [1, 0, 0, 1]) [5, 6, 7, 8]))
        ((1 - 1) * (boostPre (1 / 2) [1, 0, 0, 1]).numB + 1)
      = (if (1 : Int) = 0 then 0
          else rd [1, 2, 3, 4] ((1 - 1) * (boostPre (1 / 2) [1, 0, 0, 1]).numB + 1))
        - (if (0 : Int) = 0 then 0
          else rd [1, 2, 3, 4] ((0 - 1) * (boostPre (1 / 2) [1, 0, 0, 1]).numB + 1)) :=
  ⟨by decide!, by decide, by decide!, by decide, by decide, by decide!, by decide!,
    by decide, by decide!,
    (stampDtp_spec (boostPre (1 / 2) [1, 0, 0, 1]) (by decide!) [1, 2, 3, 4] [5, 6, 7, 8] 1
      (by decide) (by decide!)).2.2.1 1 0 (by decide) (by decide) (by decide!) (by decide!)
      1 (by decide) (by decide!)⟩

/-! ## The node matrix `Pn` of `OmStamp` -/

theorem length_incr (a : List ℚ) (p : Int) (k : ℚ) : (incr a p k).length = a.length :=
  length_wr a p _

theorem length_decr (a : List ℚ) (p : Int) (k : ℚ) : (decr a p k).length = a.length :=
  length_wr a p _

/-- A guarded statement `if (g) a[p] += k`, read at a cell inside the block. -/
theorem rd_gincr (g : Prop) [Decidable g] (a : List ℚ) (p q : Int) (k : ℚ) (q0 : 0 ≤ q)
    (q1 : q < a.length) :
    rd (if g then incr a p k else a) q = rd a q + (if g ∧ q = p then k else 0) := by
  by_cases hg : g
  · by_cases hq : q = p
    · subst hq
      simp only [hg, if_true, true_and, incr]
      rw [rd_wr_same _ _ _ q0 q1]
    · simp only [hg, hq, if_true, and_false, if_false, add_zero, incr]
      rw [rd_wr_ne _ _ _ _ hq]
  · simp [hg]

/-- A guarded statement `if (g) a[p] -= k`, read at a cell inside the block. -/
theorem rd_gdecr (g : Prop) [Decidable g] (a : List ℚ) (p q : Int) (k : ℚ) (q0 : 0 ≤ q)
    (q1 : q < a.length) :
    rd (if g then decr a p k else a) q = rd a q - (if g ∧ q = p then k else 0) := by
  by_cases hg : g
  · by_cases hq : q = p
    · subst hq
      simp only [hg, if_true, true_and, decr]
      rw [rd_wr_same _ _ _ q0 q1]
    · simp only [hg, hq, if_true, and_false, if_false, sub_zero, decr]
      rw [rd_wr_ne _ _ _ _ hq]
  · simp [hg]

theorem length_gincr (g : Prop) [Decidable g] (a : List ℚ) (p : Int) (k : ℚ) :
    (if g then incr a p k else a).length = a.length := by
  split_ifs
  · exact length_incr a p k
  · rfl

theorem length_gdecr (g : Prop) [Decidable g] (a : List ℚ) (p : Int) (k : ℚ) :
    (if g then decr a p k else a).length = a.length := by
  split_ifs
  · exact length_decr a p k
  · rfl

/-- The conditions of `Wired` at a branch index. -/
theorem Wired_at (cr : OmCir) (hw : Wired cr) (i : Int) (i0 : 0 ≤ i) (i1 : i < cr.numB) :
    rd cr.vecBn1 i < cr.numN + cr.numX ∧ rd cr.vecBn2 i < cr.numN + cr.numX ∧
    (¬ rd cr.vecLut i > 0 →
      0 ≤ cr.numN - rd cr.vecLut i ∧ cr.numN - rd cr.vecLut i < cr.numN + cr.numX) := by
  obtain ⟨hn, hx, h⟩ := hw
  have hi := h i.toNat (List.mem_range.mpr (by omega))
  have hc : ((i.toNat : Nat) : Int) = i := by omega
  rw [hc] at hi
  obtain ⟨a1, a2, a3⟩ := hi
  refine ⟨by omega, by omega, fun hl => ?_⟩
  have := a3 (by omega)
  omega

/-- A loop whose body adds `D j` to the cell `q` adds the sum of the `D j` to it. -/
theorem forLoop_accum_at (hi : Int) (hhi : 0 ≤ hi) (L : Nat) (q : Int) (D : Int → ℚ)
    (f : Int → List ℚ → List ℚ)
    (hf : ∀ (j : Int) (t : List ℚ), 0 ≤ j → j < hi → t.length = L →
      (f j t).length = L ∧ rd (f j t) q = rd t q + D j)
    (a : List ℚ) (ha : a.length = L) :
    (forLoop 0 hi f a).length = L ∧
    rd (forLoop 0 hi f a) q = rd a q + ∑ j in Finset.range hi.toNat, D j := by
  refine forLoop_induct
    (fun (i : Int) (t : List ℚ) => t.length = L ∧
      rd t q = rd a q + ∑ j in Finset.range i.toNat, D j)
    0 hi hhi f a ⟨ha, by simp⟩ ?_
  intro i t i0 i1 hP
  obtain ⟨hl, hv⟩ := hP
  obtain ⟨g1, g2⟩ := hf i t i0 i1 hl
  refine ⟨g1, ?_⟩
  have h1 : (i + 1).toNat = i.toNat + 1 := by omega
  have h2 : ((i.toNat : Nat) : Int) = i := by omega
  rw [g2, hv, h1, Finset.sum_range_succ, h2, add_assoc]

/-- A guarded store index hits the cell `[r, c]` exactly when its row and column are `r`
and `c`. -/
theorem cell_indicator (N r c r' c' : Int) (g : Prop) [Decidable g] (k : ℚ) (c0 : 0 ≤ c)
    (c1 : c < N) (h0 : g → 0 ≤ c') (h1 : c' < N) (hg : r = r' → c = c' → g) :
    (if g ∧ r * N + c = r' * N + c' then k else 0)
      = k * ((if r = r' then 1 else 0) * (if c = c' then 1 else 0)) := by
  by_cases hr : r = r'
  · by_cases hc : c = c'
    · subst hr
      subst hc
      simp [hg rfl rfl]
    · have hn : ¬ (g ∧ r * N + c = r' * N + c') := fun h =>
        hc (flat_index_inj N r c r' c' c0 c1 (h0 h.1) h1 h.2).2
      simp [hn, hc]
  · have hn : ¬ (g ∧ r * N + c = r' * N + c') := fun h =>
      hr (flat_index_inj N r c r' c' c0 c1 (h0 h.1) h1 h.2).1
    simp [hn, hr]

/-- An unguarded store index hits the cell `[r, c]` exactly when its row and column are `r`
and `c`. -/
theorem cell_indicator_plain (N r c r' c' : Int) (k : ℚ) (c0 : 0 ≤ c) (c1 : c < N)
    (h0 : 0 ≤ c') (h1 : c' < N) :
    (if r * N + c = r' * N + c' then k else 0)
      = k * ((if r = r' then 1 else 0) * (if c = c' then 1 else 0)) := by
  have h := cell_indicator N r c r' c' True k c0 c1 (fun _ => h0) h1 (fun _ _ => trivial)
  simpa using h

/-- The statement `a[p] -= k`, read at a cell inside the block. -/
theorem rd_decr_in (a : List ℚ) (p q : Int) (k : ℚ) (q0 : 0 ≤ q) (q1 : q < a.length) :
    rd (decr a p k) q = rd a q - (if q = p then k else 0) := by
  have h := rd_gdecr True a p q k q0 q1
  simpa using h

/-- The four stores of `OmStamp` for a Y-type branch controlled by a Y-type branch. -/
theorem pn_YY (N r c n1 n2 m1 m2 : Int) (k a : ℚ) (r0 : 0 ≤ r) (c0 : 0 ≤ c) (c1 : c < N)
    (h1 : m1 < N) (h2 : m2 < N) :
    a + (if (n1 ≥ 0 ∧ m1 ≥ 0) ∧ r * N + c = n1 * N + m1 then k else 0)
        - (if (n1 ≥ 0 ∧ m2 ≥ 0) ∧ r * N + c = n1 * N + m2 then k else 0)
        - (if (n2 ≥ 0 ∧ m1 ≥ 0) ∧ r * N + c = n2 * N + m1 then k else 0)
        + (if (n2 ≥ 0 ∧ m2 ≥ 0) ∧ r * N + c = n2 * N + m2 then k else 0)
      = a + k * (((if r = n1 then 1 else 0) - (if r = n2 then 1 else 0))
          * ((if c = m1 then 1 else 0) - (if c = m2 then 1 else 0))) := by
  rw [cell_indicator N r c n1 m1 _ k c0 c1 (fun g => g.2) h1 (fun e1 e2 => ⟨by omega, by omega⟩),
    cell_indicator N r c n1 m2 _ k c0 c1 (fun g => g.2) h2 (fun e1 e2 => ⟨by omega, by omega⟩),
    cell_indicator N r c n2 m1 _ k c0 c1 (fun g => g.2) h1 (fun e1 e2 => ⟨by omega, by omega⟩),
    cell_indicator N r c n2 m2 _ k c0 c1 (fun g => g.2) h2 (fun e1 e2 => ⟨by omega, by omega⟩)]
  ring

/-- The two stores of `OmStamp` for a Y-type branch controlled by an X-type branch. -/
theorem pn_YX (N r c n1 n2 e : Int) (k a : ℚ) (r0 : 0 ≤ r) (c0 : 0 ≤ c) (c1 : c < N)
    (e0 : 0 ≤ e) (e1 : e < N) :
    a + (if n1 ≥ 0 ∧ r * N + c = n1 * N + e then k else 0)
        - (if n2 ≥ 0 ∧ r * N + c = n2 * N + e then k else 0)
      = a + k * (((if r = n1 then 1 else 0) - (if r = n2 then 1 else 0))
          * (if c = e then 1 else 0)) := by
  rw [cell_indicator N r c n1 e _ k c0 c1 (fun _ => e0) e1 (fun h1 h2 => by omega),
    cell_indicator N r c n2 e _ k c0 c1 (fun _ => e0) e1 (fun h1 h2 => by omega)]
  ring

/-- The four stores of `OmStamp` that enter the incidence of an X-type branch. -/
theorem pn_X0 (N r c n1 n2 e : Int) (a : ℚ) (r0 : 0 ≤ r) (c0 : 0 ≤ c) (c1 : c < N)
    (e0 : 0 ≤ e) (e1 : e < N) (h1 : n1 < N) (h2 : n2 < N) :
    a + (if n1 ≥ 0 ∧ r * N + c = n1 * N + e then 1 else 0)
        + (if n1 ≥ 0 ∧ r * N + c = e * N + n1 then 1 else 0)
        - (if n2 ≥ 0 ∧ r * N + c = n2 * N + e then 1 else 0)
        - (if n2 ≥ 0 ∧ r * N + c = e * N + n2 then 1 else 0)
      = a + (((if r = n1 then 1 else 0) - (if r = n2 then 1 else 0)) * (if c = e then 1 else 0)
          + (if r = e then 1 else 0)
            * ((if c = n1 then 1 else 0) - (if c = n2 then 1 else 0))) := by
  rw [cell_indicator N r c n1 e _ 1 c0 c1 (fun _ => e0) e1 (fun h1 h2 => by omega),
    cell_indicator N r c e n1 _ 1 c0 c1 (fun g => g) h1 (fun h1 h2 => by omega),
    cell_indicator N r c n2 e _ 1 c0 c1 (fun _ => e0) e1 (fun h1 h2 => by omega),
    cell_indicator N r c e n2 _ 1 c0 c1 (fun g => g) h2 (fun h1 h2 => by omega)]
  ring

/-- The two stores of `OmStamp` for an X-type branch controlled by a Y-type branch. -/
theorem pn_XY (N r c e m1 m2 : Int) (k a : ℚ) (c0 : 0 ≤ c) (c1 : c < N)
    (h1 : m1 < N) (h2 : m2 < N) :
    a - (if m1 ≥ 0 ∧ r * N + c = e * N + m1 then k else 0)
        + (if m2 ≥ 0 ∧ r * N + c = e * N + m2 then k else 0)
      = a + -(k * ((if r = e then 1 else 0)
          * ((if c = m1 then 1 else 0) - (if c = m2 then 1 else 0)))) := by
  rw [cell_indicator N r c e m1 _ k c0 c1 (fun g => g) h1 (fun h1 h2 => by omega),
    cell_indicator N r c e m2 _ k c0 c1 (fun g => g) h2 (fun h1 h2 => by omega)]
  ring

/-- The store of `OmStamp` for an X-type branch controlled by an X-type branch. -/
theorem pn_XX (N r c e e' : Int) (k a : ℚ) (c0 : 0 ≤ c) (c1 : c < N)
    (h0 : 0 ≤ e') (h1 : e' < N) :
    a - (if r * N + c = e * N + e' then k else 0)
      = a + -(k * ((if r = e then 1 else 0) * (if c = e' then 1 else 0))) := by
  rw [cell_indicator_plain N r c e e' k c0 c1 h0 h1]
  ring

/-- C28: on a circuit under construction whose branch endpoints and auxiliary unknowns are in
range, entry `[r, c]` of the matrix `Pn` that `OmStamp` assembles before the inversion is
the entry of the modified-nodal matrix
`Σ_{i Y/SW} inc_iᵀ·(Σ_j Pb[i,j]·s_j)
  + Σ_{i X} (inc_iᵀ·e_aux(i) + e_aux(i)ᵀ·inc_i - e_aux(i)ᵀ·(Σ_j Pb[i,j]·s_j))`,
with `inc_i` the signed incidence row (ground dropped), `aux(i) = n - Lut[i]`, and `s_j` the
row `inc_j` for a Y/SW branch and `e_aux(j)` for an X branch. -/
theorem stampPn_spec (cr : OmCir) (hs : Setup cr) (hw : Wired cr) :
    ∀ r c : Int, 0 ≤ r → r < cr.numN + cr.numX → 0 ≤ c → c < cr.numN + cr.numX →
      rd (stampPn cr) (r * (cr.numN + cr.numX) + c) = specPn cr r c := by
  have hb : 0 ≤ cr.numB := hs.1
  have hN : 0 ≤ cr.numN + cr.numX := by
    have := hw.1
    have := hw.2.1
    omega
  have hNN : 0 ≤ (cr.numN + cr.numX) * (cr.numN + cr.numX) := mul_nonneg hN hN
  obtain ⟨z1, z2⟩ := forLoop_fill ((cr.numN + cr.numX) * (cr.numN + cr.numX)) (0 : ℚ)
    (OMMALLOC ((cr.numN + cr.numX) * (cr.numN + cr.numX)))
  rw [length_OMMALLOC] at z1 z2
  unfold stampPn
  dsimp only
  generalize forLoop 0 ((cr.numN + cr.numX) * (cr.numN + cr.numX)) (fun i a => wr a i (0 : ℚ))
    (OMMALLOC ((cr.numN + cr.numX) * (cr.numN + cr.numX))) = p0 at z1 z2 ⊢
  intro r c r0 r1 c0 c1
  obtain ⟨q0, q1⟩ := flat_index (cr.numN + cr.numX) r c r0 r1 c0 c1
  have qz : rd p0 (r * (cr.numN + cr.numX) + c) = 0 := z2 _ q0 q1 (by omega)
  refine ((forLoop_accum_at cr.numB hb
    ((cr.numN + cr.numX) * (cr.numN + cr.numX)).toNat (r * (cr.numN + cr.numX) + c)
    (fun i => if rd cr.vecLut i > 0 then incidence cr i r * pbRow cr i c
      else
        incidence cr i r * unitRow (auxIndex cr i) c
          + unitRow (auxIndex cr i) r * incidence cr i c
          - unitRow (auxIndex cr i) r * pbRow cr i c) _ ?_ p0 z1).2).trans ?_
  · intro i t i0 i1 tl
    have tq : r * (cr.numN + cr.numX) + c < (t.length : Int) := by omega
    obtain ⟨wi1, wi2, wi3⟩ := Wired_at cr hw i i0 i1
    by_cases hy : rd cr.vecLut i > 0
    · simp only [hy, if_true]
      refine And.imp_right (fun h => h.trans ?_)
        (forLoop_accum_at cr.numB hb
          ((cr.numN + cr.numX) * (cr.numN + cr.numX)).toNat (r * (cr.numN + cr.numX) + c)
          (fun j => rd cr.matPb (i * cr.numB + j) * (incidence cr i r * solRow cr j c))
          _ ?_ t tl)
      · intro j u j0 j1 ul
        have uq : r * (cr.numN + cr.numX) + c < (u.length : Int) := by omega
        obtain ⟨wj1, wj2, wj3⟩ := Wired_at cr hw j j0 j1
        by_cases hjy : rd cr.vecLut j > 0
        · simp only [hjy, if_true]
          refine ⟨by simp only [length_gincr, length_gdecr, ul], ?_⟩
          simp only [rd_gincr, rd_gdecr, length_gincr, length_gdecr, q0, uq, solRow, incidence,
            hjy, if_true]
          exact pn_YY _ r c _ _ _ _ _ _ r0 c0 c1 wj1 wj2
        · obtain ⟨e0, e1⟩ := wj3 hjy
          simp only [hjy, if_false]
          refine ⟨by simp only [length_gincr, length_gdecr, ul], ?_⟩
          simp only [rd_gincr, rd_gdecr, length_gincr, length_gdecr, q0, uq, solRow, incidence,
            unitRow, auxIndex, hjy, if_false]
          exact pn_YX _ r c _ _ _ _ _ r0 c0 c1 e0 e1
      · congr 1
        unfold pbRow
        rw [Finset.mul_sum]
        exact Finset.sum_congr rfl (fun j _ => by ring)
    · obtain ⟨a0, a1⟩ := wi3 hy
      simp only [hy, if_false]
      refine And.imp_right (fun h => h.trans ?_)
        (forLoop_accum_at cr.numB hb
          ((cr.numN + cr.numX) * (cr.numN + cr.numX)).toNat (r * (cr.numN + cr.numX) + c)
          (fun j => -(rd cr.matPb (i * cr.numB + j)
            * (unitRow (auxIndex cr i) r * solRow cr j c)))
          _ ?_ _ (by simp only [length_gincr, length_gdecr, tl]))
      · intro j u j0 j1 ul
        have uq : r * (cr.numN + cr.numX) + c < (u.length : Int) := by omega
        obtain ⟨wj1, wj2, wj3⟩ := Wired_at cr hw j j0 j1
        by_cases hjy : rd cr.vecLut j > 0
        · simp only [hjy, if_true]
          refine ⟨by simp only [length_gincr, length_gdecr, ul], ?_⟩
          simp only [rd_gincr, rd_gdecr, length_gincr, length_gdecr, q0, uq, solRow, incidence,
            unitRow, auxIndex, hjy, if_true]
          exact pn_XY _ r c _ _ _ _ _ c0 c1 wj1 wj2
        · obtain ⟨e0, e1⟩ := wj3 hjy
          simp only [hjy, if_false]
          refine ⟨by rw [length_decr, ul], ?_⟩
          rw [rd_decr_in _ _ _ _ q0 uq]
          simp only [solRow, unitRow, auxIndex, hjy, if_false]
          exact pn_XX _ r c _ _ _ _ c0 c1 e0 e1
      · simp only [rd_gincr, rd_gdecr, length_gincr, length_gdecr, q0, tq]
        rw [pn_X0 _ r c _ _ _ _ r0 c0 c1 a0 a1 wi1 wi2, Finset.sum_neg_distrib]
        unfold pbRow
        rw [Finset.mul_sum]
        simp only [incidence, unitRow, auxIndex]
        have hsum : ∀ e : ℚ,
            ∑ x in Finset.range cr.numB.toNat,
                rd cr.matPb (i * cr.numB + x) * (e * solRow cr x c)
              = ∑ x in Finset.range cr.numB.toNat,
                e * (rd cr.matPb (i * cr.numB + x) * solRow cr x c) :=
          fun e => Finset.sum_congr rfl (fun j _ => by ring)
        rw [hsum]
        ring
  · rw [qz, zero_add]
    rfl

theorem stampPn_spec_witness :
    Setup (boostPre (1 / 2) [1, 0, 0, 1]) ∧ Wired (boostPre (1 / 2) [1, 0, 0, 1]) ∧
    rd (stampPn (boostPre (1 / 2) [1, 0, 0, 1]))
        (1 * ((boostPre (1 / 2) [1, 0, 0, 1]).numN + (boostPre (1 / 2) [1, 0, 0, 1]).numX) + 1)
      = specPn (boostPre (1 / 2) [1, 0, 0, 1]) 1 1 :=
  ⟨by decide!, by decide!,
    stampPn_spec (boostPre (1 / 2) [1, 0, 0, 1]) (by decide!) (by decide!) 1 1
      (by decide) (by decide) (by decide) (by decide)⟩

/-! ## Compression of `Ctp` and `Dtp` in `OmStamp` -/

/-- Two loops whose bodies keep a relation between their states keep it. -/
theorem forLoop_sim {σ τ : Type} (R : σ → τ → Prop) (lo hi : Int) (f : Int → σ → σ)
    (g : Int → τ → τ) (s : σ) (t : τ) (h0 : R s t)
    (hs : ∀ (i : Int) (s : σ) (t : τ), lo ≤ i → i < hi → R s t → R (f i s) (g i t)) :
    R (forLoop lo hi f s) (forLoop lo hi g t) := by
  unfold forLoop
  have key : ∀ n : Nat, (n : Int) ≤ (hi - lo).toNat →
      R (forUp n lo f s) (forUp n lo g t) := by
    intro n
    induction n with
    | zero => exact fun _ => h0
    | succ n ih =>
      intro hn
      exact hs (lo + n) _ _ (by omega) (by omega) (ih (by omega))
  exact key _ (le_refl _)

theorem runStores_append (src dst : List ℚ) (ss : List (Int × Int)) (x : Int × Int) :
    runStores src dst (ss ++ [x]) = wr (runStores src dst ss) x.1 (rd src x.2) := by
  unfold runStores
  rw [List.foldl_append]
  rfl

theorem length_runStores (src dst : List ℚ) (ss : List (Int × Int)) :
    (runStores src dst ss).length = dst.length := by
  induction ss using List.reverseRecOn with
  | nil => rfl
  | append_singleton ss x ih => rw [runStores_append, length_wr, ih]

/-- The loops of `stampD` perform the stores of `stampDStores`. -/
theorem stampD_eq_stores (m b c : Int) (vecLut : List Int) (matDtp : List ℚ) :
    stampD m b c vecLut matDtp
      = runStores matDtp (OMMALLOC (m * c)) (stampDStores m b c vecLut) := by
  unfold stampD stampDStores
  refine forLoop_sim (fun (d : List ℚ) (ss : List (Int × Int)) =>
    d = runStores matDtp (OMMALLOC (m * c)) ss) 0 m _ _ _ _ rfl ?_
  intro i d ss _ _ hR
  have h := forLoop_sim (fun (x : List ℚ × Int) (y : List (Int × Int) × Int) =>
    x.1 = runStores matDtp (OMMALLOC (m * c)) y.1 ∧ x.2 = y.2) 0 b
    (fun j (st : List ℚ × Int) =>
      if rd vecLut j < 0 then (st.1, st.2)
      else (wr st.1 (i * c + st.2) (rd matDtp (i * b + j)), st.2 + 1))
    (fun j (st : List (Int × Int) × Int) =>
      if rd vecLut j < 0 then (st.1, st.2)
      else (st.1 ++ [(i * c + st.2, i * b + j)], st.2 + 1))
    (d, 0) (ss, 0) ⟨hR, rfl⟩
    (fun j x y _ _ hxy => by
      obtain ⟨h1, h2⟩ := hxy
      by_cases hc : rd vecLut j < 0
      · simp only [hc, if_true]
        exact ⟨h1, h2⟩
      · simp only [hc, if_false]
        exact ⟨by rw [runStores_append, h1, h2], by rw [h2]⟩)
  exact h.1

/-- The loops of `stampC` perform the stores of `stampCStores`. -/
theorem stampC_eq_stores (b c : Int) (vecLut : List Int) (matCtp : List ℚ) :
    stampC b c vecLut matCtp
      = runStores matCtp (OMMALLOC (c * c)) (stampCStores b c vecLut) := by
  unfold stampC stampCStores
  refine (forLoop_sim (fun (x : List ℚ × Int) (y : List (Int × Int) × Int) =>
    x.1 = runStores matCtp (OMMALLOC (c * c)) y.1 ∧ x.2 = y.2) 0 b _ _
    (OMMALLOC (c * c), 0) ([], 0) ⟨rfl, rfl⟩ ?_).1
  · intro i x y _ _ hxy
    obtain ⟨h1, h2⟩ := hxy
    by_cases hc : rd vecLut i < 0
    · simp only [hc, if_true]
      exact ⟨h1, h2⟩
    · simp only [hc, if_false]
      have h := forLoop_sim (fun (x : List ℚ × Int) (y : List (Int × Int) × Int) =>
        x.1 = runStores matCtp (OMMALLOC (c * c)) y.1 ∧ x.2 = y.2) 0 b
        (fun j (st : List ℚ × Int) =>
          if rd vecLut j < 0 then (st.1, st.2)
          else (wr st.1 (x.2 * c + st.2) (rd matCtp (i * b + j)), st.2 + 1))
        (fun j (st : List (Int × Int) × Int) =>
          if rd vecLut j < 0 then (st.1, st.2)
          else (st.1 ++ [(y.2 * c + st.2, i * b + j)], st.2 + 1))
        (x.1, 0) (y.1, 0) ⟨h1, rfl⟩
        (fun j u v _ _ huv => by
          obtain ⟨k1, k2⟩ := huv
          by_cases hj : rd vecLut j < 0
          · simp only [hj, if_true]
            exact ⟨k1, k2⟩
          · simp only [hj, if_false]
            exact ⟨by rw [runStores_append, k1, k2, h2], by rw [k2]⟩)
      exact ⟨h.1, by rw [h2]⟩

/-- A block of consecutive indices appended to an initial segment. -/
theorem range_block (a n : Int) (ha : 0 ≤ a) (hn : 0 ≤ n) :
    (List.range (a + n).toNat).map (fun k : Nat => (k : Int))
      = (List.range a.toNat).map (fun k : Nat => (k : Int))
        ++ (List.range n.toNat).map (fun k : Nat => a + (k : Int)) := by
  have h : (a + n).toNat = a.toNat + n.toNat := by omega
  rw [h, List.range_add, List.map_append, List.map_map]
  congr 1
  apply List.map_congr_left
  intro k _
  simp only [Function.comp_apply, Nat.cast_add]
  omega

/-- The stores of a list whose destinations are pairwise distinct: the cell of a store holds
the value that store copied. -/
theorem rd_runStores (src dst : List ℚ) (ss : List (Int × Int)) :
    (ss.map Prod.fst).Nodup → ∀ d s : Int, (d, s) ∈ ss → 0 ≤ d → d < dst.length →
      rd (runStores src dst ss) d = rd src s := by
  induction ss using List.reverseRecOn with
  | nil =>
    intro _ d s hmem
    exact absurd hmem (List.not_mem_nil _)
  | append_singleton ss x ih =>
    intro hn d s hmem d0 d1
    rw [List.map_append, List.nodup_append] at hn
    obtain ⟨n1, _, n3⟩ := hn
    rw [runStores_append]
    by_cases hx : (d, s) = x
    · subst hx
      exact rd_wr_same _ _ _ d0 (by rw [length_runStores]; exact d1)
    · have hmem' : (d, s) ∈ ss := by
        rcases List.mem_append.mp hmem with h | h
        · exact h
        · exact absurd (List.mem_singleton.mp h) hx
      have hd : d ∈ ss.map Prod.fst := List.mem_map.mpr ⟨(d, s), hmem', rfl⟩
      have hne : d ≠ x.1 := fun he =>
        n3 hd (by rw [he]; exact List.mem_map.mpr ⟨x, List.mem_singleton.mpr rfl, rfl⟩)
      rw [rd_wr_ne _ _ _ _ hne]
      exact ih n1 d s hmem' d0 d1

/-- One row of the compression loops of `OmStamp`: the stores go to the consecutive cells
`B, B+1, …`, one for each kept branch. -/
theorem rowStores_spec (b : Int) (hb : 0 ≤ b) (vecBtm lut : List Int)
    (hlut : ∀ j : Int, 0 ≤ j → j < b →
      rd lut j = if isCut vecBtm j then -1 else keptBefore vecBtm j)
    (B S : Int) (ss0 : List (Int × Int)) :
    (forLoop 0 b (fun j (st : List (Int × Int) × Int) =>
        if rd lut j < 0 then (st.1, st.2)
        else (st.1 ++ [(B + st.2, S + j)], st.2 + 1)) (ss0, 0)).2 = keptBefore vecBtm b ∧
    (forLoop 0 b (fun j (st : List (Int × Int) × Int) =>
        if rd lut j < 0 then (st.1, st.2)
        else (st.1 ++ [(B + st.2, S + j)], st.2 + 1)) (ss0, 0)).1.map Prod.fst
      = ss0.map Prod.fst
        ++ (List.range (keptBefore vecBtm b).toNat).map (fun k : Nat => B + (k : Int)) ∧
    (∀ x ∈ ss0, x ∈ (forLoop 0 b (fun j (st : List (Int × Int) × Int) =>
        if rd lut j < 0 then (st.1, st.2)
        else (st.1 ++ [(B + st.2, S + j)], st.2 + 1)) (ss0, 0)).1) ∧
    (∀ j : Int, 0 ≤ j → j < b → ¬ isCut vecBtm j →
      (B + rd lut j, S + j) ∈ (forLoop 0 b (fun j (st : List (Int × Int) × Int) =>
        if rd lut j < 0 then (st.1, st.2)
        else (st.1 ++ [(B + st.2, S + j)], st.2 + 1)) (ss0, 0)).1) := by
  have key := forLoop_induct
    (fun (j : Int) (st : List (Int × Int) × Int) =>
      st.2 = keptBefore vecBtm j ∧
      st.1.map Prod.fst
        = ss0.map Prod.fst
          ++ (List.range (keptBefore vecBtm j).toNat).map (fun k : Nat => B + (k : Int)) ∧
      (∀ x ∈ ss0, x ∈ st.1) ∧
      (∀ j' : Int, 0 ≤ j' → j' < j → ¬ isCut vecBtm j' → (B + rd lut j', S + j') ∈ st.1))
    0 b hb
    (fun j (st : List (Int × Int) × Int) =>
        if rd lut j < 0 then (st.1, st.2)
        else (st.1 ++ [(B + st.2, S + j)], st.2 + 1)) (ss0, 0)
    ⟨(keptBefore_zero vecBtm).symm, by simp [keptBefore_zero], fun x hx => hx,
      fun j' h0 h1 => by omega⟩
    (fun j st j0 j1 hP => by
      obtain ⟨p1, p2, p3, p4⟩ := hP
      have hl := hlut j j0 j1
      have hk := keptBefore_succ vecBtm j j0
      by_cases hc : isCut vecBtm j
      · rw [if_pos hc] at hl hk
        have hneg : rd lut j < 0 := by omega
        simp only [hneg, if_true, hk]
        refine ⟨p1, p2, p3, fun j' h0 h1 hk' => p4 j' h0 ?_ hk'⟩
        have : j' ≠ j := fun h => hk' (h ▸ hc)
        omega
      · rw [if_neg hc] at hl hk
        have hnn := keptBefore_nonneg vecBtm j j0
        have hneg : ¬ rd lut j < 0 := by omega
        simp only [hneg, if_false, hk]
        refine ⟨by rw [p1], ?_, fun x hx => List.mem_append_left _ (p3 x hx), ?_⟩
        · have h1 : (keptBefore vecBtm j + 1).toNat = (keptBefore vecBtm j).toNat + 1 := by
            omega
          have h2 : (((keptBefore vecBtm j).toNat : Nat) : Int) = keptBefore vecBtm j := by
            omega
          rw [List.map_append, p2, h1, List.range_succ, List.map_append, List.append_assoc]
          simp only [List.map_cons, List.map_nil, h2, p1]
        · intro j' h0 h1 hk'
          by_cases hj : j' = j
          · subst hj
            apply List.mem_append_right
            rw [hl, p1]
            exact List.mem_singleton.mpr rfl
          · exact List.mem_append_left _ (p4 j' h0 (by omega) hk'))
  exact key

/-- The stores of step 4 of `OmStamp` into `matD` go to the cells `0, 1, …, m·c - 1` in this
order, and the store for meter `r` and kept branch `j` copies `matDtp[r, j]` to
`matD[r, Lut[j]]`. -/
theorem stampDStores_spec (m b c : Int) (hm : 0 ≤ m) (hb : 0 ≤ b) (vecBtm lut : List Int)
    (hlut : ∀ j : Int, 0 ≤ j → j < b →
      rd lut j = if isCut vecBtm j then -1 else keptBefore vecBtm j)
    (hc : c = keptBefore vecBtm b) :
    (stampDStores m b c lut).map Prod.fst
      = (List.range (m * c).toNat).map (fun k : Nat => (k : Int)) ∧
    ∀ r j : Int, 0 ≤ r → r < m → 0 ≤ j → j < b → ¬ isCut vecBtm j →
      (r * c + rd lut j, r * b + j) ∈ stampDStores m b c lut := by
  have hc0 : 0 ≤ c := by
    rw [hc]
    exact keptBefore_nonneg vecBtm b hb
  unfold stampDStores
  dsimp only
  refine And.imp_right (fun h r j r0 r1 j0 j1 hk => h r j r0 r1 j0 j1 hk)
    (forLoop_induct
      (fun (i : Int) (ss : List (Int × Int)) =>
        ss.map Prod.fst = (List.range (i * c).toNat).map (fun k : Nat => (k : Int)) ∧
        ∀ r j : Int, 0 ≤ r → r < i → 0 ≤ j → j < b → ¬ isCut vecBtm j →
          (r * c + rd lut j, r * b + j) ∈ ss)
      0 m hm _ [] ⟨by simp, fun r j r0 r1 => by omega⟩ ?_)
  intro i ss i0 i1 hP
  obtain ⟨p1, p2⟩ := hP
  obtain ⟨w1, w2, w3, w4⟩ := rowStores_spec b hb vecBtm lut hlut (i * c) (i * b) ss
  refine ⟨?_, fun r j r0 r1 j0 j1 hk => ?_⟩
  · have e : (i + 1) * c = i * c + c := by ring
    rw [w2, p1, e, range_block (i * c) c (mul_nonneg i0 hc0) hc0, ← hc]
  · by_cases hr : r = i
    · subst hr
      exact w4 j j0 j1 hk
    · exact w3 _ (p2 r j r0 (by omega) j0 j1 hk)

/-- The stores of step 4 of `OmStamp` into `matC` go to the cells `0, 1, …, c·c - 1` in this
order, and the store for the kept branches `i`, `j` copies `matCtp[i, j]` to
`matC[Lut[i], Lut[j]]`. -/
theorem stampCStores_spec (b c : Int) (hb : 0 ≤ b) (vecBtm lut : List Int)
    (hlut : ∀ j : Int, 0 ≤ j → j < b →
      rd lut j = if isCut vecBtm j then -1 else keptBefore vecBtm j)
    (hc : c = keptBefore vecBtm b) :
    (stampCStores b c lut).map Prod.fst
      = (List.range (c * c).toNat).map (fun k : Nat => (k : Int)) ∧
    ∀ i j : Int, 0 ≤ i → i < b → 0 ≤ j → j < b → ¬ isCut vecBtm i → ¬ isCut vecBtm j →
      (rd lut i * c + rd lut j, i * b + j) ∈ stampCStores b c lut := by
  have hc0 : 0 ≤ c := by
    rw [hc]
    exact keptBefore_nonneg vecBtm b hb
  unfold stampCStores
  dsimp only
  have key := forLoop_induct
    (fun (i : Int) (st : List (Int × Int) × Int) =>
      st.2 = keptBefore vecBtm i ∧
      st.1.map Prod.fst = (List.range (st.2 * c).toNat).map (fun k : Nat => (k : Int)) ∧
      ∀ i' j : Int, 0 ≤ i' → i' < i → 0 ≤ j → j < b → ¬ isCut vecBtm i' →
        ¬ isCut vecBtm j → (rd lut i' * c + rd lut j, i' * b + j) ∈ st.1)
    0 b hb
    (fun i (st : List (Int × Int) × Int) =>
      if rd lut i < 0 then (st.1, st.2)
      else
        ((forLoop 0 b (fun j (st' : List (Int × Int) × Int) =>
          if rd lut j < 0 then (st'.1, st'.2)
          else (st'.1 ++ [(st.2 * c + st'.2, i * b + j)], st'.2 + 1)) (st.1, 0)).1,
          st.2 + 1)) ([], 0)
    ⟨(keptBefore_zero vecBtm).symm, by simp, fun i' j h0 h1 => by omega⟩
    (fun i st i0 i1 hP => by
      obtain ⟨p1, p2, p3⟩ := hP
      have hl := hlut i i0 i1
      have hk := keptBefore_succ vecBtm i i0
      by_cases hci : isCut vecBtm i
      · rw [if_pos hci] at hl hk
        have hneg : rd lut i < 0 := by omega
        simp only [hneg, if_true, hk]
        refine ⟨p1, p2, fun i' j h0 h1 j0 j1 hk' hj => p3 i' j h0 ?_ j0 j1 hk' hj⟩
        have : i' ≠ i := fun h => hk' (h ▸ hci)
        omega
      · rw [if_neg hci] at hl hk
        have hnn := keptBefore_nonneg vecBtm i i0
        have hneg : ¬ rd lut i < 0 := by omega
        simp only [hneg, if_false, hk]
        obtain ⟨w1, w2, w3, w4⟩ := rowStores_spec b hb vecBtm lut hlut (st.2 * c) (i * b) st.1
        refine ⟨by rw [p1], ?_, fun i' j h0 h1 j0 j1 hk' hj => ?_⟩
        · have e : (st.2 + 1) * c = st.2 * c + c := by ring
          rw [w2, p2, e, range_block (st.2 * c) c (mul_nonneg (by omega) hc0) hc0, ← hc]
        · by_cases hi : i' = i
          · subst hi
            rw [hl, ← p1]
            exact w4 j j0 j1 hj
          · exact w3 _ (p3 i' j h0 (by omega) j0 j1 hk' hj))
  obtain ⟨k1, k2, k3⟩ := key
  refine ⟨?_, k3⟩
  rw [k2, k1, ← hc]

/-- The matrices, the lookup table and the sizes of the state `OmStamp` builds. -/
theorem stampFinish_matrices (cr0 : OmCir) (matPn : List ℚ) :
    (stampFinish cr0 matPn).matC
      = stampC cr0.numB (stampCut cr0).2 (stampCut cr0).1
          (stampCtp cr0 (stampTtp cr0 (stampPtp cr0 matPn))) ∧
    (stampFinish cr0 matPn).matD
      = stampD cr0.numM cr0.numB (stampCut cr0).2 (stampCut cr0).1
          (stampDtp cr0 (stampPtp cr0 matPn)
            (stampRtp cr0 (stampTtp cr0 (stampPtp cr0 matPn)))) ∧
    (stampFinish cr0 matPn).vecLut = (stampCut cr0).1 ∧
    (stampFinish cr0 matPn).numC = (stampCut cr0).2 ∧
    (stampFinish cr0 matPn).numM = cr0.numM ∧
    (stampFinish cr0 matPn).numB = cr0.numB := by
  unfold stampFinish
  simp only []
  have hsh := SameShape_OmReset { cr0 with
    vecBn1 := [], vecBn2 := [], vecMn1 := [], vecMn2 := [], matPa := [], matPb := []
    vecLut := (stampCut cr0).1
    numC := (stampCut cr0).2
    matC := stampC cr0.numB (stampCut cr0).2 (stampCut cr0).1
      (stampCtp cr0 (stampTtp cr0 (stampPtp cr0 matPn)))
    matD := stampD cr0.numM cr0.numB (stampCut cr0).2 (stampCut cr0).1
      (stampDtp cr0 (stampPtp cr0 matPn) (stampRtp cr0 (stampTtp cr0 (stampPtp cr0 matPn))))
    vecW1m := OMMALLOC (stampCut cr0).2, vecW2m := OMMALLOC (stampCut cr0).2
    vecW1s := OMMALLOC (stampCut cr0).2, vecW2s := OMMALLOC (stampCut cr0).2
    vecQa := OMMALLOC (stampCut cr0).2, vecQs := OMMALLOC (stampCut cr0).2
    vecQtp := OMMALLOC (stampCut cr0).2
    vecXm := OMMALLOC cr0.numM, vecXc := OMMALLOC (stampCut cr0).2 }
  unfold SameShape at hsh
  obtain ⟨e1, e2, e3, _, e5, _, _, _, _, _, _, e12, e13, _⟩ := hsh
  exact ⟨e12, e13, e5, e3, e2, e1⟩

theorem nodup_cells (n : Nat) : ((List.range n).map (fun k : Nat => (k : Int))).Nodup :=
  (List.nodup_range n).map Nat.cast_injective

/-- C30: compression in `OmStamp`.  With `matCtp`, `matDtp` the matrices of step 2 and `st`
the stamped state: `matCtp` is the product `Pa·Ttp`; for kept branches `i`, `j` (not of
level X0 or Y0, so that the new `Lut` is not negative) `C[Lut[i], Lut[j]] = Ctp[i, j]`, and
for every meter `r`, `D[r, Lut[j]] = Dtp[r, j]`; the stores of step 4 into `C` go to the
cells `0, …, numC·numC - 1`, each once, and those into `D` to the cells
`0, …, numM·numC - 1`, each once. -/
theorem stamp_compress (cr0 : OmCir) (hs : Setup cr0) (matPn matTtp matCtp matDtp : List ℚ)
    (st : OmCir) (hT : matTtp = stampTtp cr0 (stampPtp cr0 matPn))
    (hC : matCtp = stampCtp cr0 matTtp)
    (hD : matDtp = stampDtp cr0 (stampPtp cr0 matPn) (stampRtp cr0 matTtp))
    (hst : st = stampFinish cr0 matPn) :
    (∀ i j : Int, 0 ≤ i → i < cr0.numB → 0 ≤ j → j < cr0.numB →
      rd matCtp (i * cr0.numB + j)
        = ∑ k in Finset.range cr0.numB.toNat,
            rd cr0.matPa (i * cr0.numB + k) * rd matTtp (k * cr0.numB + j)) ∧
    (∀ j : Int, 0 ≤ j → j < cr0.numB → (¬ isCut cr0.vecBtm j ↔ 0 ≤ rd st.vecLut j)) ∧
    (∀ i j : Int, 0 ≤ i → i < cr0.numB → 0 ≤ j → j < cr0.numB →
      0 ≤ rd st.vecLut i → 0 ≤ rd st.vecLut j →
      rd st.matC (rd st.vecLut i * st.numC + rd st.vecLut j) = rd matCtp (i * cr0.numB + j)) ∧
    (∀ r j : Int, 0 ≤ r → r < st.numM → 0 ≤ j → j < cr0.numB → 0 ≤ rd st.vecLut j →
      rd st.matD (r * st.numC + rd st.vecLut j) = rd matDtp (r * cr0.numB + j)) ∧
    st.matC = runStores matCtp (OMMALLOC (st.numC * st.numC))
      (stampCStores cr0.numB st.numC st.vecLut) ∧
    (stampCStores cr0.numB st.numC st.vecLut).map Prod.fst
      = (List.range (st.numC * st.numC).toNat).map (fun k : Nat => (k : Int)) ∧
    st.matD = runStores matDtp (OMMALLOC (st.numM * st.numC))
      (stampDStores st.numM cr0.numB st.numC st.vecLut) ∧
    (stampDStores st.numM cr0.numB st.numC st.vecLut).map Prod.fst
      = (List.range (st.numM * st.numC).toNat).map (fun k : Nat => (k : Int)) := by
  have hb : 0 ≤ cr0.numB := hs.1
  have hm : 0 ≤ cr0.numM := hs.2.1
  obtain ⟨f1, f2, f3, f4, f5, _⟩ := stampFinish_matrices cr0 matPn
  obtain ⟨_, c2, c3⟩ := stampCut_spec cr0 hb (setup_lut cr0 hs)
  subst hst
  rw [f1, f2, f3, f4, f5, ← hT, ← hC, ← hD]
  obtain ⟨d1, d2⟩ := stampDStores_spec cr0.numM cr0.numB (stampCut cr0).2 hm hb cr0.vecBtm
    (stampCut cr0).1 c3 c2
  obtain ⟨g1, g2⟩ := stampCStores_spec cr0.numB (stampCut cr0).2 hb cr0.vecBtm
    (stampCut cr0).1 c3 c2
  have hkept : ∀ j : Int, 0 ≤ j → j < cr0.numB →
      (¬ isCut cr0.vecBtm j ↔ 0 ≤ rd (stampCut cr0).1 j) := by
    intro j j0 j1
    constructor
    · intro h
      exact (lut_kept cr0 hs j j0 j1 h).2.1
    · intro h hc
      rw [lut_cut cr0 hs j j0 j1 hc] at h
      omega
  have hCs := stampC_eq_stores cr0.numB (stampCut cr0).2 (stampCut cr0).1 matCtp
  have hDs := stampD_eq_stores cr0.numM cr0.numB (stampCut cr0).2 (stampCut cr0).1 matDtp
  refine ⟨?_, hkept, ?_, ?_, hCs, g1, hDs, d1⟩
  · intro i j i0 i1 j0 j1
    rw [hC]
    unfold stampCtp
    exact (OmMatMul_entry cr0.numB hb _ cr0.matPa matTtp (length_OMMALLOC _)).2 i j i0 i1 j0 j1
  · intro i j i0 i1 j0 j1 li lj
    have ki := (hkept i i0 i1).2 li
    have kj := (hkept j j0 j1).2 lj
    obtain ⟨_, a1, a2⟩ := lut_kept cr0 hs i i0 i1 ki
    obtain ⟨_, b1, b2⟩ := lut_kept cr0 hs j j0 j1 kj
    obtain ⟨x1, x2⟩ := flat_index (stampCut cr0).2 _ _ a1 a2 b1 b2
    rw [hCs]
    refine rd_runStores matCtp _ _ ?_ _ _ (g2 i j i0 i1 j0 j1 ki kj) x1
      (lt_length_of_size _ _ _ (length_OMMALLOC _) x2)
    rw [g1]
    exact nodup_cells _
  · intro r j r0 r1 j0 j1 lj
    have kj := (hkept j j0 j1).2 lj
    obtain ⟨_, b1, b2⟩ := lut_kept cr0 hs j j0 j1 kj
    obtain ⟨_, x1, x2⟩ := flat_index_rect cr0.numM (stampCut cr0).2 r _ r0 r1 b1 b2
    rw [hDs]
    refine rd_runStores matDtp _ _ ?_ _ _ (d2 r j r0 r1 j0 j1 kj) x1
      (lt_length_of_size _ _ _ (length_OMMALLOC _) (by omega))
    rw [d1]
    exact nodup_cells _

theorem stamp_compress_witness :
    Setup (boostPre (1 / 2) [1, 0, 0, 1]) ∧
    rd (stampFinish (boostPre (1 / 2) [1, 0, 0, 1]) [1, 2, 3, 4]).matC
        (rd (stampFinish (boostPre (1 / 2) [1, 0, 0, 1]) [1, 2, 3, 4]).vecLut 0
          * (stampFinish (boostPre (1 / 2) [1, 0, 0, 1]) [1, 2, 3, 4]).numC
          + rd (stampFinish (boostPre (1 / 2) [1, 0, 0, 1]) [1, 2, 3, 4]).vecLut 0)
      = rd (stampCtp (boostPre (1 / 2) [1, 0, 0, 1])
          (stampTtp (boostPre (1 / 2) [1, 0, 0, 1])
            (stampPtp (boostPre (1 / 2) [1, 0, 0, 1]) [1, 2, 3, 4])))
          (0 * (boostPre (1 / 2) [1, 0, 0, 1]).numB + 0) :=
  ⟨by decide!,
    (stamp_compress (boostPre (1 / 2) [1, 0, 0, 1]) (by decide!) [1, 2, 3, 4] _ _ _ _
      rfl rfl rfl rfl).2.2.1 0 0 (by decide) (by decide) (by decide) (by decide)
      (by decide!) (by decide!)⟩

/-! ## The pivot ordering of `OmMatInv` -/

theorem matInvPm_eq (m : Int) (a : List ℚ) :
    matInvPm m a = forLoop 0 m (fun j pm => matInvPmCol m a j pm)
      (forLoop 0 m (fun i pm => wr pm i i) (OMMALLOC m)) := rfl

/-- The initial permute vector is the identity. -/
theorem matInvPm_init (m : Int) (hm : 0 ≤ m) :
    (forLoop 0 m (fun i (pm : List Int) => wr pm i i) (OMMALLOC m)).length = m.toNat ∧
    ∀ k : Int, 0 ≤ k → k < m →
      rd (forLoop 0 m (fun i (pm : List Int) => wr pm i i) (OMMALLOC m)) k = k := by
  refine forLoop_induct
    (fun (i : Int) (t : List Int) => t.length = m.toNat ∧
      ∀ k : Int, 0 ≤ k → k < i → rd t k = k) 0 m hm _ _
    ⟨length_OMMALLOC _, fun k h0 h1 => by omega⟩ ?_
  intro i t i0 i1 hP
  obtain ⟨hl, hv⟩ := hP
  refine ⟨by rw [length_wr, hl], fun k k0 k1 => ?_⟩
  rw [rd_wr]
  by_cases hk : k = i
  · subst hk
    rw [if_pos ⟨rfl, k0, by omega⟩]
  · rw [if_neg (fun h => hk h.1)]
    exact hv k k0 (by omega)

/-- The swap of the positions `x` and `y` of a permute vector: position `k` receives what
position `y`, `x` or `k` held. -/
theorem rd_swap (m : Int) (pm : List Int) (hl : pm.length = m.toNat) (x y : Int)
    (x0 : 0 ≤ x) (x1 : x < m) (y0 : 0 ≤ y) (y1 : y < m) (k : Int) :
    rd (wr (wr pm x (rd pm y)) y (rd pm x)) k
      = rd pm (if k = y then x else if k = x then y else k) := by
  rw [rd_wr, rd_wr, length_wr]
  have hx : x < (pm.length : Int) := by omega
  have hy : y < (pm.length : Int) := by omega
  by_cases h1 : k = y
  · rw [if_pos ⟨h1, y0, hy⟩, if_pos h1]
  · rw [if_neg (fun h => h1 h.1), if_neg h1]
    by_cases h2 : k = x
    · rw [if_pos ⟨h2, x0, hx⟩, if_pos h2]
    · rw [if_neg (fun h => h2 h.1), if_neg h2]

/-- A swap of two positions not before `j` keeps a permute vector and the pivots of the
columns before `j`. -/
theorem swap_keeps (m : Int) (a : List ℚ) (j : Int) (pm : List Int) (x y : Int)
    (hj : 0 ≤ j) (jx : j ≤ x) (x1 : x < m) (jy : j ≤ y) (y1 : y < m)
    (hp : IsPermVec m pm) (hq : PivotsBefore m a j pm) :
    IsPermVec m (wr (wr pm x (rd pm y)) y (rd pm x)) ∧
    PivotsBefore m a j (wr (wr pm x (rd pm y)) y (rd pm x)) := by
  obtain ⟨hl, hr, hi⟩ := hp
  have sw := rd_swap m pm hl x y (by omega) x1 (by omega) y1
  have tr : ∀ k : Int, 0 ≤ k → k < m →
      0 ≤ (if k = y then x else if k = x then y else k) ∧
      (if k = y then x else if k = x then y else k) < m ∧
      (j ≤ k → j ≤ (if k = y then x else if k = x then y else k)) ∧
      (k < j → (if k = y then x else if k = x then y else k) = k) := by
    intro k k0 k1
    split_ifs <;> omega
  have trinj : ∀ k l : Int,
      (if k = y then x else if k = x then y else k)
        = (if l = y then x else if l = x then y else l) → k = l := by
    intro k l
    split_ifs <;> omega
  refine ⟨⟨by rw [length_wr, length_wr, hl], fun k k0 k1 => ?_, fun k l k0 k1 l0 l1 he => ?_⟩,
    fun c i c0 c1 ci i1 => ?_⟩
  · rw [sw]
    obtain ⟨t0, t1, _, _⟩ := tr k k0 k1
    exact hr _ t0 t1
  · rw [sw, sw] at he
    obtain ⟨t0, t1, _, _⟩ := tr k k0 k1
    obtain ⟨u0, u1, _, _⟩ := tr l l0 l1
    exact trinj k l (hi _ _ t0 t1 u0 u1 he)
  · rw [sw, sw]
    obtain ⟨t0, t1, t2, _⟩ := tr i (by omega) i1
    obtain ⟨_, _, _, u3⟩ := tr c c0 (by omega)
    rw [u3 c1]
    by_cases hij : j ≤ i
    · exact hq c _ c0 c1 (by have := t2 hij; omega) t1
    · obtain ⟨_, _, _, t3⟩ := tr i (by omega) i1
      rw [t3 (by omega)]
      exact hq c i c0 c1 ci i1


/-- The inner loop of the pivot ordering for column `j` keeps a permute vector and the pivots
of the earlier columns, and brings to position `j` a row of largest magnitude in column `j`
among the rows at the positions `j..m-1`. -/
theorem matInvPmCol_spec (m : Int) (a : List ℚ) (j : Int) (pm : List Int) (j0 : 0 ≤ j)
    (j1 : j < m) (hp : IsPermVec m pm) (hq : PivotsBefore m a j pm) :
    IsPermVec m (matInvPmCol m a j pm) ∧ PivotsBefore m a (j + 1) (matInvPmCol m a j pm) := by
  unfold matInvPmCol
  dsimp only
  have key := forLoop_induct
    (fun (i : Int) (st : ℚ × List Int) =>
      IsPermVec m st.2 ∧ PivotsBefore m a j st.2 ∧
      (i = j → st.1 = 0) ∧ (j < i → st.1 = |rd a (rd st.2 j * m + j)|) ∧
      ∀ k : Int, j ≤ k → k < i → |rd a (rd st.2 k * m + j)| ≤ st.1)
    j m (le_of_lt j1)
    (fun i (st : ℚ × List Int) =>
      if OMABS (rd a (rd st.2 i * m + j)) > st.1 then
        (OMABS (rd a (rd st.2 i * m + j)), wr (wr st.2 j (rd st.2 i)) i (rd st.2 j))
      else (st.1, st.2)) ((0 : ℚ), pm)
    ⟨hp, hq, fun _ => rfl, fun h => by omega, fun k h0 h1 => by omega⟩
    (fun i st i0 i1 hP => by
      obtain ⟨p1, p2, p3, p4, p5⟩ := hP
      simp only [OMABS_eq_abs]
      by_cases hc : |rd a (rd st.2 i * m + j)| > st.1
      · simp only [hc, if_true]
        obtain ⟨q1, q2⟩ := swap_keeps m a j st.2 j i j0 (le_refl j) j1 i0 i1 p1 p2
        have sw := rd_swap m st.2 p1.1 j i j0 j1 (by omega) i1
        refine ⟨q1, q2, fun h => by omega, fun _ => ?_, fun k k0 k1 => ?_⟩
        · rw [sw]
          by_cases hji : j = i
          · rw [if_pos hji, hji]
          · rw [if_neg hji, if_pos rfl]
        · rw [sw]
          by_cases hki : k = i
          · rw [if_pos hki]
            by_cases hji : j = i
            · rw [hji]
            · rw [← p4 (by omega)]
              exact le_of_lt hc
          · rw [if_neg hki]
            by_cases hkj : k = j
            · rw [if_pos hkj]
            · rw [if_neg hkj]
              exact le_trans (p5 k k0 (by omega)) (le_of_lt hc)
      · simp only [hc, if_false]
        have hle : |rd a (rd st.2 i * m + j)| ≤ st.1 := not_lt.mp hc
        refine ⟨p1, p2, fun h => by omega, fun _ => ?_, fun k k0 k1 => ?_⟩
        · by_cases hji : j = i
          · have h0 := p3 hji.symm
            subst hji
            rw [h0] at hle ⊢
            exact le_antisymm (abs_nonneg _) hle
          · exact p4 (by omega)
        · by_cases hki : k = i
          · rw [hki]
            exact hle
          · exact p5 k k0 (by omega))
  obtain ⟨p1, p2, _, p4, p5⟩ := key
  refine ⟨p1, fun c i c0 c1 ci i1 => ?_⟩
  by_cases hcj : c = j
  · rw [hcj, ← p4 j1]
    exact p5 i (by omega) i1
  · exact p2 c i c0 (by omega) ci i1

/-- When the rows at the positions `j..m-1` are all zero in column `j`, the inner loop makes
no swap. -/
theorem matInvPmCol_zero (m : Int) (a : List ℚ) (j : Int) (pm : List Int)
    (hz : ∀ i : Int, j ≤ i → i < m → rd a (rd pm i * m + j) = 0) :
    matInvPmCol m a j pm = pm := by
  unfold matInvPmCol
  dsimp only
  refine congrArg Prod.snd (forLoop_keep (fun (st : ℚ × List Int) => st = ((0 : ℚ), pm)) j m _
    ((0 : ℚ), pm) rfl ?_)
  intro i st i0 i1 hst
  rw [hst]
  simp [hz i i0 i1, OMABS]

/-- A permute vector is a permutation of the list `0, …, m-1`. -/
theorem IsPermVec_perm (m : Int) (pm : List Int) (hp : IsPermVec m pm) :
    pm.Perm ((List.range m.toNat).map (fun k : Nat => (k : Int))) := by
  obtain ⟨hl, hr, hi⟩ := hp
  have hget : ∀ (k : Nat) (hk : k < pm.length), rd pm (k : Int) = pm[k] := by
    intro k hk
    unfold rd
    have h0 : ¬ ((k : Int) < 0) := by omega
    simp [h0, hk]
  have hnd : pm.Nodup := by
    rw [List.nodup_iff_injective_get]
    intro x y hxy
    have hx := x.2
    have hy := y.2
    have e := hi (x : Int) (y : Int) (by omega) (by omega) (by omega) (by omega)
      (by rw [hget x x.2, hget y y.2]; exact hxy)
    exact Fin.ext (by omega)
  have hsub : pm ⊆ (List.range m.toNat).map (fun k : Nat => (k : Int)) := by
    intro v hv
    obtain ⟨k, hk, rfl⟩ := List.getElem_of_mem hv
    obtain ⟨v0, v1⟩ := hr (k : Int) (by omega) (by omega)
    rw [hget k hk] at v0 v1
    rw [List.mem_map]
    exact ⟨(pm[k]).toNat, List.mem_range.mpr (by omega), by omega⟩
  exact (List.subperm_of_subset hnd hsub).perm_of_length_le (by simp [hl])

/-- The pivot-ordering loop of `OmMatInv` leaves a permute vector whose pivots dominate in
every column. -/
theorem matInvPm_isPermVec (m : Int) (hm : 0 ≤ m) (a : List ℚ) :
    IsPermVec m (matInvPm m a) ∧ PivotsBefore m a m (matInvPm m a) := by
  obtain ⟨i1, i2⟩ := matInvPm_init m hm
  have key := forLoop_induct
    (fun (j : Int) (pm : List Int) => IsPermVec m pm ∧ PivotsBefore m a j pm)
    0 m hm (fun j pm => matInvPmCol m a j pm)
    (forLoop 0 m (fun i pm => wr pm i i) (OMMALLOC m))
    ⟨⟨i1, fun k k0 k1 => by rw [i2 k k0 k1]; exact ⟨k0, k1⟩,
      fun k l k0 k1 l0 l1 he => by rw [i2 k k0 k1, i2 l l0 l1] at he; exact he⟩,
      fun c i c0 c1 => by omega⟩
    (fun j pm j0 j1 hP => matInvPmCol_spec m a j pm j0 j1 hP.1 hP.2)
  rw [← matInvPm_eq] at key
  exact key

/-- C31: after the pivot-ordering loop of `OmMatInv` on an `m`×`m` input `a`, the vector `pm`
is a permutation of `0..m-1`, and for every column `j` and every `i ≥ j`,
`|a[pm[j], j]| ≥ |a[pm[i], j]|`: the pivot row of each column has the largest magnitude of
the original column among the rows not yet chosen.  The loop runs the inner loop
`matInvPmCol` once per column, and that inner loop makes no swap when the rows still to
choose from are all zero in its column. -/
theorem matInvPm_spec (m : Int) (hm : 0 ≤ m) (a : List ℚ) :
    (matInvPm m a).Perm ((List.range m.toNat).map (fun k : Nat => (k : Int))) ∧
    (∀ j i : Int, 0 ≤ j → j ≤ i → i < m →
      |rd a (rd (matInvPm m a) i * m + j)| ≤ |rd a (rd (matInvPm m a) j * m + j)|) ∧
    matInvPm m a = forLoop 0 m (fun j pm => matInvPmCol m a j pm)
      (forLoop 0 m (fun i pm => wr pm i i) (OMMALLOC m)) ∧
    ∀ (j : Int) (pm : List Int), (∀ i : Int, j ≤ i → i < m → rd a (rd pm i * m + j) = 0) →
      matInvPmCol m a j pm = pm := by
  obtain ⟨k1, k2⟩ := matInvPm_isPermVec m hm a
  exact ⟨IsPermVec_perm m _ k1, fun j i j0 ji i1 => k2 j i j0 (by omega) ji i1,
    matInvPm_eq m a, fun j pm hz => matInvPmCol_zero m a j pm hz⟩

theorem matInvPm_spec_witness :
    (0 : Int) ≤ 3 ∧
    |rd ([2, 2, 0, 1, 1, 1, 0, 1, 1] : List ℚ)
        (rd (matInvPm 3 [2, 2, 0, 1, 1, 1, 0, 1, 1]) 2 * 3 + 1)|
      ≤ |rd ([2, 2, 0, 1, 1, 1, 0, 1, 1] : List ℚ)
        (rd (matInvPm 3 [2, 2, 0, 1, 1, 1, 0, 1, 1]) 1 * 3 + 1)| :=
  ⟨by decide, (matInvPm_spec 3 (by decide) [2, 2, 0, 1, 1, 1, 0, 1, 1]).2.1 1 2 (by decide)
    (by decide) (by decide)⟩

/-! ## `OmMatInv` on 1×1 and 2×2 matrices -/

theorem matInvPm_one (a : ℚ) : matInvPm 1 [a] = [0] := by
  have e : ∀ (c : Prop) [Decidable c] (x y : ℚ) (p : List Int),
      (if c then (x, p) else (y, p)).2 = p := by
    intro c _ x y p
    split_ifs <;> rfl
  norm_num [matInvPm, forLoop_done, forLoop_step,
    rd_cons_zero, rd_cons_pos, wr_cons_zero, wr_cons_pos, wr_nil, rd_nil,
    OMMALLOC_pos, OMMALLOC_nonpos, e]

theorem matInvLU_one (a : ℚ) : matInvLU 1 (matInvCopy 1 [a] [0]) = [a] := by
  norm_num [matInvCopy, matInvLU,
    forLoop_done, forLoop_step, forDownLoop_done, forDownLoop_step,
    rd_cons_zero, rd_cons_pos, wr_cons_zero, wr_cons_pos, wr_nil, rd_nil,
    OMMALLOC_pos, OMMALLOC_nonpos]

theorem OmMatInv_one (a : ℚ) : OmMatInv 1 [a] = [1 / a] := by
  unfold OmMatInv
  simp only [matInvPm_one, matInvLU_one]
  norm_num [matInvTri, matInvProd, matInvPerm,
    forLoop_done, forLoop_step, forDownLoop_done, forDownLoop_step,
    rd_cons_zero, rd_cons_pos, wr_cons_zero, wr_cons_pos, wr_nil, rd_nil,
    OMMALLOC_pos, OMMALLOC_nonpos]

/-- The pivots of a 2×2 matrix with non-zero determinant are not zero. -/
theorem matInvLU_two_pivots (a b c d : ℚ) (hdet : a * d - b * c ≠ 0) :
    rd (matInvLU 2 (matInvCopy 2 [a, b, c, d] (matInvPm 2 [a, b, c, d]))) (0 * 2 + 0) ≠ 0 ∧
    rd (matInvLU 2 (matInvCopy 2 [a, b, c, d] (matInvPm 2 [a, b, c, d]))) (1 * 2 + 1) ≠ 0 := by
  rw [matInvPm_two]
  split_ifs with h
  · have hc : c ≠ 0 := by
      intro h0
      rw [h0, abs_zero] at h
      exact absurd h (not_lt.mpr (abs_nonneg a))
    have hdet2 : b * c - a * d ≠ 0 := by
      intro h0
      apply hdet
      linarith
    have hp : b - a / c * d = (b * c - a * d) / c := by
      field_simp
    rw [matInvCopy_two_swap, matInvLU_two, hp]
    norm_num [rd_cons_zero, rd_cons_pos]
    exact ⟨hc, hdet2, hc⟩
  · have ha : a ≠ 0 := by
      intro h0
      apply hdet
      have hc : c = 0 := by
        rw [h0, abs_zero] at h
        exact abs_eq_zero.mp (le_antisymm (not_lt.mp h) (abs_nonneg c))
      rw [h0, hc]
      ring
    have hp : d - c / a * b = (a * d - b * c) / a := by
      field_simp
      ring
    rw [matInvCopy_two_id, matInvLU_two, hp]
    norm_num [rd_cons_zero, rd_cons_pos]
    exact ⟨ha, hdet, ha⟩

/-- C33: in exact arithmetic, on a non-singular 1×1 or 2×2 matrix every divisor of `OmMatInv`
(the diagonal entries `lu[i,i]` of the decomposed copy, the only values the function
divides by) is non-zero and the function leaves the inverse in place, for 2×2
`[[d, -b], [-c, a]] / (ad - bc)`, whichever row the pivot ordering selects (`pm = [1, 0]`
when `|a| < |c|`, `[0, 1]` otherwise). -/
theorem OmMatInv_small :
    (∀ a : ℚ, (toMatrix 1 [a]).det ≠ 0 →
      rd (matInvLU 1 (matInvCopy 1 [a] (matInvPm 1 [a]))) (0 * 1 + 0) ≠ 0 ∧
      OmMatInv 1 [a] = [1 / a] ∧
      toMatrix 1 (OmMatInv 1 [a]) = (toMatrix 1 [a])⁻¹) ∧
    (∀ a b c d : ℚ, (toMatrix 2 [a, b, c, d]).det ≠ 0 →
      matInvPm 2 [a, b, c, d] = (if |a| < |c| then [1, 0] else [0, 1]) ∧
      rd (matInvLU 2 (matInvCopy 2 [a, b, c, d] (matInvPm 2 [a, b, c, d]))) (0 * 2 + 0) ≠ 0 ∧
      rd (matInvLU 2 (matInvCopy 2 [a, b, c, d] (matInvPm 2 [a, b, c, d]))) (1 * 2 + 1) ≠ 0 ∧
      OmMatInv 2 [a, b, c, d]
        = [d / (a * d - b * c), -b / (a * d - b * c),
           -c / (a * d - b * c), a / (a * d - b * c)] ∧
      toMatrix 2 (OmMatInv 2 [a, b, c, d]) = (toMatrix 2 [a, b, c, d])⁻¹) := by
  constructor
  · intro a ha
    have ha' : a ≠ 0 := by
      intro h0
      apply ha
      simp [Matrix.det_unique, toMatrix, h0, rd_cons_zero]
    refine ⟨?_, OmMatInv_one a, ?_⟩
    · rw [matInvPm_one, matInvLU_one]
      simpa [rd_cons_zero] using ha'
    · rw [OmMatInv_one]
      symm
      apply Matrix.inv_eq_right_inv
      ext i j
      fin_cases i
      fin_cases j
      simp [Matrix.mul_apply, toMatrix, rd_cons_zero, ha']
  · intro a b c d hd
    have hdet : a * d - b * c ≠ 0 := by
      intro h0
      apply hd
      rw [Matrix.det_fin_two]
      norm_num [toMatrix, rd_cons_zero, rd_cons_pos]
      linarith
    obtain ⟨p0, p1⟩ := matInvLU_two_pivots a b c d hdet
    refine ⟨matInvPm_two a b c d, p0, p1, OmMatInv_two a b c d hdet, ?_⟩
    rw [OmMatInv_two a b c d hdet]
    symm
    apply Matrix.inv_eq_right_inv
    ext i j
    fin_cases i <;> fin_cases j <;>
      norm_num [Matrix.mul_apply, Fin.sum_univ_two, toMatrix, rd_cons_zero, rd_cons_pos] <;>
      field_simp <;> ring

theorem OmMatInv_small_witness :
    (toMatrix 2 [1, 2, 3, 4]).det ≠ 0 ∧ OmMatInv 2 [1, 2, 3, 4] = [-2, 1, 3 / 2, -1 / 2] :=
  ⟨by rw [Matrix.det_fin_two]; norm_num [toMatrix, rd_cons_zero, rd_cons_pos],
    ((OmMatInv_small.2 1 2 3 4
      (by rw [Matrix.det_fin_two]; norm_num [toMatrix, rd_cons_zero, rd_cons_pos])).2.2.2.1).trans
      (by norm_num)⟩

/-! ## Steady state of the switch model and the integration rules of `OmAddL` -/

/-- C34: steady state of the switch companion model.  After `OmAddS(cr, bs, k1, k2, ysw, ron)`
with `τ = 1 + ysw·ron ≠ 0` and `ysw ≠ 0`, the diagonal entry of `Pb` has grown by
`g = ysw/τ`, and with the branch current `i = g·v + ja`: a history value `ja` fixed by the
closed update `ja = W1c·v + W2c·ja` (`k1 ≠ -1`) satisfies `v = ron·i`, hence `v = 0` when
`ron = 0`, and one fixed by the open update `ja = W1o·v + W2o·ja` (`k2 ≠ 1`) satisfies
`i = 0`. -/
theorem OmAddS_steady (cr : OmCir) (hs : Setup cr) (bs : Int) (h1 : 1 ≤ bs) (h2 : bs ≤ cr.numB)
    (k1 k2 ysw ron : ℚ) (ht : 1 + ysw * ron ≠ 0) (hy : ysw ≠ 0) (t : OmCir)
    (hst : t = OmAddS cr bs k1 k2 ysw ron) (v ja : ℚ) :
    rd t.matPb ((bs - 1) * cr.numB + (bs - 1))
      = rd cr.matPb ((bs - 1) * cr.numB + (bs - 1)) + ysw / (1 + ysw * ron) ∧
    (k1 ≠ -1 → ja = rd t.vecW1c (bs - 1) * v + rd t.vecW2c (bs - 1) * ja →
      v = ron * (ysw / (1 + ysw * ron) * v + ja) ∧ (ron = 0 → v = 0)) ∧
    (k2 ≠ 1 → ja = rd t.vecW1o (bs - 1) * v + rd t.vecW2o (bs - 1) * ja →
      ysw / (1 + ysw * ron) * v + ja = 0) := by
  have hs2 := hs
  unfold Setup at hs2
  obtain ⟨hb, hm, _, _, _, _, _, hpb, _, _, h1c, h2c, h1o, h2o, _, _⟩ := hs2
  obtain ⟨d0, d1⟩ := diag_index cr.numB bs h1 h2
  have i0 : 0 ≤ bs - 1 := by omega
  have i1 : bs - 1 < cr.numB := by omega
  subst hst
  have e1 : rd (OmAddS cr bs k1 k2 ysw ron).vecW1c (bs - 1)
      = (k1 + 1) * ysw / ((1 + ysw * ron) * (1 + ysw * ron)) :=
    rd_wr_same _ _ _ i0 (lt_length_of_size _ _ _ h1c i1)
  have e2 : rd (OmAddS cr bs k1 k2 ysw ron).vecW2c (bs - 1)
      = (1 - k1 * ysw * ron) / (1 + ysw * ron) :=
    rd_wr_same _ _ _ i0 (lt_length_of_size _ _ _ h2c i1)
  have e3 : rd (OmAddS cr bs k1 k2 ysw ron).vecW1o (bs - 1)
      = (k2 - 1) * ysw / ((1 + ysw * ron) * (1 + ysw * ron)) :=
    rd_wr_same _ _ _ i0 (lt_length_of_size _ _ _ h1o i1)
  have e4 : rd (OmAddS cr bs k1 k2 ysw ron).vecW2o (bs - 1)
      = (k2 + ysw * ron) / (1 + ysw * ron) :=
    rd_wr_same _ _ _ i0 (lt_length_of_size _ _ _ h2o i1)
  have e5 : rd (OmAddS cr bs k1 k2 ysw ron).matPb ((bs - 1) * cr.numB + (bs - 1))
      = rd cr.matPb ((bs - 1) * cr.numB + (bs - 1)) + ysw / (1 + ysw * ron) :=
    rd_wr_same _ _ _ d0 (lt_length_of_size _ _ _ hpb d1)
  rw [e1, e2, e3, e4]
  refine ⟨e5, fun hk hfix => ?_, fun hk hfix => ?_⟩
  · have hk1 : k1 + 1 ≠ 0 := fun h => hk (by linarith)
    have h' : ja * ((1 + ysw * ron) * (1 + ysw * ron))
        = (k1 + 1) * ysw * v + (1 - k1 * ysw * ron) * (1 + ysw * ron) * ja := by
      conv_lhs => rw [hfix]
      field_simp
      ring
    have key : v = ron * ((1 + ysw * ron) * ja) := by
      have h3 : (k1 + 1) * ysw * (ron * ((1 + ysw * ron) * ja) - v) = 0 := by
        linear_combination h'
      rcases mul_eq_zero.mp h3 with h4 | h4
      · exact absurd h4 (mul_ne_zero hk1 hy)
      · linarith
    have main : v = ron * (ysw / (1 + ysw * ron) * v + ja) := by
      field_simp
      rw [key]
      ring
    exact ⟨main, fun hr => by rw [key, hr]; ring⟩
  · have hk2 : k2 - 1 ≠ 0 := fun h => hk (by linarith)
    have h' : ja * ((1 + ysw * ron) * (1 + ysw * ron))
        = (k2 - 1) * ysw * v + (k2 + ysw * ron) * (1 + ysw * ron) * ja := by
      conv_lhs => rw [hfix]
      field_simp
      ring
    have h3 : (k2 - 1) * (ysw * v + ja * (1 + ysw * ron)) = 0 := by
      linear_combination (-1) * h'
    rcases mul_eq_zero.mp h3 with h4 | h4
    · exact absurd h4 hk2
    · field_simp
      exact h4

theorem OmAddS_steady_witness :
    Setup (switchPre [1, 0, 0, 1]) ∧
    (1 : ℚ) = rd (OmAddS (switchPre [1, 0, 0, 1]) 2 1 0 1 1).vecW1c (2 - 1) * 2
      + rd (OmAddS (switchPre [1, 0, 0, 1]) 2 1 0 1 1).vecW2c (2 - 1) * 1 ∧
    (2 : ℚ) = 1 * (1 / (1 + 1 * 1) * 2 + 1) :=
  ⟨by decide!, by decide!,
    ((OmAddS_steady (switchPre [1, 0, 0, 1]) (by decide!) 2 (by decide) (by decide!) 1 0 1 1
      (by norm_num) (by norm_num) _ rfl 2 1).2.1 (by norm_num) (by decide!)).1⟩

/-- C35: the weights `OmAddL(cr, bx, L, i0)` writes on an X2 branch whose `Pb` and `W1o`
entries were zero (a single inductor) implement the integration rules.  With the branch
voltage `u_n = Pb·i_n + Qa_n` and the refreshed history `Qa_{n+1} = W1o·i_n + W2o·Qa_n`,
the voltage `u_{n+1} = Pb·i_{n+1} + Qa_{n+1}` satisfies
`(u_{n+1} + u_n)/2 = L·(i_{n+1} - i_n)/Δt` for the trapezoidal tag `X2` and
`u_{n+1} = L·(i_{n+1} - i_n)/Δt` for the backward-Euler tag `-X2`, for all `i_n`,
`i_{n+1}`, `Qa_n`. -/
theorem OmAddL_integration (cr : OmCir) (hs : Setup cr) (bx : Int) (h1 : 1 ≤ bx)
    (h2 : bx ≤ cr.numB) (ind i0 : ℚ)
    (hPb : rd cr.matPb ((bx - 1) * cr.numB + (bx - 1)) = 0)
    (hW : rd cr.vecW1o (bx - 1) = 0) (t : OmCir) (ht : t = OmAddL cr bx ind i0)
    (i_n i_n1 qa_n : ℚ) :
    (rd cr.vecBtm (bx - 1) = OMTYP_X2 →
      ((rd t.matPb ((bx - 1) * cr.numB + (bx - 1)) * i_n1
          + (rd t.vecW1o (bx - 1) * i_n + rd t.vecW2o (bx - 1) * qa_n))
        + (rd t.matPb ((bx - 1) * cr.numB + (bx - 1)) * i_n + qa_n)) / 2
        = ind * (i_n1 - i_n) / cr.timStp) ∧
    (rd cr.vecBtm (bx - 1) = -OMTYP_X2 →
      rd t.matPb ((bx - 1) * cr.numB + (bx - 1)) * i_n1
          + (rd t.vecW1o (bx - 1) * i_n + rd t.vecW2o (bx - 1) * qa_n)
        = ind * (i_n1 - i_n) / cr.timStp) := by
  have hs2 := hs
  unfold Setup at hs2
  obtain ⟨hb, hm, _, _, _, _, _, hpb, _, _, h1c, h2c, h1o, h2o, _, _⟩ := hs2
  obtain ⟨d0, d1⟩ := diag_index cr.numB bx h1 h2
  have i0' : 0 ≤ bx - 1 := by omega
  have i1' : bx - 1 < cr.numB := by omega
  have dl := lt_length_of_size _ _ _ hpb d1
  have l1 := lt_length_of_size _ _ _ h1o i1'
  have l2 := lt_length_of_size _ _ _ h2o i1'
  subst ht
  constructor
  · intro hbtm
    have e1 : rd (OmAddL cr bx ind i0).matPb ((bx - 1) * cr.numB + (bx - 1))
        = 2 * ind / cr.timStp := by
      simp [OmAddL, hbtm, OMTYP_X2, OMTYP_X3, incr, rd_wr_same _ _ _ d0 dl, hPb]
    have e2 : rd (OmAddL cr bx ind i0).vecW1o (bx - 1) = -4 * ind / cr.timStp := by
      simp [OmAddL, hbtm, OMTYP_X2, OMTYP_X3, incr, rd_wr_same _ _ _ i0' l1, hW]
    have e3 : rd (OmAddL cr bx ind i0).vecW2o (bx - 1) = -1 := by
      simp [OmAddL, hbtm, OMTYP_X2, OMTYP_X3, rd_wr_same _ _ _ i0' l2]
    rw [e1, e2, e3]
    ring
  · intro hbtm
    have e1 : rd (OmAddL cr bx ind i0).matPb ((bx - 1) * cr.numB + (bx - 1))
        = ind / cr.timStp := by
      simp [OmAddL, hbtm, OMTYP_X2, OMTYP_X3, incr, rd_wr_same _ _ _ d0 dl, hPb]
    have e2 : rd (OmAddL cr bx ind i0).vecW1o (bx - 1) = -1 * ind / cr.timStp := by
      simp [OmAddL, hbtm, OMTYP_X2, OMTYP_X3, incr, rd_wr_same _ _ _ i0' l1, hW]
    have e3 : rd (OmAddL cr bx ind i0).vecW2o (bx - 1) = 0 := by
      simp [OmAddL, hbtm, OMTYP_X2, OMTYP_X3, rd_wr_same _ _ _ i0' l2]
    rw [e1, e2, e3]
    ring

theorem OmAddL_integration_witness :
    Setup (storagePre 3 [1]) ∧ rd (storagePre 3 [1]).vecBtm (1 - 1) = OMTYP_X2 ∧
    ((rd (OmAddL (storagePre 3 [1]) 1 2 0).matPb ((1 - 1) * (storagePre 3 [1]).numB + (1 - 1)) * 5
        + (rd (OmAddL (storagePre 3 [1]) 1 2 0).vecW1o (1 - 1) * 3
          + rd (OmAddL (storagePre 3 [1]) 1 2 0).vecW2o (1 - 1) * 7))
      + (rd (OmAddL (storagePre 3 [1]) 1 2 0).matPb ((1 - 1) * (storagePre 3 [1]).numB + (1 - 1))
          * 3 + 7)) / 2
      = 2 * (5 - 3) / (storagePre 3 [1]).timStp :=
  ⟨by decide!, by decide!,
    (OmAddL_integration (storagePre 3 [1]) (by decide!) 1 (by decide) (by decide!) 2 0
      (by decide!) (by decide!) _ rfl 3 5 7).1 (by decide!)⟩

/-! ## The matrix `Pa` after the setup calls -/

/-- C36 (code defect): two X1 branches, each configured once by `OmBran` and then given a
series resistor.  When the unassigned local `b` of `OmBran` holds 0, branch 2 (level X1)
has `Pa[1,1] = 0` and branch 1 has `Pa[0,1] = 1`, and row 1 of `Ctp` is not row 1 of `Ttp`
(`Ctp[1,0] = 0`, `Ttp[1,0] = 1/2`).  When the local holds `numB = 2`, `Pa` is the identity
and `Ctp = Ttp`. -/
theorem setup_Pa_unassigned_b :
    (twoLoopSetup 0 0).map (fun cr =>
        (OMABS (rd cr.vecBtm 1), rd cr.matPa (1 * 2 + 1), rd cr.matPa (0 * 2 + 1)))
      = some (OMTYP_X1, 0, 1) ∧
    (twoLoopSetup 0 0).map (fun cr =>
        (rd (stampCtp cr (stampedTtp cr)) (1 * 2 + 0), rd (stampedTtp cr) (1 * 2 + 0)))
      = some (0, 1 / 2) ∧
    (twoLoopSetup 2 2).map (fun cr =>
        (cr.matPa, decide (stampCtp cr (stampedTtp cr) = stampedTtp cr)))
      = some ([1, 0, 0, 1], true) := by
  refine ⟨by decide!, by decide!, by decide!⟩

/-! ## The weights of the switch slots -/

theorem isSw_not_isCut (vecBtm : List Int) (i : Int) (h : isSw vecBtm i) : ¬ isCut vecBtm i := by
  unfold isSw at h
  unfold isCut
  rw [h]
  decide

theorem SwEq_of_slots (cr t : OmCir) (hsh : SameShape cr t)
    (h : ∀ k : Int, 0 ≤ k → k < cr.numB → ¬ isCut cr.vecBtm k → ResetSlot cr t k) :
    SwEq t := by
  unfold SameShape at hsh
  obtain ⟨e1, _, _, e4, e5, _⟩ := hsh
  intro i h0 h1 hsw
  rw [e1] at h1
  rw [e4] at hsw
  obtain ⟨s1, s2, _, _, s5, s6⟩ := h i h0 h1 (isSw_not_isCut _ _ hsw)
  rw [if_pos hsw] at s5 s6
  rw [e5, s1, s2, s5, s6]
  exact ⟨rfl, rfl⟩

/-- In every reachable state the slot of an SW-type branch holds `W1m = W1s` and
`W2m = W2s`. -/
theorem reach_swEq (ok : OmCir → Int → Prop) (cr0 cr : OmCir) (hs : Setup cr0)
    (h : Reach ok cr0 cr) : SwEq cr := by
  induction h with
  | stamp =>
    obtain ⟨_, h2⟩ := RunInv_stampFinish cr0 hs (OmMatInv (cr0.numN + cr0.numX) (stampPn cr0))
    have hr := reach_runInv ok cr0 _ hs Reach.stamp
    refine SwEq_of_slots (OmStamp cr0) (OmStamp cr0) (SameShape_refl _) ?_
    intro k h0 h1 hk
    rw [hr.2.1] at h1
    rw [hr.2.2.1] at hk
    exact h2 k h0 h1 hk
  | @reset cr hre _ =>
    have hr := reach_runInv ok cr0 cr hs hre
    exact SwEq_of_slots cr (OmReset cr) (SameShape_OmReset cr) (OmReset_slots cr0 cr hs hr)
  | updSw _ ih => exact ih
  | updCr _ ih => exact ih
  | updMt _ ih => exact ih
  | @setQs cr br x _ ih =>
    by_cases hl : rd cr.vecLut (br - 1) < 0
    · simpa [OmSetQs, hl] using ih
    · intro i h0 h1 hsw
      have h1' : i < cr.numB := by simpa [OmSetQs, hl] using h1
      have hsw' : isSw cr.vecBtm i := by simpa [OmSetQs, hl] using hsw
      have h3 := ih i h0 h1' hsw'
      simpa [OmSetQs, hl] using h3
  | @setSw cr br s hre _ ih =>
    have hr := reach_runInv ok cr0 cr hs hre
    by_cases hl : rd cr.vecLut (br - 1) < 0
    · simpa [OmSetSw, hl] using ih
    · have hst : Stamped cr := hr.1
      unfold Stamped at hst
      obtain ⟨_, _, _, _, _, _, _, _, _, _, _, _, _, l14, l15, l16, l17, _⟩ := hst
      intro i h0 h1 hsw
      have h1' : i < cr.numB := by simpa [OmSetSw, hl] using h1
      have hsw' : isSw cr.vecBtm i := by simpa [OmSetSw, hl] using hsw
      obtain ⟨s1, s2⟩ := ih i h0 h1' hsw'
      simp only [OmSetSw, hl, if_false]
      simp only [rd_wr, l14, l15, l16, l17]
      constructor
      · split_ifs <;> first | rfl | exact s1 | tauto
      · split_ifs <;> first | rfl | exact s2 | tauto

/-- C37: in every stamped state reached from `OmStamp` by `OmReset`, `OmUpdCr`, `OmUpdSw`,
`OmUpdMt`, `OmSetQs` and `OmSetSw`, the slot of every SW-type branch has `W1m = W1s` and
`W2m = W2s`; `OmUpdSw` and `OmUpdCr` applied to such a state produce the same `Qtp`, the same
`Xc` and the same `Qa` at every switch slot, and the two results differ in the block `Qa`
only. -/
theorem switch_slots_agree (cr0 cr : OmCir) (hs : Setup cr0) (h : Reach anyBranch cr0 cr) :
    (∀ i : Int, 0 ≤ i → i < cr.numB → isSw cr.vecBtm i →
      rd cr.vecW1m (rd cr.vecLut i) = rd cr.vecW1s (rd cr.vecLut i) ∧
      rd cr.vecW2m (rd cr.vecLut i) = rd cr.vecW2s (rd cr.vecLut i)) ∧
    (OmUpdSw cr).vecQtp = (OmUpdCr cr).vecQtp ∧
    (OmUpdSw cr).vecXc = (OmUpdCr cr).vecXc ∧
    (∀ i : Int, 0 ≤ i → i < cr.numB → isSw cr.vecBtm i →
      rd (OmUpdSw cr).vecQa (rd cr.vecLut i) = rd (OmUpdCr cr).vecQa (rd cr.vecLut i)) ∧
    OmUpdSw cr = { OmUpdCr cr with vecQa := (OmUpdSw cr).vecQa } := by
  have hsw := reach_swEq anyBranch cr0 cr hs h
  have hr := reach_runInv anyBranch cr0 cr hs h
  refine ⟨hsw, rfl, rfl, ?_, rfl⟩
  intro i h0 h1 hi
  obtain ⟨l0, l1⟩ := runInv_lut_kept cr0 cr hs hr i h0 h1 (isSw_not_isCut _ _ hi)
  obtain ⟨s1, s2⟩ := hsw i h0 h1 hi
  have hst : Stamped cr := hr.1
  unfold Stamped at hst
  obtain ⟨_, _, _, _, _, _, _, _, _, _, _, _, _, _, _, _, _, l18, _⟩ := hst
  have hlen : rd cr.vecLut i < (cr.vecQa.length : Int) :=
    lt_length_of_size _ _ _ l18 l1
  unfold OmUpdSw OmUpdCr
  simp only []
  rw [OmVecFma_rd _ _ _ _ _ _ l0 l1 hlen, OmVecFma_rd _ _ _ _ _ _ l0 l1 hlen, s1, s2]

theorem switch_slots_agree_witness :
    Setup (switchPre [1, 0, 0, 1]) ∧
    Reach anyBranch (switchPre [1, 0, 0, 1]) (OmSetSw (OmStamp (switchPre [1, 0, 0, 1])) 2 1) ∧
    isSw (OmSetSw (OmStamp (switchPre [1, 0, 0, 1])) 2 1).vecBtm 1 ∧
    rd (OmUpdSw (OmSetSw (OmStamp (switchPre [1, 0, 0, 1])) 2 1)).vecQa
        (rd (OmSetSw (OmStamp (switchPre [1, 0, 0, 1])) 2 1).vecLut 1)
      = rd (OmUpdCr (OmSetSw (OmStamp (switchPre [1, 0, 0, 1])) 2 1)).vecQa
        (rd (OmSetSw (OmStamp (switchPre [1, 0, 0, 1])) 2 1).vecLut 1) :=
  have hr : Reach anyBranch (switchPre [1, 0, 0, 1])
      (OmSetSw (OmStamp (switchPre [1, 0, 0, 1])) 2 1) :=
    Reach.setSw 2 1 Reach.stamp trivial
  ⟨by decide!, hr, by decide!,
    (switch_slots_agree (switchPre [1, 0, 0, 1]) _ (by decide!) hr).2.2.2.1 1 (by decide)
      (by decide!) (by decide!)⟩

/-! ## The order of `OmAddL` and `OmAddQ` -/

/-- Two updates `a[d] += x` (or `-=`) of the same cell commute. -/
theorem wr_add_comm (a : List ℚ) (d : Int) (x y : ℚ) :
    wr (wr a d (rd a d + x)) d (rd (wr a d (rd a d + x)) d + y)
      = wr (wr a d (rd a d + y)) d (rd (wr a d (rd a d + y)) d + x) := by
  apply ext_rd
  · simp only [length_wr]
  · intro q q0 q1
    simp only [rd_wr, length_wr]
    split_ifs <;> first | rfl | tauto | ring1

/-- C39: order dependence of mixed reactive elements.  On a trapezoidal X2 branch, `lq`
(`OmAddL(L, i0)` then `OmAddQ(rpc, v0)`) and `ql` (the other order) hold the same `Pb`, `Qa0`
and `W1o`, the entries of the branch being the old value plus both contributions, but
`W2o` of the branch is the value of the last call: `1` in `lq` (`OmAddQ` last) and `-1` in
`ql` (`OmAddL` last), so that the two setup states differ. -/
theorem OmAddL_OmAddQ_order (cr : OmCir) (hs : Setup cr) (bx : Int) (h1 : 1 ≤ bx)
    (h2 : bx ≤ cr.numB) (hbtm : rd cr.vecBtm (bx - 1) = OMTYP_X2) (ind i0 rpc v0 : ℚ)
    (lq ql : OmCir) (hlq : lq = OmAddQ (OmAddL cr bx ind i0) bx rpc v0)
    (hql : ql = OmAddL (OmAddQ cr bx rpc v0) bx ind i0) :
    rd lq.matPb ((bx - 1) * cr.numB + (bx - 1))
      = rd cr.matPb ((bx - 1) * cr.numB + (bx - 1)) + 2 * ind / cr.timStp
          + rpc * cr.timStp / 2 ∧
    rd ql.matPb ((bx - 1) * cr.numB + (bx - 1)) = rd lq.matPb ((bx - 1) * cr.numB + (bx - 1)) ∧
    lq.matPb = ql.matPb ∧
    rd lq.vecQa0 (bx - 1) = rd cr.vecQa0 (bx - 1) - 2 * ind * i0 / cr.timStp + v0 ∧
    lq.vecQa0 = ql.vecQa0 ∧
    rd lq.vecW1o (bx - 1)
      = rd cr.vecW1o (bx - 1) + -4 * ind / cr.timStp + rpc * cr.timStp ∧
    lq.vecW1o = ql.vecW1o ∧
    rd lq.vecW2o (bx - 1) = 1 ∧ rd ql.vecW2o (bx - 1) = -1 ∧
    lq ≠ ql := by
  have hs2 := hs
  unfold Setup at hs2
  obtain ⟨hb, hm, _, _, _, _, _, hpb, _, _, h1c, h2c, h1o, h2o, hqa, _⟩ := hs2
  obtain ⟨d0, d1⟩ := diag_index cr.numB bx h1 h2
  have i0' : 0 ≤ bx - 1 := by omega
  have i1' : bx - 1 < cr.numB := by omega
  have dl := lt_length_of_size _ _ _ hpb d1
  have l1 := lt_length_of_size _ _ _ h1o i1'
  have l2 := lt_length_of_size _ _ _ h2o i1'
  have l3 := lt_length_of_size _ _ _ hqa i1'
  have eL : ∀ c : OmCir, rd c.vecBtm (bx - 1) = OMTYP_X2 → OmAddL c bx ind i0 =
      { c with
        matPb := incr c.matPb ((bx - 1) * c.numB + (bx - 1)) ((2 * ind) / c.timStp)
        vecQa0 := decr c.vecQa0 (bx - 1) ((2 * ind * i0) / c.timStp)
        vecW2o := wr c.vecW2o (bx - 1) (-1)
        vecW1o := incr c.vecW1o (bx - 1) ((-4 * ind) / c.timStp) } := by
    intro c hc
    simp [OmAddL, hc, OMTYP_X2, OMTYP_X3]
  have eQ : ∀ c : OmCir, rd c.vecBtm (bx - 1) = OMTYP_X2 → OmAddQ c bx rpc v0 =
      { c with
        matPb := incr c.matPb ((bx - 1) * c.numB + (bx - 1)) ((rpc * c.timStp) / 2)
        vecQa0 := incr c.vecQa0 (bx - 1) v0
        vecW2o := wr c.vecW2o (bx - 1) 1
        vecW1o := incr c.vecW1o (bx - 1) (rpc * c.timStp) } := by
    intro c hc
    simp [OmAddQ, hc, OMTYP_X2, OMTYP_X3]
  have e1 := eL cr hbtm
  have e2 := eQ cr hbtm
  have e3 : lq = _ := (hlq.trans (eQ (OmAddL cr bx ind i0) (by rw [e1]; exact hbtm))).trans
    (by rw [e1])
  have e4 : ql = _ := (hql.trans (eL (OmAddQ cr bx rpc v0) (by rw [e2]; exact hbtm))).trans
    (by rw [e2])
  have w1 : rd lq.vecW2o (bx - 1) = 1 := by
    rw [e3]
    exact rd_wr_same _ _ _ i0' (by rw [length_wr]; exact l2)
  have w2 : rd ql.vecW2o (bx - 1) = -1 := by
    rw [e4]
    exact rd_wr_same _ _ _ i0' (by rw [length_wr]; exact l2)
  have p1 : lq.matPb = ql.matPb := by
    rw [e3, e4]
    exact wr_add_comm _ _ _ _
  have p2 : lq.vecQa0 = ql.vecQa0 := by
    rw [e3, e4]
    have h := wr_add_comm cr.vecQa0 (bx - 1) (-((2 * ind * i0) / cr.timStp)) v0
    simp only [← sub_eq_add_neg] at h
    exact h
  have p3 : lq.vecW1o = ql.vecW1o := by
    rw [e3, e4]
    exact wr_add_comm _ _ _ _
  refine ⟨?_, by rw [p1], p1, ?_, p2, ?_, p3, w1, w2, ?_⟩
  · rw [e3]
    simp only [incr]
    rw [rd_wr_same _ _ _ d0 (by rw [length_wr]; exact dl), rd_wr_same _ _ _ d0 dl]
  · rw [e3]
    simp only [incr, decr]
    rw [rd_wr_same _ _ _ i0' (by rw [length_wr]; exact l3), rd_wr_same _ _ _ i0' l3]
  · rw [e3]
    simp only [incr]
    rw [rd_wr_same _ _ _ i0' (by rw [length_wr]; exact l1), rd_wr_same _ _ _ i0' l1]
  · intro h
    rw [h, w2] at w1
    norm_num at w1

theorem OmAddL_OmAddQ_order_witness :
    Setup (storagePre 3 [1]) ∧ rd (storagePre 3 [1]).vecBtm (1 - 1) = OMTYP_X2 ∧
    OmAddQ (OmAddL (storagePre 3 [1]) 1 2 0) 1 5 0
      ≠ OmAddL (OmAddQ (storagePre 3 [1]) 1 5 0) 1 2 0 :=
  ⟨by decide!, by decide!,
    (OmAddL_OmAddQ_order (storagePre 3 [1]) (by decide!) 1 (by decide) (by decide!)
      (by decide!) 2 0 5 0 _ _ rfl rfl).2.2.2.2.2.2.2.2.2⟩

/-! ## Ohm's law on a closed loop -/

theorem loopSetup_eq (b0 : Int) (dt V R : ℚ) (hdt : 0 < dt) :
    loopSetup b0 dt V R = some (loopPre dt V R) := by
  have h : ¬ dt ≤ 0 := not_le.mpr hdt
  norm_num [loopSetup, loopPre, OmCreate, createInit, OmBran, OmAddV, OmAddX, OmMetA, h,
    incr, decr, OMTYP_X0, OMTYP_X1, OMTYP_X3, OMTYP_Y3, OMTYP_Y0, OMTYP_UN, OMTYP_SW,
    forLoop_done, forLoop_step, rd_cons_zero, rd_cons_pos,
    wr_cons_zero, wr_cons_pos, wr_nil, rd_nil, OMMALLOC_pos, OMMALLOC_nonpos, OMABS]

theorem loop_stamp (dt V R : ℚ) :
    OmStamp (loopPre dt V R) = stampFinish (loopPre dt V R) [1 / -R] := by
  have h2 : (loopPre dt V R).numN + (loopPre dt V R).numX = 1 := by
    norm_num [loopPre]
  have h3 : stampPn (loopPre dt V R) = [-R] := by
    norm_num [loopPre, stampPn, incr, decr,
      forLoop_done, forLoop_step, rd_cons_zero, rd_cons_pos,
      wr_cons_zero, wr_cons_pos, wr_nil, rd_nil, OMMALLOC_pos, OMMALLOC_nonpos]
  rw [OmStamp, h3, h2, OmMatInv_one]

/-- C40: closed-loop Ohm's law.  For every `V` and every `R ≠ 0`, the circuit with no node and
a single X1 branch from ground to ground (`OmCreate(0,1,1,dt)`, `OmBran(1, 0, 0, X1)`,
`OmAddV(1, V)`, `OmAddX(1, R)`, `OmMetA(1, 1)`, `OmStamp`) gives `OmGetXc(1) = -V/R` after
one `OmUpdCr`, and the ammeter on the branch reads the same value after `OmUpdMt`,
whatever the unassigned local of `OmBran` holds. -/
theorem loop_ohm (b0 : Int) (dt V R : ℚ) (hdt : 0 < dt) (hR : R ≠ 0) :
    (loopCircuit b0 dt V R).map (fun cr => OmGetXc (OmUpdCr cr) 1) = some (-V / R) ∧
    (loopCircuit b0 dt V R).map (fun cr => OmGetMt (OmUpdMt (OmUpdCr cr)) 1)
      = some (-V / R) := by
  rw [loopCircuit, loopSetup_eq b0 dt V R hdt]
  simp only [Option.map_some', loop_stamp]
  constructor
  · norm_num [loopPre, stampFinish, OmGetXc, OmUpdCr, OmVecMul, OmVecFma,
      stampPtp, stampTtp, stampCtp, stampRtp, stampDtp, stampCut, stampC, stampD,
      OmReset, resetLoop, OmVecAdd, OmMatMul,
      incr, decr, OMTYP_X0, OMTYP_X1, OMTYP_X3, OMTYP_Y3, OMTYP_Y0, OMTYP_UN, OMTYP_SW,
      forLoop_done, forLoop_step, rd_cons_zero, rd_cons_pos,
      wr_cons_zero, wr_cons_pos, wr_nil, rd_nil, OMMALLOC_pos, OMMALLOC_nonpos, OMABS]
    have hR2 : -R ≠ 0 := neg_ne_zero.mpr hR
    field_simp
  · norm_num [loopPre, stampFinish, OmGetMt, OmUpdMt, OmUpdCr, OmVecMul, OmVecFma,
      stampPtp, stampTtp, stampCtp, stampRtp, stampDtp, stampCut, stampC, stampD,
      OmReset, resetLoop, OmVecAdd, OmMatMul,
      incr, decr, OMTYP_X0, OMTYP_X1, OMTYP_X3, OMTYP_Y3, OMTYP_Y0, OMTYP_UN, OMTYP_SW,
      forLoop_done, forLoop_step, rd_cons_zero, rd_cons_pos,
      wr_cons_zero, wr_cons_pos, wr_nil, rd_nil, OMMALLOC_pos, OMMALLOC_nonpos, OMABS]
    have hR2 : -R ≠ 0 := neg_ne_zero.mpr hR
    field_simp

theorem loop_ohm_witness :
    (0 : ℚ) < 1 ∧ (5 : ℚ) ≠ 0 ∧
    (loopCircuit 1 1 10 5).map (fun cr => OmGetXc (OmUpdCr cr) 1) = some (-10 / 5) :=
  ⟨by norm_num, by norm_num, (loop_ohm 1 1 10 5 (by norm_num) (by norm_num)).1⟩

/-! ## Conditional correctness of `OmMatInv` -/

/-- The store `t[r*m+c] = v` of an `m`×`m` block, read at the entry `[r', c']`. -/
theorem rd_wr_cell (m : Int) (t : List ℚ) (hl : t.length = (m * m).toNat) (r c r' c' : Int)
    (r0 : 0 ≤ r) (r1 : r < m) (c0 : 0 ≤ c) (c1 : c < m) (c0' : 0 ≤ c') (c1' : c' < m)
    (v : ℚ) :
    rd (wr t (r * m + c) v) (r' * m + c') = if r' = r ∧ c' = c then v else rd t (r' * m + c') := by
  obtain ⟨f0, f1⟩ := flat_index m r c r0 r1 c0 c1
  rw [rd_wr]
  by_cases h : r' = r ∧ c' = c
  · rw [if_pos h, if_pos ⟨by rw [h.1, h.2], f0, lt_length_of_size _ _ _ hl f1⟩]
  · rw [if_neg h, if_neg]
    intro h2
    exact h (flat_index_inj m r' c' r c c0' c1' c0 c1 h2.1)

/-- Adding the term of index `i` to a sum over the indices `lo ≤ k < i`. -/
theorem sum_ind_succ (n : Nat) (lo i : Int) (hlo : 0 ≤ lo) (h : lo ≤ i) (hi : i < n)
    (g : Int → ℚ) :
    (∑ k in Finset.range n, if lo ≤ (k : Int) ∧ (k : Int) < i + 1 then g k else 0)
      = (∑ k in Finset.range n, if lo ≤ (k : Int) ∧ (k : Int) < i then g k else 0) + g i := by
  have e : ∀ k ∈ Finset.range n,
      (if lo ≤ (k : Int) ∧ (k : Int) < i + 1 then g k else 0)
        = (if lo ≤ (k : Int) ∧ (k : Int) < i then g k else 0)
          + (if k = i.toNat then g i else 0) := by
    intro k _
    by_cases h1 : lo ≤ (k : Int) ∧ (k : Int) < i
    · have h2 : lo ≤ (k : Int) ∧ (k : Int) < i + 1 := ⟨h1.1, by omega⟩
      have h3 : ¬ k = i.toNat := by omega
      rw [if_pos h1, if_pos h2, if_neg h3, add_zero]
    · by_cases h3 : k = i.toNat
      · have h4 : (k : Int) = i := by omega
        have h2 : lo ≤ (k : Int) ∧ (k : Int) < i + 1 := ⟨by omega, by omega⟩
        rw [if_neg h1, if_pos h2, if_pos h3, h4, zero_add]
      · have h2 : ¬ (lo ≤ (k : Int) ∧ (k : Int) < i + 1) := by omega
        rw [if_neg h1, if_neg h2, if_neg h3, add_zero]
  rw [Finset.sum_congr rfl e, Finset.sum_add_distrib, Finset.sum_ite_eq']
  rw [if_pos (Finset.mem_range.mpr (by omega))]

/-- A loop that accumulates into the entry `[r, c]` of an `m`×`m` block and touches no other
entry adds the sum of its terms to that entry. -/
theorem forLoop_cell (m : Int) (lo hi : Int) (hlo : 0 ≤ lo) (hhi : hi ≤ m)
    (r c : Int) (g : Int → ℚ) (f : Int → List ℚ → List ℚ) (t0 : List ℚ)
    (hl : t0.length = (m * m).toNat)
    (hf : ∀ (k : Int) (t : List ℚ), lo ≤ k → k < hi → t.length = (m * m).toNat →
      (∀ r' c' : Int, 0 ≤ r' → r' < m → 0 ≤ c' → c' < m → ¬ (r' = r ∧ c' = c) →
        rd t (r' * m + c') = rd t0 (r' * m + c')) →
      (f k t).length = (m * m).toNat ∧
      (∀ r' c' : Int, 0 ≤ r' → r' < m → 0 ≤ c' → c' < m → ¬ (r' = r ∧ c' = c) →
        rd (f k t) (r' * m + c') = rd t (r' * m + c')) ∧
      rd (f k t) (r * m + c) = rd t (r * m + c) + g k) :
    (forLoop lo hi f t0).length = (m * m).toNat ∧
    (∀ r' c' : Int, 0 ≤ r' → r' < m → 0 ≤ c' → c' < m → ¬ (r' = r ∧ c' = c) →
      rd (forLoop lo hi f t0) (r' * m + c') = rd t0 (r' * m + c')) ∧
    rd (forLoop lo hi f t0) (r * m + c)
      = rd t0 (r * m + c)
        + ∑ k in Finset.range m.toNat, if lo ≤ (k : Int) ∧ (k : Int) < hi then g k else 0 := by
  by_cases hle : lo ≤ hi
  · refine forLoop_induct
      (fun (i : Int) (t : List ℚ) => t.length = (m * m).toNat ∧
        (∀ r' c' : Int, 0 ≤ r' → r' < m → 0 ≤ c' → c' < m → ¬ (r' = r ∧ c' = c) →
          rd t (r' * m + c') = rd t0 (r' * m + c')) ∧
        rd t (r * m + c) = rd t0 (r * m + c)
          + ∑ k in Finset.range m.toNat, if lo ≤ (k : Int) ∧ (k : Int) < i then g k else 0)
      lo hi hle f t0 ⟨hl, fun _ _ _ _ _ _ _ => rfl, ?_⟩ ?_
    · rw [Finset.sum_eq_zero, add_zero]
      intro k _
      rw [if_neg (by omega)]
    · intro i t i0 i1 hP
      obtain ⟨p1, p2, p3⟩ := hP
      obtain ⟨q1, q2, q3⟩ := hf i t i0 i1 p1 p2
      refine ⟨q1, fun r' c' a1 a2 a3 a4 a5 => (q2 r' c' a1 a2 a3 a4 a5).trans
        (p2 r' c' a1 a2 a3 a4 a5), ?_⟩
      rw [q3, p3, sum_ind_succ m.toNat lo i hlo i0 (by omega) g, add_assoc]
  · rw [forLoop_done lo hi f t0 (by omega)]
    refine ⟨hl, fun _ _ _ _ _ _ _ => rfl, ?_⟩
    rw [Finset.sum_eq_zero, add_zero]
    intro k _
    rw [if_neg (by omega)]

/-- The loop of `OmMatInv` that computes row `i` of `U`:
`for (j = i; j < m; ++j) for (k = 0; k < i; ++k) lu[i,j] -= lu[i,k] * lu[k,j]`. -/
theorem luRow_spec (m : Int) (i : Int) (i0 : 0 ≤ i) (i1 : i < m) (t : List ℚ)
    (hl : t.length = (m * m).toNat) :
    (forLoop i m (fun j lu =>
      forLoop 0 i (fun k lu =>
        wr lu (i * m + j) (rd lu (i * m + j) - rd lu (i * m + k) * rd lu (k * m + j))) lu)
      t).length = (m * m).toNat ∧
    (∀ j : Int, i ≤ j → j < m →
      rd (forLoop i m (fun j lu =>
        forLoop 0 i (fun k lu =>
          wr lu (i * m + j) (rd lu (i * m + j) - rd lu (i * m + k) * rd lu (k * m + j))) lu)
        t) (i * m + j)
        = rd t (i * m + j) + ∑ k in Finset.range m.toNat,
            if 0 ≤ (k : Int) ∧ (k : Int) < i then -(rd t (i * m + k) * rd t (k * m + j))
            else 0) ∧
    (∀ r c : Int, 0 ≤ r → r < m → 0 ≤ c → c < m → ¬ (r = i ∧ i ≤ c) →
      rd (forLoop i m (fun j lu =>
        forLoop 0 i (fun k lu =>
          wr lu (i * m + j) (rd lu (i * m + j) - rd lu (i * m + k) * rd lu (k * m + j))) lu)
        t) (r * m + c) = rd t (r * m + c)) := by
  have key := forLoop_induct
    (fun (j : Int) (u : List ℚ) => u.length = (m * m).toNat ∧
      (∀ j' : Int, i ≤ j' → j' < j →
        rd u (i * m + j')
          = rd t (i * m + j') + ∑ k in Finset.range m.toNat,
              if 0 ≤ (k : Int) ∧ (k : Int) < i then -(rd t (i * m + k) * rd t (k * m + j'))
              else 0) ∧
      (∀ r c : Int, 0 ≤ r → r < m → 0 ≤ c → c < m → ¬ (r = i ∧ i ≤ c ∧ c < j) →
        rd u (r * m + c) = rd t (r * m + c)))
    i m (le_of_lt i1)
    (fun j lu =>
      forLoop 0 i (fun k lu =>
        wr lu (i * m + j) (rd lu (i * m + j) - rd lu (i * m + k) * rd lu (k * m + j))) lu)
    t ⟨hl, fun j' h0 h1 => by omega, fun _ _ _ _ _ _ _ => rfl⟩
    (fun j u j0 j1 hP => by
      obtain ⟨p1, p2, p3⟩ := hP
      have jn : 0 ≤ j := by omega
      obtain ⟨q1, q2, q3⟩ := forLoop_cell m 0 i (le_refl 0) (le_of_lt i1) i j
        (fun k => -(rd t (i * m + k) * rd t (k * m + j)))
        (fun k lu =>
          wr lu (i * m + j) (rd lu (i * m + j) - rd lu (i * m + k) * rd lu (k * m + j)))
        u p1
        (fun k v k0 k1 hv hfr => by
          refine ⟨by rw [length_wr, hv], fun r' c' a1 a2 a3 a4 a5 => ?_, ?_⟩
          · rw [rd_wr_cell m v hv i j r' c' i0 i1 jn j1 a3 a4, if_neg a5]
          · rw [rd_wr_cell m v hv i j i j i0 i1 jn j1 jn j1, if_pos ⟨rfl, rfl⟩,
              hfr i k i0 i1 k0 (by omega) (by omega),
              hfr k j k0 (by omega) jn j1 (by omega),
              p3 i k i0 i1 k0 (by omega) (by omega),
              p3 k j k0 (by omega) jn j1 (by omega)]
            ring)
      refine ⟨q1, fun j' h0 h1 => ?_, fun r c a1 a2 a3 a4 a5 => ?_⟩
      · by_cases hj : j' = j
        · subst hj
          rw [q3, p3 i j' i0 i1 jn j1 (by omega)]
        · rw [q2 i j' i0 i1 (by omega) (by omega) (by omega)]
          exact p2 j' h0 (by omega)
      · rw [q2 r c a1 a2 a3 a4 (by omega)]
        exact p3 r c a1 a2 a3 a4 (by omega))
  obtain ⟨k1, k2, k3⟩ := key
  exact ⟨k1, k2, fun r c a1 a2 a3 a4 a5 => k3 r c a1 a2 a3 a4 (by omega)⟩

/-- The loop of `OmMatInv` that computes column `i` of `L`:
`for (k = i+1; k < m; ++k) { for (j = 0; j < i; ++j) lu[k,i] -= lu[k,j] * lu[j,i];
lu[k,i] /= lu[i,i]; }`. -/
theorem luCol_spec (m : Int) (i : Int) (i0 : 0 ≤ i) (i1 : i < m) (t : List ℚ)
    (hl : t.length = (m * m).toNat) :
    (forLoop (i + 1) m (fun k lu =>
      wr (forLoop 0 i (fun j lu =>
          wr lu (k * m + i) (rd lu (k * m + i) - rd lu (k * m + j) * rd lu (j * m + i))) lu)
        (k * m + i)
        (rd (forLoop 0 i (fun j lu =>
          wr lu (k * m + i) (rd lu (k * m + i) - rd lu (k * m + j) * rd lu (j * m + i))) lu)
          (k * m + i)
          / rd (forLoop 0 i (fun j lu =>
            wr lu (k * m + i) (rd lu (k * m + i) - rd lu (k * m + j) * rd lu (j * m + i))) lu)
            (i * m + i))) t).length = (m * m).toNat ∧
    (∀ k : Int, i < k → k < m →
      rd (forLoop (i + 1) m (fun k lu =>
        wr (forLoop 0 i (fun j lu =>
            wr lu (k * m + i) (rd lu (k * m + i) - rd lu (k * m + j) * rd lu (j * m + i))) lu)
          (k * m + i)
          (rd (forLoop 0 i (fun j lu =>
            wr lu (k * m + i) (rd lu (k * m + i) - rd lu (k * m + j) * rd lu (j * m + i))) lu)
            (k * m + i)
            / rd (forLoop 0 i (fun j lu =>
              wr lu (k * m + i) (rd lu (k * m + i) - rd lu (k * m + j) * rd lu (j * m + i))) lu)
              (i * m + i))) t) (k * m + i)
        = (rd t (k * m + i) + ∑ j in Finset.range m.toNat,
            if 0 ≤ (j : Int) ∧ (j : Int) < i then -(rd t (k * m + j) * rd t (j * m + i))
            else 0) / rd t (i * m + i)) ∧
    (∀ r c : Int, 0 ≤ r → r < m → 0 ≤ c → c < m → ¬ (c = i ∧ i < r) →
      rd (forLoop (i + 1) m (fun k lu =>
        wr (forLoop 0 i (fun j lu =>
            wr lu (k * m + i) (rd lu (k * m + i) - rd lu (k * m + j) * rd lu (j * m + i))) lu)
          (k * m + i)
          (rd (forLoop 0 i (fun j lu =>
            wr lu (k * m + i) (rd lu (k * m + i) - rd lu (k * m + j) * rd lu (j * m + i))) lu)
            (k * m + i)
            / rd (forLoop 0 i (fun j lu =>
              wr lu (k * m + i) (rd lu (k * m + i) - rd lu (k * m + j) * rd lu (j * m + i))) lu)
              (i * m + i))) t) (r * m + c) = rd t (r * m + c)) := by
  have key := forLoop_induct
    (fun (k : Int) (u : List ℚ) => u.length = (m * m).toNat ∧
      (∀ k' : Int, i < k' → k' < k →
        rd u (k' * m + i)
          = (rd t (k' * m + i) + ∑ j in Finset.range m.toNat,
              if 0 ≤ (j : Int) ∧ (j : Int) < i then -(rd t (k' * m + j) * rd t (j * m + i))
              else 0) / rd t (i * m + i)) ∧
      (∀ r c : Int, 0 ≤ r → r < m → 0 ≤ c → c < m → ¬ (c = i ∧ i < r ∧ r < k) →
        rd u (r * m + c) = rd t (r * m + c)))
    (i + 1) m (by omega)
    (fun k lu =>
      wr (forLoop 0 i (fun j lu =>
          wr lu (k * m + i) (rd lu (k * m + i) - rd lu (k * m + j) * rd lu (j * m + i))) lu)
        (k * m + i)
        (rd (forLoop 0 i (fun j lu =>
          wr lu (k * m + i) (rd lu (k * m + i) - rd lu (k * m + j) * rd lu (j * m + i))) lu)
          (k * m + i)
          / rd (forLoop 0 i (fun j lu =>
            wr lu (k * m + i) (rd lu (k * m + i) - rd lu (k * m + j) * rd lu (j * m + i))) lu)
            (i * m + i)))
    t ⟨hl, fun k' h0 h1 => by omega, fun _ _ _ _ _ _ _ => rfl⟩
    (fun k u k0 k1 hP => by
      obtain ⟨p1, p2, p3⟩ := hP
      have kn : 0 ≤ k := by omega
      obtain ⟨q1, q2, q3⟩ := forLoop_cell m 0 i (le_refl 0) (le_of_lt i1) k i
        (fun j => -(rd t (k * m + j) * rd t (j * m + i)))
        (fun j lu =>
          wr lu (k * m + i) (rd lu (k * m + i) - rd lu (k * m + j) * rd lu (j * m + i)))
        u p1
        (fun j v j0 j1 hv hfr => by
          refine ⟨by rw [length_wr, hv], fun r' c' a1 a2 a3 a4 a5 => ?_, ?_⟩
          · rw [rd_wr_cell m v hv k i r' c' kn k1 i0 i1 a3 a4, if_neg a5]
          · rw [rd_wr_cell m v hv k i k i kn k1 i0 i1 i0 i1, if_pos ⟨rfl, rfl⟩,
              hfr k j kn k1 j0 (by omega) (by omega),
              hfr j i j0 (by omega) i0 i1 (by omega),
              p3 k j kn k1 j0 (by omega) (by omega),
              p3 j i j0 (by omega) i0 i1 (by omega)]
            ring)
      dsimp only
      generalize forLoop 0 i (fun j lu =>
          wr lu (k * m + i) (rd lu (k * m + i) - rd lu (k * m + j) * rd lu (j * m + i))) u = w
        at q1 q2 q3 ⊢
      refine ⟨by rw [length_wr, q1], fun k' h0 h1 => ?_, fun r c a1 a2 a3 a4 a5 => ?_⟩
      · rw [rd_wr_cell m w q1 k i k' i kn k1 i0 i1 i0 i1]
        by_cases hk : k' = k
        · subst hk
          rw [if_pos ⟨rfl, rfl⟩, q3, q2 i i i0 i1 i0 i1 (by omega),
            p3 k' i kn k1 i0 i1 (by omega), p3 i i i0 i1 i0 i1 (by omega)]
        · rw [if_neg (fun h => hk h.1), q2 k' i (by omega) (by omega) i0 i1 (by omega)]
          exact p2 k' h0 (by omega)
      · rw [rd_wr_cell m w q1 k i r c kn k1 i0 i1 a3 a4, if_neg (by omega),
          q2 r c a1 a2 a3 a4 (by omega)]
        exact p3 r c a1 a2 a3 a4 (by omega))
  obtain ⟨k1, k2, k3⟩ := key
  exact ⟨k1, k2, fun r c a1 a2 a3 a4 a5 => k3 r c a1 a2 a3 a4 (by omega)⟩

/-- The relations of `LURel` before `i` read only entries in a row or a column before `i`. -/
theorem LURel_frame (m : Int) (G t w : List ℚ) (i : Int) (h : LURel m G t i)
    (hfr : ∀ r c : Int, 0 ≤ r → r < m → 0 ≤ c → c < m → r < i ∨ c < i →
      rd w (r * m + c) = rd t (r * m + c)) :
    (∀ r c : Int, 0 ≤ r → r < i → r ≤ c → c < m →
      rd w (r * m + c) = rd G (r * m + c) + ∑ k in Finset.range m.toNat,
        if 0 ≤ (k : Int) ∧ (k : Int) < r then -(rd w (r * m + k) * rd w (k * m + c)) else 0) ∧
    (∀ r c : Int, 0 ≤ c → c < i → c < r → r < m →
      rd w (r * m + c) = (rd G (r * m + c) + ∑ k in Finset.range m.toNat,
        if 0 ≤ (k : Int) ∧ (k : Int) < c then -(rd w (r * m + k) * rd w (k * m + c)) else 0)
          / rd w (c * m + c)) := by
  obtain ⟨hU, hL, _⟩ := h
  constructor
  · intro r c r0 r1 rc c1
    rw [hfr r c r0 (by omega) (by omega) c1 (Or.inl r1), hU r c r0 r1 rc c1]
    congr 1
    apply Finset.sum_congr rfl
    intro k _
    by_cases hk : 0 ≤ (k : Int) ∧ (k : Int) < r
    · rw [if_pos hk, if_pos hk, hfr r k r0 (by omega) hk.1 (by omega) (Or.inl r1),
        hfr k c hk.1 (by omega) (by omega) c1 (Or.inl (by omega))]
    · rw [if_neg hk, if_neg hk]
  · intro r c c0 c1 cr r1
    rw [hfr r c (by omega) r1 c0 (by omega) (Or.inr c1), hL r c c0 c1 cr r1,
      hfr c c c0 (by omega) c0 (by omega) (Or.inl c1)]
    congr 2
    apply Finset.sum_congr rfl
    intro k _
    by_cases hk : 0 ≤ (k : Int) ∧ (k : Int) < c
    · rw [if_pos hk, if_pos hk, hfr r k (by omega) r1 hk.1 (by omega) (Or.inr (by omega)),
        hfr k c hk.1 (by omega) c0 (by omega) (Or.inr c1)]
    · rw [if_neg hk, if_neg hk]

/-- The LU stage of `OmMatInv`: the block it leaves satisfies the relations of the Doolittle
decomposition of the block `G` it started from. -/
theorem matInvLU_spec (m : Int) (hm : 0 ≤ m) (G : List ℚ) (hl : G.length = (m * m).toNat) :
    (matInvLU m G).length = (m * m).toNat ∧ LURel m G (matInvLU m G) m := by
  unfold matInvLU
  refine forLoop_induct
    (fun (i : Int) (t : List ℚ) => t.length = (m * m).toNat ∧ LURel m G t i)
    0 m hm _ G ⟨hl, fun r c r0 r1 => by omega, fun r c c0 c1 => by omega,
      fun _ _ _ _ _ _ => rfl⟩ ?_
  intro i t i0 i1 hP
  obtain ⟨p1, p2⟩ := hP
  dsimp only
  obtain ⟨a1, a2, a3⟩ := luRow_spec m i i0 i1 t p1
  generalize forLoop i m (fun j lu =>
      forLoop 0 i (fun k lu =>
        wr lu (i * m + j) (rd lu (i * m + j) - rd lu (i * m + k) * rd lu (k * m + j))) lu)
      t = u at a1 a2 a3 ⊢
  obtain ⟨b1, b2, b3⟩ := luCol_spec m i i0 i1 u a1
  generalize forLoop (i + 1) m (fun k lu =>
      wr (forLoop 0 i (fun j lu =>
          wr lu (k * m + i) (rd lu (k * m + i) - rd lu (k * m + j) * rd lu (j * m + i))) lu)
        (k * m + i)
        (rd (forLoop 0 i (fun j lu =>
          wr lu (k * m + i) (rd lu (k * m + i) - rd lu (k * m + j) * rd lu (j * m + i))) lu)
          (k * m + i)
          / rd (forLoop 0 i (fun j lu =>
            wr lu (k * m + i) (rd lu (k * m + i) - rd lu (k * m + j) * rd lu (j * m + i))) lu)
            (i * m + i))) u = w at b1 b2 b3 ⊢
  have fr : ∀ r c : Int, 0 ≤ r → r < m → 0 ≤ c → c < m → ¬ (r = i ∧ i ≤ c) →
      ¬ (c = i ∧ i < r) → rd w (r * m + c) = rd t (r * m + c) := by
    intro r c r0 r1 c0 c1 h1 h2
    rw [b3 r c r0 r1 c0 c1 h2, a3 r c r0 r1 c0 c1 h1]
  obtain ⟨f1, f2⟩ := LURel_frame m G t w i p2
    (fun r c r0 r1 c0 c1 h => fr r c r0 r1 c0 c1 (by omega) (by omega))
  obtain ⟨hU, hL, hR⟩ := p2
  refine ⟨b1, fun r c r0 r1 rc c1 => ?_, fun r c c0 c1 cr r1 => ?_, fun r c r0 r1 c0 c1 => ?_⟩
  · by_cases hr : r = i
    · subst hr
      rw [b3 r c r0 i1 (by omega) c1 (by omega), a2 c rc c1, hR r c (le_refl r) i1 rc c1]
      congr 1
      apply Finset.sum_congr rfl
      intro k _
      by_cases hk : 0 ≤ (k : Int) ∧ (k : Int) < r
      · rw [if_pos hk, if_pos hk, fr r k r0 i1 hk.1 (by omega) (by omega) (by omega),
          fr k c hk.1 (by omega) (by omega) c1 (by omega) (by omega)]
      · rw [if_neg hk, if_neg hk]
    · exact f1 r c r0 (by omega) rc c1
  · by_cases hc : c = i
    · subst hc
      rw [b2 r cr r1, a3 r c (by omega) r1 c0 (by omega) (by omega),
        hR r c (by omega) r1 (le_refl c) (by omega),
        b3 c c c0 (by omega) c0 (by omega) (by omega)]
      congr 2
      apply Finset.sum_congr rfl
      intro k _
      by_cases hk : 0 ≤ (k : Int) ∧ (k : Int) < c
      · rw [if_pos hk, if_pos hk, a3 r k (by omega) r1 hk.1 (by omega) (by omega),
          a3 k c hk.1 (by omega) c0 (by omega) (by omega),
          fr r k (by omega) r1 hk.1 (by omega) (by omega) (by omega),
          fr k c hk.1 (by omega) c0 (by omega) (by omega) (by omega)]
      · rw [if_neg hk, if_neg hk]
    · exact f2 r c c0 (by omega) cr r1
  · rw [fr r c (by omega) r1 (by omega) c1 (by omega) (by omega)]
    exact hR r c (by omega) r1 (by omega) c1

/-- A loop whose iteration `x` stores the value `val x` in the entry `[pr x, pc x]` of an
`m`×`m` block and touches no other entry, the entries of different iterations being
different. -/
theorem forLoop_cells (m lo hi : Int) (pr pc : Int → Int) (val : Int → ℚ)
    (hin : ∀ x : Int, lo ≤ x → x < hi → 0 ≤ pr x ∧ pr x < m ∧ 0 ≤ pc x ∧ pc x < m)
    (hinj : ∀ x y : Int, lo ≤ x → x < hi → lo ≤ y → y < hi → pr x = pr y → pc x = pc y →
      x = y)
    (F : Int → List ℚ → List ℚ) (t0 : List ℚ) (hl : t0.length = (m * m).toNat)
    (hF : ∀ (x : Int) (t : List ℚ), lo ≤ x → x < hi → t.length = (m * m).toNat →
      (∀ r c : Int, 0 ≤ r → r < m → 0 ≤ c → c < m →
        (∀ y : Int, lo ≤ y → y < x → ¬ (r = pr y ∧ c = pc y)) →
        rd t (r * m + c) = rd t0 (r * m + c)) →
      (F x t).length = (m * m).toNat ∧
      (∀ r c : Int, 0 ≤ r → r < m → 0 ≤ c → c < m → ¬ (r = pr x ∧ c = pc x) →
        rd (F x t) (r * m + c) = rd t (r * m + c)) ∧
      rd (F x t) (pr x * m + pc x) = val x) :
    (forLoop lo hi F t0).length = (m * m).toNat ∧
    (∀ x : Int, lo ≤ x → x < hi → rd (forLoop lo hi F t0) (pr x * m + pc x) = val x) ∧
    (∀ r c : Int, 0 ≤ r → r < m → 0 ≤ c → c < m →
      (∀ y : Int, lo ≤ y → y < hi → ¬ (r = pr y ∧ c = pc y)) →
      rd (forLoop lo hi F t0) (r * m + c) = rd t0 (r * m + c)) := by
  by_cases hle : lo ≤ hi
  · have key := forLoop_induct
      (fun (i : Int) (t : List ℚ) => i ≤ hi → (t.length = (m * m).toNat ∧
        (∀ x : Int, lo ≤ x → x < i → rd t (pr x * m + pc x) = val x) ∧
        (∀ r c : Int, 0 ≤ r → r < m → 0 ≤ c → c < m →
          (∀ y : Int, lo ≤ y → y < i → ¬ (r = pr y ∧ c = pc y)) →
          rd t (r * m + c) = rd t0 (r * m + c))))
      lo hi hle F t0
      (fun _ => ⟨hl, fun x h0 h1 => by omega, fun _ _ _ _ _ _ _ => rfl⟩)
      (fun i t i0 i1 hP _ => by
        obtain ⟨p1, p2, p3⟩ := hP (by omega)
        obtain ⟨q1, q2, q3⟩ := hF i t i0 i1 p1 p3
        refine ⟨q1, fun x x0 x1 => ?_, fun r c r0 r1 c0 c1 hn => ?_⟩
        · by_cases hx : x = i
          · subst hx
            exact q3
          · obtain ⟨a1, a2, a3, a4⟩ := hin x x0 (by omega)
            rw [q2 _ _ a1 a2 a3 a4 (fun h => hx (hinj x i x0 (by omega) i0 i1 h.1 h.2))]
            exact p2 x x0 (by omega)
        · rw [q2 r c r0 r1 c0 c1 (hn i i0 (by omega))]
          exact p3 r c r0 r1 c0 c1 (fun y y0 y1 => hn y y0 (by omega)))
    exact key (le_refl hi)
  · rw [forLoop_done lo hi F t0 (by omega)]
    exact ⟨hl, fun x h0 h1 => by omega, fun _ _ _ _ _ _ _ => rfl⟩

/-- A loop whose iteration `r` works on row `r` of an `m`×`m` block only and establishes the
property `S r`, which depends on row `r` only. -/
theorem forLoop_rows (m lo hi : Int) (hlo : 0 ≤ lo) (hhi : hi ≤ m)
    (S : Int → List ℚ → Prop)
    (hS : ∀ (r : Int) (t w : List ℚ), lo ≤ r → r < hi →
      (∀ c : Int, 0 ≤ c → c < m → rd w (r * m + c) = rd t (r * m + c)) → S r t → S r w)
    (F : Int → List ℚ → List ℚ) (t0 : List ℚ) (hl : t0.length = (m * m).toNat)
    (hF : ∀ (r : Int) (t : List ℚ), lo ≤ r → r < hi → t.length = (m * m).toNat →
      (∀ c : Int, 0 ≤ c → c < m → rd t (r * m + c) = rd t0 (r * m + c)) →
      (F r t).length = (m * m).toNat ∧ S r (F r t) ∧
      (∀ r' c : Int, 0 ≤ r' → r' < m → 0 ≤ c → c < m → r' ≠ r →
        rd (F r t) (r' * m + c) = rd t (r' * m + c))) :
    (forLoop lo hi F t0).length = (m * m).toNat ∧
    (∀ r : Int, lo ≤ r → r < hi → S r (forLoop lo hi F t0)) ∧
    (∀ r c : Int, 0 ≤ r → r < m → 0 ≤ c → c < m → r < lo ∨ hi ≤ r →
      rd (forLoop lo hi F t0) (r * m + c) = rd t0 (r * m + c)) := by
  by_cases hle : lo ≤ hi
  · have key := forLoop_induct
      (fun (i : Int) (t : List ℚ) => t.length = (m * m).toNat ∧
        (∀ r : Int, lo ≤ r → r < i → S r t) ∧
        (∀ r c : Int, 0 ≤ r → r < m → 0 ≤ c → c < m → r < lo ∨ i ≤ r →
          rd t (r * m + c) = rd t0 (r * m + c)))
      lo hi hle F t0
      ⟨hl, fun r h0 h1 => by omega, fun _ _ _ _ _ _ _ => rfl⟩
      (fun i t i0 i1 hP => by
        obtain ⟨p1, p2, p3⟩ := hP
        obtain ⟨q1, q2, q3⟩ := hF i t i0 i1 p1
          (fun c c0 c1 => p3 i c (by omega) (by omega) c0 c1 (Or.inr (le_refl i)))
        refine ⟨q1, fun r r0 r1 => ?_, fun r c r0 r1 c0 c1 hr => ?_⟩
        · by_cases hr : r = i
          · subst hr
            exact q2
          · exact hS r t _ r0 (by omega)
              (fun c c0 c1 => q3 r c (by omega) (by omega) c0 c1 hr) (p2 r r0 (by omega))
        · rw [q3 r c r0 r1 c0 c1 (by omega)]
          exact p3 r c r0 r1 c0 c1 (by omega))
    exact key
  · rw [forLoop_done lo hi F t0 (by omega)]
    exact ⟨hl, fun r h0 h1 => by omega, fun _ _ _ _ _ _ _ => rfl⟩

/-- A loop whose iteration `c` works on column `c` of an `m`×`m` block only and establishes
the property `S c`, which depends on column `c` only. -/
theorem forLoop_cols (m lo hi : Int) (hlo : 0 ≤ lo) (hhi : hi ≤ m)
    (S : Int → List ℚ → Prop)
    (hS : ∀ (c : Int) (t w : List ℚ), lo ≤ c → c < hi →
      (∀ r : Int, 0 ≤ r → r < m → rd w (r * m + c) = rd t (r * m + c)) → S c t → S c w)
    (F : Int → List ℚ → List ℚ) (t0 : List ℚ) (hl : t0.length = (m * m).toNat)
    (hF : ∀ (c : Int) (t : List ℚ), lo ≤ c → c < hi → t.length = (m * m).toNat →
      (∀ r : Int, 0 ≤ r → r < m → rd t (r * m + c) = rd t0 (r * m + c)) →
      (F c t).length = (m * m).toNat ∧ S c (F c t) ∧
      (∀ r c' : Int, 0 ≤ r → r < m → 0 ≤ c' → c' < m → c' ≠ c →
        rd (F c t) (r * m + c') = rd t (r * m + c'))) :
    (forLoop lo hi F t0).length = (m * m).toNat ∧
    (∀ c : Int, lo ≤ c → c < hi → S c (forLoop lo hi F t0)) ∧
    (∀ r c : Int, 0 ≤ r → r < m → 0 ≤ c → c < m → c < lo ∨ hi ≤ c →
      rd (forLoop lo hi F t0) (r * m + c) = rd t0 (r * m + c)) := by
  by_cases hle : lo ≤ hi
  · have key := forLoop_induct
      (fun (i : Int) (t : List ℚ) => t.length = (m * m).toNat ∧
        (∀ c : Int, lo ≤ c → c < i → S c t) ∧
        (∀ r c : Int, 0 ≤ r → r < m → 0 ≤ c → c < m → c < lo ∨ i ≤ c →
          rd t (r * m + c) = rd t0 (r * m + c)))
      lo hi hle F t0
      ⟨hl, fun r h0 h1 => by omega, fun _ _ _ _ _ _ _ => rfl⟩
      (fun i t i0 i1 hP => by
        obtain ⟨p1, p2, p3⟩ := hP
        obtain ⟨q1, q2, q3⟩ := hF i t i0 i1 p1
          (fun r r0 r1 => p3 r i r0 r1 (by omega) (by omega) (Or.inr (le_refl i)))
        refine ⟨q1, fun c c0 c1 => ?_, fun r c r0 r1 c0 c1 hc => ?_⟩
        · by_cases hc : c = i
          · subst hc
            exact q2
          · exact hS c t _ c0 (by omega)
              (fun r r0 r1 => q3 r c r0 r1 (by omega) (by omega) hc) (p2 c c0 (by omega))
        · rw [q3 r c r0 r1 c0 c1 (by omega)]
          exact p3 r c r0 r1 c0 c1 (by omega))
    exact key
  · rw [forLoop_done lo hi F t0 (by omega)]
    exact ⟨hl, fun r h0 h1 => by omega, fun _ _ _ _ _ _ _ => rfl⟩

/-- The loop `for (k = hi; k >= lo; --k)` as an induction: `P k` holds before the iteration
of index `k`, and `P (lo - 1)` at the end. -/
theorem forDownLoop_induct {σ : Type} (P : Int → σ → Prop) (hi lo : Int) (hle : lo ≤ hi + 1)
    (f : Int → σ → σ) (s : σ) (h0 : P hi s)
    (hs : ∀ (k : Int) (t : σ), lo ≤ k → k ≤ hi → P k t → P (k - 1) (f k t)) :
    P (lo - 1) (forDownLoop hi lo f s) := by
  unfold forDownLoop
  have key : ∀ n : Nat, (n : Int) ≤ hi - lo + 1 → P (hi - n) (forDown n hi f s) := by
    intro n
    induction n with
    | zero =>
      intro _
      simpa [forDown] using h0
    | succ k ih =>
      intro hk
      have h1 := ih (by push_cast at hk; omega)
      have h2 := hs (hi - k) _ (by push_cast at hk; omega) (by omega) h1
      have e : hi - ((k + 1 : Nat) : Int) = hi - k - 1 := by push_cast; ring
      rw [e]
      exact h2
  have h := key (hi - lo + 1).toNat (by omega)
  have e : hi - ((hi - lo + 1).toNat : Int) = lo - 1 := by omega
  rw [e] at h
  exact h

/-- The loop of `OmMatInv` for column `i` of the inverse of `L`:
`for (k = i+1; k < m; ++k) for (j = i; j <= k-1; ++j) a[k,i] -= lu[k,j] * a[j,i]`. -/
theorem triLow_spec (m : Int) (i : Int) (i0 : 0 ≤ i) (i1 : i < m) (lu t : List ℚ)
    (hl : t.length = (m * m).toNat) (h11 : rd t (i * m + i) = 1)
    (hz : ∀ k : Int, i < k → k < m → rd t (k * m + i) = 0) :
    (forLoop (i + 1) m (fun k a =>
      forLoop i k (fun j a =>
        wr a (k * m + i) (rd a (k * m + i) - rd lu (k * m + j) * rd a (j * m + i))) a)
      t).length = (m * m).toNat ∧
    (∀ k : Int, i < k → k < m →
      rd (forLoop (i + 1) m (fun k a =>
        forLoop i k (fun j a =>
          wr a (k * m + i) (rd a (k * m + i) - rd lu (k * m + j) * rd a (j * m + i))) a)
        t) (k * m + i)
        = ∑ j in Finset.range m.toNat,
            if i ≤ (j : Int) ∧ (j : Int) < k then
              -(rd lu (k * m + j) * (if (j : Int) = i then 1 else
                rd (forLoop (i + 1) m (fun k a =>
                  forLoop i k (fun j a =>
                    wr a (k * m + i)
                      (rd a (k * m + i) - rd lu (k * m + j) * rd a (j * m + i))) a)
                  t) (j * m + i)))
            else 0) ∧
    (∀ r c : Int, 0 ≤ r → r < m → 0 ≤ c → c < m → ¬ (c = i ∧ i < r) →
      rd (forLoop (i + 1) m (fun k a =>
        forLoop i k (fun j a =>
          wr a (k * m + i) (rd a (k * m + i) - rd lu (k * m + j) * rd a (j * m + i))) a)
        t) (r * m + c) = rd t (r * m + c)) := by
  have key := forLoop_induct
    (fun (k : Int) (u : List ℚ) => u.length = (m * m).toNat ∧
      (∀ k' : Int, i < k' → k' < k →
        rd u (k' * m + i)
          = ∑ j in Finset.range m.toNat,
              if i ≤ (j : Int) ∧ (j : Int) < k' then
                -(rd lu (k' * m + j) * (if (j : Int) = i then 1 else rd u (j * m + i)))
              else 0) ∧
      (∀ r c : Int, 0 ≤ r → r < m → 0 ≤ c → c < m → ¬ (c = i ∧ i < r ∧ r < k) →
        rd u (r * m + c) = rd t (r * m + c)))
    (i + 1) m (by omega)
    (fun k a =>
      forLoop i k (fun j a =>
        wr a (k * m + i) (rd a (k * m + i) - rd lu (k * m + j) * rd a (j * m + i))) a)
    t ⟨hl, fun k' h0 h1 => by omega, fun _ _ _ _ _ _ _ => rfl⟩
    (fun k u k0 k1 hP => by
      obtain ⟨p1, p2, p3⟩ := hP
      have kn : 0 ≤ k := by omega
      obtain ⟨q1, q2, q3⟩ := forLoop_cell m i k i0 (le_of_lt k1) k i
        (fun j => -(rd lu (k * m + j) * rd u (j * m + i)))
        (fun j a =>
          wr a (k * m + i) (rd a (k * m + i) - rd lu (k * m + j) * rd a (j * m + i)))
        u p1
        (fun j v j0 j1 hv hfr => by
          refine ⟨by rw [length_wr, hv], fun r' c' a1 a2 a3 a4 a5 => ?_, ?_⟩
          · rw [rd_wr_cell m v hv k i r' c' kn k1 i0 i1 a3 a4, if_neg a5]
          · rw [rd_wr_cell m v hv k i k i kn k1 i0 i1 i0 i1, if_pos ⟨rfl, rfl⟩,
              hfr j i (by omega) (by omega) i0 i1 (by omega)]
            ring)
      dsimp only
      generalize forLoop i k (fun j a =>
          wr a (k * m + i) (rd a (k * m + i) - rd lu (k * m + j) * rd a (j * m + i))) u = w
        at q1 q2 q3 ⊢
      refine ⟨q1, fun k' h0 h1 => ?_, fun r c a1 a2 a3 a4 a5 => ?_⟩
      · by_cases hk : k' = k
        · subst hk
          rw [q3, p3 k' i kn k1 i0 i1 (by omega), hz k' h0 k1, zero_add]
          apply Finset.sum_congr rfl
          intro j _
          by_cases hj : i ≤ (j : Int) ∧ (j : Int) < k'
          · rw [if_pos hj, if_pos hj]
            by_cases hji : (j : Int) = i
            · rw [if_pos hji, hji, p3 i i i0 i1 i0 i1 (by omega), h11]
            · rw [if_neg hji, q2 j i (by omega) (by omega) i0 i1 (by omega)]
          · rw [if_neg hj, if_neg hj]
        · rw [q2 k' i (by omega) (by omega) i0 i1 (by omega), p2 k' h0 (by omega)]
          apply Finset.sum_congr rfl
          intro j _
          by_cases hj : i ≤ (j : Int) ∧ (j : Int) < k'
          · rw [if_pos hj, if_pos hj, q2 j i (by omega) (by omega) i0 i1 (by omega)]
          · rw [if_neg hj, if_neg hj]
      · rw [q2 r c a1 a2 a3 a4 (by omega)]
        exact p3 r c a1 a2 a3 a4 (by omega))
  obtain ⟨k1, k2, k3⟩ := key
  exact ⟨k1, k2, fun r c a1 a2 a3 a4 a5 => k3 r c a1 a2 a3 a4 (by omega)⟩

/-- The loop of `OmMatInv` for column `i` of the inverse of `U`:
`for (k = i-1; k >= 0; --k) { for (j = k+1; j <= i; ++j) a[k,i] -= lu[k,j] * a[j,i];
a[k,i] /= lu[k,k]; }`. -/
theorem triUp_spec (m : Int) (i : Int) (i0 : 0 ≤ i) (i1 : i < m) (lu t : List ℚ)
    (hl : t.length = (m * m).toNat)
    (hz : ∀ k : Int, 0 ≤ k → k < i → rd t (k * m + i) = 0) :
    (forDownLoop (i - 1) 0 (fun k a =>
      wr (forLoop (k + 1) (i + 1) (fun j a =>
          wr a (k * m + i) (rd a (k * m + i) - rd lu (k * m + j) * rd a (j * m + i))) a)
        (k * m + i)
        (rd (forLoop (k + 1) (i + 1) (fun j a =>
          wr a (k * m + i) (rd a (k * m + i) - rd lu (k * m + j) * rd a (j * m + i))) a)
          (k * m + i) / rd lu (k * m + k))) t).length = (m * m).toNat ∧
    (∀ k : Int, 0 ≤ k → k < i →
      rd (forDownLoop (i - 1) 0 (fun k a =>
        wr (forLoop (k + 1) (i + 1) (fun j a =>
            wr a (k * m + i) (rd a (k * m + i) - rd lu (k * m + j) * rd a (j * m + i))) a)
          (k * m + i)
          (rd (forLoop (k + 1) (i + 1) (fun j a =>
            wr a (k * m + i) (rd a (k * m + i) - rd lu (k * m + j) * rd a (j * m + i))) a)
            (k * m + i) / rd lu (k * m + k))) t) (k * m + i)
        = (∑ j in Finset.range m.toNat,
            if k + 1 ≤ (j : Int) ∧ (j : Int) < i + 1 then
              -(rd lu (k * m + j) *
                rd (forDownLoop (i - 1) 0 (fun k a =>
                  wr (forLoop (k + 1) (i + 1) (fun j a =>
                      wr a (k * m + i)
                        (rd a (k * m + i) - rd lu (k * m + j) * rd a (j * m + i))) a)
                    (k * m + i)
                    (rd (forLoop (k + 1) (i + 1) (fun j a =>
                      wr a (k * m + i)
                        (rd a (k * m + i) - rd lu (k * m + j) * rd a (j * m + i))) a)
                      (k * m + i) / rd lu (k * m + k))) t) (j * m + i))
            else 0) / rd lu (k * m + k)) ∧
    (∀ r c : Int, 0 ≤ r → r < m → 0 ≤ c → c < m → ¬ (c = i ∧ r < i) →
      rd (forDownLoop (i - 1) 0 (fun k a =>
        wr (forLoop (k + 1) (i + 1) (fun j a =>
            wr a (k * m + i) (rd a (k * m + i) - rd lu (k * m + j) * rd a (j * m + i))) a)
          (k * m + i)
          (rd (forLoop (k + 1) (i + 1) (fun j a =>
            wr a (k * m + i) (rd a (k * m + i) - rd lu (k * m + j) * rd a (j * m + i))) a)
            (k * m + i) / rd lu (k * m + k))) t) (r * m + c) = rd t (r * m + c)) := by
  have key := forDownLoop_induct
    (fun (k : Int) (u : List ℚ) => u.length = (m * m).toNat ∧
      (∀ k' : Int, k < k' → k' < i →
        rd u (k' * m + i)
          = (∑ j in Finset.range m.toNat,
              if k' + 1 ≤ (j : Int) ∧ (j : Int) < i + 1 then
                -(rd lu (k' * m + j) * rd u (j * m + i))
              else 0) / rd lu (k' * m + k')) ∧
      (∀ r c : Int, 0 ≤ r → r < m → 0 ≤ c → c < m → ¬ (c = i ∧ k < r ∧ r < i) →
        rd u (r * m + c) = rd t (r * m + c)))
    (i - 1) 0 (by omega)
    (fun k a =>
      wr (forLoop (k + 1) (i + 1) (fun j a =>
          wr a (k * m + i) (rd a (k * m + i) - rd lu (k * m + j) * rd a (j * m + i))) a)
        (k * m + i)
        (rd (forLoop (k + 1) (i + 1) (fun j a =>
          wr a (k * m + i) (rd a (k * m + i) - rd lu (k * m + j) * rd a (j * m + i))) a)
          (k * m + i) / rd lu (k * m + k)))
    t ⟨hl, fun k' h0 h1 => by omega, fun _ _ _ _ _ _ _ => rfl⟩
    (fun k u k0 k1 hP => by
      obtain ⟨p1, p2, p3⟩ := hP
      have km : k < m := by omega
      obtain ⟨q1, q2, q3⟩ := forLoop_cell m (k + 1) (i + 1) (by omega) (by omega) k i
        (fun j => -(rd lu (k * m + j) * rd u (j * m + i)))
        (fun j a =>
          wr a (k * m + i) (rd a (k * m + i) - rd lu (k * m + j) * rd a (j * m + i)))
        u p1
        (fun j v j0 j1 hv hfr => by
          refine ⟨by rw [length_wr, hv], fun r' c' a1 a2 a3 a4 a5 => ?_, ?_⟩
          · rw [rd_wr_cell m v hv k i r' c' k0 km i0 i1 a3 a4, if_neg a5]
          · rw [rd_wr_cell m v hv k i k i k0 km i0 i1 i0 i1, if_pos ⟨rfl, rfl⟩,
              hfr j i (by omega) (by omega) i0 i1 (by omega)]
            ring)
      dsimp only
      generalize forLoop (k + 1) (i + 1) (fun j a =>
          wr a (k * m + i) (rd a (k * m + i) - rd lu (k * m + j) * rd a (j * m + i))) u = w
        at q1 q2 q3 ⊢
      have fr : ∀ (v : ℚ) (r c : Int), 0 ≤ r → r < m → 0 ≤ c → c < m → ¬ (r = k ∧ c = i) →
          rd (wr w (k * m + i) v) (r * m + c) = rd u (r * m + c) := by
        intro v r c r0 r1 c0 c1 hn
        rw [rd_wr_cell m w q1 k i r c k0 km i0 i1 c0 c1, if_neg hn, q2 r c r0 r1 c0 c1 hn]
      refine ⟨by rw [length_wr, q1], fun k' h0 h1 => ?_, fun r c a1 a2 a3 a4 a5 => ?_⟩
      · by_cases hk : k' = k
        · subst hk
          rw [rd_wr_cell m w q1 k' i k' i k0 km i0 i1 i0 i1, if_pos ⟨rfl, rfl⟩, q3,
            p3 k' i k0 km i0 i1 (by omega), hz k' k0 (by omega), zero_add]
          congr 1
          apply Finset.sum_congr rfl
          intro j _
          by_cases hj : k' + 1 ≤ (j : Int) ∧ (j : Int) < i + 1
          · rw [if_pos hj, if_pos hj, fr _ j i (by omega) (by omega) i0 i1 (by omega)]
          · rw [if_neg hj, if_neg hj]
        · rw [fr _ k' i (by omega) (by omega) i0 i1 (by omega), p2 k' (by omega) h1]
          congr 1
          apply Finset.sum_congr rfl
          intro j _
          by_cases hj : k' + 1 ≤ (j : Int) ∧ (j : Int) < i + 1
          · rw [if_pos hj, if_pos hj, fr _ j i (by omega) (by omega) i0 i1 (by omega)]
          · rw [if_neg hj, if_neg hj]
      · rw [fr _ r c a1 a2 a3 a4 (by omega)]
        exact p3 r c a1 a2 a3 a4 (by omega))
  obtain ⟨k1, k2, k3⟩ := key
  exact ⟨k1, fun k h0 h1 => k2 k (by omega) h1,
    fun r c a1 a2 a3 a4 a5 => k3 r c a1 a2 a3 a4 (by omega)⟩

/-- The relations of `TriCol` for column `c` read only entries of column `c`. -/
theorem TriCol_frame (m : Int) (lu : List ℚ) (c : Int) (c0 : 0 ≤ c) (c1 : c < m)
    (t w : List ℚ) (hfr : ∀ r : Int, 0 ≤ r → r < m → rd w (r * m + c) = rd t (r * m + c))
    (h : TriCol m lu c t) : TriCol m lu c w := by
  obtain ⟨hL, hD, hU⟩ := h
  refine ⟨fun k k0 k1 => ?_, ?_, fun k k0 k1 => ?_⟩
  · rw [hfr k (by omega) k1, hL k k0 k1]
    apply Finset.sum_congr rfl
    intro j _
    by_cases hj : c ≤ (j : Int) ∧ (j : Int) < k
    · rw [if_pos hj, if_pos hj, hfr j (by omega) (by omega)]
    · rw [if_neg hj, if_neg hj]
  · rw [hfr c c0 c1, hD]
  · rw [hfr k k0 (by omega), hU k k0 k1]
    congr 1
    apply Finset.sum_congr rfl
    intro j _
    by_cases hj : k + 1 ≤ (j : Int) ∧ (j : Int) < c + 1
    · rw [if_pos hj, if_pos hj, hfr j (by omega) (by omega)]
    · rw [if_neg hj, if_neg hj]

/-- The inversion stage of `OmMatInv`: every column of the block it leaves satisfies the
relations of `TriCol`. -/
theorem matInvTri_spec (m : Int) (hm : 0 ≤ m) (lu a : List ℚ)
    (ha : a.length = (m * m).toNat) :
    (matInvTri m lu a).length = (m * m).toNat ∧
    ∀ c : Int, 0 ≤ c → c < m → TriCol m lu c (matInvTri m lu a) := by
  have hmm : ((m * m).toNat : Int) = m * m := by
    have : 0 ≤ m * m := mul_nonneg hm hm
    omega
  obtain ⟨z1, z2⟩ := forLoop_fill2 m hm (0 : ℚ) a
  unfold matInvTri
  dsimp only
  generalize forLoop 0 m (fun i a => forLoop 0 m (fun j a => wr a (i * m + j) 0) a) a = a0
    at z1 z2 ⊢
  have hl0 : a0.length = (m * m).toNat := z1.trans ha
  have hz0 : ∀ r c : Int, 0 ≤ r → r < m → 0 ≤ c → c < m → rd a0 (r * m + c) = 0 := by
    intro r c r0 r1 c0 c1
    obtain ⟨f0, f1⟩ := flat_index m r c r0 r1 c0 c1
    exact z2 _ f0 f1 (by rw [ha]; omega)
  refine And.imp_right And.left (forLoop_cols m 0 m (le_refl 0) (le_refl m) (TriCol m lu)
    (fun c t w c0 c1 hfr h => TriCol_frame m lu c c0 c1 t w hfr h) _ a0 hl0 ?_)
  intro i t i0 i1 hl hcol
  dsimp only
  have e1 : (wr t (i * m + i) 1).length = (m * m).toNat := by rw [length_wr, hl]
  have f1 : ∀ r c : Int, 0 ≤ r → r < m → 0 ≤ c → c < m →
      rd (wr t (i * m + i) 1) (r * m + c) = if r = i ∧ c = i then 1 else rd t (r * m + c) :=
    fun r c r0 r1 c0 c1 => rd_wr_cell m t hl i i r c i0 i1 i0 i1 c0 c1 1
  obtain ⟨a1, a2, a3⟩ := triLow_spec m i i0 i1 lu (wr t (i * m + i) 1) e1
    (by rw [f1 i i i0 i1 i0 i1, if_pos ⟨rfl, rfl⟩])
    (fun k k0 k1 => by
      rw [f1 k i (by omega) k1 i0 i1, if_neg (by omega), hcol k (by omega) k1]
      exact hz0 k i (by omega) k1 i0 i1)
  generalize forLoop (i + 1) m (fun k a =>
      forLoop i k (fun j a =>
        wr a (k * m + i) (rd a (k * m + i) - rd lu (k * m + j) * rd a (j * m + i))) a)
      (wr t (i * m + i) 1) = u at a1 a2 a3 ⊢
  have e3 : (wr u (i * m + i) (1 / rd lu (i * m + i))).length = (m * m).toNat := by
    rw [length_wr, a1]
  have f3 : ∀ r c : Int, 0 ≤ r → r < m → 0 ≤ c → c < m →
      rd (wr u (i * m + i) (1 / rd lu (i * m + i))) (r * m + c)
        = if r = i ∧ c = i then 1 / rd lu (i * m + i) else rd u (r * m + c) :=
    fun r c r0 r1 c0 c1 => rd_wr_cell m u a1 i i r c i0 i1 i0 i1 c0 c1 _
  obtain ⟨b1, b2, b3⟩ := triUp_spec m i i0 i1 lu (wr u (i * m + i) (1 / rd lu (i * m + i)))
    e3 (fun k k0 k1 => by
      rw [f3 k i k0 (by omega) i0 i1, if_neg (by omega),
        a3 k i k0 (by omega) i0 i1 (by omega), f1 k i k0 (by omega) i0 i1,
        if_neg (by omega), hcol k k0 (by omega)]
      exact hz0 k i k0 (by omega) i0 i1)
  generalize forDownLoop (i - 1) 0 (fun k a =>
      wr (forLoop (k + 1) (i + 1) (fun j a =>
          wr a (k * m + i) (rd a (k * m + i) - rd lu (k * m + j) * rd a (j * m + i))) a)
        (k * m + i)
        (rd (forLoop (k + 1) (i + 1) (fun j a =>
          wr a (k * m + i) (rd a (k * m + i) - rd lu (k * m + j) * rd a (j * m + i))) a)
          (k * m + i) / rd lu (k * m + k)))
      (wr u (i * m + i) (1 / rd lu (i * m + i))) = w at b1 b2 b3 ⊢
  have low : ∀ k : Int, i < k → k < m → rd w (k * m + i) = rd u (k * m + i) := by
    intro k k0 k1
    rw [b3 k i (by omega) k1 i0 i1 (by omega), f3 k i (by omega) k1 i0 i1,
      if_neg (by omega)]
  refine ⟨b1, ⟨fun k k0 k1 => ?_, ?_, b2⟩, fun r c r0 r1 c0 c1 hc => ?_⟩
  · rw [low k k0 k1, a2 k k0 k1]
    apply Finset.sum_congr rfl
    intro j _
    by_cases hj : i ≤ (j : Int) ∧ (j : Int) < k
    · rw [if_pos hj, if_pos hj]
      by_cases hji : (j : Int) = i
      · rw [if_pos hji, if_pos hji]
      · rw [if_neg hji, if_neg hji, low j (by omega) (by omega)]
    · rw [if_neg hj, if_neg hj]
  · rw [b3 i i i0 i1 i0 i1 (by omega), f3 i i i0 i1 i0 i1, if_pos ⟨rfl, rfl⟩]
  · rw [b3 r c r0 r1 c0 c1 (by omega), f3 r c r0 r1 c0 c1, if_neg (by omega),
      a3 r c r0 r1 c0 c1 (by omega), f1 r c r0 r1 c0 c1, if_neg (by omega)]

/-- The loop `for (j = lo; j < hi; ++j) t[r,j] = val j`. -/
theorem rowStore_spec (m lo hi r : Int) (hlo : 0 ≤ lo) (hhi : hi ≤ m) (r0 : 0 ≤ r) (r1 : r < m)
    (val : Int → ℚ) (t : List ℚ) (hl : t.length = (m * m).toNat) :
    (forLoop lo hi (fun j t => wr t (r * m + j) (val j)) t).length = (m * m).toNat ∧
    (∀ j : Int, lo ≤ j → j < hi →
      rd (forLoop lo hi (fun j t => wr t (r * m + j) (val j)) t) (r * m + j) = val j) ∧
    (∀ r' c : Int, 0 ≤ r' → r' < m → 0 ≤ c → c < m → ¬ (r' = r ∧ lo ≤ c ∧ c < hi) →
      rd (forLoop lo hi (fun j t => wr t (r * m + j) (val j)) t) (r' * m + c)
        = rd t (r' * m + c)) := by
  obtain ⟨k1, k2, k3⟩ := forLoop_cells m lo hi (fun _ => r) (fun j => j) val
    (fun x x0 x1 => ⟨r0, r1, le_trans hlo x0, lt_of_lt_of_le x1 hhi⟩)
    (fun x y _ _ _ _ _ h => h)
    (fun j t => wr t (r * m + j) (val j)) t hl
    (fun x u x0 x1 hu _ => by
      refine ⟨by rw [length_wr, hu], fun r' c a1 a2 a3 a4 a5 => ?_, ?_⟩
      · rw [rd_wr_cell m u hu r x r' c r0 r1 (by omega) (by omega) a3 a4, if_neg a5]
      · rw [rd_wr_cell m u hu r x r x r0 r1 (by omega) (by omega) (by omega) (by omega),
          if_pos ⟨rfl, rfl⟩])
  exact ⟨k1, k2, fun r' c a1 a2 a3 a4 a5 =>
    k3 r' c a1 a2 a3 a4 (fun y y0 y1 h => by
      have h2 : c = y := h.2
      exact a5 ⟨h.1, by omega, by omega⟩)⟩

/-- The copy stage of `OmMatInv`: row `i` of the copy is row `pm[i]` of `a`. -/
theorem matInvCopy_spec (m : Int) (a : List ℚ) (pm : List Int) :
    (matInvCopy m a pm).length = (m * m).toNat ∧
    ∀ i j : Int, 0 ≤ i → i < m → 0 ≤ j → j < m →
      rd (matInvCopy m a pm) (i * m + j) = rd a (rd pm i * m + j) := by
  unfold matInvCopy
  have h := forLoop_rows m 0 m (le_refl 0) (le_refl m)
    (fun r t => ∀ j : Int, 0 ≤ j → j < m → rd t (r * m + j) = rd a (rd pm r * m + j))
    (fun r t w _ _ hfr h j j0 j1 => by rw [hfr j j0 j1]; exact h j j0 j1)
    (fun i lu => forLoop 0 m (fun j lu => wr lu (i * m + j) (rd a (rd pm i * m + j))) lu)
    (OMMALLOC (m * m)) (length_OMMALLOC _)
    (fun r t r0 r1 hl _ => by
      obtain ⟨k1, k2, k3⟩ := rowStore_spec m 0 m r (le_refl 0) (le_refl m) r0 r1
        (fun j => rd a (rd pm r * m + j)) t hl
      exact ⟨k1, k2, fun r' c a1 a2 a3 a4 a5 => k3 r' c a1 a2 a3 a4 (fun h => a5 h.1)⟩)
  exact ⟨h.1, fun i j i0 i1 j0 j1 => h.2.1 i i0 i1 j j0 j1⟩

/-- The last stage of `OmMatInv`: column `j` of `lu` goes to column `pm[j]` of `a`. -/
theorem matInvPerm_spec (m : Int) (pm : List Int) (hp : IsPermVec m pm)
    (lu a : List ℚ) (ha : a.length = (m * m).toNat) :
    (matInvPerm m pm lu a).length = (m * m).toNat ∧
    ∀ i j : Int, 0 ≤ i → i < m → 0 ≤ j → j < m →
      rd (matInvPerm m pm lu a) (i * m + rd pm j) = rd lu (i * m + j) := by
  obtain ⟨_, hr, hi⟩ := hp
  unfold matInvPerm
  have h := forLoop_rows m 0 m (le_refl 0) (le_refl m)
    (fun r t => ∀ j : Int, 0 ≤ j → j < m → rd t (r * m + rd pm j) = rd lu (r * m + j))
    (fun r t w _ _ hfr h j j0 j1 => by
      rw [hfr _ (hr j j0 j1).1 (hr j j0 j1).2]
      exact h j j0 j1)
    (fun i a => forLoop 0 m (fun j a => wr a (i * m + rd pm j) (rd lu (i * m + j))) a)
    a ha
    (fun r t r0 r1 hl _ => by
      obtain ⟨k1, k2, k3⟩ := forLoop_cells m 0 m (fun _ => r) (fun j => rd pm j)
        (fun j => rd lu (r * m + j))
        (fun x x0 x1 => ⟨r0, r1, (hr x x0 x1).1, (hr x x0 x1).2⟩)
        (fun x y x0 x1 y0 y1 _ h => hi x y x0 x1 y0 y1 h)
        (fun j a => wr a (r * m + rd pm j) (rd lu (r * m + j))) t hl
        (fun x u x0 x1 hu _ => by
          obtain ⟨b0, b1⟩ := hr x x0 x1
          refine ⟨by rw [length_wr, hu], fun r' c a1 a2 a3 a4 a5 => ?_, ?_⟩
          · rw [rd_wr_cell m u hu r (rd pm x) r' c r0 r1 b0 b1 a3 a4, if_neg a5]
          · rw [rd_wr_cell m u hu r (rd pm x) r (rd pm x) r0 r1 b0 b1 b0 b1,
              if_pos ⟨rfl, rfl⟩])
      exact ⟨k1, k2, fun r' c a1 a2 a3 a4 a5 =>
        k3 r' c a1 a2 a3 a4 (fun y _ _ h => a5 h.1)⟩)
  exact ⟨h.1, fun i j i0 i1 j0 j1 => h.2.1 i i0 i1 j j0 j1⟩

/-- The loop `for (j = lo; j < hi; ++j) t[r,j] += D j`. -/
theorem rowAdd_spec (m lo hi r : Int) (hlo : 0 ≤ lo) (hhi : hi ≤ m) (r0 : 0 ≤ r) (r1 : r < m)
    (D : Int → ℚ) (t : List ℚ) (hl : t.length = (m * m).toNat) :
    (forLoop lo hi (fun j t => wr t (r * m + j) (rd t (r * m + j) + D j)) t).length
      = (m * m).toNat ∧
    (∀ j : Int, lo ≤ j → j < hi →
      rd (forLoop lo hi (fun j t => wr t (r * m + j) (rd t (r * m + j) + D j)) t) (r * m + j)
        = rd t (r * m + j) + D j) ∧
    (∀ r' c : Int, 0 ≤ r' → r' < m → 0 ≤ c → c < m → ¬ (r' = r ∧ lo ≤ c ∧ c < hi) →
      rd (forLoop lo hi (fun j t => wr t (r * m + j) (rd t (r * m + j) + D j)) t) (r' * m + c)
        = rd t (r' * m + c)) := by
  obtain ⟨k1, k2, k3⟩ := forLoop_cells m lo hi (fun _ => r) (fun j => j)
    (fun j => rd t (r * m + j) + D j)
    (fun x x0 x1 => ⟨r0, r1, le_trans hlo x0, lt_of_lt_of_le x1 hhi⟩)
    (fun x y _ _ _ _ _ h => h)
    (fun j t => wr t (r * m + j) (rd t (r * m + j) + D j)) t hl
    (fun x u x0 x1 hu hfr => by
      have xa : 0 ≤ x := le_trans hlo x0
      have xb : x < m := lt_of_lt_of_le x1 hhi
      refine ⟨by rw [length_wr, hu], fun r' c a1 a2 a3 a4 a5 => ?_, ?_⟩
      · rw [rd_wr_cell m u hu r x r' c r0 r1 xa xb a3 a4, if_neg a5]
      · rw [rd_wr_cell m u hu r x r x r0 r1 xa xb xa xb, if_pos ⟨rfl, rfl⟩,
          hfr r x r0 r1 xa xb (fun y y0 y1 h => by have h2 : x = y := h.2; omega)])
  exact ⟨k1, k2, fun r' c a1 a2 a3 a4 a5 =>
    k3 r' c a1 a2 a3 a4 (fun y y0 y1 h => by
      have h2 : c = y := h.2
      exact a5 ⟨h.1, by omega, by omega⟩)⟩

/-- The first loop nest of the product stage of `OmMatInv`: `lu` receives the upper triangle
of `a` and zeros below the diagonal. -/
theorem prodInit_spec (m : Int) (a lu : List ℚ) (hl : lu.length = (m * m).toNat) :
    (forLoop 0 m (fun i lu =>
      forLoop i m (fun j lu => wr lu (i * m + j) (rd a (i * m + j)))
        (forLoop 0 i (fun j lu => wr lu (i * m + j) 0) lu)) lu).length = (m * m).toNat ∧
    ∀ i j : Int, 0 ≤ i → i < m → 0 ≤ j → j < m →
      rd (forLoop 0 m (fun i lu =>
        forLoop i m (fun j lu => wr lu (i * m + j) (rd a (i * m + j)))
          (forLoop 0 i (fun j lu => wr lu (i * m + j) 0) lu)) lu) (i * m + j)
        = if j < i then 0 else rd a (i * m + j) := by
  have h := forLoop_rows m 0 m (le_refl 0) (le_refl m)
    (fun r t => ∀ j : Int, 0 ≤ j → j < m →
      rd t (r * m + j) = if j < r then 0 else rd a (r * m + j))
    (fun r t w _ _ hfr h j j0 j1 => by rw [hfr j j0 j1]; exact h j j0 j1)
    (fun i lu =>
      forLoop i m (fun j lu => wr lu (i * m + j) (rd a (i * m + j)))
        (forLoop 0 i (fun j lu => wr lu (i * m + j) 0) lu))
    lu hl
    (fun r t r0 r1 ht _ => by
      obtain ⟨a1, a2, a3⟩ := rowStore_spec m 0 r r (le_refl 0) (le_of_lt r1) r0 r1
        (fun _ => (0 : ℚ)) t ht
      obtain ⟨b1, b2, b3⟩ := rowStore_spec m r m r r0 (le_refl m) r0 r1
        (fun j => rd a (r * m + j)) _ a1
      refine ⟨b1, fun j j0 j1 => ?_, fun r' c c1 c2 c3 c4 c5 => ?_⟩
      · by_cases hj : j < r
        · rw [if_pos hj, b3 r j r0 r1 j0 j1 (by omega), a2 j j0 hj]
        · rw [if_neg hj, b2 j (by omega) j1]
      · rw [b3 r' c c1 c2 c3 c4 (fun h => c5 h.1), a3 r' c c1 c2 c3 c4 (fun h => c5 h.1)])
  exact ⟨h.1, fun i j i0 i1 j0 j1 => h.2.1 i i0 i1 j j0 j1⟩

/-- The second loop nest of the product stage of `OmMatInv`: below the diagonal, entry
`[i, j]` of `lu` receives the sum of the products `a[i,k] * a[k,j]` over `k ≥ i`. -/
theorem prodLow_spec (m : Int) (hm : 0 ≤ m) (a lu : List ℚ) (hl : lu.length = (m * m).toNat) :
    (forLoop 1 m (fun i lu =>
      forLoop i m (fun k lu =>
        forLoop 0 i (fun j lu =>
          wr lu (i * m + j) (rd lu (i * m + j) + rd a (i * m + k) * rd a (k * m + j))) lu) lu)
      lu).length = (m * m).toNat ∧
    ∀ i j : Int, 0 ≤ i → i < m → 0 ≤ j → j < m →
      rd (forLoop 1 m (fun i lu =>
        forLoop i m (fun k lu =>
          forLoop 0 i (fun j lu =>
            wr lu (i * m + j) (rd lu (i * m + j) + rd a (i * m + k) * rd a (k * m + j))) lu) lu)
        lu) (i * m + j)
        = rd lu (i * m + j) + if j < i then ∑ k in Finset.range m.toNat,
            (if i ≤ (k : Int) ∧ (k : Int) < m then rd a (i * m + k) * rd a (k * m + j) else 0)
          else 0 := by
  by_cases hm1 : 1 ≤ m
  · have h := forLoop_rows m 1 m (by omega) (le_refl m)
      (fun r t => ∀ j : Int, 0 ≤ j → j < m →
        rd t (r * m + j) = rd lu (r * m + j) + if j < r then ∑ k in Finset.range m.toNat,
            (if r ≤ (k : Int) ∧ (k : Int) < m then rd a (r * m + k) * rd a (k * m + j) else 0)
          else 0)
      (fun r t w _ _ hfr h j j0 j1 => by rw [hfr j j0 j1]; exact h j j0 j1)
      (fun i lu =>
        forLoop i m (fun k lu =>
          forLoop 0 i (fun j lu =>
            wr lu (i * m + j) (rd lu (i * m + j) + rd a (i * m + k) * rd a (k * m + j))) lu) lu)
      lu hl
      (fun r t r0 r1 ht hrow => by
        have rn : 0 ≤ r := by omega
        have key := forLoop_induct
          (fun (k : Int) (u : List ℚ) => u.length = (m * m).toNat ∧
            (∀ j : Int, 0 ≤ j → j < m →
              rd u (r * m + j) = rd t (r * m + j) + if j < r then
                ∑ k' in Finset.range m.toNat,
                  (if r ≤ (k' : Int) ∧ (k' : Int) < k then
                    rd a (r * m + k') * rd a (k' * m + j) else 0)
                else 0) ∧
            (∀ r' c : Int, 0 ≤ r' → r' < m → 0 ≤ c → c < m → r' ≠ r →
              rd u (r' * m + c) = rd t (r' * m + c)))
          r m (le_of_lt r1)
          (fun k lu =>
            forLoop 0 r (fun j lu =>
              wr lu (r * m + j) (rd lu (r * m + j) + rd a (r * m + k) * rd a (k * m + j))) lu)
          t ⟨ht, fun j j0 j1 => by
              by_cases hj : j < r
              · rw [if_pos hj, Finset.sum_eq_zero, add_zero]
                intro k _
                rw [if_neg (by omega)]
              · rw [if_neg hj, add_zero], fun _ _ _ _ _ _ _ => rfl⟩
          (fun k u k0 k1 hP => by
            obtain ⟨p1, p2, p3⟩ := hP
            obtain ⟨q1, q2, q3⟩ := rowAdd_spec m 0 r r (le_refl 0) (le_of_lt r1) rn r1
              (fun j => rd a (r * m + k) * rd a (k * m + j)) u p1
            refine ⟨q1, fun j j0 j1 => ?_, fun r' c c1 c2 c3 c4 c5 => ?_⟩
            · by_cases hj : j < r
              · rw [if_pos hj, q2 j j0 hj, p2 j j0 j1, if_pos hj,
                  sum_ind_succ m.toNat r k rn k0 (by omega)
                    (fun k' => rd a (r * m + k') * rd a (k' * m + j)), add_assoc]
              · rw [if_neg hj, q3 r j rn r1 j0 j1 (by omega), p2 j j0 j1, if_neg hj]
            · rw [q3 r' c c1 c2 c3 c4 (fun h => c5 h.1)]
              exact p3 r' c c1 c2 c3 c4 c5)
        obtain ⟨k1, k2, k3⟩ := key
        refine ⟨k1, fun j j0 j1 => ?_, k3⟩
        rw [k2 j j0 j1, hrow j j0 j1])
    refine ⟨h.1, fun i j i0 i1 j0 j1 => ?_⟩
    by_cases hi : 1 ≤ i
    · exact h.2.1 i hi i1 j j0 j1
    · rw [h.2.2 i j i0 i1 j0 j1 (Or.inl (by omega)), if_neg (by omega), add_zero]
  · have e : m = 0 := by omega
    subst e
    rw [forLoop_done 1 0 _ lu (by omega)]
    exact ⟨hl, fun i j i0 i1 => by omega⟩

/-- The third loop nest of the product stage of `OmMatInv`: on and above the diagonal, entry
`[i, j]` of `lu` receives the sum of the products `a[i,k] * a[k,j]` over `k > j`. -/
theorem prodUp_spec (m : Int) (a lu : List ℚ) (hl : lu.length = (m * m).toNat) :
    (forLoop 0 m (fun i lu =>
      forLoop i m (fun j lu =>
        forLoop (j + 1) m (fun k lu =>
          wr lu (i * m + j) (rd lu (i * m + j) + rd a (i * m + k) * rd a (k * m + j))) lu) lu)
      lu).length = (m * m).toNat ∧
    ∀ i j : Int, 0 ≤ i → i < m → 0 ≤ j → j < m →
      rd (forLoop 0 m (fun i lu =>
        forLoop i m (fun j lu =>
          forLoop (j + 1) m (fun k lu =>
            wr lu (i * m + j) (rd lu (i * m + j) + rd a (i * m + k) * rd a (k * m + j))) lu) lu)
        lu) (i * m + j)
        = rd lu (i * m + j) + if i ≤ j then ∑ k in Finset.range m.toNat,
            (if j + 1 ≤ (k : Int) ∧ (k : Int) < m then rd a (i * m + k) * rd a (k * m + j)
              else 0)
          else 0 := by
  have h := forLoop_rows m 0 m (le_refl 0) (le_refl m)
    (fun r t => ∀ j : Int, 0 ≤ j → j < m →
      rd t (r * m + j) = rd lu (r * m + j) + if r ≤ j then ∑ k in Finset.range m.toNat,
          (if j + 1 ≤ (k : Int) ∧ (k : Int) < m then rd a (r * m + k) * rd a (k * m + j)
            else 0)
        else 0)
    (fun r t w _ _ hfr h j j0 j1 => by rw [hfr j j0 j1]; exact h j j0 j1)
    (fun i lu =>
      forLoop i m (fun j lu =>
        forLoop (j + 1) m (fun k lu =>
          wr lu (i * m + j) (rd lu (i * m + j) + rd a (i * m + k) * rd a (k * m + j))) lu) lu)
    lu hl
    (fun r t r0 r1 ht hrow => by
      obtain ⟨k1, k2, k3⟩ := forLoop_cells m r m (fun _ => r) (fun j => j)
        (fun j => rd t (r * m + j) + ∑ k in Finset.range m.toNat,
          (if j + 1 ≤ (k : Int) ∧ (k : Int) < m then rd a (r * m + k) * rd a (k * m + j)
            else 0))
        (fun x x0 x1 => ⟨r0, r1, le_trans r0 x0, x1⟩)
        (fun x y _ _ _ _ _ h => h)
        (fun j lu =>
          forLoop (j + 1) m (fun k lu =>
            wr lu (r * m + j) (rd lu (r * m + j) + rd a (r * m + k) * rd a (k * m + j))) lu)
        t ht
        (fun x u x0 x1 hu hfr => by
          have xa : 0 ≤ x := le_trans r0 x0
          obtain ⟨q1, q2, q3⟩ := forLoop_cell m (x + 1) m (by omega) (le_refl m) r x
            (fun k => rd a (r * m + k) * rd a (k * m + x))
            (fun k lu =>
              wr lu (r * m + x) (rd lu (r * m + x) + rd a (r * m + k) * rd a (k * m + x)))
            u hu
            (fun k v k0 k1 hv _ => by
              refine ⟨by rw [length_wr, hv], fun r' c' a1 a2 a3 a4 a5 => ?_, ?_⟩
              · rw [rd_wr_cell m v hv r x r' c' r0 r1 xa x1 a3 a4, if_neg a5]
              · rw [rd_wr_cell m v hv r x r x r0 r1 xa x1 xa x1, if_pos ⟨rfl, rfl⟩])
          refine ⟨q1, q2, ?_⟩
          rw [q3, hfr r x r0 r1 xa x1 (fun y y0 y1 h => by have h2 : x = y := h.2; omega)])
      refine ⟨k1, fun j j0 j1 => ?_, fun r' c c1 c2 c3 c4 c5 =>
        k3 r' c c1 c2 c3 c4 (fun y _ _ h => c5 h.1)⟩
      by_cases hj : r ≤ j
      · rw [if_pos hj, k2 j hj j1, hrow j j0 j1]
      · rw [if_neg hj, add_zero, k3 r j r0 r1 j0 j1
          (fun y y0 y1 h => by have h2 : j = y := h.2; omega), hrow j j0 j1])
  exact ⟨h.1, fun i j i0 i1 j0 j1 => h.2.1 i i0 i1 j j0 j1⟩

/-- The product stage of `OmMatInv`: the block it leaves is the product of the upper
triangle of `a` with the unit lower triangle whose entries below the diagonal are those of
`a`. -/
theorem matInvProd_spec (m : Int) (hm : 0 ≤ m) (a lu : List ℚ)
    (hl : lu.length = (m * m).toNat) :
    (matInvProd m a lu).length = (m * m).toNat ∧
    ∀ i j : Int, 0 ≤ i → i < m → 0 ≤ j → j < m →
      rd (matInvProd m a lu) (i * m + j)
        = (if i ≤ j then rd a (i * m + j) else 0) + ∑ k in Finset.range m.toNat,
            (if i ≤ (k : Int) ∧ j < (k : Int) then rd a (i * m + k) * rd a (k * m + j)
              else 0) := by
  unfold matInvProd
  dsimp only
  obtain ⟨a1, a2⟩ := prodInit_spec m a lu hl
  generalize forLoop 0 m (fun i lu =>
      forLoop i m (fun j lu => wr lu (i * m + j) (rd a (i * m + j)))
        (forLoop 0 i (fun j lu => wr lu (i * m + j) 0) lu)) lu = lu0 at a1 a2 ⊢
  obtain ⟨b1, b2⟩ := prodLow_spec m hm a lu0 a1
  generalize forLoop 1 m (fun i lu =>
      forLoop i m (fun k lu =>
        forLoop 0 i (fun j lu =>
          wr lu (i * m + j) (rd lu (i * m + j) + rd a (i * m + k) * rd a (k * m + j))) lu) lu)
      lu0 = lu2 at b1 b2 ⊢
  obtain ⟨c1, c2⟩ := prodUp_spec m a lu2 b1
  refine ⟨c1, fun i j i0 i1 j0 j1 => ?_⟩
  rw [c2 i j i0 i1 j0 j1, b2 i j i0 i1 j0 j1, a2 i j i0 i1 j0 j1]
  by_cases hij : i ≤ j
  · have h1 : ¬ j < i := by omega
    simp only [if_pos hij, if_neg h1, add_zero]
    congr 1
    apply Finset.sum_congr rfl
    intro k hk
    have hk1 : (k : Int) < m := by
      have := Finset.mem_range.mp hk
      omega
    by_cases h1 : j + 1 ≤ (k : Int)
    · rw [if_pos ⟨h1, hk1⟩, if_pos ⟨by omega, by omega⟩]
    · rw [if_neg (fun h => h1 h.1), if_neg (fun h => h1 (by omega))]
  · have h1 : j < i := by omega
    simp only [if_neg hij, if_pos h1, add_zero, zero_add]
    apply Finset.sum_congr rfl
    intro k hk
    have hk1 : (k : Int) < m := by
      have := Finset.mem_range.mp hk
      omega
    by_cases h1 : i ≤ (k : Int)
    · rw [if_pos ⟨h1, hk1⟩, if_pos ⟨h1, by omega⟩]
    · rw [if_neg (fun h => h1 h.1), if_neg (fun h => h1 h.1)]

/-- A sum with one extra term at the index `k0`. -/
theorem sum_add_single (n : Nat) (k0 : Int) (h0 : 0 ≤ k0) (h1 : k0 < n) (A : Nat → ℚ) (y : ℚ) :
    (∑ k in Finset.range n, (A k + if (k : Int) = k0 then y else 0))
      = (∑ k in Finset.range n, A k) + y := by
  rw [Finset.sum_add_distrib]
  congr 1
  have e : ∀ k ∈ Finset.range n,
      (if (k : Int) = k0 then y else 0) = if k = k0.toNat then y else 0 := by
    intro k _
    by_cases h : (k : Int) = k0
    · rw [if_pos h, if_pos (by omega)]
    · rw [if_neg h, if_neg (by omega)]
  rw [Finset.sum_congr rfl e, Finset.sum_ite_eq', if_pos (Finset.mem_range.mpr (by omega))]

/-- The sum of the negated terms. -/
theorem sum_ind_neg (n : Nat) (P : Nat → Prop) [DecidablePred P] (A : Nat → ℚ) :
    (∑ k in Finset.range n, if P k then -(A k) else 0)
      = -(∑ k in Finset.range n, if P k then A k else 0) := by
  rw [← Finset.sum_neg_distrib]
  apply Finset.sum_congr rfl
  intro k _
  by_cases h : P k
  · rw [if_pos h, if_pos h]
  · rw [if_neg h, if_neg h, neg_zero]

/-- The block `G` is the product of the two triangular factors that the LU stage leaves,
in the rows and columns before `n`, when the pivots before the last row are not zero. -/
theorem lu_product (m : Int) (G lu : List ℚ) (h : LURel m G lu m) (n : Nat) (hn : (n : Int) ≤ m)
    (r c : Int) (r0 : 0 ≤ r) (r1 : r < n) (c0 : 0 ≤ c) (c1 : c < n)
    (hpiv : c < r → rd lu (c * m + c) ≠ 0) :
    (∑ k in Finset.range n, lowerEntry m lu r k * upperEntry m lu k c) = rd G (r * m + c) := by
  obtain ⟨hU, hL, _⟩ := h
  have hm : ∀ k : Nat, 0 ≤ (k : Int) := fun k => by omega
  have widen : ∀ (x : Int) (A : Nat → ℚ), 0 ≤ x → x ≤ n →
      (∑ k in Finset.range m.toNat, if 0 ≤ (k : Int) ∧ (k : Int) < x then A k else 0)
        = ∑ k in Finset.range n, if 0 ≤ (k : Int) ∧ (k : Int) < x then A k else 0 := by
    intro x A x0 x1
    have hsub : Finset.range n ⊆ Finset.range m.toNat := by
      intro k hk
      have := Finset.mem_range.mp hk
      exact Finset.mem_range.mpr (by omega)
    symm
    apply Finset.sum_subset hsub
    intro k _ hk
    have : ¬ k < n := fun h => hk (Finset.mem_range.mpr h)
    rw [if_neg (by omega)]
  by_cases hrc : r ≤ c
  · have e : ∀ k ∈ Finset.range n, lowerEntry m lu r k * upperEntry m lu k c
        = (if 0 ≤ (k : Int) ∧ (k : Int) < r then rd lu (r * m + k) * rd lu (k * m + c) else 0)
          + (if (k : Int) = r then rd lu (r * m + c) else 0) := by
      intro k _
      unfold lowerEntry upperEntry
      by_cases h1 : (k : Int) < r
      · rw [if_pos h1, if_pos (by omega), if_pos ⟨hm k, h1⟩, if_neg (by omega), add_zero]
      · by_cases h2 : (k : Int) = r
        · rw [if_neg h1, if_pos h2.symm, if_pos (by omega), if_neg (by omega), if_pos h2, h2,
            one_mul, zero_add]
        · rw [if_neg h1, if_neg (fun h => h2 h.symm), zero_mul, if_neg (by omega), if_neg h2,
            add_zero]
    rw [Finset.sum_congr rfl e, sum_add_single n r r0 r1, hU r c r0 (by omega) hrc (by omega),
      sum_ind_neg, widen r _ r0 (by omega)]
    ring
  · have hcr : c < r := by omega
    have hp := hpiv hcr
    have e : ∀ k ∈ Finset.range n, lowerEntry m lu r k * upperEntry m lu k c
        = (if 0 ≤ (k : Int) ∧ (k : Int) < c then rd lu (r * m + k) * rd lu (k * m + c) else 0)
          + (if (k : Int) = c then rd lu (r * m + c) * rd lu (c * m + c) else 0) := by
      intro k _
      unfold lowerEntry upperEntry
      by_cases h1 : (k : Int) < c
      · rw [if_pos (by omega), if_pos (by omega), if_pos ⟨hm k, h1⟩, if_neg (by omega),
          add_zero]
      · by_cases h2 : (k : Int) = c
        · rw [if_pos (by omega), if_pos (by omega), if_neg (by omega), if_pos h2, h2,
            zero_add]
        · rw [if_neg (by omega : ¬ (k : Int) ≤ c), mul_zero, if_neg (by omega), if_neg h2,
            add_zero]
    rw [Finset.sum_congr rfl e, sum_add_single n c c0 c1, hL r c c0 (by omega) hcr (by omega),
      sum_ind_neg, widen c _ c0 (by omega)]
    field_simp

/-- The unit lower triangular factor times the lower part of the inversion stage is the
identity. -/
theorem lower_inverse (m : Int) (lu a1 : List ℚ)
    (h : ∀ c : Int, 0 ≤ c → c < m → TriCol m lu c a1) (r c : Int) (r0 : 0 ≤ r) (r1 : r < m)
    (c0 : 0 ≤ c) (c1 : c < m) :
    (∑ k in Finset.range m.toNat, lowerEntry m lu r k * lowerEntry m a1 k c)
      = if r = c then 1 else 0 := by
  obtain ⟨hL, _, _⟩ := h c c0 c1
  have e : ∀ k ∈ Finset.range m.toNat, lowerEntry m lu r k * lowerEntry m a1 k c
      = (if c ≤ (k : Int) ∧ (k : Int) < r then
          rd lu (r * m + k) * (if (k : Int) = c then 1 else rd a1 (k * m + c)) else 0)
        + (if (k : Int) = r then (if c < r then rd a1 (r * m + c) else if r = c then 1 else 0)
            else 0) := by
    intro k _
    unfold lowerEntry
    by_cases hk : (k : Int) = r
    · rw [hk]
      split_ifs <;> first | (exfalso; omega) | ring1
    · split_ifs <;> first | (exfalso; omega) | ring1
  rw [Finset.sum_congr rfl e, sum_add_single m.toNat r r0 (by omega)]
  by_cases hcr : c < r
  · rw [if_pos hcr, if_neg (by omega), hL r hcr r1, sum_ind_neg]
    ring
  · rw [if_neg hcr, Finset.sum_eq_zero, zero_add]
    intro k _
    rw [if_neg (by omega)]

/-- The upper triangular factor times the upper part of the inversion stage is the identity,
when the pivots are not zero. -/
theorem upper_inverse (m : Int) (lu a1 : List ℚ)
    (h : ∀ c : Int, 0 ≤ c → c < m → TriCol m lu c a1)
    (hpiv : ∀ i : Int, 0 ≤ i → i < m → rd lu (i * m + i) ≠ 0)
    (r c : Int) (r0 : 0 ≤ r) (r1 : r < m) (c0 : 0 ≤ c) (c1 : c < m) :
    (∑ k in Finset.range m.toNat, upperEntry m lu r k * upperEntry m a1 k c)
      = if r = c then 1 else 0 := by
  obtain ⟨_, hD, hU⟩ := h c c0 c1
  have hp := hpiv r r0 r1
  have e : ∀ k ∈ Finset.range m.toNat, upperEntry m lu r k * upperEntry m a1 k c
      = (if r + 1 ≤ (k : Int) ∧ (k : Int) < c + 1 then
          rd lu (r * m + k) * rd a1 (k * m + c) else 0)
        + (if (k : Int) = r then (if r ≤ c then rd lu (r * m + r) * rd a1 (r * m + c) else 0)
            else 0) := by
    intro k _
    unfold upperEntry
    by_cases hk : (k : Int) = r
    · rw [hk]
      split_ifs <;> first | (exfalso; omega) | ring1
    · split_ifs <;> first | (exfalso; omega) | ring1
  rw [Finset.sum_congr rfl e, sum_add_single m.toNat r r0 (by omega)]
  by_cases hrc : r = c
  · subst hrc
    rw [if_pos (le_refl r), if_pos rfl, hD, Finset.sum_eq_zero, zero_add]
    · field_simp
    · intro k _
      rw [if_neg (by omega)]
  · rw [if_neg hrc]
    by_cases hlt : r < c
    · rw [if_pos (le_of_lt hlt), hU r r0 hlt, sum_ind_neg]
      field_simp
      ring
    · rw [if_neg (by omega), Finset.sum_eq_zero, zero_add]
      intro k _
      rw [if_neg (by omega)]

/-- The product stage leaves the product of the upper part with the unit lower part of the
block of the inversion stage. -/
theorem prod_entries (m : Int) (a1 lu1 : List ℚ)
    (h : ∀ i j : Int, 0 ≤ i → i < m → 0 ≤ j → j < m →
      rd lu1 (i * m + j)
        = (if i ≤ j then rd a1 (i * m + j) else 0) + ∑ k in Finset.range m.toNat,
            (if i ≤ (k : Int) ∧ j < (k : Int) then rd a1 (i * m + k) * rd a1 (k * m + j)
              else 0))
    (r c : Int) (r0 : 0 ≤ r) (r1 : r < m) (c0 : 0 ≤ c) (c1 : c < m) :
    (∑ k in Finset.range m.toNat, upperEntry m a1 r k * lowerEntry m a1 k c)
      = rd lu1 (r * m + c) := by
  have e : ∀ k ∈ Finset.range m.toNat, upperEntry m a1 r k * lowerEntry m a1 k c
      = (if r ≤ (k : Int) ∧ c < (k : Int) then rd a1 (r * m + k) * rd a1 (k * m + c) else 0)
        + (if (k : Int) = c then (if r ≤ c then rd a1 (r * m + c) else 0) else 0) := by
    intro k _
    unfold upperEntry lowerEntry
    by_cases hk : (k : Int) = c
    · rw [hk]
      split_ifs <;> first | (exfalso; omega) | ring1
    · split_ifs <;> first | (exfalso; omega) | ring1
  rw [Finset.sum_congr rfl e, sum_add_single m.toNat c c0 (by omega), h r c r0 r1 c0 c1]
  ring

/-- The permutation of the row indices that a permute vector describes. -/
theorem IsPermVec_equiv (m : Int) (pm : List Int) (hp : IsPermVec m pm) :
    ∃ σ : Fin m.toNat ≃ Fin m.toNat, ∀ k : Fin m.toNat, ((σ k : Nat) : Int) = rd pm (k : Int) := by
  obtain ⟨_, hr, hi⟩ := hp
  have hb : ∀ k : Fin m.toNat, (rd pm (k : Int)).toNat < m.toNat := by
    intro k
    have hk := k.2
    obtain ⟨a0, a1⟩ := hr (k : Int) (by omega) (by omega)
    omega
  have hinj : Function.Injective (fun k : Fin m.toNat =>
      (⟨(rd pm (k : Int)).toNat, hb k⟩ : Fin m.toNat)) := by
    intro x y hxy
    have hx := x.2
    have hy := y.2
    obtain ⟨a0, a1⟩ := hr (x : Int) (by omega) (by omega)
    obtain ⟨b0, b1⟩ := hr (y : Int) (by omega) (by omega)
    have e : (rd pm (x : Int)).toNat = (rd pm (y : Int)).toNat := congrArg Fin.val hxy
    have e2 := hi (x : Int) (y : Int) (by omega) (by omega) (by omega) (by omega) (by omega)
    exact Fin.ext (by omega)
  refine ⟨Equiv.ofBijective _ (Finite.injective_iff_bijective.mp hinj), fun k => ?_⟩
  have hk := k.2
  obtain ⟨a0, a1⟩ := hr (k : Int) (by omega) (by omega)
  show (((rd pm (k : Int)).toNat : Nat) : Int) = rd pm (k : Int)
  omega

/-- Conditional correctness of the stages of `OmMatInv`: when every pivot `lu[i,i]` of the
decomposed copy is non-zero, the block left in place is the two-sided inverse. -/
theorem OmMatInv_inverse (m : Int) (hm : 0 ≤ m) (a : List ℚ) (ha : a.length = (m * m).toNat)
    (hpiv : ∀ i : Int, 0 ≤ i → i < m →
      rd (matInvLU m (matInvCopy m a (matInvPm m a))) (i * m + i) ≠ 0) :
    (OmMatInv m a).length = a.length ∧
    toMatrix m.toNat (OmMatInv m a) * toMatrix m.toNat a = 1 ∧
    toMatrix m.toNat a * toMatrix m.toNat (OmMatInv m a) = 1 := by
  have hcast : ((m.toNat : Nat) : Int) = m := by omega
  have hp : IsPermVec m (matInvPm m a) := (matInvPm_isPermVec m hm a).1
  obtain ⟨g1, g2⟩ := matInvCopy_spec m a (matInvPm m a)
  obtain ⟨l1, l2⟩ := matInvLU_spec m hm (matInvCopy m a (matInvPm m a)) g1
  obtain ⟨t1, t2⟩ := matInvTri_spec m hm (matInvLU m (matInvCopy m a (matInvPm m a))) a ha
  obtain ⟨p1, p2⟩ := matInvProd_spec m hm
    (matInvTri m (matInvLU m (matInvCopy m a (matInvPm m a))) a)
    (matInvLU m (matInvCopy m a (matInvPm m a))) l1
  obtain ⟨q1, q2⟩ := matInvPerm_spec m (matInvPm m a) hp
    (matInvProd m (matInvTri m (matInvLU m (matInvCopy m a (matInvPm m a))) a)
      (matInvLU m (matInvCopy m a (matInvPm m a))))
    (matInvTri m (matInvLU m (matInvCopy m a (matInvPm m a))) a) t1
  have hres : OmMatInv m a = matInvPerm m (matInvPm m a)
      (matInvProd m (matInvTri m (matInvLU m (matInvCopy m a (matInvPm m a))) a)
        (matInvLU m (matInvCopy m a (matInvPm m a))))
      (matInvTri m (matInvLU m (matInvCopy m a (matInvPm m a))) a) := rfl
  generalize matInvPm m a = pm at *
  generalize matInvCopy m a pm = G at *
  generalize matInvLU m G = lu at *
  generalize matInvTri m lu a = a1 at *
  generalize matInvProd m a1 lu = lu1 at *
  generalize matInvPerm m pm lu1 a1 = res at *
  rw [hres]
  have bnd : ∀ i : Fin m.toNat, 0 ≤ ((i : Nat) : Int) ∧ ((i : Nat) : Int) < m := by
    intro i
    have := i.2
    omega
  have hG : toMatrix m.toNat G = lowerUnit m lu * upperPart m lu := by
    ext i j
    rw [Matrix.mul_apply]
    unfold toMatrix lowerUnit upperPart
    rw [hcast, ← lu_product m G lu l2 m.toNat (by omega) i j (bnd i).1 (by have := i.2; omega)
      (bnd j).1 (by have := j.2; omega) (fun _ => hpiv j (bnd j).1 (bnd j).2),
      Finset.sum_range]
  have hLi : lowerUnit m lu * lowerUnit m a1 = 1 := by
    ext i j
    rw [Matrix.mul_apply, Matrix.one_apply]
    unfold lowerUnit
    rw [← Finset.sum_range (fun k : Nat => lowerEntry m lu i k * lowerEntry m a1 k j),
      lower_inverse m lu a1 t2 i j (bnd i).1 (bnd i).2 (bnd j).1 (bnd j).2]
    by_cases hij : i = j
    · rw [if_pos hij, if_pos (by rw [hij])]
    · rw [if_neg hij, if_neg (fun h => hij (Fin.ext (by omega)))]
  have hUi : upperPart m lu * upperPart m a1 = 1 := by
    ext i j
    rw [Matrix.mul_apply, Matrix.one_apply]
    unfold upperPart
    rw [← Finset.sum_range (fun k : Nat => upperEntry m lu i k * upperEntry m a1 k j),
      upper_inverse m lu a1 t2 hpiv i j (bnd i).1 (bnd i).2 (bnd j).1 (bnd j).2]
    by_cases hij : i = j
    · rw [if_pos hij, if_pos (by rw [hij])]
    · rw [if_neg hij, if_neg (fun h => hij (Fin.ext (by omega)))]
  have hP : toMatrix m.toNat lu1 = upperPart m a1 * lowerUnit m a1 := by
    ext i j
    rw [Matrix.mul_apply]
    unfold toMatrix upperPart lowerUnit
    rw [hcast, ← prod_entries m a1 lu1 p2 i j (bnd i).1 (bnd i).2 (bnd j).1 (bnd j).2,
      Finset.sum_range]
  have h1 : toMatrix m.toNat G * toMatrix m.toNat lu1 = 1 := by
    rw [hG, hP, Matrix.mul_assoc, ← Matrix.mul_assoc (upperPart m lu), hUi, Matrix.one_mul, hLi]
  have h2 : toMatrix m.toNat lu1 * toMatrix m.toNat G = 1 := Matrix.mul_eq_one_comm.mp h1
  obtain ⟨σ, hσ⟩ := IsPermVec_equiv m pm hp
  have h3 : toMatrix m.toNat res * toMatrix m.toNat a = 1 := by
    rw [← h2]
    ext i j
    rw [Matrix.mul_apply, Matrix.mul_apply,
      ← Equiv.sum_comp σ (fun k => toMatrix m.toNat res i k * toMatrix m.toNat a k j)]
    apply Finset.sum_congr rfl
    intro k _
    unfold toMatrix
    rw [hcast, hσ k, q2 i k (bnd i).1 (bnd i).2 (bnd k).1 (bnd k).2,
      g2 k j (bnd k).1 (bnd k).2 (bnd j).1 (bnd j).2]
  exact ⟨by rw [q1, ha], h3, Matrix.mul_eq_one_comm.mp h3⟩

/-- The leading principal minor of order `k` of the block the LU stage started from is the
product of the first `k` pivots, when the pivots before the last of them are not zero. -/
theorem leading_minor (m : Int) (hm : 0 ≤ m) (G : List ℚ) (hl : G.length = (m * m).toNat)
    (k : Nat) (hk : k ≤ m.toNat)
    (hpiv : ∀ c : Int, 0 ≤ c → c + 1 < k → rd (matInvLU m G) (c * m + c) ≠ 0) :
    ((toMatrix m.toNat G).submatrix (Fin.castLE hk) (Fin.castLE hk)).det
      = ∏ i : Fin k, rd (matInvLU m G) ((i : Int) * m + i) := by
  have hcast : ((m.toNat : Nat) : Int) = m := by omega
  obtain ⟨_, l2⟩ := matInvLU_spec m hm G hl
  generalize matInvLU m G = lu at *
  have bnd : ∀ i : Fin k, 0 ≤ ((i : Nat) : Int) ∧ ((i : Nat) : Int) < k := by
    intro i
    have := i.2
    omega
  have hG : (toMatrix m.toNat G).submatrix (Fin.castLE hk) (Fin.castLE hk)
      = (Matrix.of fun i j : Fin k => lowerEntry m lu i j)
        * (Matrix.of fun i j : Fin k => upperEntry m lu i j) := by
    ext i j
    rw [Matrix.mul_apply, Matrix.submatrix_apply]
    unfold toMatrix
    simp only [Matrix.of_apply, Fin.coe_castLE]
    rw [hcast, ← lu_product m G lu l2 k (by omega) i j (bnd i).1 (bnd i).2 (bnd j).1 (bnd j).2
      (fun h => hpiv j (bnd j).1 (by have := (bnd i).2; omega)), Finset.sum_range]
  have hL : (Matrix.of fun i j : Fin k => lowerEntry m lu i j).det = 1 := by
    rw [Matrix.det_of_lowerTriangular]
    · apply Finset.prod_eq_one
      intro i _
      simp [lowerEntry]
    · intro i j hij
      have h : (i : Nat) < (j : Nat) := hij
      simp only [Matrix.of_apply, lowerEntry]
      rw [if_neg (by omega), if_neg (by omega)]
  have hU : (Matrix.of fun i j : Fin k => upperEntry m lu i j).det
      = ∏ i : Fin k, rd lu ((i : Int) * m + i) := by
    rw [Matrix.det_of_upperTriangular]
    · apply Finset.prod_congr rfl
      intro i _
      simp [upperEntry]
    · intro i j hij
      have h : (j : Nat) < (i : Nat) := hij
      simp only [Matrix.of_apply, upperEntry]
      rw [if_neg (by omega)]
  rw [hG, Matrix.det_mul, hL, hU, one_mul]

/-- The pivots of the LU stage are all non-zero exactly when the leading principal minors of
the block it started from are all non-zero. -/
theorem pivots_iff_minors (m : Int) (hm : 0 ≤ m) (G : List ℚ)
    (hl : G.length = (m * m).toNat) :
    (∀ i : Int, 0 ≤ i → i < m → rd (matInvLU m G) (i * m + i) ≠ 0) ↔
    ∀ (k : Nat) (hk : k ≤ m.toNat),
      ((toMatrix m.toNat G).submatrix (Fin.castLE hk) (Fin.castLE hk)).det ≠ 0 := by
  constructor
  · intro hp k hk
    rw [leading_minor m hm G hl k hk (fun c c0 c1 => hp c c0 (by omega))]
    apply Finset.prod_ne_zero_iff.mpr
    intro i _
    have := i.2
    exact hp i (by omega) (by omega)
  · intro hmin
    have key : ∀ n : Nat, ∀ i : Int, 0 ≤ i → i < m → i < n →
        rd (matInvLU m G) (i * m + i) ≠ 0 := by
      intro n
      induction n with
      | zero =>
        intro i i0 _ h
        omega
      | succ n ih =>
        intro i i0 i1 h
        by_cases hlt : i < n
        · exact ih i i0 i1 hlt
        · have hin : i = n := by push_cast at h; omega
          have hk : n + 1 ≤ m.toNat := by omega
          have hd := hmin (n + 1) hk
          rw [leading_minor m hm G hl (n + 1) hk
            (fun c c0 c1 => ih c c0 (by push_cast at c1; omega) (by push_cast at c1; omega))]
            at hd
          have hf := Finset.prod_ne_zero_iff.mp hd (Fin.last n) (Finset.mem_univ _)
          simp only [Fin.val_last] at hf
          rw [hin]
          exact hf
    intro i i0 i1
    exact key (i.toNat + 1) i i0 i1 (by push_cast; omega)

/-- C32: conditional correctness of `OmMatInv` in exact arithmetic, for every `m ≥ 0` and every
`m`×`m` matrix `A`.  The diagonal entries `lu[i,i]` that the LU elimination of the
row-permuted copy produces are all non-zero exactly when all leading principal minors of
the permuted matrix are non-zero; and when they are, the matrix left in place is the
two-sided inverse of `A`. -/
theorem OmMatInv_conditional (m : Int) (hm : 0 ≤ m) (a : List ℚ)
    (ha : a.length = (m * m).toNat) :
    ((∀ i : Int, 0 ≤ i → i < m →
        rd (matInvLU m (matInvCopy m a (matInvPm m a))) (i * m + i) ≠ 0) ↔
      ∀ (k : Nat) (hk : k ≤ m.toNat),
        ((toMatrix m.toNat (matInvCopy m a (matInvPm m a))).submatrix
          (Fin.castLE hk) (Fin.castLE hk)).det ≠ 0) ∧
    ((∀ i : Int, 0 ≤ i → i < m →
        rd (matInvLU m (matInvCopy m a (matInvPm m a))) (i * m + i) ≠ 0) →
      (OmMatInv m a).length = a.length ∧
      toMatrix m.toNat (OmMatInv m a) * toMatrix m.toNat a = 1 ∧
      toMatrix m.toNat a * toMatrix m.toNat (OmMatInv m a) = 1) :=
  ⟨pivots_iff_minors m hm _ (matInvCopy_spec m a (matInvPm m a)).1,
    fun hpiv => OmMatInv_inverse m hm a ha hpiv⟩

theorem OmMatInv_conditional_witness :
    (0 : Int) ≤ 2 ∧ ([1, 2, 3, 4] : List ℚ).length = ((2 : Int) * 2).toNat ∧
    toMatrix (2 : Int).toNat (OmMatInv 2 [1, 2, 3, 4]) * toMatrix (2 : Int).toNat [1, 2, 3, 4]
      = 1 :=
  ⟨by decide, by decide,
    ((OmMatInv_conditional 2 (by decide) [1, 2, 3, 4] (by decide)).2 (by
      intro i i0 i1
      have h : i = 0 ∨ i = 1 := by omega
      rcases h with h | h <;> subst h <;> decide!)).2.1⟩

/-! ## Checked loops and checked linear algebra -/

theorem forUpC_some {σ : Type} (P : Nat → σ → Prop) (lo : Int) (fC : Int → σ → Option σ)
    (f : Int → σ → σ) (s : σ) (n : Nat) (h0 : P 0 s)
    (hs : ∀ (k : Nat) (t : σ), k < n → P k t →
      fC (lo + k) t = some (f (lo + k) t) ∧ P (k + 1) (f (lo + k) t)) :
    forUpC n lo fC s = some (forUp n lo f s) ∧ P n (forUp n lo f s) := by
  induction n with
  | zero => exact ⟨rfl, h0⟩
  | succ n ih =>
    obtain ⟨e, p⟩ := ih (fun k t hk hP => hs k t (Nat.lt_succ_of_lt hk) hP)
    obtain ⟨e2, p2⟩ := hs n _ (Nat.lt_succ_self n) p
    refine ⟨?_, p2⟩
    show (forUpC n lo fC s).bind (fC (lo + n)) = _
    rw [e]
    exact e2

theorem forLoopC_induct {σ : Type} (P : Int → σ → Prop) (lo hi : Int) (hle : lo ≤ hi)
    (fC : Int → σ → Option σ) (f : Int → σ → σ) (s : σ) (h0 : P lo s)
    (hs : ∀ (i : Int) (t : σ), lo ≤ i → i < hi → P i t →
      fC i t = some (f i t) ∧ P (i + 1) (f i t)) :
    forLoopC lo hi fC s = some (forLoop lo hi f s) ∧ P hi (forLoop lo hi f s) := by
  have h := forUpC_some (fun k t => P (lo + k) t) lo fC f s (hi - lo).toNat
    (by simpa using h0)
    (fun k t hk hP => by
      have := hs (lo + k) t (by omega) (by omega) hP
      have e : lo + ((k + 1 : Nat) : Int) = lo + k + 1 := by push_cast; ring
      dsimp only at hP ⊢
      rw [e]
      exact this)
  have e : lo + ((hi - lo).toNat : Int) = hi := by omega
  dsimp only at h
  rw [e] at h
  exact h

theorem forLoopC_keep {σ : Type} (P : σ → Prop) (lo hi : Int)
    (fC : Int → σ → Option σ) (f : Int → σ → σ) (s : σ) (h0 : P s)
    (hs : ∀ (i : Int) (t : σ), lo ≤ i → i < hi → P t → fC i t = some (f i t) ∧ P (f i t)) :
    forLoopC lo hi fC s = some (forLoop lo hi f s) ∧ P (forLoop lo hi f s) :=
  forUpC_some (fun _ t => P t) lo fC f s (hi - lo).toNat h0
    (fun k t hk hP => hs (lo + k) t (by omega) (by omega) hP)

theorem forDownC_some {σ : Type} (P : σ → Prop) (hi : Int) (fC : Int → σ → Option σ)
    (f : Int → σ → σ) (s : σ) (n : Nat) (h0 : P s)
    (hs : ∀ (k : Nat) (t : σ), k < n → P t →
      fC (hi - k) t = some (f (hi - k) t) ∧ P (f (hi - k) t)) :
    forDownC n hi fC s = some (forDown n hi f s) ∧ P (forDown n hi f s) := by
  induction n with
  | zero => exact ⟨rfl, h0⟩
  | succ n ih =>
    obtain ⟨e, p⟩ := ih (fun k t hk hP => hs k t (Nat.lt_succ_of_lt hk) hP)
    obtain ⟨e2, p2⟩ := hs n _ (Nat.lt_succ_self n) p
    refine ⟨?_, p2⟩
    show (forDownC n hi fC s).bind (fC (hi - n)) = _
    rw [e]
    exact e2

theorem forDownLoopC_keep {σ : Type} (P : σ → Prop) (hi lo : Int)
    (fC : Int → σ → Option σ) (f : Int → σ → σ) (s : σ) (h0 : P s)
    (hs : ∀ (i : Int) (t : σ), lo ≤ i → i ≤ hi → P t → fC i t = some (f i t) ∧ P (f i t)) :
    forDownLoopC hi lo fC s = some (forDownLoop hi lo f s) ∧ P (forDownLoop hi lo f s) :=
  forDownC_some P hi fC f s (hi - lo + 1).toNat h0
    (fun k t hk hP => hs (hi - k) t (by omega) (by omega) hP)

theorem inB_lin (m i : Int) (h0 : 0 ≤ i) (h1 : i < m) : InB m.toNat i := by
  unfold InB
  omega

theorem inB_flat (r c i j : Int) (i0 : 0 ≤ i) (i1 : i < r) (j0 : 0 ≤ j) (j1 : j < c) :
    InB (r * c).toNat (i * c + j) := by
  unfold InB
  have h1 : 0 ≤ i * c := mul_nonneg i0 (by omega)
  have h2 : (i + 1) * c ≤ r * c := mul_le_mul_of_nonneg_right (by omega) (by omega)
  have h3 : (i + 1) * c = i * c + c := by ring
  omega

theorem OmVecAddC_some (m : Int) (z x y : List ℚ) (hz : z.length = m.toNat)
    (hx : x.length = m.toNat) (hy : y.length = m.toNat) :
    OmVecAddC m z x y = some (OmVecAdd m z x y) ∧ (OmVecAdd m z x y).length = m.toNat := by
  unfold OmVecAddC OmVecAdd
  refine forLoopC_keep (fun (t : List ℚ) => t.length = m.toNat) 0 m _ _ z hz ?_
  intro i t i0 i1 ht
  have hi := inB_lin m i i0 i1
  simp only [rdC, wrC, hx, hy, ht, hi, if_true, Option.bind_eq_bind, Option.some_bind,
    length_wr, and_self]

theorem OmMatMulC_some (m : Int) (c a b : List ℚ) (hc : c.length = (m * m).toNat)
    (ha : a.length = (m * m).toNat) (hb : b.length = (m * m).toNat) :
    OmMatMulC m c a b = some (OmMatMul m c a b) ∧
    (OmMatMul m c a b).length = (m * m).toNat := by
  unfold OmMatMulC OmMatMul
  have h0 := forLoopC_keep (fun (t : List ℚ) => t.length = (m * m).toNat) 0 m
    (fun i c => forLoopC 0 m (fun j c => wrC c (i * m + j) 0) c)
    (fun i c => forLoop 0 m (fun j c => wr c (i * m + j) 0) c) c hc
    (fun i t i0 i1 ht => forLoopC_keep (fun (t : List ℚ) => t.length = (m * m).toNat) 0 m _ _ t ht
      (fun j u j0 j1 hu => by
        have hij := inB_flat m m i j i0 i1 j0 j1
        simp only [wrC, hu, hij, if_true, length_wr, and_self]))
  rw [h0.1]
  simp only [Option.bind_eq_bind, Option.some_bind]
  refine forLoopC_keep (fun (t : List ℚ) => t.length = (m * m).toNat) 0 m _ _ _ h0.2 ?_
  intro i t i0 i1 ht
  refine forLoopC_keep (fun (t : List ℚ) => t.length = (m * m).toNat) 0 m _ _ _ ht ?_
  intro k u k0 k1 hu
  have hik := inB_flat m m i k i0 i1 k0 k1
  simp only [rdC, ha, hik, if_true, Option.bind_eq_bind, Option.some_bind]
  refine forLoopC_keep (fun (t : List ℚ) => t.length = (m * m).toNat) 0 m _ _ _ hu ?_
  intro j v j0 j1 hv
  have hij := inB_flat m m i j i0 i1 j0 j1
  have hkj := inB_flat m m k j k0 k1 j0 j1
  simp only [rdC, wrC, hb, hv, hij, hkj, if_true, Option.bind_eq_bind, Option.some_bind,
    length_wr, and_self]

theorem rd_OMMALLOC {α : Type} [Zero α] (n k : Int) : rd (OMMALLOC n : List α) k = 0 := by
  unfold rd OMMALLOC
  split_ifs
  · rfl
  · simp [List.getD_eq_getElem?_getD, List.getElem?_replicate]
    split_ifs <;> rfl

theorem PmRange_wr (m : Int) (pm : List Int) (p v : Int) (hv0 : 0 ≤ v) (hv1 : v < m)
    (h : PmRange m pm) : PmRange m (wr pm p v) := by
  refine ⟨by rw [length_wr]; exact h.1, fun k k0 k1 => ?_⟩
  rw [rd_wr]
  split_ifs
  · exact ⟨hv0, hv1⟩
  · exact h.2 k k0 k1

theorem matInvPmC_some (m : Int) (a : List ℚ) (ha : a.length = (m * m).toNat) :
    matInvPmC m a = some (matInvPm m a) ∧ PmRange m (matInvPm m a) := by
  unfold matInvPmC matInvPm
  have h0 := forLoopC_keep (PmRange m) 0 m (fun i pm => wrC pm i i) (fun i pm => wr pm i i)
    (OMMALLOC m)
    ⟨length_OMMALLOC m, fun k k0 k1 => by rw [rd_OMMALLOC]; omega⟩
    (fun i t i0 i1 ht => by
      have hi := inB_lin m i i0 i1
      simp only [wrC, ht.1, hi, if_true, true_and]
      exact PmRange_wr m t i i i0 i1 ht)
  rw [h0.1]
  simp only [Option.bind_eq_bind, Option.some_bind]
  refine forLoopC_keep (PmRange m) 0 m _ _ _ h0.2 ?_
  intro j t j0 j1 ht
  have h1 := forLoopC_keep (fun (st : ℚ × List Int) => PmRange m st.2) j m
    (fun i (st : ℚ × List Int) =>
      (rdC st.2 i).bind fun pmi => (rdC a (pmi * m + j)).bind fun aij =>
        if OMABS aij > st.1 then
          (rdC st.2 j).bind fun tmp => (rdC st.2 i).bind fun pmi =>
            (wrC st.2 j pmi).bind fun pm1 => (wrC pm1 i tmp).bind fun pm2 =>
              some (OMABS aij, pm2)
        else some (st.1, st.2))
    (fun i (st : ℚ × List Int) =>
      let mv := st.1
      let pm := st.2
      let cv := OMABS (rd a (rd pm i * m + j))
      if cv > mv then
        let tmp := rd pm j
        let pm1 := wr pm j (rd pm i)
        (cv, wr pm1 i tmp)
      else (mv, pm)) ((0 : ℚ), t) ht
    (fun i st i0 i1 hst => by
      have hi := inB_lin m i (by omega) i1
      have hj := inB_lin m j j0 j1
      obtain ⟨r0, r1⟩ := hst.2 i (by omega) i1
      obtain ⟨q0, q1⟩ := hst.2 j j0 j1
      have hij := inB_flat m m (rd st.2 i) j r0 r1 j0 j1
      simp only [rdC, hst.1, hi, ha, hij, if_true, Option.some_bind]
      by_cases hc : OMABS (rd a (rd st.2 i * m + j)) > st.1
      · simp only [hc, if_true, hj, wrC, hst.1, length_wr, hi, Option.some_bind, true_and]
        exact PmRange_wr m _ _ _ q0 q1 (PmRange_wr m _ _ _ r0 r1 hst)
      · simp only [hc, if_false, true_and]
        exact hst)
  refine ⟨?_, h1.2⟩
  exact (congrArg (fun o => Option.bind o (fun st => some st.2)) h1.1)

theorem matInvCopyC_some (m : Int) (a : List ℚ) (pm : List Int)
    (ha : a.length = (m * m).toNat) (hp : PmRange m pm) :
    matInvCopyC m a pm = some (matInvCopy m a pm) ∧
    (matInvCopy m a pm).length = (m * m).toNat := by
  unfold matInvCopyC matInvCopy
  refine forLoopC_keep (fun (t : List ℚ) => t.length = (m * m).toNat) 0 m _ _ _
    (length_OMMALLOC _) ?_
  intro i t i0 i1 ht
  refine forLoopC_keep (fun (t : List ℚ) => t.length = (m * m).toNat) 0 m _ _ _ ht ?_
  intro j u j0 j1 hu
  obtain ⟨r0, r1⟩ := hp.2 i i0 i1
  have hi := inB_lin m i i0 i1
  have hij := inB_flat m m i j i0 i1 j0 j1
  have hpj := inB_flat m m (rd pm i) j r0 r1 j0 j1
  simp only [rdC, wrC, hp.1, ha, hu, hi, hij, hpj, if_true, Option.bind_eq_bind,
    Option.some_bind, length_wr, and_self]

theorem matInvPermC_some (m : Int) (pm : List Int) (lu a : List ℚ)
    (hl : lu.length = (m * m).toNat) (ha : a.length = (m * m).toNat) (hp : PmRange m pm) :
    matInvPermC m pm lu a = some (matInvPerm m pm lu a) ∧
    (matInvPerm m pm lu a).length = (m * m).toNat := by
  unfold matInvPermC matInvPerm
  refine forLoopC_keep (fun (t : List ℚ) => t.length = (m * m).toNat) 0 m _ _ _ ha ?_
  intro i t i0 i1 ht
  refine forLoopC_keep (fun (t : List ℚ) => t.length = (m * m).toNat) 0 m _ _ _ ht ?_
  intro j u j0 j1 hu
  obtain ⟨r0, r1⟩ := hp.2 j j0 j1
  have hj := inB_lin m j j0 j1
  have hij := inB_flat m m i j i0 i1 j0 j1
  have hpj := inB_flat m m i (rd pm j) i0 i1 r0 r1
  simp only [rdC, wrC, hp.1, hl, hu, hj, hij, hpj, if_true, Option.bind_eq_bind,
    Option.some_bind, length_wr, and_self]

theorem bind_some_of {α β : Type} (Q : α → Prop) (P : β → Prop) (x : Option α)
    (g : α → Option β) (v : α) (w : β) (hx : x = some v ∧ Q v)
    (hg : Q v → g v = some w ∧ P w) : x.bind g = some w ∧ P w := by
  rw [hx.1]
  exact hg hx.2

theorem rdC_some {α : Type} [Zero α] (a : List α) (i : Int) (h : InB a.length i) :
    rdC a i = some (rd a i) := by
  unfold rdC
  rw [if_pos h]

theorem matInvLUC_some (m : Int) (lu : List ℚ) (hl : lu.length = (m * m).toNat) :
    matInvLUC m lu = some (matInvLU m lu) ∧ (matInvLU m lu).length = (m * m).toNat := by
  unfold matInvLUC matInvLU
  refine forLoopC_keep (fun (t : List ℚ) => t.length = (m * m).toNat) 0 m _ _ _ hl ?_
  intro i t i0 i1 ht
  refine bind_some_of (fun (t : List ℚ) => t.length = (m * m).toNat)
      (fun (t : List ℚ) => t.length = (m * m).toNat) _ _ _ _
    (forLoopC_keep (fun (t : List ℚ) => t.length = (m * m).toNat) i m _ _ _ ht ?a)
    (fun h1 => forLoopC_keep (fun (t : List ℚ) => t.length = (m * m).toNat) (i + 1) m _ _ _ h1 ?b)
  case b =>
    intro k u k0 k1 hu
    refine bind_some_of (fun (t : List ℚ) => t.length = (m * m).toNat)
      (fun (t : List ℚ) => t.length = (m * m).toNat) _ _
      (forLoop 0 i (fun j lu =>
        wr lu (k * m + i) (rd lu (k * m + i) - rd lu (k * m + j) * rd lu (j * m + i))) u) _
      (forLoopC_keep (fun (t : List ℚ) => t.length = (m * m).toNat) 0 i _ _ _ hu ?c)
      (fun h2 => ?d)
    case d =>
      have hki := inB_flat m m k i (by omega) k1 i0 i1
      have hii := inB_flat m m i i i0 i1 i0 i1
      simp only [rdC, wrC, h2, hki, hii, if_true, Option.bind_eq_bind,
        Option.some_bind, length_wr, and_self]
    case c =>
      intro j v j0 j1 hv
      have hki := inB_flat m m k i (by omega) k1 i0 i1
      have hkj := inB_flat m m k j (by omega) k1 j0 (by omega)
      have hji := inB_flat m m j i j0 (by omega) i0 i1
      simp only [rdC, wrC, hv, hki, hkj, hji, if_true, Option.bind_eq_bind,
        Option.some_bind, length_wr, and_self]
  case a =>
    intro j u j0 j1 hu
    refine forLoopC_keep (fun (t : List ℚ) => t.length = (m * m).toNat) 0 i _ _ _ hu ?_
    intro k v k0 k1 hv
    have hij := inB_flat m m i j i0 i1 (by omega) j1
    have hik := inB_flat m m i k i0 i1 k0 (by omega)
    have hkj := inB_flat m m k j k0 (by omega) (by omega) j1
    simp only [rdC, wrC, hv, hij, hik, hkj, if_true, Option.bind_eq_bind,
      Option.some_bind, length_wr, and_self]

theorem fill2C_some (m : Int) (a : List ℚ) (ha : a.length = (m * m).toNat) :
    forLoopC 0 m (fun i a => forLoopC 0 m (fun j a => wrC a (i * m + j) 0) a) a
      = some (forLoop 0 m (fun i a => forLoop 0 m (fun j a => wr a (i * m + j) 0) a) a) ∧
    (forLoop 0 m (fun i a => forLoop 0 m (fun j a => wr a (i * m + j) 0) a) a).length
      = (m * m).toNat := by
  refine forLoopC_keep (fun (t : List ℚ) => t.length = (m * m).toNat) 0 m _ _ _ ha ?_
  intro i t i0 i1 ht
  refine forLoopC_keep (fun (t : List ℚ) => t.length = (m * m).toNat) 0 m _ _ _ ht ?_
  intro j u j0 j1 hu
  have hij := inB_flat m m i j i0 i1 j0 j1
  simp only [wrC, hu, hij, if_true, length_wr, and_self]

theorem matInvTriC_some (m : Int) (lu a : List ℚ) (hl : lu.length = (m * m).toNat)
    (ha : a.length = (m * m).toNat) :
    matInvTriC m lu a = some (matInvTri m lu a) ∧ (matInvTri m lu a).length = (m * m).toNat := by
  unfold matInvTriC matInvTri
  refine bind_some_of (fun (t : List ℚ) => t.length = (m * m).toNat)
    (fun (t : List ℚ) => t.length = (m * m).toNat) _ _ _ _ (fill2C_some m a ha)
    (fun h0 => forLoopC_keep (fun (t : List ℚ) => t.length = (m * m).toNat) 0 m _ _ _ h0 ?_)
  intro i t i0 i1 ht
  have hii := inB_flat m m i i i0 i1 i0 i1
  simp only [wrC, ht, hii, if_true, Option.bind_eq_bind, Option.some_bind]
  refine bind_some_of (fun (t : List ℚ) => t.length = (m * m).toNat)
    (fun (t : List ℚ) => t.length = (m * m).toNat) _ _
    (forLoop (i + 1) m (fun k a =>
      forLoop i k (fun j a =>
        wr a (k * m + i) (rd a (k * m + i) - rd lu (k * m + j) * rd a (j * m + i))) a)
      (wr t (i * m + i) 1)) _
    (forLoopC_keep (fun (t : List ℚ) => t.length = (m * m).toNat) (i + 1) m _ _ _
      ((length_wr _ _ _).trans ht) ?a)
    (fun h2 => ?b)
  case a =>
    intro k u k0 k1 hu
    refine forLoopC_keep (fun (t : List ℚ) => t.length = (m * m).toNat) i k _ _ _ hu ?_
    intro j v j0 j1 hv
    have hki := inB_flat m m k i (by omega) k1 i0 i1
    have hkj := inB_flat m m k j (by omega) k1 (by omega) (by omega)
    have hji := inB_flat m m j i (by omega) (by omega) i0 i1
    simp only [rdC, wrC, hv, hl, hki, hkj, hji, if_true, Option.bind_eq_bind,
      Option.some_bind, length_wr, and_self]
  case b =>
    simp only [rdC, hl, hii, h2, if_true, Option.some_bind]
    refine forDownLoopC_keep (fun (t : List ℚ) => t.length = (m * m).toNat) (i - 1) 0 _ _ _
      ((length_wr _ _ _).trans h2) ?_
    intro k u k0 k1 hu
    refine bind_some_of (fun (t : List ℚ) => t.length = (m * m).toNat)
      (fun (t : List ℚ) => t.length = (m * m).toNat) _ _
      (forLoop (k + 1) (i + 1) (fun j a =>
        wr a (k * m + i) (rd a (k * m + i) - rd lu (k * m + j) * rd a (j * m + i))) u) _
      (forLoopC_keep (fun (t : List ℚ) => t.length = (m * m).toNat) (k + 1) (i + 1) _ _ _
        hu ?c)
      (fun h4 => ?d)
    case c =>
      intro j v j0 j1 hv
      have hki := inB_flat m m k i k0 (by omega) i0 i1
      have hkj := inB_flat m m k j k0 (by omega) (by omega) (by omega)
      have hji := inB_flat m m j i (by omega) (by omega) i0 i1
      simp only [rdC, wrC, hv, hl, hki, hkj, hji, if_true, Option.bind_eq_bind,
        Option.some_bind, length_wr, and_self]
    case d =>
      have hki := inB_flat m m k i k0 (by omega) i0 i1
      have hkk := inB_flat m m k k k0 (by omega) k0 (by omega)
      simp only [rdC, wrC, h4, hl, hki, hkk, if_true, Option.bind_eq_bind,
        Option.some_bind, length_wr, and_self]

theorem matInvProdC_some (m : Int) (a lu : List ℚ) (ha : a.length = (m * m).toNat)
    (hl : lu.length = (m * m).toNat) :
    matInvProdC m a lu = some (matInvProd m a lu) ∧
    (matInvProd m a lu).length = (m * m).toNat := by
  unfold matInvProdC matInvProd
  refine bind_some_of (fun (t : List ℚ) => t.length = (m * m).toNat)
    (fun (t : List ℚ) => t.length = (m * m).toNat) _ _ _ _
    (forLoopC_keep (fun (t : List ℚ) => t.length = (m * m).toNat) 0 m _ _ _ hl ?a)
    (fun h0 => bind_some_of (fun (t : List ℚ) => t.length = (m * m).toNat)
      (fun (t : List ℚ) => t.length = (m * m).toNat) _ _ _ _
      (forLoopC_keep (fun (t : List ℚ) => t.length = (m * m).toNat) 1 m _ _ _ h0 ?b)
      (fun h1 =>
        forLoopC_keep (fun (t : List ℚ) => t.length = (m * m).toNat) 0 m _ _ _ h1 ?c))
  case c =>
    intro i t i0 i1 ht
    refine forLoopC_keep (fun (t : List ℚ) => t.length = (m * m).toNat) i m _ _ _ ht ?_
    intro j u j0 j1 hu
    refine forLoopC_keep (fun (t : List ℚ) => t.length = (m * m).toNat) (j + 1) m _ _ _ hu ?_
    intro k v k0 k1 hv
    have hij := inB_flat m m i j i0 i1 (by omega) j1
    have hik := inB_flat m m i k i0 i1 (by omega) k1
    have hkj := inB_flat m m k j (by omega) k1 (by omega) j1
    simp only [rdC, wrC, hv, ha, hij, hik, hkj, if_true, Option.bind_eq_bind,
      Option.some_bind, length_wr, and_self]
  case b =>
    intro i t i0 i1 ht
    refine forLoopC_keep (fun (t : List ℚ) => t.length = (m * m).toNat) i m _ _ _ ht ?_
    intro k u k0 k1 hu
    refine forLoopC_keep (fun (t : List ℚ) => t.length = (m * m).toNat) 0 i _ _ _ hu ?_
    intro j v j0 j1 hv
    have hij := inB_flat m m i j (by omega) i1 j0 (by omega)
    have hik := inB_flat m m i k (by omega) i1 (by omega) k1
    have hkj := inB_flat m m k j (by omega) k1 j0 (by omega)
    simp only [rdC, wrC, hv, ha, hij, hik, hkj, if_true, Option.bind_eq_bind,
      Option.some_bind, length_wr, and_self]
  case a =>
    intro i t i0 i1 ht
    refine bind_some_of (fun (t : List ℚ) => t.length = (m * m).toNat)
      (fun (t : List ℚ) => t.length = (m * m).toNat) _ _ _ _
      (forLoopC_keep (fun (t : List ℚ) => t.length = (m * m).toNat) 0 i _ _ _ ht ?e)
      (fun h2 =>
        forLoopC_keep (fun (t : List ℚ) => t.length = (m * m).toNat) i m _ _ _ h2 ?f)
    case f =>
      intro j u j0 j1 hu
      have hij := inB_flat m m i j i0 i1 (by omega) j1
      simp only [rdC, wrC, hu, ha, hij, if_true, Option.bind_eq_bind,
        Option.some_bind, length_wr, and_self]
    case e =>
      intro j u j0 j1 hu
      have hij := inB_flat m m i j i0 i1 j0 (by omega)
      simp only [wrC, hu, hij, if_true, length_wr, and_self]

theorem OmMatInvC_some (m : Int) (a : List ℚ) (ha : a.length = (m * m).toNat) :
    OmMatInvC m a = some (OmMatInv m a) ∧ (OmMatInv m a).length = (m * m).toNat := by
  unfold OmMatInvC OmMatInv
  obtain ⟨e1, p1⟩ := matInvPmC_some m a ha
  obtain ⟨e2, p2⟩ := matInvCopyC_some m a (matInvPm m a) ha p1
  obtain ⟨e3, p3⟩ := matInvLUC_some m (matInvCopy m a (matInvPm m a)) p2
  obtain ⟨e4, p4⟩ := matInvTriC_some m _ a p3 ha
  obtain ⟨e5, p5⟩ := matInvProdC_some m _ _ p4 p3
  obtain ⟨e6, p6⟩ := matInvPermC_some m (matInvPm m a) _ _ p5 p4 p1
  simp only [e1, e2, e3, e4, e5, Option.bind_eq_bind, Option.some_bind]
  exact ⟨e6, p6⟩

/-! ## The checked stages of `OmStamp` -/

theorem fillC_some {α : Type} [Zero α] (N : Int) (v : α) (a : List α)
    (ha : a.length = N.toNat) :
    forLoopC 0 N (fun i a => wrC a i v) a = some (forLoop 0 N (fun i a => wr a i v) a) ∧
    (forLoop 0 N (fun i a => wr a i v) a).length = N.toNat := by
  refine forLoopC_keep (fun (t : List α) => t.length = N.toNat) 0 N _ _ _ ha ?_
  intro i t i0 i1 ht
  have hi := inB_lin N i i0 i1
  simp only [wrC, ht, hi, if_true, length_wr, and_self]

theorem incrC_some (a : List ℚ) (N : Nat) (p : Int) (k : ℚ) (hl : a.length = N)
    (h : InB N p) : incrC a p k = some (incr a p k) ∧ (incr a p k).length = N := by
  simp only [incrC, incr, rdC, wrC, hl, h, if_true, Option.bind_eq_bind, Option.some_bind,
    length_wr, and_self]

theorem decrC_some (a : List ℚ) (N : Nat) (p : Int) (k : ℚ) (hl : a.length = N)
    (h : InB N p) : decrC a p k = some (decr a p k) ∧ (decr a p k).length = N := by
  simp only [decrC, decr, rdC, wrC, hl, h, if_true, Option.bind_eq_bind, Option.some_bind,
    length_wr, and_self]

theorem gupdC_some {α : Type} (g : Prop) [Decidable g] (P : α → Prop) (xC : Option α)
    (x a : α) (hl : P a) (h : g → xC = some x ∧ P x) :
    (if g then xC else some a) = some (if g then x else a) ∧ P (if g then x else a) := by
  by_cases hg : g
  · rw [if_pos hg, if_pos hg]
    exact h hg
  · rw [if_neg hg, if_neg hg]
    exact ⟨rfl, hl⟩

theorem stampPnC_some (cr : OmCir) (hs : Setup cr) (hw : Wired cr) :
    stampPnC cr = some (stampPn cr) ∧
    (stampPn cr).length = ((cr.numN + cr.numX) * (cr.numN + cr.numX)).toNat := by
  obtain ⟨hb, hm, lbn1, lbn2, lmn1, lmn2, lpa, lpb, lbtm, llut, lw1c, lw2c, lw1o, lw2o,
    lqa0, lqs0⟩ := hs
  unfold stampPnC stampPn
  dsimp only
  refine bind_some_of
    (fun (t : List ℚ) => t.length = ((cr.numN + cr.numX) * (cr.numN + cr.numX)).toNat)
    (fun (t : List ℚ) => t.length = ((cr.numN + cr.numX) * (cr.numN + cr.numX)).toNat)
    _ _ _ _ (fillC_some _ _ _ (length_OMMALLOC _))
    (fun h0 => forLoopC_keep
      (fun (t : List ℚ) => t.length = ((cr.numN + cr.numX) * (cr.numN + cr.numX)).toNat)
      0 cr.numB _ _ _ h0 ?_)
  intro i t i0 i1 ht
  obtain ⟨wi1, wi2, wi3⟩ := Wired_at cr hw i i0 i1
  have hi := inB_lin cr.numB i i0 i1
  simp only [rdC, llut, lbn1, lbn2, hi, if_true, Option.bind_eq_bind, Option.some_bind]
  by_cases hil : rd cr.vecLut i > 0
  · simp only [hil, if_true]
    refine forLoopC_keep
      (fun (t : List ℚ) => t.length = ((cr.numN + cr.numX) * (cr.numN + cr.numX)).toNat)
      0 cr.numB _ _ _ ht ?_
    intro j u j0 j1 hu
    obtain ⟨wj1, wj2, wj3⟩ := Wired_at cr hw j j0 j1
    have hj := inB_lin cr.numB j j0 j1
    have hij := inB_flat cr.numB cr.numB i j i0 i1 j0 j1
    simp only [rdC, llut, lbn1, lbn2, lpb, hj, hij, if_true, Option.bind_eq_bind,
      Option.some_bind]
    by_cases hjl : rd cr.vecLut j > 0
    · simp only [hjl, if_true]
      refine bind_some_of (fun (t : List ℚ) => t.length = ((cr.numN + cr.numX) * (cr.numN + cr.numX)).toNat) (fun (t : List ℚ) => t.length = ((cr.numN + cr.numX) * (cr.numN + cr.numX)).toNat) _ _ _ _
        (gupdC_some _ (fun (t : List ℚ) => t.length = ((cr.numN + cr.numX) * (cr.numN + cr.numX)).toNat) _ _ _ hu (fun (hg : _ ∧ _) => incrC_some _ _ _ _ hu
          (inB_flat _ _ _ _ hg.1 wi1 hg.2 wj1))) (fun h1 => ?_)
      refine bind_some_of (fun (t : List ℚ) => t.length = ((cr.numN + cr.numX) * (cr.numN + cr.numX)).toNat) (fun (t : List ℚ) => t.length = ((cr.numN + cr.numX) * (cr.numN + cr.numX)).toNat) _ _ _ _
        (gupdC_some _ (fun (t : List ℚ) => t.length = ((cr.numN + cr.numX) * (cr.numN + cr.numX)).toNat) _ _ _ h1 (fun (hg : _ ∧ _) => decrC_some _ _ _ _ h1
          (inB_flat _ _ _ _ hg.1 wi1 hg.2 wj2))) (fun h1 => ?_)
      refine bind_some_of (fun (t : List ℚ) => t.length = ((cr.numN + cr.numX) * (cr.numN + cr.numX)).toNat) (fun (t : List ℚ) => t.length = ((cr.numN + cr.numX) * (cr.numN + cr.numX)).toNat) _ _ _ _
        (gupdC_some _ (fun (t : List ℚ) => t.length = ((cr.numN + cr.numX) * (cr.numN + cr.numX)).toNat) _ _ _ h1 (fun (hg : _ ∧ _) => decrC_some _ _ _ _ h1
          (inB_flat _ _ _ _ hg.1 wi2 hg.2 wj1))) (fun h1 => ?_)
      exact gupdC_some _ (fun (t : List ℚ) => t.length = ((cr.numN + cr.numX) * (cr.numN + cr.numX)).toNat) _ _ _ h1 (fun (hg : _ ∧ _) => incrC_some _ _ _ _ h1
        (inB_flat _ _ _ _ hg.1 wi2 hg.2 wj2))
    · simp only [hjl, if_false]
      obtain ⟨x0, x1⟩ := wj3 hjl
      refine bind_some_of (fun (t : List ℚ) => t.length = ((cr.numN + cr.numX) * (cr.numN + cr.numX)).toNat) (fun (t : List ℚ) => t.length = ((cr.numN + cr.numX) * (cr.numN + cr.numX)).toNat) _ _ _ _
        (gupdC_some _ (fun (t : List ℚ) => t.length = ((cr.numN + cr.numX) * (cr.numN + cr.numX)).toNat) _ _ _ hu (fun hg => incrC_some _ _ _ _ hu
          (inB_flat _ _ _ _ hg wi1 x0 x1))) (fun h1 => ?_)
      exact gupdC_some _ (fun (t : List ℚ) => t.length = ((cr.numN + cr.numX) * (cr.numN + cr.numX)).toNat) _ _ _ h1 (fun hg => decrC_some _ _ _ _ h1
        (inB_flat _ _ _ _ hg wi2 x0 x1))
  · simp only [hil, if_false]
    obtain ⟨y0, y1⟩ := wi3 hil
    refine bind_some_of (fun (t : List ℚ) => t.length = ((cr.numN + cr.numX) * (cr.numN + cr.numX)).toNat) (fun (t : List ℚ) => t.length = ((cr.numN + cr.numX) * (cr.numN + cr.numX)).toNat) _ _ _ _
      (gupdC_some _ (fun (t : List ℚ) => t.length = ((cr.numN + cr.numX) * (cr.numN + cr.numX)).toNat) _ _ _ ht (fun hg => incrC_some _ _ _ _ ht
        (inB_flat _ _ _ _ hg wi1 y0 y1))) (fun h1 => ?_)
    refine bind_some_of (fun (t : List ℚ) => t.length = ((cr.numN + cr.numX) * (cr.numN + cr.numX)).toNat) (fun (t : List ℚ) => t.length = ((cr.numN + cr.numX) * (cr.numN + cr.numX)).toNat) _ _ _ _
      (gupdC_some _ (fun (t : List ℚ) => t.length = ((cr.numN + cr.numX) * (cr.numN + cr.numX)).toNat) _ _ _ h1 (fun hg => incrC_some _ _ _ _ h1
        (inB_flat _ _ _ _ y0 y1 hg wi1))) (fun h1 => ?_)
    refine bind_some_of (fun (t : List ℚ) => t.length = ((cr.numN + cr.numX) * (cr.numN + cr.numX)).toNat) (fun (t : List ℚ) => t.length = ((cr.numN + cr.numX) * (cr.numN + cr.numX)).toNat) _ _ _ _
      (gupdC_some _ (fun (t : List ℚ) => t.length = ((cr.numN + cr.numX) * (cr.numN + cr.numX)).toNat) _ _ _ h1 (fun hg => decrC_some _ _ _ _ h1
        (inB_flat _ _ _ _ hg wi2 y0 y1))) (fun h1 => ?_)
    refine bind_some_of (fun (t : List ℚ) => t.length = ((cr.numN + cr.numX) * (cr.numN + cr.numX)).toNat) (fun (t : List ℚ) => t.length = ((cr.numN + cr.numX) * (cr.numN + cr.numX)).toNat) _ _ _ _
      (gupdC_some _ (fun (t : List ℚ) => t.length = ((cr.numN + cr.numX) * (cr.numN + cr.numX)).toNat) _ _ _ h1 (fun hg => decrC_some _ _ _ _ h1
        (inB_flat _ _ _ _ y0 y1 hg wi2))) (fun h1 => ?_)
    refine forLoopC_keep (fun (t : List ℚ) => t.length = ((cr.numN + cr.numX) * (cr.numN + cr.numX)).toNat) 0 cr.numB _ _ _ h1 ?_
    intro j u j0 j1 hu
    obtain ⟨wj1, wj2, wj3⟩ := Wired_at cr hw j j0 j1
    have hj := inB_lin cr.numB j j0 j1
    have hij := inB_flat cr.numB cr.numB i j i0 i1 j0 j1
    simp only [rdC, llut, lbn1, lbn2, lpb, hj, hij, if_true, Option.bind_eq_bind,
      Option.some_bind]
    by_cases hjl : rd cr.vecLut j > 0
    · simp only [hjl, if_true]
      refine bind_some_of (fun (t : List ℚ) => t.length = ((cr.numN + cr.numX) * (cr.numN + cr.numX)).toNat) (fun (t : List ℚ) => t.length = ((cr.numN + cr.numX) * (cr.numN + cr.numX)).toNat) _ _ _ _
        (gupdC_some _ (fun (t : List ℚ) => t.length = ((cr.numN + cr.numX) * (cr.numN + cr.numX)).toNat) _ _ _ hu (fun hg => decrC_some _ _ _ _ hu
          (inB_flat _ _ _ _ y0 y1 hg wj1))) (fun h1 => ?_)
      exact gupdC_some _ (fun (t : List ℚ) => t.length = ((cr.numN + cr.numX) * (cr.numN + cr.numX)).toNat) _ _ _ h1 (fun hg => incrC_some _ _ _ _ h1
        (inB_flat _ _ _ _ y0 y1 hg wj2))
    · simp only [hjl, if_false]
      obtain ⟨x0, x1⟩ := wj3 hjl
      exact decrC_some _ _ _ _ hu (inB_flat _ _ _ _ y0 y1 x0 x1)

theorem rowAddC_some (b : Int) (src : List ℚ) (r i : Int) (dst : List ℚ) (R M : Int)
    (hsrc : src.length = (R * b).toNat) (hdst : dst.length = (M * b).toNat)
    (r0 : 0 ≤ r) (r1 : r < R) (i0 : 0 ≤ i) (i1 : i < M) :
    rowAddC b src r i dst
      = some (forLoop 0 b (fun j dst => incr dst (i * b + j) (rd src (r * b + j))) dst) ∧
    (forLoop 0 b (fun j dst => incr dst (i * b + j) (rd src (r * b + j))) dst).length
      = (M * b).toNat := by
  unfold rowAddC
  refine forLoopC_keep (fun (t : List ℚ) => t.length = (M * b).toNat) 0 b _ _ _ hdst ?_
  intro j t j0 j1 ht
  have h1 := inB_flat R b r j r0 r1 j0 j1
  have h2 := inB_flat M b i j i0 i1 j0 j1
  simp only [rdC, hsrc, h1, if_true, Option.bind_eq_bind, Option.some_bind]
  exact incrC_some _ _ _ _ ht h2

theorem rowSubC_some (b : Int) (src : List ℚ) (r i : Int) (dst : List ℚ) (R M : Int)
    (hsrc : src.length = (R * b).toNat) (hdst : dst.length = (M * b).toNat)
    (r0 : 0 ≤ r) (r1 : r < R) (i0 : 0 ≤ i) (i1 : i < M) :
    rowSubC b src r i dst
      = some (forLoop 0 b (fun j dst => decr dst (i * b + j) (rd src (r * b + j))) dst) ∧
    (forLoop 0 b (fun j dst => decr dst (i * b + j) (rd src (r * b + j))) dst).length
      = (M * b).toNat := by
  unfold rowSubC
  refine forLoopC_keep (fun (t : List ℚ) => t.length = (M * b).toNat) 0 b _ _ _ hdst ?_
  intro j t j0 j1 ht
  have h1 := inB_flat R b r j r0 r1 j0 j1
  have h2 := inB_flat M b i j i0 i1 j0 j1
  simp only [rdC, hsrc, h1, if_true, Option.bind_eq_bind, Option.some_bind]
  exact decrC_some _ _ _ _ ht h2

theorem stampPtpC_some (cr : OmCir) (hs : Setup cr) (hw : Wired cr) (matPn : List ℚ)
    (hp : matPn.length = ((cr.numN + cr.numX) * (cr.numN + cr.numX)).toNat) :
    stampPtpC cr matPn = some (stampPtp cr matPn) ∧
    (stampPtp cr matPn).length = ((cr.numN + cr.numX) * cr.numB).toNat := by
  obtain ⟨hb, hm, lbn1, lbn2, lmn1, lmn2, lpa, lpb, lbtm, llut, lw1c, lw2c, lw1o, lw2o,
    lqa0, lqs0⟩ := hs
  unfold stampPtpC stampPtp
  dsimp only
  refine bind_some_of
    (fun (t : List ℚ) => t.length = ((cr.numN + cr.numX) * cr.numB).toNat)
    (fun (t : List ℚ) => t.length = ((cr.numN + cr.numX) * cr.numB).toNat)
    _ _ _ _ (fillC_some _ _ _ (length_OMMALLOC _))
    (fun h0 => forLoopC_keep
      (fun (t : List ℚ) => t.length = ((cr.numN + cr.numX) * cr.numB).toNat)
      0 (cr.numN + cr.numX) _ _ _ h0 ?_)
  intro i t i0 i1 ht
  refine forLoopC_keep
    (fun (t : List ℚ) => t.length = ((cr.numN + cr.numX) * cr.numB).toNat)
    0 cr.numB _ _ _ ht ?_
  intro j u j0 j1 hu
  obtain ⟨wj1, wj2, wj3⟩ := Wired_at cr hw j j0 j1
  have hj := inB_lin cr.numB j j0 j1
  have hij := inB_flat (cr.numN + cr.numX) cr.numB i j i0 i1 j0 j1
  simp only [rdC, llut, lbn1, lbn2, hj, if_true, Option.bind_eq_bind, Option.some_bind]
  by_cases hjl : rd cr.vecLut j > 0
  · simp only [hjl, if_true]
    refine bind_some_of
      (fun (t : List ℚ) => t.length = ((cr.numN + cr.numX) * cr.numB).toNat)
      (fun (t : List ℚ) => t.length = ((cr.numN + cr.numX) * cr.numB).toNat) _ _ _ _
      (gupdC_some _ (fun (t : List ℚ) => t.length = ((cr.numN + cr.numX) * cr.numB).toNat)
        _ _ _ hu (fun hg => by
          have h1 := inB_flat (cr.numN + cr.numX) (cr.numN + cr.numX) i (rd cr.vecBn1 j)
            i0 i1 hg wj1
          simp only [rdC, hp, h1, if_true, Option.some_bind]
          exact decrC_some _ _ _ _ hu hij)) (fun h1 => ?_)
    exact gupdC_some _ (fun (t : List ℚ) => t.length = ((cr.numN + cr.numX) * cr.numB).toNat)
        _ _ _ h1 (fun hg => by
          have h2 := inB_flat (cr.numN + cr.numX) (cr.numN + cr.numX) i (rd cr.vecBn2 j)
            i0 i1 hg wj2
          simp only [rdC, hp, h2, if_true, Option.some_bind]
          exact incrC_some _ _ _ _ h1 hij)
  · simp only [hjl, if_false]
    obtain ⟨x0, x1⟩ := wj3 hjl
    have h1 := inB_flat (cr.numN + cr.numX) (cr.numN + cr.numX) i (cr.numN - rd cr.vecLut j)
      i0 i1 x0 x1
    simp only [rdC, hp, h1, if_true, Option.some_bind]
    exact incrC_some _ _ _ _ hu hij

theorem stampTtpC_some (cr : OmCir) (hs : Setup cr) (hw : Wired cr) (matPtp : List ℚ)
    (hp : matPtp.length = ((cr.numN + cr.numX) * cr.numB).toNat) :
    stampTtpC cr matPtp = some (stampTtp cr matPtp) ∧
    (stampTtp cr matPtp).length = (cr.numB * cr.numB).toNat := by
  obtain ⟨hb, hm, lbn1, lbn2, lmn1, lmn2, lpa, lpb, lbtm, llut, lw1c, lw2c, lw1o, lw2o,
    lqa0, lqs0⟩ := hs
  unfold stampTtpC stampTtp
  dsimp only
  refine bind_some_of
    (fun (t : List ℚ) => t.length = (cr.numB * cr.numB).toNat)
    (fun (t : List ℚ) => t.length = (cr.numB * cr.numB).toNat)
    _ _ _ _ (fillC_some _ _ _ (length_OMMALLOC _))
    (fun h0 => forLoopC_keep
      (fun (t : List ℚ) => t.length = (cr.numB * cr.numB).toNat) 0 cr.numB _ _ _ h0 ?_)
  intro i t i0 i1 ht
  obtain ⟨wi1, wi2, wi3⟩ := Wired_at cr hw i i0 i1
  have hi := inB_lin cr.numB i i0 i1
  simp only [rdC, llut, lbn1, lbn2, hi, if_true, Option.bind_eq_bind, Option.some_bind]
  by_cases hil : rd cr.vecLut i > 0
  · simp only [hil, if_true]
    refine bind_some_of
      (fun (t : List ℚ) => t.length = (cr.numB * cr.numB).toNat)
      (fun (t : List ℚ) => t.length = (cr.numB * cr.numB).toNat) _ _ _ _
      (gupdC_some _ (fun (t : List ℚ) => t.length = (cr.numB * cr.numB).toNat)
        _ _ _ ht (fun hg => rowAddC_some cr.numB matPtp _ i t _ cr.numB hp ht hg wi1 i0 i1))
      (fun h1 => ?_)
    exact gupdC_some _ (fun (t : List ℚ) => t.length = (cr.numB * cr.numB).toNat)
        _ _ _ h1 (fun hg => rowSubC_some cr.numB matPtp _ i _ _ cr.numB hp h1 hg wi2 i0 i1)
  · simp only [hil, if_false]
    obtain ⟨y0, y1⟩ := wi3 hil
    exact rowAddC_some cr.numB matPtp _ i t _ cr.numB hp ht y0 y1 i0 i1

theorem stampCtpC_some (cr : OmCir) (hs : Setup cr) (matTtp : List ℚ)
    (ht : matTtp.length = (cr.numB * cr.numB).toNat) :
    stampCtpC cr matTtp = some (stampCtp cr matTtp) ∧
    (stampCtp cr matTtp).length = (cr.numB * cr.numB).toNat := by
  obtain ⟨hb, hm, lbn1, lbn2, lmn1, lmn2, lpa, lpb, lbtm, llut, lw1c, lw2c, lw1o, lw2o,
    lqa0, lqs0⟩ := hs
  unfold stampCtpC stampCtp
  exact OmMatMulC_some cr.numB _ _ _ (length_OMMALLOC _) lpa ht

theorem stampRtpC_some (cr : OmCir) (hs : Setup cr) (matTtp : List ℚ)
    (ht : matTtp.length = (cr.numB * cr.numB).toNat) :
    stampRtpC cr matTtp = some (stampRtp cr matTtp) ∧
    (stampRtp cr matTtp).length = (cr.numB * cr.numB).toNat := by
  obtain ⟨hb, hm, lbn1, lbn2, lmn1, lmn2, lpa, lpb, lbtm, llut, lw1c, lw2c, lw1o, lw2o,
    lqa0, lqs0⟩ := hs
  unfold stampRtpC stampRtp
  dsimp only
  refine bind_some_of
    (fun (t : List ℚ) => t.length = (cr.numB * cr.numB).toNat)
    (fun (t : List ℚ) => t.length = (cr.numB * cr.numB).toNat)
    _ _ _ _ (OmMatMulC_some cr.numB _ _ _ (length_OMMALLOC _) lpb ht)
    (fun h0 => forLoopC_keep
      (fun (t : List ℚ) => t.length = (cr.numB * cr.numB).toNat) 0 cr.numB _ _ _ h0 ?_)
  intro i t i0 i1 ht
  exact incrC_some _ _ _ _ ht (inB_flat _ _ _ _ i0 i1 i0 i1)

theorem stampDtpC_some (cr : OmCir) (hs : Setup cr) (hw : Wired cr) (hmt : Metered cr)
    (matPtp matRtp : List ℚ)
    (hp : matPtp.length = ((cr.numN + cr.numX) * cr.numB).toNat)
    (hr : matRtp.length = (cr.numB * cr.numB).toNat) :
    stampDtpC cr matPtp matRtp = some (stampDtp cr matPtp matRtp) ∧
    (stampDtp cr matPtp matRtp).length = (cr.numM * cr.numB).toNat := by
  obtain ⟨hb, hm, lbn1, lbn2, lmn1, lmn2, lpa, lpb, lbtm, llut, lw1c, lw2c, lw1o, lw2o,
    lqa0, lqs0⟩ := hs
  have hx : 0 ≤ cr.numX := hw.2.1
  unfold stampDtpC stampDtp
  dsimp only
  refine bind_some_of
    (fun (t : List ℚ) => t.length = (cr.numM * cr.numB).toNat)
    (fun (t : List ℚ) => t.length = (cr.numM * cr.numB).toNat)
    _ _ _ _ (fillC_some _ _ _ (length_OMMALLOC _))
    (fun h0 => forLoopC_keep
      (fun (t : List ℚ) => t.length = (cr.numM * cr.numB).toNat) 0 cr.numM _ _ _ h0 ?_)
  intro i t i0 i1 ht
  obtain ⟨ma, mv⟩ := hmt i i0 i1
  have hi := inB_lin cr.numM i i0 i1
  simp only [rdC, lmn1, lmn2, hi, if_true, Option.bind_eq_bind, Option.some_bind]
  by_cases ham : rd cr.vecMn2 i < -1
  · simp only [ham, if_true]
    obtain ⟨a0, a1⟩ := ma ham
    obtain ⟨_, _, wa3⟩ := Wired_at cr hw _ a0 a1
    have hk := inB_lin cr.numB _ a0 a1
    simp only [llut, hk, if_true, Option.some_bind]
    by_cases hil : rd cr.vecLut (rd cr.vecMn1 i) > 0
    · simp only [hil, if_true]
      exact rowAddC_some cr.numB matRtp _ i t cr.numB cr.numM hr ht a0 a1 i0 i1
    · simp only [hil, if_false]
      obtain ⟨y0, y1⟩ := wa3 hil
      exact rowAddC_some cr.numB matPtp _ i t _ cr.numM hp ht y0 y1 i0 i1
  · simp only [ham, if_false]
    obtain ⟨v1, v2⟩ := mv ham
    refine bind_some_of
      (fun (t : List ℚ) => t.length = (cr.numM * cr.numB).toNat)
      (fun (t : List ℚ) => t.length = (cr.numM * cr.numB).toNat) _ _ _ _
      (gupdC_some _ (fun (t : List ℚ) => t.length = (cr.numM * cr.numB).toNat)
        _ _ _ ht (fun hg => rowAddC_some cr.numB matPtp _ i t _ cr.numM hp ht hg
          (by omega) i0 i1))
      (fun h1 => ?_)
    exact gupdC_some _ (fun (t : List ℚ) => t.length = (cr.numM * cr.numB).toNat)
        _ _ _ h1 (fun hg => rowSubC_some cr.numB matPtp _ i _ _ cr.numM hp h1 hg
          (by omega) i0 i1)

theorem stampCutC_some (cr : OmCir) (hs : Setup cr) :
    stampCutC cr = some (stampCut cr) := by
  obtain ⟨hb, hm, lbn1, lbn2, lmn1, lmn2, lpa, lpb, lbtm, llut, lw1c, lw2c, lw1o, lw2o,
    lqa0, lqs0⟩ := hs
  unfold stampCutC stampCut
  refine (forLoopC_keep (fun (st : List Int × Int) => st.1.length = cr.numB.toNat)
    0 cr.numB _ _ _ llut ?_).1
  intro i st i0 i1 hst
  have hi := inB_lin cr.numB i i0 i1
  simp only [rdC, wrC, lbtm, hst, hi, if_true, Option.bind_eq_bind, Option.some_bind,
    Option.map_some']
  split_ifs <;> simp only [length_wr, hst, and_self]

theorem cutRowC_some (btm : List Int) (b c : Int) (vecLut : List Int) (src : List ℚ)
    (M R i r : Int) (dst : List ℚ) (hb : 0 ≤ b)
    (hl : vecLut.length = b.toNat) (hsrc : src.length = (R * b).toNat)
    (hlut : ∀ k : Int, 0 ≤ k → k < b →
      rd vecLut k = if isCut btm k then -1 else keptBefore btm k)
    (hc : c = keptBefore btm b) (hdst : dst.length = (M * c).toNat)
    (i0 : 0 ≤ i) (i1 : i < M) (r0 : 0 ≤ r) (r1 : r < R) :
    forLoopC 0 b (fun j (st : List ℚ × Int) =>
      (rdC vecLut j).bind fun jlut =>
        if jlut < 0 then some (st.1, st.2)
        else (rdC src (r * b + j)).bind fun v =>
          (wrC st.1 (i * c + st.2) v).bind fun matD => some (matD, st.2 + 1)) (dst, 0)
      = some (forLoop 0 b (fun j (st : List ℚ × Int) =>
        if rd vecLut j < 0 then (st.1, st.2)
        else (wr st.1 (i * c + st.2) (rd src (r * b + j)), st.2 + 1)) (dst, 0)) ∧
    (forLoop 0 b (fun j (st : List ℚ × Int) =>
        if rd vecLut j < 0 then (st.1, st.2)
        else (wr st.1 (i * c + st.2) (rd src (r * b + j)), st.2 + 1)) (dst, 0)).1.length
      = (M * c).toNat := by
  have h := forLoopC_induct
    (fun (j : Int) (st : List ℚ × Int) =>
      st.1.length = (M * c).toNat ∧ st.2 = keptBefore btm j) 0 b hb
    (fun j (st : List ℚ × Int) =>
      (rdC vecLut j).bind fun jlut =>
        if jlut < 0 then some (st.1, st.2)
        else (rdC src (r * b + j)).bind fun v =>
          (wrC st.1 (i * c + st.2) v).bind fun matD => some (matD, st.2 + 1))
    (fun j (st : List ℚ × Int) =>
        if rd vecLut j < 0 then (st.1, st.2)
        else (wr st.1 (i * c + st.2) (rd src (r * b + j)), st.2 + 1)) (dst, 0)
    ⟨hdst, (keptBefore_zero btm).symm⟩
    (fun j st j0 j1 hst => by
      have hj := inB_lin b j j0 j1
      have hv := hlut j j0 j1
      simp only [rdC, hl, hj, if_true, Option.some_bind]
      rw [keptBefore_succ btm j j0]
      by_cases hcut : isCut btm j
      · rw [if_pos hcut] at hv
        have hneg : rd vecLut j < 0 := by omega
        simp only [hneg, if_true, hcut]
        exact ⟨trivial, hst⟩
      · rw [if_neg hcut] at hv
        have hk0 := keptBefore_nonneg btm j j0
        have hk1 := keptBefore_lt btm j b j0 j1 hcut
        have hneg : ¬ rd vecLut j < 0 := by omega
        have hrj := inB_flat R b r j r0 r1 j0 j1
        have hij := inB_flat M c i (keptBefore btm j) i0 i1 (by omega) (by omega)
        simp only [hneg, if_false, hcut, hsrc, hrj, if_true, Option.some_bind, wrC, hst.1,
          hij, length_wr, hst.2, and_self])
  exact ⟨h.1, h.2.1⟩

theorem stampDC_some (btm : List Int) (m b c : Int) (vecLut : List Int) (matDtp : List ℚ)
    (hb : 0 ≤ b) (hl : vecLut.length = b.toNat) (hd : matDtp.length = (m * b).toNat)
    (hlut : ∀ k : Int, 0 ≤ k → k < b →
      rd vecLut k = if isCut btm k then -1 else keptBefore btm k)
    (hc : c = keptBefore btm b) :
    stampDC m b c vecLut matDtp = some (stampD m b c vecLut matDtp) := by
  unfold stampDC stampD
  refine (forLoopC_keep (fun (t : List ℚ) => t.length = (m * c).toNat) 0 m _ _ _
    (length_OMMALLOC _) ?_).1
  intro i t i0 i1 ht
  obtain ⟨e, l⟩ := cutRowC_some btm b c vecLut matDtp m m i i t hb hl hd hlut hc ht
    i0 i1 i0 i1
  exact ⟨congrArg (Option.map Prod.fst) e, l⟩

theorem stampCC_some (btm : List Int) (b c : Int) (vecLut : List Int) (matCtp : List ℚ)
    (hb : 0 ≤ b) (hl : vecLut.length = b.toNat) (hd : matCtp.length = (b * b).toNat)
    (hlut : ∀ k : Int, 0 ≤ k → k < b →
      rd vecLut k = if isCut btm k then -1 else keptBefore btm k)
    (hc : c = keptBefore btm b) :
    stampCC b c vecLut matCtp = some (stampC b c vecLut matCtp) := by
  unfold stampCC stampC
  have h := forLoopC_induct
    (fun (i : Int) (st : List ℚ × Int) =>
      st.1.length = (c * c).toNat ∧ st.2 = keptBefore btm i) 0 b hb
    (fun i (st : List ℚ × Int) =>
      (rdC vecLut i).bind fun ilut =>
        if ilut < 0 then some (st.1, st.2)
        else (forLoopC 0 b (fun j (s2 : List ℚ × Int) =>
          (rdC vecLut j).bind fun jlut =>
            if jlut < 0 then some (s2.1, s2.2)
            else (rdC matCtp (i * b + j)).bind fun v =>
              (wrC s2.1 (st.2 * c + s2.2) v).bind fun matC => some (matC, s2.2 + 1))
          (st.1, 0)).bind fun st2 => some (st2.1, st.2 + 1))
    (fun i (st : List ℚ × Int) =>
      if rd vecLut i < 0 then (st.1, st.2)
      else
        ((forLoop 0 b (fun j (s2 : List ℚ × Int) =>
          if rd vecLut j < 0 then (s2.1, s2.2)
          else (wr s2.1 (st.2 * c + s2.2) (rd matCtp (i * b + j)), s2.2 + 1)) (st.1, 0)).1,
          st.2 + 1))
    (OMMALLOC (c * c), 0) ⟨length_OMMALLOC _, (keptBefore_zero btm).symm⟩
    (fun i st i0 i1 hst => by
      have hi := inB_lin b i i0 i1
      have hv := hlut i i0 i1
      have hri : rdC vecLut i = some (rd vecLut i) := rdC_some _ _ (by rw [hl]; exact hi)
      simp only [hri, Option.some_bind]
      rw [keptBefore_succ btm i i0]
      by_cases hcut : isCut btm i
      · rw [if_pos hcut] at hv
        have hneg : rd vecLut i < 0 := by omega
        simp only [hneg, if_true, hcut]
        exact ⟨trivial, hst⟩
      · rw [if_neg hcut] at hv
        have hk0 := keptBefore_nonneg btm i i0
        have hk1 := keptBefore_lt btm i b i0 i1 hcut
        have hneg : ¬ rd vecLut i < 0 := by omega
        obtain ⟨e, l⟩ := cutRowC_some btm b c vecLut matCtp c b st.2 i st.1 hb hl hd hlut
          hc hst.1 (by omega) (by omega) i0 i1
        simp only [hneg, if_false, hcut]
        refine ⟨?_, l, by rw [hst.2]⟩
        exact congrArg (fun o => Option.bind o
          (fun (st2 : List ℚ × Int) => some (st2.1, st.2 + 1))) e)
  exact congrArg (Option.map Prod.fst) h.1

theorem resetLoopC_some (cr0 cr : OmCir) (hs : Setup cr0) (hr : RunInv cr0 cr) :
    resetLoopC cr = some (resetLoop cr) ∧ RunInv cr0 (resetLoop cr) := by
  unfold resetLoopC resetLoop
  refine forLoopC_keep (fun t => RunInv cr0 t) 0 cr.numB _ _ cr hr ?_
  intro i t i0 i1 ht
  have hB : t.numB = cr.numB := ht.2.1.trans hr.2.1.symm
  have st := ht.1
  unfold Stamped at st
  obtain ⟨hb, hm, hc, lbtm, llut, lw1c, lw2c, lw1o, lw2o, lqa0, lqs0, lC, lD, lw1m, lw2m,
    lw1s, lw2s, lqa, lqs, lqtp, lxm, lxc⟩ := st
  have hi := inB_lin t.numB i i0 (by omega)
  simp only [rdC, llut, lbtm, hi, if_true, Option.bind_eq_bind, Option.some_bind]
  by_cases hneg : rd t.vecLut i < 0
  · simp only [hneg, if_true, true_and]
    exact ht
  · have hcut : ¬ isCut t.vecBtm i := fun hc => by
      have := runInv_lut_cut cr0 t hs ht i i0 (by omega) hc
      omega
    obtain ⟨k0, k1⟩ := runInv_lut_kept cr0 t hs ht i i0 (by omega) hcut
    have hk := inB_lin t.numC _ k0 k1
    simp only [hneg, if_false, wrC, lw1o, lw2o, lqa0, lqs0, lw1m, lw2m, lqa, lqs, lw1s,
      lw2s, hi, hk, if_true, Option.some_bind]
    by_cases hsw : OMABS (rd t.vecBtm i) = OMTYP_SW
    · simp only [hsw, if_true, true_and]
      exact RunInv_of_SameShape cr0 t _ ht (by simp [SameShape, length_wr])
    · simp only [hsw, if_false, true_and]
      exact RunInv_of_SameShape cr0 t _ ht (by simp [SameShape, length_wr])

/-- Function `OmReset` stays inside its blocks in every state that keeps the sizes and the
lookup table of `OmStamp cr0`. -/
theorem OmResetC_some (cr0 cr : OmCir) (hs : Setup cr0) (hr : RunInv cr0 cr) :
    OmResetC cr = some (OmReset cr) := by
  obtain ⟨e, p⟩ := resetLoopC_some cr0 cr hs hr
  have hC : (resetLoop cr).numC = cr.numC := (SameShape_resetLoop cr).2.2.1
  have st := p.1
  unfold Stamped at st
  obtain ⟨hb, hm, hc, lbtm, llut, lw1c, lw2c, lw1o, lw2o, lqa0, lqs0, lC, lD, lw1m, lw2m,
    lw1s, lw2s, lqa, lqs, lqtp, lxm, lxc⟩ := st
  rw [hC] at lqa lqs lqtp
  obtain ⟨e2, _⟩ := OmVecAddC_some cr.numC _ _ _ lqtp lqa lqs
  unfold OmResetC OmReset
  simp only [e, e2, Option.bind_eq_bind, Option.some_bind]

theorem stampFinishC_some (cr : OmCir) (hs : Setup cr) (hw : Wired cr) (hmt : Metered cr)
    (matPn : List ℚ)
    (hp : matPn.length = ((cr.numN + cr.numX) * (cr.numN + cr.numX)).toNat) :
    stampFinishC cr matPn = some (stampFinish cr matPn) := by
  obtain ⟨e1, l1⟩ := stampPtpC_some cr hs hw matPn hp
  obtain ⟨e2, l2⟩ := stampTtpC_some cr hs hw _ l1
  obtain ⟨e3, l3⟩ := stampCtpC_some cr hs _ l2
  obtain ⟨e4, l4⟩ := stampRtpC_some cr hs _ l2
  obtain ⟨e5, l5⟩ := stampDtpC_some cr hs hw hmt _ _ l1 l4
  have e6 := stampCutC_some cr hs
  obtain ⟨c1, c2, c3⟩ := stampCut_spec cr hs.1 (setup_lut cr hs)
  have e7 := stampCC_some cr.vecBtm cr.numB (stampCut cr).2 (stampCut cr).1 _ hs.1 c1 l3 c3 c2
  have e8 := stampDC_some cr.vecBtm cr.numM cr.numB (stampCut cr).2 (stampCut cr).1 _ hs.1 c1
    l5 c3 c2
  have hc0 : 0 ≤ (stampCut cr).2 := by
    rw [c2]
    exact keptBefore_nonneg _ _ hs.1
  have hs2 := hs
  unfold Setup at hs2
  obtain ⟨hb, hm, _, _, _, _, _, _, hbtm, hlut, h1c, h2c, h1o, h2o, hqa, hqs⟩ := hs2
  unfold stampFinishC stampFinish
  simp only [e1, e2, e3, e4, e5, e6, e7, e8, Option.bind_eq_bind, Option.some_bind]
  refine OmResetC_some cr _ hs ⟨?_, rfl, rfl, rfl, rfl⟩
  unfold Stamped
  exact ⟨hb, hm, hc0, hbtm, c1, h1c, h2c, h1o, h2o, hqa, hqs, stampC_length _ _ _ _,
    stampD_length _ _ _ _ _, length_OMMALLOC _, length_OMMALLOC _, length_OMMALLOC _,
    length_OMMALLOC _, length_OMMALLOC _, length_OMMALLOC _, length_OMMALLOC _,
    length_OMMALLOC _, length_OMMALLOC _⟩

/-- In a circuit with the allocated block sizes, wired branches and configured meters, no
load or store of `OmStamp` (with `OmMatInv`, `OmMatMul`, `OmReset`, `OmVecAdd`) leaves its
block. -/
theorem OmStampC_some (cr : OmCir) (hs : Setup cr) (hw : Wired cr) (hmt : Metered cr) :
    OmStampC cr = some (OmStamp cr) := by
  obtain ⟨e1, l1⟩ := stampPnC_some cr hs hw
  obtain ⟨e2, l2⟩ := OmMatInvC_some (cr.numN + cr.numX) (stampPn cr) l1
  have e3 := stampFinishC_some cr hs hw hmt _ l2
  unfold OmStampC OmStamp
  simp only [e1, e2, Option.bind_eq_bind, Option.some_bind]
  exact e3

/-! ## What the setup calls keep -/

theorem Wired_iff (cr : OmCir) :
    Wired cr ↔ 0 ≤ cr.numN ∧ 0 ≤ cr.numX ∧
      ∀ i : Int, 0 ≤ i → i < cr.numB →
        rd cr.vecBn1 i < cr.numN ∧ rd cr.vecBn2 i < cr.numN ∧
        (rd cr.vecLut i ≤ 0 → -rd cr.vecLut i < cr.numX) := by
  unfold Wired
  constructor
  · rintro ⟨h1, h2, h3⟩
    refine ⟨h1, h2, fun i i0 i1 => ?_⟩
    have h := h3 i.toNat (List.mem_range.mpr (by omega))
    have e : ((i.toNat : Nat) : Int) = i := by omega
    rw [e] at h
    exact h
  · rintro ⟨h1, h2, h3⟩
    refine ⟨h1, h2, fun i hi => ?_⟩
    have := List.mem_range.mp hi
    exact h3 i (by omega) (by omega)

theorem BuiltInv_of_SameWiring (n b m : Int) (cr t : OmCir) (h : BuiltInv n b m cr)
    (hs : SameWiring cr t) : BuiltInv n b m t := by
  obtain ⟨a1, a2, a3, a4, a5, a6, a7, a8, a9, a10, a11, a12, a13, a14, a15, a16, a17, a18⟩ :=
    hs
  obtain ⟨h1, h2, h3, h4, h5, h6⟩ := h
  refine ⟨a1.trans h1, a2.trans h2, a3.trans h3, ?_, ?_, ?_⟩
  · unfold Setup at h4 ⊢
    rw [a2, a3, a5, a6, a7, a8, a9, a10, a11, a12, a13, a14, a15, a16, a17, a18]
    exact h4
  · unfold Wired at h5 ⊢
    rw [a1, a2, a4, a5, a6, a10]
    exact h5
  · unfold Metered at h6 ⊢
    rw [a1, a2, a3, a7, a8]
    exact h6

theorem SameWiring_OmAddX (cr : OmCir) (bx : Int) (res : ℚ) :
    SameWiring cr (OmAddX cr bx res) := by
  simp [SameWiring, OmAddX, incr, length_wr]

theorem SameWiring_OmAddY (cr : OmCir) (by_ : Int) (con : ℚ) :
    SameWiring cr (OmAddY cr by_ con) := by
  simp [SameWiring, OmAddY, incr, length_wr]

theorem SameWiring_OmAddV (cr : OmCir) (bx : Int) (vol : ℚ) :
    SameWiring cr (OmAddV cr bx vol) := by
  simp [SameWiring, OmAddV, incr, length_wr]

theorem SameWiring_OmAddI (cr : OmCir) (by_ : Int) (cur : ℚ) :
    SameWiring cr (OmAddI cr by_ cur) := by
  simp [SameWiring, OmAddI, incr, length_wr]

theorem SameWiring_OmAddL (cr : OmCir) (bx : Int) (ind i0 : ℚ) :
    SameWiring cr (OmAddL cr bx ind i0) := by
  unfold OmAddL
  dsimp only
  split_ifs <;> simp [SameWiring, incr, decr, length_wr]

theorem SameWiring_OmAddC (cr : OmCir) (by_ : Int) (cap v0 : ℚ) :
    SameWiring cr (OmAddC cr by_ cap v0) := by
  unfold OmAddC
  dsimp only
  split_ifs <;> simp [SameWiring, incr, decr, length_wr]

theorem SameWiring_OmAddQ (cr : OmCir) (bx : Int) (rpc v0 : ℚ) :
    SameWiring cr (OmAddQ cr bx rpc v0) := by
  unfold OmAddQ
  dsimp only
  split_ifs <;> simp [SameWiring, incr, decr, length_wr]

theorem SameWiring_OmAddP (cr : OmCir) (by_ : Int) (rpi i0 : ℚ) :
    SameWiring cr (OmAddP cr by_ rpi i0) := by
  unfold OmAddP
  dsimp only
  split_ifs <;> simp [SameWiring, incr, decr, length_wr]

theorem SameWiring_OmAddE (cr : OmCir) (bx cy : Int) (k : ℚ) :
    SameWiring cr (OmAddE cr bx cy k) := by
  simp [SameWiring, OmAddE, incr, length_wr]

theorem SameWiring_OmAddH (cr : OmCir) (bx cx : Int) (k : ℚ) :
    SameWiring cr (OmAddH cr bx cx k) := by
  simp [SameWiring, OmAddH, incr, length_wr]

theorem SameWiring_OmAddF (cr : OmCir) (by_ cx : Int) (k : ℚ) :
    SameWiring cr (OmAddF cr by_ cx k) := by
  simp [SameWiring, OmAddF, incr, length_wr]

theorem SameWiring_OmAddG (cr : OmCir) (by_ cy : Int) (k : ℚ) :
    SameWiring cr (OmAddG cr by_ cy k) := by
  simp [SameWiring, OmAddG, incr, length_wr]

theorem SameWiring_OmAddM (cr : OmCir) (bx cx : Int) (k ic0 : ℚ) :
    SameWiring cr (OmAddM cr bx cx k ic0) := by
  unfold OmAddM
  dsimp only
  split_ifs <;> simp [SameWiring, incr, decr, length_wr]

theorem SameWiring_OmAddN (cr : OmCir) (by_ cy : Int) (k vc0 : ℚ) :
    SameWiring cr (OmAddN cr by_ cy k vc0) := by
  unfold OmAddN
  dsimp only
  split_ifs <;> simp [SameWiring, incr, decr, length_wr]

theorem SameWiring_OmAddA (cr : OmCir) (bx cx : Int) (k v0 : ℚ) :
    SameWiring cr (OmAddA cr bx cx k v0) := by
  unfold OmAddA
  dsimp only
  split_ifs <;> simp [SameWiring, incr, decr, length_wr]

theorem SameWiring_OmAddB (cr : OmCir) (by_ cy : Int) (k i0 : ℚ) :
    SameWiring cr (OmAddB cr by_ cy k i0) := by
  unfold OmAddB
  dsimp only
  split_ifs <;> simp [SameWiring, incr, decr, length_wr]

theorem SameWiring_OmAddS (cr : OmCir) (bs : Int) (k1 k2 ysw ron : ℚ) :
    SameWiring cr (OmAddS cr bs k1 k2 ysw ron) := by
  simp [SameWiring, OmAddS, incr, length_wr]

theorem BuiltInv_OmCreate (n b m : Int) (stp : ℚ) (cr : OmCir)
    (h : OmCreate n b m stp = some cr) : BuiltInv n b m cr := by
  have hn : 0 ≤ n := by
    unfold OmCreate at h
    split_ifs at h with hneg
    by_contra hc
    exact hneg (Or.inl (by omega))
  obtain ⟨hs, e1, e2, e3, e4, _, _, _, hbr, hmt⟩ := OmCreate_fields n b m stp cr h
  refine ⟨e1, e2, e3, hs, ?_, ?_⟩
  · rw [Wired_iff, e1, e2, e4]
    refine ⟨hn, le_refl 0, fun i i0 i1 => ?_⟩
    obtain ⟨_, _, _, _, _, _, _, f8, f9, f10⟩ := hbr i i0 i1
    rw [f8, f9, f10]
    omega
  · intro i i0 i1
    rw [e3] at i1
    obtain ⟨g1, g2⟩ := hmt i i0 i1
    rw [g1, g2, e1]
    omega

theorem BuiltInv_OmBran (n b m : Int) (cr : OmCir) (b1 br n1 n2 tm : Int)
    (h : BuiltInv n b m cr) (hn1 : n1 ≤ n) (hn2 : n2 ≤ n) :
    BuiltInv n b m (OmBran cr b1 br n1 n2 tm) := by
  obtain ⟨h1, h2, h3, h4, h5, h6⟩ := h
  have hS := Setup_OmBran cr b1 br n1 n2 tm h4
  rw [Wired_iff] at h5
  obtain ⟨w1, w2, w3⟩ := h5
  have key : (OmBran cr b1 br n1 n2 tm).numN = cr.numN ∧
      (OmBran cr b1 br n1 n2 tm).numB = cr.numB ∧
      (OmBran cr b1 br n1 n2 tm).numM = cr.numM ∧
      (OmBran cr b1 br n1 n2 tm).vecMn1 = cr.vecMn1 ∧
      (OmBran cr b1 br n1 n2 tm).vecMn2 = cr.vecMn2 ∧
      (OmBran cr b1 br n1 n2 tm).vecBn1 = wr cr.vecBn1 (br - 1) (n1 - 1) ∧
      (OmBran cr b1 br n1 n2 tm).vecBn2 = wr cr.vecBn2 (br - 1) (n2 - 1) ∧
      (((OmBran cr b1 br n1 n2 tm).vecLut = wr cr.vecLut (br - 1) 1 ∧
          (OmBran cr b1 br n1 n2 tm).numX = cr.numX) ∨
        ((OmBran cr b1 br n1 n2 tm).vecLut = wr cr.vecLut (br - 1) (-cr.numX) ∧
          (OmBran cr b1 br n1 n2 tm).numX = cr.numX + 1)) := by
    unfold OmBran
    dsimp only
    split_ifs <;> simp
  obtain ⟨k1, k2, k3, k4, k5, k6, k7, k8⟩ := key
  refine ⟨k1.trans h1, k2.trans h2, k3.trans h3, hS, ?_, ?_⟩
  · rw [Wired_iff, k1, k2, k6, k7]
    have hb1 : ∀ i : Int, rd (wr cr.vecBn1 (br - 1) (n1 - 1)) i < cr.numN ∨
        rd (wr cr.vecBn1 (br - 1) (n1 - 1)) i = rd cr.vecBn1 i := by
      intro i
      rw [rd_wr]
      split_ifs
      · left
        omega
      · right
        rfl
    have hb2 : ∀ i : Int, rd (wr cr.vecBn2 (br - 1) (n2 - 1)) i < cr.numN ∨
        rd (wr cr.vecBn2 (br - 1) (n2 - 1)) i = rd cr.vecBn2 i := by
      intro i
      rw [rd_wr]
      split_ifs
      · left
        omega
      · right
        rfl
    rcases k8 with ⟨l1, l2⟩ | ⟨l1, l2⟩
    · rw [l1, l2]
      refine ⟨w1, w2, fun i i0 i1 => ?_⟩
      obtain ⟨u1, u2, u3⟩ := w3 i i0 i1
      refine ⟨?_, ?_, ?_⟩
      · rcases hb1 i with q | q
        · exact q
        · rw [q]
          exact u1
      · rcases hb2 i with q | q
        · exact q
        · rw [q]
          exact u2
      · rw [rd_wr]
        split_ifs
        · intro hc
          omega
        · exact u3
    · rw [l1, l2]
      refine ⟨w1, by omega, fun i i0 i1 => ?_⟩
      obtain ⟨u1, u2, u3⟩ := w3 i i0 i1
      refine ⟨?_, ?_, ?_⟩
      · rcases hb1 i with q | q
        · exact q
        · rw [q]
          exact u1
      · rcases hb2 i with q | q
        · exact q
        · rw [q]
          exact u2
      · rw [rd_wr]
        split_ifs
        · intro _
          omega
        · intro hc
          have := u3 hc
          omega
  · unfold Metered at h6 ⊢
    rw [k1, k2, k3, k4, k5]
    exact h6

theorem BuiltInv_OmMetV (n b m : Int) (cr : OmCir) (mt n1 n2 : Int)
    (h : BuiltInv n b m cr) (h0 : 0 ≤ n2) (hn1 : n1 ≤ n) (hn2 : n2 ≤ n) :
    BuiltInv n b m (OmMetV cr mt n1 n2) := by
  obtain ⟨h1, h2, h3, h4, h5, h6⟩ := h
  refine ⟨h1, h2, h3, Setup_OmMetV cr mt n1 n2 h4, h5, ?_⟩
  have l1 : cr.vecMn1.length = cr.numM.toNat := h4.2.2.2.2.1
  have l2 : cr.vecMn2.length = cr.numM.toNat := h4.2.2.2.2.2.1
  intro i i0 i1
  have i1' : i < cr.numM := i1
  obtain ⟨u1, u2⟩ := h6 i i0 i1'
  show (rd (wr cr.vecMn2 (mt - 1) (n2 - 1)) i < -1 →
      0 ≤ rd (wr cr.vecMn1 (mt - 1) (n1 - 1)) i ∧
        rd (wr cr.vecMn1 (mt - 1) (n1 - 1)) i < cr.numB) ∧
    (¬ rd (wr cr.vecMn2 (mt - 1) (n2 - 1)) i < -1 →
      rd (wr cr.vecMn1 (mt - 1) (n1 - 1)) i < cr.numN ∧
        rd (wr cr.vecMn2 (mt - 1) (n2 - 1)) i < cr.numN)
  rw [rd_wr, rd_wr, l1, l2]
  by_cases hc : i = mt - 1 ∧ 0 ≤ mt - 1 ∧ mt - 1 < ((cr.numM.toNat : Nat) : Int)
  · rw [if_pos hc, if_pos hc]
    constructor
    · intro hx
      omega
    · intro _
      omega
  · rw [if_neg hc, if_neg hc]
    exact ⟨u1, u2⟩

theorem BuiltInv_OmMetA (n b m : Int) (cr : OmCir) (mt br : Int)
    (h : BuiltInv n b m cr) (h0 : 1 ≤ br) (h1 : br ≤ b) :
    BuiltInv n b m (OmMetA cr mt br) := by
  obtain ⟨e1, e2, e3, h4, h5, h6⟩ := h
  have hS : Setup (OmMetA cr mt br) := by
    unfold Setup at h4 ⊢
    simp only [OmMetA, length_wr]
    exact h4
  refine ⟨e1, e2, e3, hS, h5, ?_⟩
  have l1 : cr.vecMn1.length = cr.numM.toNat := h4.2.2.2.2.1
  have l2 : cr.vecMn2.length = cr.numM.toNat := h4.2.2.2.2.2.1
  intro i i0 i1
  have i1' : i < cr.numM := i1
  obtain ⟨u1, u2⟩ := h6 i i0 i1'
  show (rd (wr cr.vecMn2 (mt - 1) (-2)) i < -1 →
      0 ≤ rd (wr cr.vecMn1 (mt - 1) (br - 1)) i ∧
        rd (wr cr.vecMn1 (mt - 1) (br - 1)) i < cr.numB) ∧
    (¬ rd (wr cr.vecMn2 (mt - 1) (-2)) i < -1 →
      rd (wr cr.vecMn1 (mt - 1) (br - 1)) i < cr.numN ∧
        rd (wr cr.vecMn2 (mt - 1) (-2)) i < cr.numN)
  rw [rd_wr, rd_wr, l1, l2]
  by_cases hc : i = mt - 1 ∧ 0 ≤ mt - 1 ∧ mt - 1 < ((cr.numM.toNat : Nat) : Int)
  · rw [if_pos hc, if_pos hc]
    constructor
    · intro _
      omega
    · intro hx
      omega
  · rw [if_neg hc, if_neg hc]
    exact ⟨u1, u2⟩

theorem Built_inv (n b m : Int) (cr : OmCir) (h : Built n b m cr) : BuiltInv n b m cr := by
  induction h with
  | create stp cr hc => exact BuiltInv_OmCreate n b m stp cr hc
  | bran b1 br n1 n2 tm _ _ _ _ hn1 _ hn2 _ ih => exact BuiltInv_OmBran n b m _ b1 br n1 n2 tm ih hn1 hn2
  | metV mt n1 n2 _ _ _ _ hn1 h0 hn2 ih => exact BuiltInv_OmMetV n b m _ mt n1 n2 ih h0 hn1 hn2
  | metA mt br _ _ _ h0 h1 ih => exact BuiltInv_OmMetA n b m _ mt br ih h0 h1
  | addX bx res _ _ _ ih => exact BuiltInv_of_SameWiring n b m _ _ ih (SameWiring_OmAddX _ _ _)
  | addY bx res _ _ _ ih => exact BuiltInv_of_SameWiring n b m _ _ ih (SameWiring_OmAddY _ _ _)
  | addV bx res _ _ _ ih => exact BuiltInv_of_SameWiring n b m _ _ ih (SameWiring_OmAddV _ _ _)
  | addI bx res _ _ _ ih => exact BuiltInv_of_SameWiring n b m _ _ ih (SameWiring_OmAddI _ _ _)
  | addL bx x y _ _ _ ih => exact BuiltInv_of_SameWiring n b m _ _ ih (SameWiring_OmAddL _ _ _ _)
  | addC bx x y _ _ _ ih => exact BuiltInv_of_SameWiring n b m _ _ ih (SameWiring_OmAddC _ _ _ _)
  | addQ bx x y _ _ _ ih => exact BuiltInv_of_SameWiring n b m _ _ ih (SameWiring_OmAddQ _ _ _ _)
  | addP bx x y _ _ _ ih => exact BuiltInv_of_SameWiring n b m _ _ ih (SameWiring_OmAddP _ _ _ _)
  | addE bx c k _ _ _ _ _ ih => exact BuiltInv_of_SameWiring n b m _ _ ih (SameWiring_OmAddE _ _ _ _)
  | addH bx c k _ _ _ _ _ ih => exact BuiltInv_of_SameWiring n b m _ _ ih (SameWiring_OmAddH _ _ _ _)
  | addF bx c k _ _ _ _ _ ih => exact BuiltInv_of_SameWiring n b m _ _ ih (SameWiring_OmAddF _ _ _ _)
  | addG bx c k _ _ _ _ _ ih => exact BuiltInv_of_SameWiring n b m _ _ ih (SameWiring_OmAddG _ _ _ _)
  | addM bx c k x _ _ _ _ _ ih =>
    exact BuiltInv_of_SameWiring n b m _ _ ih (SameWiring_OmAddM _ _ _ _ _)
  | addN bx c k x _ _ _ _ _ ih =>
    exact BuiltInv_of_SameWiring n b m _ _ ih (SameWiring_OmAddN _ _ _ _ _)
  | addA bx c k x _ _ _ _ _ ih =>
    exact BuiltInv_of_SameWiring n b m _ _ ih (SameWiring_OmAddA _ _ _ _ _)
  | addB bx c k x _ _ _ _ _ ih =>
    exact BuiltInv_of_SameWiring n b m _ _ ih (SameWiring_OmAddB _ _ _ _ _)
  | addS bs k1 k2 y r _ _ _ ih =>
    exact BuiltInv_of_SameWiring n b m _ _ ih (SameWiring_OmAddS _ _ _ _ _ _)

/-! ## Index safety of `OmStamp` and `OmReset` -/

/-- The checks are effective: an ammeter on the branch `4` of a circuit with three branches
makes the checked run of `OmStamp` fail at the load `vecLut[3]`. -/
theorem OmStampC_ammeter_out_of_range : OmStampC (OmMetA createdMetered 1 4) = none := by
  decide!

/-- The checks are effective: a branch from the node `2` of a circuit with one node makes the
checked run of `OmStamp` fail at a store into `matPn`. -/
theorem OmStampC_node_out_of_range :
    OmStampC (OmBran createdMetered 3 1 2 0 OMTYP_Y1) = none := by
  decide!

end LibOhm
